import Mathlib

/-!
# ohmu: typed evaluation and CFG construction

A verification development for the middle tier of the ohmu compiler:
`til/CFGReducer.h` (the continuation-threading traversal driver, the variable contexts
and the pending block record) and `til/TypedEvaluator.cpp` (the typed reduction rules,
the branch compiler and the nested-function scheduler), and for the functions of the
lowering stage in `backend/jagger/fromtil.cpp` that lay out its arrays (the translation
of type tags, the function and sidecar arrays, the literal pool and the constant data).

Conventions of the embedding.

* Arena pointers become values.  A basic block is referred to by its index in the
  builder's block list, a pending block by its index in `PendingBlks`, and an allocated
  `Code` value by an address drawn from a counter.
* Every reducer writes its result into `resultAttr()` and reads its children from
  `attr(i)` / `lastAttr()`.  Here the children are passed as arguments and the result
  attribute is returned; a result attribute starts out default-constructed.
* `diag().error(..)` appends the message to `St.diag` and execution continues, as in the
  source.  A failing `assert` appends its text to `St.failed`; a run is a run of the
  C++ program only as long as `St.failed` stays empty.
* Recursion through the traversal is bounded by a fuel counter; exhausting it raises
  the flag `St.fuelOut`, which is never cleared.
* The graph builder, the scopes, the generic traversal and the copying rules that the
  evaluator inherits (`Super::..`, `SuperTv::..`) are declared outside the sources at
  hand and are modelled from the specification.  A node that an inherited rule copies
  shows `Undefined` where the child it copies is null.
* In the lowering stage a value of type `uint` is a natural number taken modulo `2 ^ 32`
  wherever the source computes it; a read or a store outside an array is kept in a log
  of its own, and a run is a run of the C++ program only as long as that log is empty.
-/

namespace ohmu

/-! ## Base types and opcodes -/

/-- Base kind of a `BaseType` (`BaseType::BT_*`). -/
inductive BaseCode where
  | BT_Void | BT_Bool | BT_Int | BT_UnsignedInt | BT_Float | BT_String | BT_Pointer
  deriving DecidableEq, Repr

/-- Size of a `BaseType` (`BaseType::ST_*`). -/
inductive SizeCode where
  | ST_0 | ST_1 | ST_8 | ST_16 | ST_32 | ST_64 | ST_128
  deriving DecidableEq, Repr

/-- The element type tag carried by every instruction. -/
structure BaseType where
  Base : BaseCode
  Size : SizeCode
  VectSize : Nat
  deriving DecidableEq, Repr

/-- The tag `BaseType::getBaseType<void>()`. -/
def BaseType.void : BaseType := ⟨.BT_Void, .ST_0, 0⟩

/-- The tag `BaseType::getBaseType<bool>()`. -/
def BaseType.bool : BaseType := ⟨.BT_Bool, .ST_1, 1⟩

/-- The tag `BaseType::getBaseType<void*>()`. -/
def BaseType.pointer : BaseType := ⟨.BT_Pointer, .ST_64, 1⟩

/-- Unary opcodes handled by `reduceUnaryOp`. -/
inductive TIL_UnaryOpcode where
  | UOP_Negative | UOP_BitNot | UOP_LogicNot
  deriving DecidableEq, Repr

/-- Binary opcodes handled by `reduceBinaryOp`. -/
inductive TIL_BinaryOpcode where
  | BOP_Add | BOP_Sub | BOP_Mul | BOP_Div | BOP_Rem
  | BOP_Shl | BOP_Shr | BOP_BitAnd | BOP_BitXor | BOP_BitOr
  | BOP_Eq | BOP_Neq | BOP_Lt | BOP_Leq | BOP_Gt | BOP_Geq
  | BOP_LogicAnd | BOP_LogicOr
  deriving DecidableEq, Repr

/-- Cast opcodes; `CAST_none` says that no conversion exists. -/
inductive TIL_CastOpcode where
  | CAST_none | CAST_extendNum | CAST_truncNum | CAST_extendToFloat
  | CAST_truncToFloat | CAST_truncToInt | CAST_roundToInt
  deriving DecidableEq, Repr

/-- Kind of a binder (`VarDecl::VK_*`). -/
inductive VariableKind where
  | VK_Fun | VK_SFun | VK_Let
  deriving DecidableEq, Repr

/-- How a traversal reaches a node (`TraversalKind`). -/
inductive TraversalKind where
  | TRV_Arg | TRV_Path | TRV_Tail | TRV_Decl | TRV_Lazy | TRV_Type
  deriving DecidableEq, Repr

/-- Kind of an application (`Apply::FAK_*`): an ordinary application or the application
of a self-function to its implicit argument. -/
inductive ApplyKind where
  | FAK_Apply | FAK_SApply
  deriving DecidableEq, Repr

/-- Kind of an allocation (`Alloc::AK_*`). -/
inductive AllocKind where
  | AK_Local | AK_Stack | AK_Heap
  deriving DecidableEq, Repr

/-- Evaluation mode of the typed evaluator. -/
inductive EvalModeKind where
  | TEval_Copy | TEval_WeakHead
  deriving DecidableEq, Repr

/-! ## Expressions -/

/-- Expression nodes, source and residual alike.  The constructors from `Literal` to
`Phi` and from `Apply` to `Alloc` are instructions and carry their element type; `Code`
carries the address that stands for the identity of the node.  A `Function`, a `Let` and
a `Variable` carry the fields of their declaration (for a function and a variable its
kind, then name, index and definition).  An application whose argument pointer is null
is an `ApplyNoArg`.  The slots of a `Record` are a chain of `Slot` nodes closed by
`NoSlot`; a slot carries its name, whether it has the modifier `SLT_Final`, and its
definition.  A future, the thunk that the evaluator makes for the body of code outside
of a graph, is an object of the arena and no node of the tree: it is kept in the queue
of futures of the state. -/
inductive SExpr where
  | Function (kind : VariableKind) (name : String) (varIndex : Nat) (definition : SExpr)
      (body : SExpr)
  | Code (addr : Nat) (returnType : SExpr) (body : SExpr)
  | CodeDecl (addr : Nat) (returnType : SExpr)
  | ScalarType (bt : BaseType)
  | Literal (bt : BaseType) (value : Int)
  | Variable (bt : BaseType) (kind : VariableKind) (name : String) (varIndex : Nat)
      (definition : SExpr)
  | Call (bt : BaseType) (target : SExpr)
  | UnaryOp (bt : BaseType) (op : TIL_UnaryOpcode) (e : SExpr)
  | BinaryOp (bt : BaseType) (op : TIL_BinaryOpcode) (e0 e1 : SExpr)
  | Cast (bt : BaseType) (op : TIL_CastOpcode) (e : SExpr)
  | Phi (bt : BaseType) (block : Nat) (index : Nat)
  | Undefined
  | Let (name : String) (varIndex : Nat) (definition : SExpr) (body : SExpr)
  | IfThenElse (condition thenExpr elseExpr : SExpr)
  | Apply (bt : BaseType) (kind : ApplyKind) (fn : SExpr) (arg : SExpr)
  | ApplyNoArg (bt : BaseType) (kind : ApplyKind) (fn : SExpr)
  | Project (bt : BaseType) (record : SExpr) (slotName : String)
  | Load (bt : BaseType) (pointer : SExpr)
  | Alloc (bt : BaseType) (allocKind : AllocKind) (initializer : SExpr)
  | Identifier (idString : String)
  | Record (slots : SExpr)
  | Slot (slotName : String) (final : Bool) (definition : SExpr) (next : SExpr)
  | NoSlot
  | Field (range : SExpr) (body : SExpr)
  deriving DecidableEq, Repr

namespace SExpr

/-- Modelled from the spec: the class hierarchy of the expression nodes is declared
outside the sources at hand.  The test `isa<Instruction>(e)` holds of the nodes that
occupy an instruction slot and carry an element type; `Undefined`, the poison marker,
is none. -/
def isInstruction : SExpr → Bool
  | Literal .. | Variable .. | Call .. | UnaryOp .. | BinaryOp .. | Cast .. | Phi .. => true
  | Apply .. | ApplyNoArg .. | Project .. | Load .. | Alloc .. => true
  | _ => false

/-- The test `isa<Literal>(e)`. -/
def isLiteral : SExpr → Bool
  | Literal .. => true
  | _ => false

/-- The test `isa<Code>(e)`; a `CodeDecl` is a `Code` whose body is null. -/
def isCode : SExpr → Bool
  | Code .. | CodeDecl .. => true
  | _ => false

/-- The test `isa<Function>(e)`. -/
def isFunction : SExpr → Bool
  | Function .. => true
  | _ => false

/-- The test `isa<Undefined>(e)`. -/
def isUndefined : SExpr → Bool
  | Undefined => true
  | _ => false

/-- The accessor `Instruction::baseType()`; `void` on what is no instruction. -/
def baseType : SExpr → BaseType
  | Literal bt _ | Variable bt .. | Call bt _ | UnaryOp bt .. | BinaryOp bt ..
  | Cast bt .. | Phi bt .. => bt
  | Apply bt .. | ApplyNoArg bt .. | Project bt .. | Load bt _ | Alloc bt .. => bt
  | _ => BaseType.void

/-- The mutator `Instruction::setBaseType`. -/
def setBaseType (bt : BaseType) : SExpr → SExpr
  | Literal _ v => Literal bt v
  | Variable _ k n i d => Variable bt k n i d
  | Call _ t => Call bt t
  | UnaryOp _ op e => UnaryOp bt op e
  | BinaryOp _ op a b => BinaryOp bt op a b
  | Cast _ op e => Cast bt op e
  | Phi _ b i => Phi bt b i
  | Apply _ k f a => Apply bt k f a
  | ApplyNoArg _ k f => ApplyNoArg bt k f
  | Project _ r n => Project bt r n
  | Load _ p => Load bt p
  | Alloc _ k e => Alloc bt k e
  | e => e

/-- Modelled from the spec: `SExpr::isValue()`, the test that a type expression is
already in weak-head form (functions, code, records, fields, scalar types and
literals). -/
def isValue : SExpr → Bool
  | Function .. | Code .. | CodeDecl .. | ScalarType .. | Literal .. => true
  | Record .. | Field .. => true
  | _ => false

/-- Modelled from the spec: `SExpr::isTrivial()`, the test for side-effect-free values
that need no instruction slot of their own. -/
def isTrivial : SExpr → Bool
  | Literal .. | Variable .. | ScalarType .. => true
  | _ => false

end SExpr

/-! ## Attributes, substitutions, scopes -/

/-- How precisely the type expression of an attribute characterises the value
(`TypedCopyAttr::Relation`). -/
inductive Relation where
  | BT_Type | BT_ExactType | BT_Equivalent
  deriving DecidableEq, Repr

/-- The reduction attribute `TypedCopyAttr`: residual, relation, type expression and the
delayed substitution (`NullVars` opaque positions followed by `VarAttrs`). -/
inductive TypedCopyAttr where
  | mk (Exp : Option SExpr) (Rel : Relation) (TypeExpr : Option SExpr)
      (NullVars : Nat) (VarAttrs : List TypedCopyAttr)

/-- Modelled from the spec: the class `Substitution` (a minimal environment: a number of
opaque positions and one attribute per substituted variable) is declared outside the
sources at hand. -/
structure Substitution where
  NullVars : Nat
  VarAttrs : List TypedCopyAttr

namespace Substitution

/-- The empty substitution. -/
def empty : Substitution := ⟨0, []⟩

/-- The call `Subst.init(Nv)`: `Nv` opaque positions and no substituted variable. -/
def init (Nv : Nat) : Substitution := ⟨Nv, []⟩

/-- The accessor `numSubstVars()`. -/
def numSubstVars (S : Substitution) : Nat := S.VarAttrs.length

/-- The accessor `varAttrs()`. -/
def varAttrs (S : Substitution) : List TypedCopyAttr := S.VarAttrs

/-- The call `push_back(At)`. -/
def push (S : Substitution) (At : TypedCopyAttr) : Substitution :=
  { S with VarAttrs := S.VarAttrs ++ [At] }

end Substitution

namespace TypedCopyAttr

/-- The residual `At.Exp`. -/
def Exp : TypedCopyAttr → Option SExpr
  | mk e _ _ _ _ => e

/-- The relation `At.Rel`. -/
def Rel : TypedCopyAttr → Relation
  | mk _ r _ _ _ => r

/-- The type expression `At.TypeExpr`. -/
def TypeExpr : TypedCopyAttr → Option SExpr
  | mk _ _ t _ _ => t

/-- The delayed substitution `At.Subst`. -/
def Subst : TypedCopyAttr → Substitution
  | mk _ _ _ n vs => ⟨n, vs⟩

/-- A default-constructed attribute. -/
def null : TypedCopyAttr := mk none .BT_Type none 0 []

/-- The attribute `TypedCopyAttr(E)` that holds a residual only. -/
def ofExp (e : SExpr) : TypedCopyAttr := mk (some e) .BT_Type none 0 []

/-- Assignment to `At.Exp`. -/
def setExp (At : TypedCopyAttr) (e : Option SExpr) : TypedCopyAttr :=
  mk e At.Rel At.TypeExpr At.Subst.NullVars At.Subst.VarAttrs

/-- Assignment to `At.Rel`. -/
def setRel (At : TypedCopyAttr) (r : Relation) : TypedCopyAttr :=
  mk At.Exp r At.TypeExpr At.Subst.NullVars At.Subst.VarAttrs

/-- Assignment to `At.TypeExpr`. -/
def setTypeExpr (At : TypedCopyAttr) (t : Option SExpr) : TypedCopyAttr :=
  mk At.Exp At.Rel t At.Subst.NullVars At.Subst.VarAttrs

/-- Assignment to `At.Subst`. -/
def setSubst (At : TypedCopyAttr) (S : Substitution) : TypedCopyAttr :=
  mk At.Exp At.Rel At.TypeExpr S.NullVars S.VarAttrs

/-- The child that an inherited copying rule takes from the attribute of a
sub-expression: its residual.  A node of the tree has no null child; where the residual
is null the copy shows `Undefined` in its place. -/
def child (At : TypedCopyAttr) : SExpr := At.Exp.getD .Undefined

/-- The call `At.moveType(From)`: take over type expression and substitution. -/
def moveType (At From : TypedCopyAttr) : TypedCopyAttr :=
  (At.setTypeExpr From.TypeExpr).setSubst From.Subst

end TypedCopyAttr

/-- A binder declaration `VarDecl`. -/
structure VarDecl where
  kind : VariableKind
  varName : String
  varIndex : Nat
  definition : Option SExpr

/-- Modelled from the spec: the class `ScopeCPS` (an ordered stack of reduction
attributes addressed by position, plus the current continuation) is declared outside the
sources at hand.  Positions below `NullVars` are opaque; position `NullVars + j` holds
`VarAttrs[j]`; `VarDecls[i]` is the declaration at position `i`, if known. -/
structure ScopeCPS where
  NullVars : Nat
  VarAttrs : List TypedCopyAttr
  VarDecls : List (Option VarDecl)
  Cont : Option Nat

namespace ScopeCPS

/-- The scope `ScopeCPS(Nv)`: `Nv` opaque positions, no continuation. -/
def ofNull (Nv : Nat) : ScopeCPS := ⟨Nv, [], List.replicate Nv none, none⟩

/-- The scope `ScopeCPS(std::move(Subst))` built solely from a substitution. -/
def ofSubst (S : Substitution) : ScopeCPS :=
  ⟨S.NullVars, S.VarAttrs, List.replicate (S.NullVars + S.VarAttrs.length) none, none⟩

/-- The accessor `size()`. -/
def size (S : ScopeCPS) : Nat := S.NullVars + S.VarAttrs.length

/-- The test `isNull(i)`. -/
def isNull (S : ScopeCPS) (i : Nat) : Bool := decide (i < S.NullVars)

/-- The accessor `var(i)`; `none` when the position holds no attribute. -/
def var (S : ScopeCPS) (i : Nat) : Option TypedCopyAttr :=
  if i < S.NullVars then none else S.VarAttrs[i - S.NullVars]?

/-- The accessor `varDecl(i)`. -/
def varDecl (S : ScopeCPS) (i : Nat) : Option VarDecl := S.VarDecls[i]?.join

/-- The accessor `substitution()`. -/
def substitution (S : ScopeCPS) : Substitution := ⟨S.NullVars, S.VarAttrs⟩

/-- The call `enterScope(Vd, At)`: bind the next position. -/
def enterScope (S : ScopeCPS) (Vd : VarDecl) (At : TypedCopyAttr) : ScopeCPS :=
  { S with VarAttrs := S.VarAttrs ++ [At], VarDecls := S.VarDecls ++ [some Vd] }

/-- The call `exitScope()`: drop the innermost position. -/
def exitScope (S : ScopeCPS) : ScopeCPS :=
  { S with VarAttrs := S.VarAttrs.dropLast, VarDecls := S.VarDecls.dropLast }

/-- The call `setCurrentContinuation(b)`. -/
def setCurrentContinuation (S : ScopeCPS) (b : Option Nat) : ScopeCPS := { S with Cont := b }

/-- The accessor `currentContinuation()`. -/
def currentContinuation (S : ScopeCPS) : Option Nat := S.Cont

/-- Overwrite the attribute at position `i` (assignment through `var(i)`). -/
def setVar (S : ScopeCPS) (i : Nat) (At : TypedCopyAttr) : ScopeCPS :=
  if i < S.NullVars then S else { S with VarAttrs := S.VarAttrs.set (i - S.NullVars) At }

/-- The call `clone()`: an independent copy. -/
def clone (S : ScopeCPS) : ScopeCPS := S

end ScopeCPS

/-! ## Basic blocks and the evaluator state -/

/-- Unsigned 32-bit subtraction. -/
def usub32 (a b : Nat) : Nat := (a % 2 ^ 32 + 2 ^ 32 - b % 2 ^ 32) % 2 ^ 32

/-- The terminator of a basic block: jump, conditional branch or return. -/
inductive Terminator where
  | Goto (target : Nat) (args : List (Option SExpr))
  | Branch (cond : Option SExpr) (thenBlock elseBlock : Nat)
  | Return (value : Option SExpr)
  deriving DecidableEq, Repr

/-- A basic block: the number of its phi parameters (the `k`-th is
`SExpr.Phi _ b k`), its instructions in the order they were appended, every terminator
that was ever set on it (latest first) and how often it was begun.  The last two are
kept as histories so that "exactly one terminator, set exactly once" can be stated. -/
structure BasicBlock where
  arguments : Nat
  instructions : List SExpr
  terminators : List Terminator
  begun : Nat
  deriving DecidableEq, Repr

/-- The pending block of `til/CFGReducer.h`: body, allocated entry block, continuation
(initially unset) and the cloned environment. -/
structure PendingBlock where
  Exp : Option SExpr
  Block : Nat
  Cont : Option Nat
  Scope : ScopeCPS

/-- The state threaded through the traversal: the graph builder (blocks, current block,
emission flag, binder depth), the evaluator (scope, mode, pending blocks, their index and
their queue, and the queue of the futures made for code outside of a graph, each with its
body and its cloned scope), the pending path arguments of the traversal driver, and the
logs. -/
structure St where
  blocks : List BasicBlock
  currentBB : Option Nat
  emitInstrs : Bool
  deBruinIndex : Nat
  deBruinIndexOfEnclosingNestedFunction : Nat
  nextAddr : Nat
  scope : ScopeCPS
  EvalMode : EvalModeKind
  PendingBlks : List PendingBlock
  CodeMap : List (Nat × Nat)
  PendingBlockQueue : List Nat
  FutureQueue : List (SExpr × ScopeCPS)
  pendingPathArgs : List SExpr
  pendingPathArgLen : Nat
  diag : List String
  failed : List String
  invalid : List String
  fuelOut : Bool

namespace St

/-- The call `diag().error(msg)`. -/
def error (s : St) (msg : String) : St := { s with diag := s.diag ++ [msg] }

/-- A failed `assert`. -/
def assertFail (s : St) (msg : String) : St := { s with failed := s.failed ++ [msg] }

/-- Modelled from the spec: the graph builder is declared outside the sources at hand.
Allocate-block(phi-arity): a fresh block with `nargs` phi parameters, neither begun nor
terminated; its handle is the former number of blocks. -/
def newBlock (s : St) (nargs : Nat) : Nat × St :=
  (s.blocks.length, { s with blocks := s.blocks ++ [⟨nargs, [], [], 0⟩] })

/-- Modelled from the spec: begin-block(b) makes `b` the target of the following
appends; it fails with InvalidState if a previous block was begun but never
terminated. -/
def beginBlock (s : St) (b : Nat) : St :=
  match s.currentBB with
  | some _ => { s with invalid := s.invalid ++ ["InvalidState: begin-block while a block is open"] }
  | none =>
    { s with currentBB := some b,
             blocks := s.blocks.modify (fun B => { B with begun := B.begun + 1 }) b }

/-- Modelled from the spec: append-instruction(expr) adds to the current block and is a
no-op if no block is active; emission can be suppressed, and a residual that is null, no
instruction (a block holds `Instruction`s) or a trivial value takes no instruction
slot. -/
def addInstruction (s : St) (e : Option SExpr) : St :=
  match e, s.currentBB with
  | some i, some b =>
    if s.emitInstrs && i.isInstruction && !i.isTrivial then
      { s with blocks := s.blocks.modify (fun B => { B with instructions := B.instructions ++ [i] }) b }
    else s
  | _, _ => s

/-- Modelled from the spec: finish-block(terminator) terminates the current block, after
which no block is active; without an active block it is an InvalidState. -/
def finishBlock (s : St) (t : Terminator) : St :=
  match s.currentBB with
  | none => { s with invalid := s.invalid ++ ["InvalidState: finish-block without an open block"] }
  | some b =>
    { s with currentBB := none,
             blocks := s.blocks.modify (fun B => { B with terminators := t :: B.terminators }) b }

/-- The call `Builder.newBranch(cond, Tb, Eb)`: terminate the current block with a
conditional branch. -/
def newBranch (s : St) (cond : Option SExpr) (Tb Eb : Nat) : St :=
  s.finishBlock (.Branch cond Tb Eb)

/-- The call `Builder.newGoto(target, args)`: terminate the current block with a jump. -/
def newGoto (s : St) (target : Nat) (args : List (Option SExpr)) : St :=
  s.finishBlock (.Goto target args)

/-- The call `createGoto(target, result)` of the driver: a jump with one argument. -/
def createGoto (s : St) (target : Nat) (result : Option SExpr) : St :=
  s.newGoto target [result]

/-- The phi parameter `b->arguments()[i]`. -/
def phi (b i : Nat) : SExpr := .Phi BaseType.void b i

/-- The call `Builder.disableEmit()`: returns the former flag. -/
def disableEmit (s : St) : Bool × St := (s.emitInstrs, { s with emitInstrs := false })

/-- The call `Builder.restoreEmit(B)`. -/
def restoreEmit (s : St) (B : Bool) : St := { s with emitInstrs := B }

/-- The call `switchEvalMode(M)`: returns the former mode. -/
def switchEvalMode (s : St) (M : EvalModeKind) : EvalModeKind × St :=
  (s.EvalMode, { s with EvalMode := M })

/-- The call `restoreEvalMode(M)`. -/
def restoreEvalMode (s : St) (M : EvalModeKind) : St := { s with EvalMode := M }

/-- The call `switchScope(Ns)`: returns the former scope. -/
def switchScope (s : St) (Ns : ScopeCPS) : ScopeCPS × St := (s.scope, { s with scope := Ns })

/-- The call `restoreScope(S)`. -/
def restoreScope (s : St) (S : ScopeCPS) : St := { s with scope := S }

/-- Modelled from the spec: the inherited `enterScope(Vd)` of a copying traversal is
declared outside the sources at hand.  A binder that is copied takes the next position of
the scope (the scope holds one attribute per enclosing binder), bound to the variable of
the copied declaration, whose index is `deBruinIndex()` and whose definition is `Nd`, and
the builder counts one binder more. -/
def enterScope (s : St) (Vd : VarDecl) (Nd : SExpr) : St :=
  { s with
    scope := s.scope.enterScope Vd
      (TypedCopyAttr.ofExp (.Variable BaseType.void Vd.kind Vd.varName s.deBruinIndex Nd)),
    deBruinIndex := (s.deBruinIndex + 1) % 2 ^ 32 }

/-- Modelled from the spec: the inherited `exitScope(Vd)` of a copying traversal, the
inverse of `enterScope(Vd)`: the innermost position is dropped and the builder counts one
binder less, an unsigned number. -/
def exitScope (s : St) : St :=
  { s with
    scope := s.scope.exitScope,
    deBruinIndex := if s.deBruinIndex = 0 then 2 ^ 32 - 1 else s.deBruinIndex - 1 }

/-- The call `setContinuation(b)` / `scope()->setCurrentContinuation(b)`. -/
def setContinuation (s : St) (b : Option Nat) : St :=
  { s with scope := s.scope.setCurrentContinuation b }

/-- The accessor `currentContinuation()`. -/
def currentContinuation (s : St) : Option Nat := s.scope.Cont

/-- The accessor `numPendingArgs()`, an unsigned difference. -/
def numPendingArgs (s : St) : Nat :=
  (s.pendingPathArgs.length + 2 ^ 32 - s.pendingPathArgLen % 2 ^ 32) % 2 ^ 32

/-- The call `savePendingArgs()`: returns the former length. -/
def savePendingArgs (s : St) : Nat × St :=
  (s.pendingPathArgLen, { s with pendingPathArgLen := s.pendingPathArgs.length })

/-- The call `restorePendingArgs(plen)`. -/
def restorePendingArgs (s : St) (plen : Nat) : St := { s with pendingPathArgLen := plen }

/-- The lookup `CodeMap.find(C)`: the pending block indexed by the identity of `C`. -/
def findCode (s : St) (C : SExpr) : Option Nat :=
  match C with
  | .CodeDecl a _ => (s.CodeMap.find? (fun p => p.1 == a)).map (·.2)
  | .Code a _ _ => (s.CodeMap.find? (fun p => p.1 == a)).map (·.2)
  | _ => none

end St

/-- Modelled from the spec: the queries on base types and the literal evaluator that the
reducers call but that are declared outside the sources at hand, taken as parameters:
`isNumeric`, `isSimple`, `promoteInteger` (its result: whether the type needs
promotion), `typeConvertable` (the cast that converts the first type to the second, or
`CAST_none`) and `evaluateBinaryOp` (the literal a folded operation evaluates to). -/
structure TypeRules where
  isNumeric : BaseType → Bool
  isSimple : BaseType → Bool
  promoteInteger : BaseType → Bool
  typeConvertable : BaseType → BaseType → TIL_CastOpcode
  evaluateBinaryOp : TIL_BinaryOpcode → BaseType → SExpr → SExpr → SExpr

/-! ## Typed reduction rules (`til/TypedEvaluator.cpp`) -/

/-- The result of a traversal step: the attribute left for the caller and the state. -/
abbrev Result := TypedCopyAttr × St

/-- The type of the recursive traversal that every rule calls on its sub-expressions. -/
abbrev Trav := SExpr → TraversalKind → St → Result

/-- The function `getRelationFromVarDecl`. -/
def getRelationFromVarDecl : VariableKind → Relation
  | .VK_Fun => .BT_Type
  | .VK_SFun => .BT_ExactType
  | .VK_Let => .BT_Equivalent

/-- The function `setBaseTypeFromExpr(I, Typ)`: the instruction with its element type
set from the type expression; a type expression that is no value fails the assertion. -/
def setBaseTypeFromExpr (s : St) (I : SExpr) (Typ : Option SExpr) : SExpr × St :=
  match Typ with
  | none => (I, s)
  | some (.Function ..) | some (.Code ..) | some (.CodeDecl ..) | some (.Field ..)
  | some (.Record ..) =>
    (I.setBaseType BaseType.pointer, s)
  | some (.ScalarType bt) => (I.setBaseType bt, s)
  | some (.Literal bt _) => (I.setBaseType bt, s)
  | some _ => (I, s.assertFail "Type expression must be a value.")

/-- The rule `reduceScalarType`: scalar types are shared. -/
def reduceScalarType (Orig : SExpr) (s : St) : Result :=
  (.mk (some Orig) .BT_Equivalent (some Orig) 0 [], s)

/-- Modelled from the spec: the rule for literals is declared outside the sources at
hand; a literal is a side-effect-free value that reduces to itself and is its own
type, as for the trivial slot definitions of `reduceIdentifier`. -/
def reduceLiteral (Orig : SExpr) (s : St) : Result :=
  (.mk (some Orig) .BT_Equivalent (some Orig) 0 [], s)

/-- The function `computeAttrType(At, E)`: evaluate `E` to weak-head form with
instruction emission suppressed and move the resulting type onto `At`. -/
def computeAttrType (trav : Trav) (At : TypedCopyAttr) (E : SExpr) (s : St) : Result :=
  let (M, s) := s.switchEvalMode .TEval_WeakHead
  let (B, s) := s.disableEmit
  let (last, s) := trav E .TRV_Decl s
  let At := At.moveType last
  let s := s.restoreEmit B
  let s := s.restoreEvalMode M
  match At.Exp with
  | some I =>
    if I.isInstruction then
      let (I, s) := setBaseTypeFromExpr s I At.TypeExpr
      (At.setExp (some I), s)
    else (At, s)
  | none => (At, s)

/-- The function `evaluateTypeExpr(At)`: if the type expression is not yet a value,
evaluate it in a scope built solely from the substitution of `At`. -/
def evaluateTypeExpr (trav : Trav) (At : TypedCopyAttr) (s : St) : Result :=
  match At.TypeExpr with
  | none => (At, s.assertFail "null type expression")
  | some T =>
    if T.isValue then (At, s)
    else
      let Ns := ScopeCPS.ofSubst At.Subst
      let (S, s) := s.switchScope Ns
      let (At, s) := computeAttrType trav At T s
      (At, s.restoreScope S)

/-- The function `promoteVariable(V)`: the variable is its own residual; its type is
computed from the definition of its declaration under a scope of opaque positions. -/
def promoteVariable (trav : Trav) (V : SExpr) (s : St) : Result :=
  match V with
  | .Variable _ kind _ Vidx definition =>
    let Res := (TypedCopyAttr.null.setExp (some V)).setRel (getRelationFromVarDecl kind)
    let Ns := ScopeCPS.ofNull Vidx
    let (S, s) := s.switchScope Ns
    let (Res, s) := computeAttrType trav Res definition s
    (Res, s.restoreScope S)
  | _ => (TypedCopyAttr.null, s.assertFail "promoteVariable: not a variable")

/-- The function `reduceVarSubstitution(Vidx)`. -/
def reduceVarSubstitution (R : TypeRules) (trav : Trav) (Vidx : Nat) (s : St) : Result :=
  match s.scope.var Vidx with
  | none => (TypedCopyAttr.null, s.assertFail "Array out of bounds.")
  | some At =>
    if At.TypeExpr.isSome then (At, s)
    else
      match At.Exp with
      | none => (TypedCopyAttr.null, s.assertFail "dyn_cast on a null pointer")
      | some (.Variable bt k n i d) => promoteVariable trav (.Variable bt k n i d) s
      | some I =>
        if I.isInstruction && (R.isSimple I.baseType || (match I with | .Phi .. => true | _ => false))
        then (At, s)
        else (TypedCopyAttr.null, s.assertFail "Invalid substitution.")

/-- The rule `reduceVariable`. -/
def reduceVariable (R : TypeRules) (trav : Trav) (Orig : SExpr) (s : St) : Result :=
  match Orig with
  | .Variable _ _ _ Idx _ =>
    if s.scope.isNull Idx then promoteVariable trav Orig s
    else reduceVarSubstitution R trav Idx s
  | _ => (TypedCopyAttr.null, s.assertFail "reduceVariable: not a variable")

/-- The rule `reduceUnaryOp`. -/
def reduceUnaryOp (R : TypeRules) (op : TIL_UnaryOpcode) (a0 : TypedCopyAttr) (s : St) :
    Result :=
  match a0.Exp with
  | none =>
    (TypedCopyAttr.null.setExp (some .Undefined),
      (s.assertFail "dyn_cast on a null pointer").error "Invalid use of arithmetic operator: ")
  | some I0 =>
    if !I0.isInstruction then
      (TypedCopyAttr.null.setExp (some .Undefined), s.error "Invalid use of arithmetic operator: ")
    else
      let s :=
        match op with
        | .UOP_Negative =>
          if !R.isNumeric I0.baseType then s.error "Operator requires a numeric type: " else s
        | .UOP_BitNot =>
          if I0.baseType.Base != .BT_Int then s.error "Bitwise operations require integer type."
          else s
        | .UOP_LogicNot =>
          if I0.baseType.Base != .BT_Bool then s.error "Logical operations require boolean type."
          else s
      let Re := SExpr.UnaryOp I0.baseType op I0
      (.mk (some Re) .BT_Type none 0 [], s)

/-- The function `checkAndExtendTypes(I0, I1)`: the flag it returns and the two operands
as it leaves them. -/
def checkAndExtendTypes (R : TypeRules) (I0 I1 : SExpr) : Bool × SExpr × SExpr :=
  let Bt0 := I0.baseType
  let Bt1 := I1.baseType
  let NeedsPromotion := R.promoteInteger Bt0 || R.promoteInteger Bt1
  if I0.baseType = I1.baseType ∧ !NeedsPromotion then (true, I0, I1)
  else
    let Op := R.typeConvertable I0.baseType I1.baseType
    if Op ≠ .CAST_none then (true, SExpr.Cast I1.baseType Op I0, I1)
    else
      let Op := R.typeConvertable I1.baseType I0.baseType
      if Op ≠ .CAST_none then (true, I0, SExpr.Cast I0.baseType Op I1)
      else (false, I0, I1)

/-- The rule `reduceBinaryOp`. -/
def reduceBinaryOp (R : TypeRules) (op : TIL_BinaryOpcode) (a0 a1 : TypedCopyAttr) (s : St) :
    Result :=
  match a0.Exp, a1.Exp with
  | some E0, some E1 =>
    if !E0.isInstruction || !E1.isInstruction then
      (TypedCopyAttr.null.setExp (some .Undefined), s.error "Invalid use of arithmetic operator: ")
    else
      let (ok, I0, I1) := checkAndExtendTypes R E0 E1
      let s := if !ok then s.error "Arithmetic operation on incompatible types: " else s
      if I0.isLiteral && I1.isLiteral then
        (.mk (some (R.evaluateBinaryOp op I0.baseType I0 I1)) .BT_Type none 0 [], s)
      else
        let (Re, Vt, s) : Option SExpr × BaseType × St :=
          match op with
          | .BOP_Add | .BOP_Sub | .BOP_Mul | .BOP_Div | .BOP_Rem =>
            (none, I0.baseType,
              if !R.isNumeric I0.baseType then s.error "Operator requires a numeric type: " else s)
          | .BOP_Shl | .BOP_Shr | .BOP_BitAnd | .BOP_BitXor | .BOP_BitOr =>
            (none, I0.baseType,
              if I0.baseType.Base != .BT_Int then s.error "Bitwise operations require integer type."
              else s)
          | .BOP_Eq | .BOP_Neq | .BOP_Lt | .BOP_Leq => (none, BaseType.bool, s)
          | .BOP_Gt => (some (SExpr.BinaryOp BaseType.void .BOP_Lt I1 I0), BaseType.bool, s)
          | .BOP_Geq => (some (SExpr.BinaryOp BaseType.void .BOP_Leq I1 I0), BaseType.bool, s)
          | .BOP_LogicAnd | .BOP_LogicOr =>
            (none, BaseType.bool,
              if I0.baseType.Base != .BT_Bool then s.error "Logical operations require boolean type."
              else s)
        let Re := match Re with
          | some Re => Re
          | none => SExpr.BinaryOp BaseType.void op I0 I1
        let Re := Re.setBaseType Vt
        (.mk (some Re) .BT_Type none 0 [], s)
  | _, _ =>
    (TypedCopyAttr.null.setExp (some .Undefined),
      (s.assertFail "dyn_cast on a null pointer").error "Invalid use of arithmetic operator: ")

/-! ## The nested-function scheduler -/

/-- The accessor `Code::returnType()`. -/
def SExpr.returnType : SExpr → Option SExpr
  | .Code _ rt _ => some rt
  | .CodeDecl _ rt => some rt
  | _ => none

/-- The identity of a code node. -/
def SExpr.addr : SExpr → Nat
  | .Code a _ _ => a
  | .CodeDecl a _ => a
  | _ => 0

/-- The accessor `Code::body()`; null for a `CodeDecl`. -/
def SExpr.codeBody : SExpr → Option SExpr
  | .Code _ _ b => some b
  | _ => none

/-- The argument that `reduceNestedCall` passes for one substituted variable: a null
placeholder for a function and for a self-function variable, the residual otherwise. -/
def nestedCallArg (At : TypedCopyAttr) : Option SExpr :=
  match At.Exp with
  | some (.Function ..) => none
  | some (.Variable _ .VK_SFun _ _ _) => none
  | e => e

/-- The tail of `reduceNestedCall`, from the arity check on: compare the number of
substituted variables with the phi arity of the block, then jump to the block. -/
def nestedCallGoto (Ca Res : TypedCopyAttr) (Pb : PendingBlock) (s : St) :
    Bool × TypedCopyAttr × St :=
  if Ca.Subst.numSubstVars ≠ s.blocks[Pb.Block]?.elim 0 (·.arguments) then
    (true, Res.setExp (some .Undefined), s.error "Invalid number of arguments to function call.")
  else
    let s := if Ca.Subst.varAttrs.any (fun At => At.Exp.isNone)
      then s.assertFail "isa<> used on a null pointer" else s
    let Args := Ca.Subst.varAttrs.map nestedCallArg
    (true, Res, s.newGoto Pb.Block Args)

/-- The function `reduceNestedCall(Orig, C)` with `Ca = attr(0)` and `Res = resultAttr()`:
the flag it returns, the result attribute and the state. -/
def reduceNestedCall (Ca Res : TypedCopyAttr) (C : SExpr) (s : St) : Bool × TypedCopyAttr × St :=
  match s.findCode C with
  | none => (false, Res, s)
  | some i =>
    match s.PendingBlks[i]? with
    | none => (true, Res, s.assertFail "dangling pending block")
    | some Pb =>
      match Pb.Cont with
      | none =>
        match s.currentContinuation with
        | none =>
          (true, Res.setExp (some .Undefined),
            s.error "Call to nested function must be a tail call.")
        | some c =>
          nestedCallGoto Ca Res Pb
            { s with PendingBlks := s.PendingBlks.set i { Pb with Cont := some c },
                     PendingBlockQueue := s.PendingBlockQueue ++ [i] }
      | some c =>
        if some c ≠ s.currentContinuation then
          (true, Res.setExp (some .Undefined),
            s.error "Calls to nested function are not a valid CFG.")
        else nestedCallGoto Ca Res Pb s

/-- The rule `reduceCall` with `Ca = attr(0)`. -/
def reduceCall (trav : Trav) (Ca : TypedCopyAttr) (s : St) : Result :=
  let Res := TypedCopyAttr.null
  let Ce := Ca.Exp
  let notCode : Bool := match Ca.TypeExpr with
    | some Ct => !Ct.isCode
    | none => true
  if notCode then
    let s := match Ce with
      | none => (s.assertFail "isa<> used on a null pointer").error "Expression is not a code block: "
      | some e => if !e.isUndefined then s.error "Expression is not a code block: " else s
    (Res.setExp (some .Undefined), s)
  else
    let C := Ca.TypeExpr.getD .Undefined
    let (nested, Res, s) := reduceNestedCall Ca Res C s
    if nested then (Res, s)
    else
      let Res := Res.setTypeExpr C.returnType
      let Res := Res.setRel .BT_Type
      let Res := Res.setSubst Ca.Subst
      let (Res, s) := evaluateTypeExpr trav Res s
      match Ce with
      | some e =>
        let (E, s) := setBaseTypeFromExpr s (SExpr.Call BaseType.void e) Res.TypeExpr
        (Res.setExp (some E), s)
      | none => (Res, s)

/-- The rule `reduceCode`: the copy of the code node, allocated at a fresh address with
the reduced return type and the reduced body (null when `e1` is null), is its own type,
under a substitution of `deBruinIndex()` opaque positions.  The copy itself is made by the
inherited rule `Super::reduceCode`, which is declared outside the sources at hand and is
modelled from the spec.  A node of the tree has no null return type; where the reduced
return type is null the copy shows `Undefined` in its place. -/
def reduceCode (e0 e1 : Option SExpr) (s : St) : Result :=
  let rt := e0.getD .Undefined
  let Nc := match e1 with
    | some b => SExpr.Code s.nextAddr rt b
    | none => SExpr.CodeDecl s.nextAddr rt
  (.mk (some Nc) .BT_Equivalent (some Nc) s.deBruinIndex [], { s with nextAddr := s.nextAddr + 1 })

/-- The loop of `traverseNestedCode` that rebinds the positions `Vidx + i`, `i < Nargs`,
of the cloned scope to the phi parameters of the new block. -/
def rebindPhis (Nb Vidx : Nat) : List Nat → ScopeCPS × St → ScopeCPS × St
  | [], r => r
  | i :: is, (Ns, s) =>
    match Ns.varDecl (Vidx + i) with
    | none => rebindPhis Nb Vidx is (Ns, s)
    | some Vd =>
      if Vd.kind = .VK_SFun then rebindPhis Nb Vidx is (Ns, s)
      else
        let s := if Vd.kind = .VK_Let then s.assertFail "Vd->kind() != VarDecl::VK_Let" else s
        match Ns.var (Vidx + i) with
        | none => rebindPhis Nb Vidx is (Ns, s.assertFail "Array out of bounds.")
        | some At =>
          let At := ((At.setExp (some (St.phi Nb i))).setRel .BT_Equivalent).setTypeExpr
            (some (St.phi Nb i))
          rebindPhis Nb Vidx is (Ns.setVar (Vidx + i) At, s)

/-- The end of `traverseNestedCode`: record the pending block for the body `body`, the
new block `Nb` and the scope `Ns`, and index it by the identity of the reduced code
value `Nc`. -/
def addPendingBlock (Nc : Option SExpr) (body : Option SExpr) (Nb : Nat) (Ns : ScopeCPS)
    (s : St) : St :=
  { s with CodeMap := s.CodeMap ++ [((Nc.getD .Undefined).addr, s.PendingBlks.length)],
           PendingBlks := s.PendingBlks ++ [⟨body, Nb, none, Ns⟩] }

/-- The second half of `traverseNestedCode`, after the code value `Nc` was reduced:
allocate a block with one phi parameter per binder introduced since the enclosing nested
function, clone the scope, rebind those positions to the phi parameters and record the
pending block. -/
def newPendingBlock (Nc : Option SExpr) (body : Option SExpr) (s : St) : St :=
  -- Create a new scope, where args point to phi nodes in the new block.
  let Nargs := usub32 s.deBruinIndex s.deBruinIndexOfEnclosingNestedFunction
  let Vidx := usub32 s.scope.size Nargs
  let Nb := (s.newBlock Nargs).1
  let s := (s.newBlock Nargs).2
  let r := rebindPhis Nb Vidx (List.range Nargs) (s.scope.clone, s)
  -- Add pending block.
  addPendingBlock Nc body Nb r.1 r.2

/-- The function `traverseNestedCode(Orig)`: reduce the return type only, then create a new
block and add it to the pending blocks under the identity of the reduced code value. -/
def traverseNestedCode (trav : Trav) (Orig : SExpr) (s : St) : Result :=
  let (rt, s) := trav (Orig.returnType.getD .Undefined) .TRV_Type s
  let (Res, s) := reduceCode rt.Exp none s
  (Res, newPendingBlock Res.Exp Orig.codeBody s)

/-- The function `traverseCode(Orig)`.  In weak-head mode the code is its own type under
the substitution of the scope; within a graph it is nested code; outside of a graph the
return type is traversed and, unless the body is null, a future is made for the body with
a clone of the scope and pushed on the queue of futures.  The future is an object of the
arena: the queue holds its body and its scope, and in the copy of the code the body
that it will evaluate stands for it. -/
def traverseCode (trav : Trav) (Orig : SExpr) (s : St) : Result :=
  if s.EvalMode = .TEval_WeakHead then
    (.mk none .BT_Equivalent (some Orig) s.scope.substitution.NullVars
      s.scope.substitution.VarAttrs, s)
  else if s.currentBB.isSome then traverseNestedCode trav Orig s
  else
    -- Push the return type onto the stack.
    let (rt, s) := trav (Orig.returnType.getD .Undefined) .TRV_Type s
    match Orig.codeBody with
    | none => reduceCode rt.Exp none s
    | some body =>
      -- Make a new future for the code body, and push it on the stack.
      let s := { s with FutureQueue := s.FutureQueue ++ [(body, s.scope.clone)] }
      reduceCode rt.Exp (some body) s

/-! ## Application, projection, load and identifiers -/

/-- The call `At.pushSubst(X)`: extend the delayed substitution of `At` by `X`. -/
def TypedCopyAttr.pushSubst (At X : TypedCopyAttr) : TypedCopyAttr :=
  At.setSubst (At.Subst.push X)

/-- The walk along the slots of a record that looks for a slot name: whether the slot
found is final, and its definition. -/
def SExpr.findInSlots : SExpr → String → Option (Bool × SExpr)
  | .Slot n fin d next, name => if n = name then some (fin, d) else findInSlots next name
  | _, _ => none

/-- Modelled from the spec: `Record::findSlot(name)` is declared outside the sources at
hand; it looks up the named slot among the slots of the record. -/
def SExpr.findSlot (R : SExpr) (name : String) : Option (Bool × SExpr) :=
  match R with
  | .Record slots => slots.findInSlots name
  | _ => none

/-- The call `Builder.newApply(Fe, Ae, kind)`; `Ae` may be null. -/
def newApply (Fe : SExpr) (Ae : Option SExpr) (kind : ApplyKind) : SExpr :=
  match Ae with
  | some a => .Apply BaseType.void kind Fe a
  | none => .ApplyNoArg BaseType.void kind Fe

/-- The report of the rules `reduceApply`, `reduceProject`, `reduceCall` and `reduceLoad`
for an operand that is not of the required kind: `if (!isa<Undefined>(E))
diag().error(msg)`.  Undefined marks a previous error, so the warning is omitted. -/
def reportUnlessUndefined (E : Option SExpr) (msg : String) (s : St) : St :=
  match E with
  | none => (s.assertFail "isa<> used on a null pointer").error msg
  | some e => if !e.isUndefined then s.error msg else s

/-- The rule `reduceApply` with `Fa = attr(0)`, `Aa = attr(1)` and the kind of the
application. -/
def reduceApply (trav : Trav) (kind : ApplyKind) (Fa Aa : TypedCopyAttr) (s : St) : Result :=
  let Res := TypedCopyAttr.null
  match Fa.TypeExpr with
  | some (.Function _ _ _ _ body) =>
    -- Set the result type, substituting arguments for variables.
    let Res := Res.setTypeExpr (some body)
    let Res := Res.setRel Fa.Rel
    -- Do lazy substitution
    let Res :=
      if Aa.Exp.isNone && kind = .FAK_SApply then (Res.setSubst Fa.Subst).pushSubst Fa
      else (Res.setSubst Fa.Subst).pushSubst Aa
    let (Res, s) := evaluateTypeExpr trav Res s
    -- Set the result residual.
    match Fa.Exp with
    | some Fe =>
      let (E, s) := setBaseTypeFromExpr s (newApply Fe Aa.Exp kind) Res.TypeExpr
      (Res.setExp (some E), s)
    | none => (Res, s)
  | _ =>
    (Res.setExp (some .Undefined),
      reportUnlessUndefined Fa.Exp "Expression is not a function: " s)

/-- The rule `reduceProject` with `Ra = attr(0)` and the slot name of the projection. -/
def reduceProject (trav : Trav) (slotName : String) (Ra : TypedCopyAttr) (s : St) : Result :=
  let Res := TypedCopyAttr.null
  match Ra.TypeExpr with
  | some (.Record slots) =>
    match (SExpr.Record slots).findSlot slotName with
    | none => (Res.setExp (some .Undefined), s.error "Slot not found: ")
    | some (_, Sdef) =>
      -- Set the result type.
      let Res := Res.setTypeExpr (some Sdef)
      let Res := Res.setRel Ra.Rel
      let Res := Res.setSubst Ra.Subst
      let (Res, s) := evaluateTypeExpr trav Res s
      -- Set the result residual.
      match Ra.Exp with
      | some Re =>
        let (E, s) := setBaseTypeFromExpr s (SExpr.Project BaseType.void Re slotName) Res.TypeExpr
        (Res.setExp (some E), s)
      | none => (Res, s)
  | _ =>
    (Res.setExp (some .Undefined),
      reportUnlessUndefined Ra.Exp "Expression is not a record: " s)

/-- The rule `reduceLoad` with `Fa = attr(0)`; the tree holds no future, so the range of
the field is taken as it is. -/
def reduceLoad (trav : Trav) (Fa : TypedCopyAttr) (s : St) : Result :=
  let Res := TypedCopyAttr.null
  match Fa.TypeExpr with
  | some (.Field range _) =>
    let Res := Res.setTypeExpr (some range)
    let Res := Res.setRel .BT_Type
    let Res := Res.setSubst Fa.Subst
    let (Res, s) := evaluateTypeExpr trav Res s
    match Fa.Exp with
    | some Fe =>
      let (E, s) := setBaseTypeFromExpr s (SExpr.Load BaseType.void Fe) Res.TypeExpr
      (Res.setExp (some E), s)
    | none => (Res, s)
  | _ =>
    (Res.setExp (some .Undefined),
      reportUnlessUndefined Fa.Exp "Expression is not a field: " s)

/-- The test `isa<Record>(e)`. -/
def SExpr.isRecord : SExpr → Bool
  | .Record .. => true
  | _ => false

/-- The test `isa<Field>(e)`. -/
def SExpr.isField : SExpr → Bool
  | .Field .. => true
  | _ => false

/-- Modelled from the spec: the inherited rule `Super::reduceIdentifier` is declared
outside the sources at hand; it is all that runs after the report of an unresolved
identifier, which yields a poison value. -/
def superReduceIdentifier (_Orig : SExpr) (s : St) : Result :=
  (TypedCopyAttr.null.setExp (some .Undefined), s)

/-- The loop of `reduceIdentifier` over the positions `i, i - 1, .., 1` of the scope:
the attribute of the first binder that resolves the identifier, or none.  The declaration
of a variable always carries its definition here, so the test for a null definition
never holds. -/
def identifierLoop (R : TypeRules) (trav : Trav) (Idstr : String) :
    Nat → St → Option TypedCopyAttr × St
  | 0, s => (none, s)
  | i + 1, s =>
    match s.scope.varDecl (i + 1) with
    | none => identifierLoop R trav Idstr i s
    | some Vd =>
      -- First check to see if the identifier refers to a named variable.
      if Vd.varName = Idstr then
        let (Res, s) := reduceVarSubstitution R trav (i + 1) s
        (some Res, s)
      -- Otherwise look up slot names in enclosing records.
      else if Vd.kind = .VK_SFun then
        match s.scope.var (i + 1) with
        | none => identifierLoop R trav Idstr i (s.assertFail "Array out of bounds.")
        | some At =>
          match At.Exp with
          | some (.Variable bt k n Vidx (.Function fk fn fi fd body)) =>
            match body.findSlot Idstr with
            | none => identifierLoop R trav Idstr i s
            | some (fin, Sdef) =>
              if fin && Sdef.isTrivial then
                -- Simply return the trivial value
                (some (.mk (some Sdef) .BT_Equivalent (some Sdef) 0 []), s)
              else
                let Sv := SExpr.Variable bt k n Vidx (.Function fk fn fi fd body)
                let Eapp := (newApply Sv none .FAK_SApply).setBaseType BaseType.pointer
                let (Eproj, s) :=
                  setBaseTypeFromExpr s (SExpr.Project BaseType.void Eapp Idstr) (some Sdef)
                let s := if Vidx = 0 then s.assertFail "Variable index is not set." else s
                (some (.mk (some Eproj) .BT_Type (some Sdef) Vidx [TypedCopyAttr.ofExp Sv]), s)
          | some (.Variable ..) =>
            identifierLoop R trav Idstr i
              (s.assertFail "cast<Ty>() argument of incompatible type!")
          | _ => identifierLoop R trav Idstr i s
      else identifierLoop R trav Idstr i s

/-- The end of `reduceIdentifier`: the attribute found by the loop is the result; an
identifier that the loop did not resolve is reported and left to the inherited rule. -/
def identifierResult (Orig : SExpr) (r : Option TypedCopyAttr × St) : Result :=
  match r with
  | (some Res, s) => (Res, s)
  | (none, s) => superReduceIdentifier Orig (s.error "Identifier not found: ")

/-- The rule `reduceIdentifier`: the loop starts at the position `size() - 1`, an
unsigned number. -/
def reduceIdentifier (R : TypeRules) (trav : Trav) (Orig : SExpr) (s : St) : Result :=
  match Orig with
  | .Identifier Idstr =>
    identifierResult Orig (identifierLoop R trav Idstr (usub32 s.scope.size 1) s)
  | _ => (TypedCopyAttr.null, s.assertFail "reduceIdentifier: not an identifier")

/-! ## The traversal -/

/-- Modelled from the spec: the inherited traversal of the declaration of a binder
(`traverseVarDecl`) is declared outside the sources at hand; it is part of the generic
recursive walk (§4.2).  The type of a parameter is walked as a type and the definition of
a let as a declaration; the definition of a self-variable is the function itself and is
not traversed. -/
def traverseVarDecl (trav : Trav) (kind : VariableKind) (definition : SExpr) (s : St) :
    Result :=
  match kind with
  | .VK_Fun => trav definition .TRV_Type s
  | .VK_SFun => (TypedCopyAttr.null, s)
  | .VK_Let => trav definition .TRV_Decl s

/-- Modelled from the spec: the inherited traversal `SuperTv::traverseLet` and the
copying rule `reduceLet` are declared outside the sources at hand.  The generic walk
traverses the declaration, enters the scope of the variable, traverses the body in tail
position, leaves the scope and copies the let from the two residuals. -/
def superTraverseLet (trav : Trav) (Orig : SExpr) (s : St) : Result :=
  match Orig with
  | .Let name idx definition body =>
    let (d, s) := traverseVarDecl trav .VK_Let definition s
    let Nidx := s.deBruinIndex
    let s := s.enterScope ⟨.VK_Let, name, idx, some definition⟩ d.child
    let (b, s) := trav body .TRV_Tail s
    let s := s.exitScope
    (TypedCopyAttr.null.setExp (some (.Let name Nidx d.child b.child)), s)
  | _ => (TypedCopyAttr.null, s.assertFail "traverseLet: not a let")

/-- The function `traverseLet(Orig)`: with emission disabled the let is left to the
inherited traversal; with emission enabled it is eliminated by binding its variable to
the reduced definition, and the result is that of the body. -/
def traverseLet (trav : Trav) (Orig : SExpr) (s : St) : Result :=
  match Orig with
  | .Let name idx definition body =>
    if !s.emitInstrs then superTraverseLet trav Orig s
    else
      let (last, s) := trav definition .TRV_Decl s
      let s := { s with scope := s.scope.enterScope ⟨.VK_Let, name, idx, some definition⟩ last }
      let (last, s) := trav body .TRV_Tail s
      let s := { s with scope := s.scope.exitScope }
      (last, s)
  | _ => (TypedCopyAttr.null, s.assertFail "traverseLet: not a let")

/-- Modelled from the spec: the copying rule `reduceIfThenElse` is declared outside the
sources at hand; it rebuilds the conditional from the three residuals. -/
def reduceIfThenElse (c t e : TypedCopyAttr) (s : St) : Result :=
  match c.Exp, t.Exp, e.Exp with
  | some c, some t, some e => (TypedCopyAttr.null.setExp (some (.IfThenElse c t e)), s)
  | _, _, _ => (TypedCopyAttr.null, s)

/-- The cast `dyn_cast<Instruction>(lastAttr().Exp)` of `traverseIfThenElse`: the reduced
condition, if it is an instruction. -/
def condInstr (lastC : TypedCopyAttr) : Option SExpr :=
  lastC.Exp.bind (fun e => if e.isInstruction then some e else none)

/-- The type check of the conditional in `traverseIfThenElse`: a condition that is no
instruction of boolean base type is reported. -/
def checkCondition (lastC : TypedCopyAttr) (s : St) : St :=
  let s := if lastC.Exp.isNone then s.assertFail "dyn_cast on a null pointer" else s
  match condInstr lastC with
  | none => s.error "Branch condition is not a boolean: "
  | some c =>
    if c.baseType.Base != .BT_Bool then s.error "Branch condition is not a boolean: " else s

/-- The test for a static conditional in `traverseIfThenElse`: the value of the reduced
condition when it is a literal of boolean base type. -/
def staticCondition (lastC : TypedCopyAttr) : Option Bool :=
  match lastC.Exp with
  | some (.Literal ⟨.BT_Bool, _, _⟩ Cb) => some (decide (Cb ≠ 0))
  | _ => none

/-- The last step of `traverseIfThenElse` when it created the join block: begin it and
yield its first phi parameter. -/
def beginJoin (Cont : Nat) (s : St) : Result :=
  let s := s.beginBlock Cont
  match s.currentBB with
  | some b =>
    if 0 < s.blocks[b]?.elim 0 (·.arguments) then
      (TypedCopyAttr.null.setExp (some (St.phi b 0)), s)
    else (TypedCopyAttr.null, s.assertFail "Array out of bounds.")
  | none => (TypedCopyAttr.null, s.assertFail "null current block")

/-- The part of `traverseIfThenElse` that traverses the two arms, each in its block and
in tail position under the continuation `Cont`, and then restores the continuation
`CurrCont`. -/
def traverseArms (trav : Trav) (thenExpr elseExpr : SExpr) (Tb Eb Cont : Nat)
    (CurrCont : Option Nat) (s : St) : St :=
  -- Process the then and else blocks
  let s := s.beginBlock Tb
  let s := s.setContinuation (some Cont)
  let (_, s) := trav thenExpr .TRV_Tail s
  let s := s.beginBlock Eb
  let s := s.setContinuation (some Cont)
  let (_, s) := trav elseExpr .TRV_Tail s
  s.setContinuation CurrCont

/-- The part of `traverseIfThenElse` that converts a conditional to branches of the
graph; `Nc` is the reduced condition. -/
def traverseBranches (trav : Trav) (Nc : Option SExpr) (thenExpr elseExpr : SExpr) (s : St) :
    Result :=
  let (Tb, s) := s.newBlock 0
  let (Eb, s) := s.newBlock 0
  let s := s.newBranch Nc Tb Eb
  -- If the current continuation is null, then make a new one.
  match s.currentContinuation with
  | some c =>
    -- If we had an existing continuation, then we are done.
    (TypedCopyAttr.null, traverseArms trav thenExpr elseExpr Tb Eb c (some c) s)
  | none =>
    let (Cont, s) := s.newBlock 1
    -- Otherwise start processing the new continuation.
    beginJoin Cont (traverseArms trav thenExpr elseExpr Tb Eb Cont none s)

/-- The function `traverseIfThenElse(Orig)`, the branch compiler. -/
def traverseIfThenElse (trav : Trav) (Orig : SExpr) (s : St) : Result :=
  match Orig with
  | .IfThenElse condition thenExpr elseExpr =>
    let (lastC, s) := trav condition .TRV_Arg s
    -- Type-check the conditional...
    let s := checkCondition lastC s
    -- Eliminate static conditionals
    match staticCondition lastC with
    | some Cb =>
      if Cb then trav thenExpr .TRV_Tail s else trav elseExpr .TRV_Tail s
    | none =>
      -- Just do a normal traversal if we are not currently rewriting in a CFG.
      if !s.emitInstrs then
        let (lastT, s) := trav thenExpr .TRV_Arg s
        let (lastE, s) := trav elseExpr .TRV_Arg s
        reduceIfThenElse lastC lastT lastE s
      else
        -- Otherwise convert conditionals to CFG branches
        traverseBranches trav (condInstr lastC) thenExpr elseExpr s
  | _ => (TypedCopyAttr.null, s.assertFail "traverseIfThenElse: not a conditional")

/-! ## Functions, records, fields and the copying rules -/

/-- Modelled from the spec: the inherited copying rule `Super::reduceFunction` is
declared outside the sources at hand; it rebuilds the function from the copied declaration
(of index `Nidx` and definition `Nd`) and the residual of the body. -/
def superReduceFunction (kind : VariableKind) (name : String) (Nidx : Nat) (Nd : SExpr)
    (b : TypedCopyAttr) : TypedCopyAttr :=
  TypedCopyAttr.null.setExp (some (.Function kind name Nidx Nd b.child))

/-- The rule `reduceFunction`, after the inherited rule left `Res`: the copy is its own
type, under a substitution of `deBruinIndex()` opaque positions. -/
def reduceFunction (Res : TypedCopyAttr) (s : St) : Result :=
  (.mk Res.Exp .BT_Equivalent Res.Exp s.deBruinIndex [], s)

/-- Modelled from the spec: the inherited copying rule `Super::reduceRecord` is declared
outside the sources at hand; it rebuilds the record from its residual slots. -/
def superReduceRecord (slots : SExpr) : TypedCopyAttr :=
  TypedCopyAttr.null.setExp (some (.Record slots))

/-- The rule `reduceRecord`, after the inherited rule left `Res`: the copy is its own
type, under a substitution of `deBruinIndex()` opaque positions. -/
def reduceRecord (Res : TypedCopyAttr) (s : St) : Result :=
  (.mk Res.Exp .BT_Equivalent Res.Exp s.deBruinIndex [], s)

/-- Modelled from the spec: the inherited copying rule `Super::reduceField` is declared
outside the sources at hand; it rebuilds the field from the residuals of its range and
its body. -/
def superReduceField (r b : TypedCopyAttr) : TypedCopyAttr :=
  TypedCopyAttr.null.setExp (some (.Field r.child b.child))

/-- The rule `reduceField`, after the inherited rule left `Res`: the copy is its own
type, under a substitution of `deBruinIndex()` opaque positions. -/
def reduceField (Res : TypedCopyAttr) (s : St) : Result :=
  (.mk Res.Exp .BT_Equivalent Res.Exp s.deBruinIndex [], s)

/-- Modelled from the spec: `Builder.newAlloc(Ve, kind)` is declared outside the sources
at hand.  An allocation yields an address (§6), so the new instruction carries the tag
`getBaseType<void*>()`. -/
def newAlloc (Ve : SExpr) (allocKind : AllocKind) : SExpr := .Alloc BaseType.pointer allocKind Ve

/-- The rule `reduceAlloc` with `attr(0) = a0`: an initializer that is no value is
reported and replaced by a poison value; the type of the allocation is its initializer,
under a substitution of `deBruinIndex()` opaque positions.  The call `Ve->isValue()` on a
null residual fails. -/
def reduceAlloc (allocKind : AllocKind) (a0 : TypedCopyAttr) (s : St) : Result :=
  match a0.Exp with
  | none => (TypedCopyAttr.null, s.assertFail "member call on a null pointer")
  | some Ve =>
    if !Ve.isValue then
      (.mk (some (newAlloc .Undefined allocKind)) .BT_Type (some .Undefined) s.deBruinIndex [],
        s.error "Argument to alloc is not a value: ")
    else (.mk (some (newAlloc Ve allocKind)) .BT_Type (some Ve) s.deBruinIndex [], s)

/-- Modelled from the spec: the copying rule for casts, `reduceCast`, is declared outside
the sources at hand; it rebuilds the cast from the residual of its operand. -/
def reduceCast (bt : BaseType) (op : TIL_CastOpcode) (a0 : TypedCopyAttr) (s : St) : Result :=
  (TypedCopyAttr.null.setExp (some (.Cast bt op a0.child)), s)

/-- Modelled from the spec: the copying rules for the nodes without sub-expressions that
have no typed rule (a phi parameter, the poison value, the end of the slots of a record)
are declared outside the sources at hand; the node is its own copy. -/
def reduceLeaf (Orig : SExpr) (s : St) : Result :=
  (TypedCopyAttr.null.setExp (some Orig), s)

/-- The attribute that `traverseFunction`, `traverseRecord`, `traverseCode` and
`traverseField` leave in weak-head mode: no residual, and `Orig` as its own type under the
substitution of the scope. -/
def weakHeadAttr (Orig : SExpr) (s : St) : TypedCopyAttr :=
  .mk none .BT_Equivalent (some Orig) s.scope.substitution.NullVars
    s.scope.substitution.VarAttrs

/-- Modelled from the spec: the inherited traversal `SuperTv::traverseFunction` is
declared outside the sources at hand.  The generic walk (§4.2) traverses the declaration
of the parameter, enters its scope, traverses the body as a declaration, leaves the scope
and applies the rule `reduceFunction`.  The definition of a self-variable is its function:
the variable of a self-function is bound with the function as its definition, and the
copy of a self-function keeps the field `definition`, which nothing reads. -/
def superTraverseFunction (trav : Trav) (Orig : SExpr) (s : St) : Result :=
  match Orig with
  | .Function kind name idx definition body =>
    let (d, s) := traverseVarDecl trav kind definition s
    let Nidx := s.deBruinIndex
    let Vdef := if kind = .VK_SFun then Orig else definition
    let Nd := if kind = .VK_SFun then definition else d.child
    let s := s.enterScope ⟨kind, name, idx, some Vdef⟩ (if kind = .VK_SFun then Orig else Nd)
    let (b, s) := trav body .TRV_Decl s
    let s := s.exitScope
    reduceFunction (superReduceFunction kind name Nidx Nd b) s
  | _ => (TypedCopyAttr.null, s.assertFail "traverseFunction: not a function")

/-- The function `traverseFunction(Orig)`: in weak-head mode nothing is copied; otherwise
the function is left to the inherited traversal. -/
def traverseFunction (trav : Trav) (Orig : SExpr) (s : St) : Result :=
  if s.EvalMode = .TEval_WeakHead then (weakHeadAttr Orig s, s)
  else superTraverseFunction trav Orig s

/-- The link from a slot to the next slot of the record, set to `next`. -/
def SExpr.setNext : SExpr → SExpr → SExpr
  | .Slot n fin d _, next => .Slot n fin d next
  | e, _ => e

/-- Modelled from the spec: the inherited traversal of a slot and the copying rule
`reduceSlot` are declared outside the sources at hand.  The generic walk traverses the
definition of the slot as a declaration and copies the slot. -/
def traverseSlot (trav : Trav) (Orig : SExpr) (s : St) : Result :=
  match Orig with
  | .Slot n fin d next =>
    let (a, s) := trav d .TRV_Decl s
    (TypedCopyAttr.null.setExp (some (.Slot n fin a.child next)), s)
  | _ => (TypedCopyAttr.null, s.assertFail "traverseSlot: not a slot")

/-- Modelled from the spec: the loop of the inherited traversal of a record over its
slots, each of which is traversed as a declaration; it yields the chain of the residual
slots. -/
def traverseSlots (trav : Trav) : SExpr → St → SExpr × St
  | .Slot n fin d next, s =>
    let r := trav (.Slot n fin d next) .TRV_Decl s
    let rest := traverseSlots trav next r.2
    (r.1.child.setNext rest.1, rest.2)
  | e, s => (e, s)

/-- Modelled from the spec: the inherited traversal `SuperTv::traverseRecord` is declared
outside the sources at hand.  The generic walk traverses the slots in their order and
applies the rule `reduceRecord`. -/
def superTraverseRecord (trav : Trav) (Orig : SExpr) (s : St) : Result :=
  match Orig with
  | .Record slots =>
    let r := traverseSlots trav slots s
    reduceRecord (superReduceRecord r.1) r.2
  | _ => (TypedCopyAttr.null, s.assertFail "traverseRecord: not a record")

/-- The function `traverseRecord(Orig)`: in weak-head mode nothing is copied; otherwise
the record is left to the inherited traversal. -/
def traverseRecord (trav : Trav) (Orig : SExpr) (s : St) : Result :=
  if s.EvalMode = .TEval_WeakHead then (weakHeadAttr Orig s, s)
  else superTraverseRecord trav Orig s

/-- Modelled from the spec: the inherited traversal `SuperTv::traverseField` is declared
outside the sources at hand.  The generic walk traverses the range as a type and the body
as a lazy term, which the driver skips (§4.2), and applies the rule `reduceField`. -/
def superTraverseField (trav : Trav) (Orig : SExpr) (s : St) : Result :=
  match Orig with
  | .Field range body =>
    let (r, s) := trav range .TRV_Type s
    let (b, s) := trav body .TRV_Lazy s
    reduceField (superReduceField r b) s
  | _ => (TypedCopyAttr.null, s.assertFail "traverseField: not a field")

/-- The function `traverseField(Orig)`: in weak-head mode nothing is copied; otherwise
the field is left to the inherited traversal. -/
def traverseField (trav : Trav) (Orig : SExpr) (s : St) : Result :=
  if s.EvalMode = .TEval_WeakHead then (weakHeadAttr Orig s, s)
  else superTraverseField trav Orig s

/-- Modelled from the spec: the dispatch `Super::traverse(e, r, k)` on the kind of node
and the traversals of operators, casts, calls, applications, projections, loads and
allocations are declared outside the sources at hand.  The generic recursive walk (§4.2)
traverses the operands first (a callee, a function that is applied and a record that is
projected as a path, every other operand as an argument) and then applies the rule of
the node; lets, conditionals, code, functions, records and fields have a traversal of
their own.  An application without argument leaves a null attribute for the argument. -/
def superTraverse (R : TypeRules) (trav : Trav) (e : SExpr) (s : St) : Result :=
  match e with
  | .Literal .. => reduceLiteral e s
  | .ScalarType .. => reduceScalarType e s
  | .Variable .. => reduceVariable R trav e s
  | .UnaryOp _ op e0 =>
    let (a0, s) := trav e0 .TRV_Arg s
    reduceUnaryOp R op a0 s
  | .BinaryOp _ op e0 e1 =>
    let (a0, s) := trav e0 .TRV_Arg s
    let (a1, s) := trav e1 .TRV_Arg s
    reduceBinaryOp R op a0 a1 s
  | .Call _ target =>
    let (a0, s) := trav target .TRV_Path s
    reduceCall trav a0 s
  | .Let .. => traverseLet trav e s
  | .IfThenElse .. => traverseIfThenElse trav e s
  | .Code .. | .CodeDecl .. => traverseCode trav e s
  | .Apply _ kind fn arg =>
    let (Fa, s) := trav fn .TRV_Path s
    let (Aa, s) := trav arg .TRV_Arg s
    reduceApply trav kind Fa Aa s
  | .ApplyNoArg _ kind fn =>
    let (Fa, s) := trav fn .TRV_Path s
    reduceApply trav kind Fa TypedCopyAttr.null s
  | .Project _ record slotName =>
    let (Ra, s) := trav record .TRV_Path s
    reduceProject trav slotName Ra s
  | .Load _ pointer =>
    let (Fa, s) := trav pointer .TRV_Arg s
    reduceLoad trav Fa s
  | .Alloc _ allocKind initializer =>
    let (a0, s) := trav initializer .TRV_Arg s
    reduceAlloc allocKind a0 s
  | .Identifier .. => reduceIdentifier R trav e s
  | .Function .. => traverseFunction trav e s
  | .Record .. => traverseRecord trav e s
  | .Field .. => traverseField trav e s
  | .Slot .. => traverseSlot trav e s
  | .Cast bt op e0 =>
    let (a0, s) := trav e0 .TRV_Arg s
    reduceCast bt op a0 s
  | .Phi .. | .Undefined | .NoSlot => reduceLeaf e s

/-- The first half of the driver `CFGRewriter::traverse`, up to the recursive traversal:
save the pending arguments and clear the continuation unless the node is in tail
position. -/
def traverseEnter (k : TraversalKind) (s : St) : St :=
  let (_, s) := s.savePendingArgs
  -- This is a CPS transform, so we track the current continuation.
  if k ≠ .TRV_Tail then s.setContinuation none else s

/-- The part of the driver `CFGRewriter::traverse` that follows the recursive traversal
at once: restore the continuation `cont` saved on entry and, unless the node is a path,
check that no pending argument was left and restore the saved length `plen`. -/
def traverseRestore (cont : Option Nat) (plen : Nat) (k : TraversalKind) (s : St) : St :=
  -- Restore continuation.
  let s := s.setContinuation cont
  -- Restore pending arguments, and ensure the traversal did not add any.
  if k ≠ .TRV_Path then
    (if s.numPendingArgs ≠ 0 then s.assertFail "Unhandled arguments." else s).restorePendingArgs
      plen
  else s

/-- The second half of the driver `CFGRewriter::traverse`, after the recursive traversal
returned `result`; `cont` and `plen` are the continuation and the length saved on
entry. -/
def traverseExit (cont : Option Nat) (plen : Nat) (k : TraversalKind) (r : Result) : Result :=
  let (result, s) := r
  let s := traverseRestore cont plen k s
  match s.currentBB with
  | none => (result, s)
  | some _ =>
    -- Add instructions to the current basic block
    let s := s.addInstruction result.Exp
    -- If we have a continuation, then jump to it.
    match cont with
    | some c =>
      if k = .TRV_Tail then (result.setExp none, s.createGoto c result.Exp)
      else (result, s)
    | none => (result, s)

/-- The driver `CFGRewriter::traverse(e, r, k)` of `til/CFGReducer.h`, with `Super`
bound to the dispatch over `traverse` at the next smaller fuel. -/
def traverse (R : TypeRules) : Nat → Trav
  | 0, _, _, s => (TypedCopyAttr.null, { s with fuelOut := true })
  | n + 1, e, k, s =>
    if k = .TRV_Lazy then (TypedCopyAttr.null, s)  -- Skip lazy terms
    else
      traverseExit s.currentContinuation s.pendingPathArgLen k
        (superTraverse R (traverse R n) e (traverseEnter k s))

/-- The function `processPendingBlocks()`: drain the queue in FIFO order, each pending
block being begun, given its scope with its continuation, and its body traversed in tail
position; then clear the list of pending blocks. -/
def processPendingBlocks (R : TypeRules) : Nat → St → St
  | 0, s =>
    match s.PendingBlockQueue with
    | [] => { s with PendingBlks := [] }
    | _ :: _ => { s with fuelOut := true }
  | n + 1, s =>
    match s.PendingBlockQueue with
    | [] => { s with PendingBlks := [] }
    | i :: q =>
      let s := { s with PendingBlockQueue := q }
      match s.PendingBlks[i]? with
      | none => s.assertFail "dangling pending block"
      | some Pb =>
        let s := s.beginBlock Pb.Block
        let (S, s) := s.switchScope (Pb.Scope.setCurrentContinuation Pb.Cont)
        let s := match Pb.Exp with
          | some body => (traverse R n body .TRV_Tail s).2
          | none => s.assertFail "null body"
        let s := s.restoreScope S
        processPendingBlocks R n s

/-- The state of a fresh evaluator: no graph, an empty scope, emission enabled. -/
def St.init : St :=
  { blocks := [], currentBB := none, emitInstrs := true, deBruinIndex := 1,
    deBruinIndexOfEnclosingNestedFunction := 1, nextAddr := 0, scope := ScopeCPS.ofNull 1,
    EvalMode := .TEval_Copy, PendingBlks := [], CodeMap := [], PendingBlockQueue := [],
    FutureQueue := [], pendingPathArgs := [], pendingPathArgLen := 0, diag := [], failed := [], invalid := [],
    fuelOut := false }

/-- Modelled from the spec: allocate-graph, declared outside the sources at hand,
creates the entry block and the exit block; the exit block has one phi parameter and is
created finished, returning that parameter.  It yields the handles (entry, exit). -/
def St.beginCFG (s : St) : (Nat × Nat) × St :=
  let entry := s.blocks.length
  let exit := s.blocks.length + 1
  ((entry, exit),
    { s with blocks := s.blocks ++
        [⟨0, [], [], 0⟩, ⟨1, [], [.Return (some (St.phi exit 0))], 1⟩] })

/-- The function `enterCFG`: the continuation of the body is the exit block, and the
entry block is begun. -/
def enterCFG (s : St) : St :=
  let ((entry, exit), s) := s.beginCFG
  let s := s.setContinuation (some exit)
  s.beginBlock entry

/-- Modelled from the spec: `CFGRewriter::convertSExprToCFG` is only declared in the
sources at hand (`til/CFGReducer.h`).  A graph is constructed by entering it, by the
traversal of the expression in tail position under the exit block as continuation, and,
once its ordinary control flow is exhausted, by draining the pending blocks (§4.5): the
conversion is `enterCFG`, the driver `traverse` and `processPendingBlocks`, the first
statement of `exitCFG`.  What `exitCFG` does after that (the inherited `Super::exitCFG`,
`computeNormalForm` and the SSA pass), is the normalisation that follows the construction
of a graph (§1, §6) and is no part of the conversion. -/
def convertSExprToCFG (R : TypeRules) (fuel : Nat) (e : SExpr) (s : St) : St :=
  let s := enterCFG s
  let (_, s) := traverse R fuel e .TRV_Tail s
  processPendingBlocks R fuel s

/-! ## A concrete instance of the base-type queries -/

/-- The rank of a size in the order `ST_0 < ST_1 < ST_8 < .. < ST_128`. -/
def SizeCode.rank : SizeCode → Nat
  | .ST_0 => 0 | .ST_1 => 1 | .ST_8 => 2 | .ST_16 => 3 | .ST_32 => 4 | .ST_64 => 5
  | .ST_128 => 6

/-- The test for the two integer kinds. -/
def BaseType.isIntegral (bt : BaseType) : Bool :=
  bt.Base = .BT_Int || bt.Base = .BT_UnsignedInt

/-- Modelled from the spec: the conversion table is declared outside the sources at hand;
"an implicit widening cast in whichever direction a legal conversion exists": an
integer widens to an integer that is at least as wide and to a strictly wider float, a
float to a float that is at least as wide. -/
def widenConvertable (a b : BaseType) : TIL_CastOpcode :=
  if a.isIntegral then
    if b.isIntegral ∧ a.Size.rank ≤ b.Size.rank then .CAST_extendNum
    else if b.Base = .BT_Float ∧ a.Size.rank < b.Size.rank then .CAST_extendToFloat
    else .CAST_none
  else if a.Base = .BT_Float ∧ b.Base = .BT_Float ∧ a.Size.rank ≤ b.Size.rank then
    .CAST_extendNum
  else .CAST_none

/-- Modelled from the spec: the literal evaluator is declared outside the sources at
hand; it computes the operation on the two literal values and yields a literal, of the
operand type for arithmetic and of boolean type for comparisons and logic. -/
def evalLiteralOp (op : TIL_BinaryOpcode) (bt : BaseType) (l0 l1 : SExpr) : SExpr :=
  match l0, l1 with
  | .Literal _ a, .Literal _ b =>
    let ofBool (c : Bool) : SExpr := .Literal BaseType.bool (if c then 1 else 0)
    match op with
    | .BOP_Add => .Literal bt (a + b)
    | .BOP_Sub => .Literal bt (a - b)
    | .BOP_Mul => .Literal bt (a * b)
    | .BOP_Div => .Literal bt (a / b)
    | .BOP_Rem => .Literal bt (a % b)
    | .BOP_Shl => .Literal bt (a * 2 ^ b.toNat)
    | .BOP_Shr => .Literal bt (a / 2 ^ b.toNat)
    | .BOP_BitAnd => .Literal bt (Int.land a b)
    | .BOP_BitXor => .Literal bt (Int.xor a b)
    | .BOP_BitOr => .Literal bt (Int.lor a b)
    | .BOP_Eq => ofBool (a = b)
    | .BOP_Neq => ofBool (a ≠ b)
    | .BOP_Lt => ofBool (a < b)
    | .BOP_Leq => ofBool (a ≤ b)
    | .BOP_Gt => ofBool (a > b)
    | .BOP_Geq => ofBool (a ≥ b)
    | .BOP_LogicAnd => ofBool (a ≠ 0 ∧ b ≠ 0)
    | .BOP_LogicOr => ofBool (a ≠ 0 ∨ b ≠ 0)
  | _, _ => .Undefined

/-- Modelled from the spec: one instance of the base-type queries: numeric types are the
integers and floats, simple types are the scalars, integers narrower than 32 bits need
promotion, and conversions are the widening ones. -/
def widenRules : TypeRules where
  isNumeric bt := bt.isIntegral || bt.Base = .BT_Float
  isSimple bt := decide (bt.VectSize ≤ 1)
  promoteInteger bt := bt.isIntegral && decide (bt.Size.rank < SizeCode.ST_32.rank)
  typeConvertable := widenConvertable
  evaluateBinaryOp := evalLiteralOp

/-- The 32-bit signed integer type. -/
def BaseType.int32 : BaseType := ⟨.BT_Int, .ST_32, 1⟩

/-- The 64-bit signed integer type. -/
def BaseType.int64 : BaseType := ⟨.BT_Int, .ST_64, 1⟩

/-- The 8-bit signed integer type. -/
def BaseType.int8 : BaseType := ⟨.BT_Int, .ST_8, 1⟩

/-! ## Scenarios used to state the scheduler properties -/

/-- One invocation of `reduceNestedCall` within a traversal.  What the traversal did
since the previous invocation is summarised by the continuation and the current block in
force at the call. -/
structure NestedCallEvent where
  Ca : TypedCopyAttr
  C : SExpr
  cont : Option Nat
  currentBB : Option Nat

/-- A sequence of `reduceNestedCall` invocations, run from left to right. -/
def runNestedCalls : List NestedCallEvent → St → St
  | [], s => s
  | ev :: evs, s =>
    runNestedCalls evs
      (reduceNestedCall ev.Ca TypedCopyAttr.null ev.C
        { (s.setContinuation ev.cont) with currentBB := ev.currentBB }).2.2

/-- The test that a residual is a function or a self-function variable, the two cases
for which `reduceNestedCall` passes a null placeholder. -/
def isPlaceholderArg : Option SExpr → Bool
  | some (.Function ..) => true
  | some (.Variable _ .VK_SFun _ _ _) => true
  | _ => false

/-- A nested function met in a graph under construction: the state and the attribute
left by traversing `code(int32) { 1 }` in the entry block of a fresh graph. -/
def nestedDemo : Result :=
  traverse widenRules 3 (.Code 0 (.ScalarType BaseType.int32) (.Literal BaseType.int32 1))
    .TRV_Decl (enterCFG St.init)

/-- The nested function of `nestedDemo` after a first call in tail position: the call is
reduced under the continuation in force, the exit block. -/
def nestedCalled : Result := reduceCall (traverse widenRules 3) nestedDemo.1 nestedDemo.2

/-- A state in which a nested function of two parameters is pending: its entry block, the
block 2, has two phi parameters, the entry block of the graph is current and the exit
block is the continuation. -/
def argDemoState : St :=
  { (enterCFG St.init) with
    blocks := (enterCFG St.init).blocks ++ [⟨2, [], [], 0⟩],
    PendingBlks := [⟨some (.Literal BaseType.int32 1), 2, none, ScopeCPS.ofNull 1⟩],
    CodeMap := [(0, 0)] }

/-- A callee attribute for `argDemoState`: its type is the code value at address 0 and
its substitution holds a literal and a function. -/
def argDemoCallee : TypedCopyAttr :=
  .mk none .BT_Type (some (.CodeDecl 0 (.ScalarType BaseType.int32))) 1
    [TypedCopyAttr.ofExp (.Literal BaseType.int32 7),
     TypedCopyAttr.ofExp (.Function .VK_SFun "self" 1 (.ScalarType BaseType.int32)
       (.ScalarType BaseType.int32))]

/-- A state in which the body of a nested function is being reduced: the pending block 0
has the block 2 as entry and the exit block as continuation; the block 2 is the current
block and the exit block is the current continuation. -/
def selfCallState : St :=
  let s := nestedCalled.2
  { s with
    currentBB := some 2,
    blocks := s.blocks.modify (fun B => { B with begun := 1 }) 2 }

/-- The call `(fun (n : int32) => code(int32) { n })(3)()` of a nested function of one
parameter, applied to the literal 3. -/
def nestedParamCall : SExpr :=
  .Call BaseType.void
    (.Apply BaseType.void .FAK_Apply
      (.Function .VK_Fun "n" 1 (.ScalarType BaseType.int32)
        (.Code 0 (.ScalarType BaseType.int32)
          (.Variable BaseType.void .VK_Fun "n" 1 (.ScalarType BaseType.int32))))
      (.Literal BaseType.int32 3))

/-! ## The terminator discipline -/

/-- What the terminator discipline sees of a basic block: everything but its
instructions. -/
structure BlockView where
  arguments : Nat
  terminators : List Terminator
  begun : Nat

/-- What the terminator discipline sees of a state: the blocks without their
instructions, the current block, the log of builder violations, and for each pending
block its entry block and its continuation, and the queue. -/
structure View where
  blocks : List BlockView
  cur : Option Nat
  invalid : List String
  pend : List (Nat × Option Nat)
  queue : List Nat

/-- The view of a basic block. -/
def BasicBlock.view (B : BasicBlock) : BlockView := ⟨B.arguments, B.terminators, B.begun⟩

/-- The view of a state. -/
def St.view (s : St) : View :=
  ⟨s.blocks.map BasicBlock.view, s.currentBB, s.invalid,
    s.PendingBlks.map (fun P => (P.Block, P.Cont)), s.PendingBlockQueue⟩

/-- A run is clean while nothing was reported, no assertion failed and the fuel did not
run out. -/
def St.clean (s : St) : Prop := s.diag = [] ∧ s.failed = [] ∧ s.fuelOut = false

/-- A run is sound while no assertion failed and the fuel did not run out; diagnostics may
have been reported. -/
def St.sound (s : St) : Prop := s.failed = [] ∧ s.fuelOut = false

/-- The terminator discipline.  No builder violation occurred; every block was begun at
most once and terminated at most as often as it was begun; the current block, if any, is
begun and not yet terminated, and it is the only such block; every pending block has an
allocated entry block of its own, which is not begun as long as the pending block has no
continuation or waits in the queue; the queue holds each pending block at most once, and
only pending blocks whose continuation is fixed. -/
structure View.WF (v : View) : Prop where
  invalid : v.invalid = []
  once : ∀ (b : Nat) (B : BlockView), v.blocks[b]? = some B → B.begun ≤ 1 ∧ B.terminators.length ≤ B.begun
  cur : ∀ (c : Nat), v.cur = some c → ∃ B : BlockView, v.blocks[c]? = some B ∧ B.begun = 1 ∧ B.terminators = []
  open_cur : ∀ (b : Nat) (B : BlockView), v.blocks[b]? = some B → B.begun = 1 → B.terminators = [] → v.cur = some b
  pend_lt : ∀ (i : Nat) (P : Nat × Option Nat), v.pend[i]? = some P → P.1 < v.blocks.length
  pend_inj : ∀ (i j : Nat) (P Q : Nat × Option Nat), v.pend[i]? = some P → v.pend[j]? = some Q → P.1 = Q.1 → i = j
  pend_fresh : ∀ (i : Nat) (P : Nat × Option Nat), v.pend[i]? = some P → (P.2 = none ∨ i ∈ v.queue) →
    ∃ B : BlockView, v.blocks[P.1]? = some B ∧ B.begun = 0
  queue_fixed : ∀ i ∈ v.queue, ∃ P : Nat × Option Nat, v.pend[i]? = some P ∧ P.2.isSome = true
  queue_nodup : v.queue.Nodup

/-- How a traversal may change the view: blocks are only added; an existing block keeps
its phi arity and is not begun; an existing block other than the current one keeps its
terminators and does not become current; the entry block of every pending block is that
of an earlier pending block or a new block. -/
structure View.Ext (v w : View) : Prop where
  length : v.blocks.length ≤ w.blocks.length
  block : ∀ (b : Nat) (B : BlockView), v.blocks[b]? = some B →
    ∃ B' : BlockView, w.blocks[b]? = some B' ∧ B'.begun = B.begun ∧
    B'.arguments = B.arguments ∧ (v.cur ≠ some b → B'.terminators = B.terminators)
  cur : ∀ b, b < v.blocks.length → v.cur ≠ some b → w.cur ≠ some b
  pend : ∀ P ∈ w.pend, (∃ Q ∈ v.pend, Q.1 = P.1) ∨ v.blocks.length ≤ P.1

/-- What every rule needs to know of the traversal it calls on sub-expressions: it never
clears a log, it restores the continuation, and from a state that obeys the terminator
discipline and has a current block a sound run leads to such a state again, in which
there is a current block unless the node was in tail position under a continuation, in
which case there is none. -/
structure TravOK (trav : Trav) : Prop where
  sound : ∀ e k s, (trav e k s).2.sound → s.sound
  cont : ∀ e k s, (trav e k s).2.scope.Cont = s.scope.Cont
  wf : ∀ e k s, (trav e k s).2.sound → s.view.WF → s.currentBB.isSome = true →
    (trav e k s).2.view.WF ∧ s.view.Ext (trav e k s).2.view ∧
    (if k = .TRV_Tail ∧ s.scope.Cont.isSome = true then (trav e k s).2.currentBB = none
      else (trav e k s).2.currentBB.isSome = true)

/-- A quiet step from `s` to `t`: no log is cleared, and if the run is sound and `s` obeys
the terminator discipline with a block open, so does `t`, whose view extends that of
`s`. -/
structure Quiet (s t : St) : Prop where
  sound : t.sound → s.sound
  wf : t.sound → s.view.WF → s.currentBB.isSome = true →
    t.view.WF ∧ s.view.Ext t.view ∧ t.currentBB.isSome = true

/-- A step from `s` to `t` that may close the open block, but only under a continuation
of `s`. -/
structure Closing (s t : St) : Prop where
  sound : t.sound → s.sound
  wf : t.sound → s.view.WF → s.currentBB.isSome = true →
    t.view.WF ∧ s.view.Ext t.view ∧ (t.currentBB = none → s.scope.Cont.isSome = true)

/-- A block is reserved when it is allocated with `n` phi parameters, not yet begun, and
not the entry block of any pending block: it waits for the rule that allocated it. -/
def View.Reserved (v : View) (b n : Nat) : Prop :=
  (∃ B : BlockView, v.blocks[b]? = some B ∧ B.begun = 0 ∧ B.arguments = n) ∧
    ∀ P ∈ v.pend, P.1 ≠ b

/-- A phi parameter of type `int8`, used as an operand that is no literal. -/
def int8Phi (i : Nat) : TypedCopyAttr := TypedCopyAttr.ofExp (.Phi BaseType.int8 0 i)

/-! ## The lowering stage: type tags (`backend/jagger/fromtil.cpp`) -/

/-- Modelled from the spec: the type tag `wax::Type` of the lowering stage is declared
outside the sources at hand; this is its kind, one of the fixed set of type tags. -/
inductive WaxKind where
  | VOID | BOOLEAN | INTEGER | UNSIGNED | FLOAT | ADDRESS
  deriving DecidableEq, Repr

/-- The size of a `wax::Type`. -/
inductive WaxSize where
  | BYTE | SHORT | WORD | LONG
  deriving DecidableEq, Repr

/-- The vector width of a `wax::Type`. -/
inductive WaxCount where
  | SCALAR | VEC2 | VEC3 | VEC4
  deriving DecidableEq, Repr

/-- The value `wax::Type(kind, size, count)`. -/
structure WaxType where
  kind : WaxKind
  size : WaxSize
  count : WaxCount
  deriving DecidableEq, Repr

/-- How a function of the lowering stage fails: by a call of `error(..)`, which rejects
the input with a message, or by a failing `assert`. -/
inductive Failure where
  | reported (msg : String)
  | assertion (text : String)
  deriving DecidableEq, Repr

/-- The function `translateType(type)`: the three switches on the base kind, the size
and the vector size, in the order of the source, each with its assertions. -/
def translateType (type : BaseType) : Except Failure WaxType := do
  let kind ← match type.Base with
    | .BT_Void =>
      if type.Size = .ST_0 then pure WaxKind.VOID
      else throw (Failure.assertion "type.Size == ohmu::til::BaseType::ST_0")
    | .BT_Bool =>
      if type.Size = .ST_1 then pure WaxKind.BOOLEAN
      else throw (Failure.assertion "type.Size == ohmu::til::BaseType::ST_1")
    | .BT_Int => pure WaxKind.INTEGER
    | .BT_UnsignedInt => pure WaxKind.UNSIGNED
    | .BT_Float => pure WaxKind.FLOAT
    | .BT_String => pure WaxKind.ADDRESS
    | .BT_Pointer => pure WaxKind.ADDRESS
  let size ← match type.Size with
    | .ST_0 =>
      if type.Base = .BT_Void then pure WaxSize.BYTE
      else throw (Failure.assertion "type.Base == ohmu::til::BaseType::BT_Void")
    | .ST_1 =>
      if type.Base = .BT_Bool then pure WaxSize.BYTE
      else throw (Failure.assertion "type.Base == ohmu::til::BaseType::BT_Bool")
    | .ST_8 => pure WaxSize.BYTE
    | .ST_16 => pure WaxSize.SHORT
    | .ST_32 => pure WaxSize.WORD
    | .ST_64 => pure WaxSize.LONG
    | .ST_128 => throw (Failure.reported "Back-end doesn't support 128-bit types.")
  let count ← match type.VectSize with
    | 0 | 1 => pure WaxCount.SCALAR
    | 2 => pure WaxCount.VEC2
    | 3 => pure WaxCount.VEC3
    | 4 => pure WaxCount.VEC4
    | _ => throw (Failure.reported "Unsupported vector size.")
  pure ⟨kind, size, count⟩

/-! ## The lowering stage: the literal pool -/

/-- The call `std::sort(literals.begin(), literals.end())` on an array of pointers; a
pointer is represented by its address. -/
def sortLiterals (literals : List Nat) : List Nat := literals.insertionSort (· ≤ ·)

/-- The first loop of `buildLiteralsArray` after sorting: `uniqueSize` starts at 1 and is
incremented for every `i` from 1 to the size at which `literals[i] != literals[i - 1]`. -/
def uniqueSize (literals : List Nat) : Nat :=
  (List.range' 1 (literals.length - 1)).foldl
    (fun u i => if literals.getD i 0 ≠ literals.getD (i - 1) 0 then u + 1 else u) 1

/-- The second loop of `buildLiteralsArray`: `swap[0] = literals[0]`, and for every `i`
from 1 to the size at which `literals[i] != literals[i - 1]` the entry `literals[i]` is
stored at `swap[j++]`.  The result is the array `swap` and the final `j`. -/
def fillSwap (literals : List Nat) (swap : List Nat) : List Nat × Nat :=
  (List.range' 1 (literals.length - 1)).foldl
    (fun (r : List Nat × Nat) i =>
      if literals.getD i 0 ≠ literals.getD (i - 1) 0 then (r.1.set r.2 (literals.getD i 0), r.2 + 1)
      else r)
    (swap.set 0 (literals.getD 0 0), 1)

/-- The function `ModuleBuilder::buildLiteralsArray`, from the collected array of literal
references to the array `literals` it leaves: nothing is done when no literal was
collected; otherwise the array is sorted and its distinct entries are moved to a new
array of `uniqueSize` entries. -/
def buildLiteralsArray (collected : List Nat) : List Nat :=
  if collected.length = 0 then collected
  else
    let literals := sortLiterals collected
    let swap := List.replicate (uniqueSize literals) 0
    (fillSwap literals swap).1

/-- The distinct entries met by the loops of `buildLiteralsArray` up to the index `k`:
the entry 0, and every entry up to `k` that differs from the entry before it. -/
def distinctUpTo (literals : List Nat) : Nat → List Nat
  | 0 => [literals.getD 0 0]
  | k + 1 =>
    if literals.getD (k + 1) 0 ≠ literals.getD k 0 then
      distinctUpTo literals k ++ [literals.getD (k + 1) 0]
    else distinctUpTo literals k

/-! ## Variable contexts (`til/CFGReducer.h`) -/

/-- The class `VarContext`: the vector `vars_` of pointers to binder declarations; a
pointer to a declaration is represented by its address. -/
structure VarContext where
  vars_ : List Nat
  deriving DecidableEq, Repr

namespace VarContext

/-- The accessor `size()`. -/
def size (c : VarContext) : Nat := c.vars_.length

/-- Reading `operator[](i)`, the entry `vars_[size()-1-i]`; `none` when the assertion
`i < size()` fails. -/
def get (c : VarContext) (i : Nat) : Option Nat :=
  if i < c.size then c.vars_[c.size - 1 - i]? else none

/-- Assignment through `operator[](i)`; `none` when the assertion `i < size()` fails. -/
def assign (c : VarContext) (i : Nat) (vd : Nat) : Option VarContext :=
  if i < c.size then some ⟨c.vars_.set (c.size - 1 - i) vd⟩ else none

/-- The call `push(vd)`. -/
def push (c : VarContext) (vd : Nat) : VarContext := ⟨c.vars_ ++ [vd]⟩

/-- The call `pop()`; `none` on an empty vector, where `pop_back` is undefined. -/
def pop (c : VarContext) : Option VarContext :=
  if c.vars_ = [] then none else some ⟨c.vars_.dropLast⟩

/-- The accessor `back()`. -/
def back (c : VarContext) : Option Nat := c.vars_.getLast?

/-- The copy constructor `VarContext(const VarContext& ctx) : vars_(ctx.vars_)`. -/
def copy (ctx : VarContext) : VarContext := ⟨ctx.vars_⟩

end VarContext

/-- The objects of class `VarContext` that are alive; a `VarContext*` is an index into
this list. -/
abbrev CtxStore := List VarContext

namespace CtxStore

/-- The call `p->clone()`, `new VarContext(*this)`: a new object, built by the copy
constructor, and the pointer to it; `none` if `p` points to no object. -/
def clone (st : CtxStore) (p : Nat) : Option (Nat × CtxStore) :=
  st[p]?.map (fun c => (st.length, st ++ [c.copy]))

/-- The call `p->push(vd)`. -/
def push (st : CtxStore) (p : Nat) (vd : Nat) : Option CtxStore :=
  st[p]?.map (fun c => st.set p (c.push vd))

/-- The call `p->pop()`. -/
def pop (st : CtxStore) (p : Nat) : Option CtxStore :=
  (st[p]?.bind VarContext.pop).map (fun c => st.set p c)

/-- The assignment `(*p)[i] = vd`. -/
def assign (st : CtxStore) (p : Nat) (i : Nat) (vd : Nat) : Option CtxStore :=
  (st[p]?.bind (fun c => c.assign i vd)).map (fun c => st.set p c)

/-- The bindings held by the object at `p`, on which every lookup in it depends. -/
def vars (st : CtxStore) (p : Nat) : Option (List Nat) := st[p]?.map (·.vars_)

/-- The lookup `(*p)[i]`. -/
def get (st : CtxStore) (p : Nat) (i : Nat) : Option Nat := st[p]?.bind (fun c => c.get i)

end CtxStore

/-! ## Scopes used to state the properties of identifiers and nested code -/

/-- A state whose scope has one binder, a let of `x` bound to the literal 3. -/
def identifierDemoState : St :=
  { St.init with
    scope := St.init.scope.enterScope ⟨.VK_Let, "x", 1, none⟩
      (TypedCopyAttr.ofExp (.Literal BaseType.int32 3)) }

/-- A state whose scope has three binders: a let of `x` bound to the literal 3, inside it
a let of `x` bound to the literal 4 and, innermost, a let of `y` bound to the literal 5. -/
def shadowDemoState : St :=
  { St.init with
    scope := ((St.init.scope.enterScope ⟨.VK_Let, "x", 1, none⟩
      (reduceLiteral (.Literal BaseType.int32 3) St.init).1).enterScope ⟨.VK_Let, "x", 2, none⟩
      (reduceLiteral (.Literal BaseType.int32 4) St.init).1).enterScope ⟨.VK_Let, "y", 3, none⟩
      (reduceLiteral (.Literal BaseType.int32 5) St.init).1 }

/-- The self-variable of a self-function whose record has the final slot `a`, defined as
the literal 7, and the slot `b`, not final, defined as the literal 8. -/
def selfDemoVar : SExpr :=
  .Variable BaseType.pointer .VK_SFun "self" 1
    (.Function .VK_SFun "self" 1 (.ScalarType BaseType.void)
      (.Record (.Slot "a" true (.Literal BaseType.int32 7)
        (.Slot "b" false (.Literal BaseType.int32 8) .NoSlot))))

/-- A state whose scope has one binder, the self-variable `selfDemoVar`. -/
def selfDemoState : St :=
  { St.init with
    scope := St.init.scope.enterScope ⟨.VK_SFun, "self", 1, none⟩
      (TypedCopyAttr.ofExp selfDemoVar) }

/-- A state inside the body of a self-function within a graph: the entry block is open,
the one binder in scope is the self-variable `selfDemoVar`, introduced since the enclosing
nested function. -/
def selfNestedState : St :=
  { (enterCFG St.init) with
    scope := (enterCFG St.init).scope.enterScope ⟨.VK_SFun, "self", 1, none⟩
      (TypedCopyAttr.ofExp selfDemoVar),
    deBruinIndex := 2 }

/-- A state inside the body of a function of one parameter `n` within a graph: the entry
block is open and the parameter was introduced since the enclosing nested function. -/
def paramNestedState : St :=
  { (enterCFG St.init) with
    scope := (enterCFG St.init).scope.enterScope ⟨.VK_Fun, "n", 1, none⟩
      (TypedCopyAttr.ofExp
        (.Variable BaseType.int32 .VK_Fun "n" 1 (.ScalarType BaseType.int32))),
    deBruinIndex := 2 }

/-! ## The life of a pending block -/

/-- The part of the state that belongs to the pending blocks: their list, their queue and
their index. -/
def St.pending (s : St) : List PendingBlock × List Nat × List (Nat × Nat) :=
  (s.PendingBlks, s.PendingBlockQueue, s.CodeMap)

/-- How a traversal may change the pending blocks, from the list, queue and index `a` to
`b`.  The queue loses no entry; a pending block keeps its body and its entry block, and it
keeps its continuation unless that was unset and is now set, in which case the pending
block is on the queue; a new pending block has no continuation or is on the queue; the
index loses no entry. -/
structure PMono (a b : List PendingBlock × List Nat × List (Nat × Nat)) : Prop where
  queue : ∀ i ∈ a.2.1, i ∈ b.2.1
  pend : ∀ (i : Nat) (P : PendingBlock), a.1[i]? = some P →
    ∃ P' : PendingBlock, b.1[i]? = some P' ∧ P'.Block = P.Block ∧ P'.Exp = P.Exp ∧
      (P'.Cont = P.Cont ∨ (P.Cont = none ∧ P'.Cont.isSome = true ∧ i ∈ b.2.1))
  fresh : ∀ (i : Nat) (P' : PendingBlock), b.1[i]? = some P' → a.1[i]? = none →
    P'.Cont = none ∨ i ∈ b.2.1
  codeMap : a.2.2 <+: b.2.2

/-- The change of the pending blocks from the state `s` to the state `t` is one that a
traversal may make. -/
def Mono (s t : St) : Prop := PMono s.pending t.pending

/-- A traversal changes the pending blocks in the way of `PMono`, from whatever they were
before. -/
def TravMono (trav : Trav) : Prop :=
  ∀ (e : SExpr) (k : TraversalKind) (s : St) (a : List PendingBlock × List Nat × List (Nat × Nat)),
    PMono a s.pending → PMono a (trav e k s).2.pending

/-- A pending block whose continuation is fixed waits in the queue or has had its entry
block begun. -/
def St.Done (s : St) : Prop :=
  ∀ (i : Nat) (P : PendingBlock), s.PendingBlks[i]? = some P → P.Cont.isSome = true →
    i ∈ s.PendingBlockQueue ∨ ∃ B : BasicBlock, s.blocks[P.Block]? = some B ∧ B.begun = 1

/-- The loop of `processPendingBlocks()`, up to `PendingBlks.clear()`: whether the queue
was drained, and the state then. -/
def drainPendingBlocks (R : TypeRules) : Nat → St → Bool × St
  | 0, s =>
    match s.PendingBlockQueue with
    | [] => (true, s)
    | _ :: _ => (false, { s with fuelOut := true })
  | n + 1, s =>
    match s.PendingBlockQueue with
    | [] => (true, s)
    | i :: q =>
      let s := { s with PendingBlockQueue := q }
      match s.PendingBlks[i]? with
      | none => (false, s.assertFail "dangling pending block")
      | some Pb =>
        let s := s.beginBlock Pb.Block
        let (S, s) := s.switchScope (Pb.Scope.setCurrentContinuation Pb.Cont)
        let s := match Pb.Exp with
          | some body => (traverse R n body .TRV_Tail s).2
          | none => s.assertFail "null body"
        let s := s.restoreScope S
        drainPendingBlocks R n s

/-! ## The lowering stage: the layout of the arrays (`backend/jagger/fromtil.cpp`) -/

/-- The value of an expression of type `uint`: the natural number modulo `2 ^ 32`. -/
def uint (n : Nat) : Nat := n % 2 ^ 32

/-- Modelled from the spec: the record `Range` of the lowering stage is declared outside
the sources at hand; as the source uses it, it is a half-open range of indices with the
`uint` fields `first` and `bound`. -/
structure Range where
  first : Nat
  bound : Nat
  deriving DecidableEq, Repr

/-- What the lowering stage reads of a basic block of the middle tier: its instructions,
its terminator (null when the block was never terminated), and the sizes of its lists
of predecessors and successors. -/
structure TilBlock where
  instructions : List SExpr
  terminator : Option Terminator
  predecessors : Nat
  successors : Nat
  deriving DecidableEq, Repr

/-- The loop `for (auto& x : a.slice(1, -1)) x.bound += x.first = (&x)[-1].bound`, run
from an entry whose predecessor has the bound `prev`.  Modelled from the spec: `slice` is
declared outside the sources at hand; `slice(1, -1)` is taken as the entries from the
index 1 to the last one, which is what a layout by prefix sums needs. -/
def prefixSum (prev : Nat) : List Range → List Range
  | [] => []
  | x :: xs => ⟨prev, uint (x.bound + prev)⟩ :: prefixSum (uint (x.bound + prev)) xs

/-- The function `ModuleBuilder::buildFunctionArray`, the field `blocks` of every entry
of `functionArray`: the bound of an entry is set to the number of blocks of its graph,
the first entry starts at 0, and the loop over the other entries accumulates.  The
array is not empty, `walkTILGraph` having rejected a module without graph. -/
def buildFunctionArray (cfgs : List (List TilBlock)) : List Range :=
  match cfgs.map (fun cfg => (⟨0, uint cfg.length⟩ : Range)) with
  | [] => []
  | f0 :: rest => ⟨0, f0.bound⟩ :: prefixSum f0.bound rest

/-- The record `ModuleBuilder::BlockSidecar`.  The pointer `basicBlock` is the pair of the
index of a graph and the index at which the block list of that graph was read. -/
structure BlockSidecar where
  basicBlock : Nat × Int
  entryBlockID : Nat
  firstPredecessor : Nat
  firstSuccessor : Nat
  boundSuccessor : Nat
  literals : Range
  deriving DecidableEq, Repr

/-- The sidecar array under construction, and the log of the reads `cfg->blocks()[k]`
whose index `k` is outside the block list of the graph, each with the index of the graph;
a run is a run of the C++ program only as long as this log stays empty. -/
structure SidecarArray where
  sidecars : List BlockSidecar
  outOfRange : List (Nat × Int)
  deriving DecidableEq, Repr

/-- The read `cfg->blocks()[k]`. -/
def blockAt (cfg : List TilBlock) (k : Int) : Option TilBlock :=
  if 0 ≤ k then cfg[k.toNat]? else none

/-- The body of the inner loop of `buildBlockSidecarArray` for the sidecar at the global
index `g`: the block list of the graph is read at `&sidecar - (origin + entryBlockID)`. -/
def fillSidecar (f : Nat) (cfg : List TilBlock) (entryBlockID : Nat) (g : Nat)
    (sidecar : BlockSidecar) : BlockSidecar :=
  match blockAt cfg ((g : Int) - (entryBlockID : Int)) with
  | some basicBlock =>
    { sidecar with
      entryBlockID := entryBlockID
      basicBlock := (f, (g : Int) - (entryBlockID : Int))
      firstSuccessor := uint basicBlock.predecessors
      boundSuccessor := uint basicBlock.successors }
  | none =>
    { sidecar with
      entryBlockID := entryBlockID
      basicBlock := (f, (g : Int) - (entryBlockID : Int))
      firstSuccessor := 0
      boundSuccessor := 0 }

/-- One round of the outer loop of `buildBlockSidecarArray`, for the graph `f` whose
function starts at `entryBlockID`: the inner loop `for (auto& sidecar :
blockSidecarArray)` runs over the whole array. -/
def fillSidecars (f : Nat) (cfg : List TilBlock) (entryBlockID : Nat) (a : SidecarArray) :
    SidecarArray :=
  { sidecars := a.sidecars.enum.map (fun p => fillSidecar f cfg entryBlockID p.1 p.2)
    outOfRange := a.outOfRange ++
      ((List.range a.sidecars.length).filter
        (fun (g : Nat) => (blockAt cfg ((g : Int) - (entryBlockID : Int))).isNone)).map
        (fun (g : Nat) => (f, (g : Int) - (entryBlockID : Int))) }

/-- The outer loop of `buildBlockSidecarArray` from the graph of index `f` on: the
pointer `function` walks `functionArray` along with the graphs. -/
def fillAll : Nat → List (List TilBlock) → List Range → SidecarArray → SidecarArray
  | f, cfg :: cfgs, function :: functions, a =>
    fillAll (f + 1) cfgs functions (fillSidecars f cfg function.first a)
  | _, _, _, a => a

/-- The last loop of `buildBlockSidecarArray`, over `slice(1, -1)`:
`sidecar.boundSuccessor += sidecar.firstSuccessor += sidecar.firstPredecessor =
(&sidecar)[-1].boundSuccessor`. -/
def neighborRanges (prev : Nat) : List BlockSidecar → List BlockSidecar
  | [] => []
  | sidecar :: rest =>
    let firstSuccessor := uint (sidecar.firstSuccessor + prev)
    let boundSuccessor := uint (sidecar.boundSuccessor + firstSuccessor)
    { sidecar with
      firstPredecessor := prev
      firstSuccessor := firstSuccessor
      boundSuccessor := boundSuccessor } :: neighborRanges boundSuccessor rest

/-- An entry of a freshly allocated sidecar array. -/
def BlockSidecar.fresh : BlockSidecar := ⟨(0, 0), 0, 0, 0, 0, ⟨0, 0⟩⟩

/-- The function `ModuleBuilder::buildBlockSidecarArray`: the array has as many entries
as the last function's bound says; every graph fills it; then the ranges of the
neighbours are accumulated. -/
def buildBlockSidecarArray (cfgs : List (List TilBlock)) (functionArray : List Range) :
    SidecarArray :=
  let size := (functionArray.getLast?.map (fun fn => fn.bound)).getD 0
  let a := fillAll 0 cfgs functionArray ⟨List.replicate size BlockSidecar.fresh, []⟩
  match a.sidecars with
  | [] => a
  | s0 :: rest =>
    let bound0 := uint (s0.boundSuccessor + s0.firstSuccessor)
    { a with sidecars :=
        { s0 with firstPredecessor := 0, boundSuccessor := bound0 } ::
          neighborRanges bound0 rest }

/-! ## The lowering stage: counting and collecting the literals -/

/-- The count that one instruction adds in `countBlockLiterals`: nothing for a load, one
for every operand of a unary or binary operation that is a literal; any other
instruction is rejected. -/
def countInstrLiterals : SExpr → Except Failure Nat
  | .Load .. => pure 0
  | .UnaryOp _ _ e => pure (if e.isLiteral then 1 else 0)
  | .BinaryOp _ _ e0 e1 =>
    pure ((if e0.isLiteral then 1 else 0) + (if e1.isLiteral then 1 else 0))
  | _ => throw (Failure.reported "Unknown instruction type while counting literals.")

/-- The loop of `countBlockLiterals` over the instructions. -/
def countInstrsLiterals : List SExpr → Nat → Except Failure Nat
  | [], count => pure count
  | instr :: rest, count => do
    let c ← countInstrLiterals instr
    countInstrsLiterals rest (count + c)

/-- The operand of a terminator is read through its pointer: a null operand ends the
run. -/
def operandIsLiteral : Option SExpr → Except Failure Bool
  | some e => pure e.isLiteral
  | none => throw (Failure.assertion "null operand")

/-- The function `countBlockLiterals`.  The terminator of the model is a jump, a branch
or a return, so the default case of the switch on the terminator is never taken; a
block without terminator is read through a null pointer, which ends the run. -/
def countBlockLiterals (basicBlock : TilBlock) : Except Failure Nat := do
  let count ← countInstrsLiterals basicBlock.instructions 0
  match basicBlock.terminator with
  | none => throw (Failure.assertion "null terminator")
  | some (.Goto _ _) => pure count
  | some (.Branch cond _ _) =>
    let l ← operandIsLiteral cond
    pure (if l then count + 1 else count)
  | some (.Return value) =>
    let l ← operandIsLiteral value
    pure (if l then count + 1 else count)

/-- What one instruction stores through the cursor in `buildBlockLiteralsArray`: the
literals written so far are `literal`, the cursor being at their end. -/
def buildInstrLiterals (literal : List SExpr) : SExpr → Except Failure (List SExpr)
  | .Load .. => pure literal
  | .UnaryOp _ _ e => pure (if e.isLiteral then literal ++ [e] else literal)
  | .BinaryOp _ _ e0 e1 =>
    let literal := if e0.isLiteral then literal ++ [e0] else literal
    pure (if e1.isLiteral then literal ++ [e1] else literal)
  | _ => throw (Failure.reported "Unknown instruction type while building literals.")

/-- The loop of `buildBlockLiteralsArray` over the instructions. -/
def buildInstrsLiterals : List SExpr → List SExpr → Except Failure (List SExpr)
  | [], literal => pure literal
  | instr :: rest, literal => do
    let literal ← buildInstrLiterals literal instr
    buildInstrsLiterals rest literal

/-- The function `buildBlockLiteralsArray`: the output cursor `literal` is given by the
list of the literals stored before it, and the cursor returned by the list of the
literals stored before that one. -/
def buildBlockLiteralsArray (basicBlock : TilBlock) (literal : List SExpr) :
    Except Failure (List SExpr) := do
  let literal ← buildInstrsLiterals basicBlock.instructions literal
  match basicBlock.terminator with
  | none => throw (Failure.assertion "null terminator")
  | some (.Goto _ _) => pure literal
  | some (.Branch cond _ _) =>
    let l ← operandIsLiteral cond
    pure (if l then literal ++ [cond.getD .Undefined] else literal)
  | some (.Return value) =>
    let l ← operandIsLiteral value
    pure (if l then literal ++ [value.getD .Undefined] else literal)

/-- The first loop of `ModuleBuilder::countLiterals`: the count of every block, stored
in the `uint` field `literals.bound` of its sidecar. -/
def countAll : List TilBlock → Except Failure (List Range)
  | [] => pure []
  | basicBlock :: rest => do
    let count ← countBlockLiterals basicBlock
    let ranges ← countAll rest
    pure (⟨0, uint count⟩ :: ranges)

/-- The function `ModuleBuilder::countLiterals` on the basic blocks of the sidecars, in
the order of the sidecar array: the field `literals` of every sidecar. -/
def countLiterals (blocks : List TilBlock) : Except Failure (List Range) := do
  let ranges ← countAll blocks
  match ranges with
  | [] => pure []
  | r0 :: rest => pure (⟨0, r0.bound⟩ :: prefixSum r0.bound rest)

/-- The loop `for (auto& sidecar : blockSidecarArray) p = buildBlockLiteralsArray(..)`. -/
def buildAll : List TilBlock → List SExpr → Except Failure (List SExpr)
  | [], p => pure p
  | basicBlock :: rest, p => do
    let p ← buildBlockLiteralsArray basicBlock p
    buildAll rest p

/-- The first part of `ModuleBuilder::buildLiteralsArray`, up to its assertion: nothing
is collected when the last sidecar's bound is 0; otherwise an array of that size is
filled through the cursor, which must end at the end of the array.  The result is the
array of the literals collected and its size. -/
def collectLiterals (blocks : List TilBlock) (literals : List Range) :
    Except Failure (List SExpr × Nat) :=
  let size := (literals.getLast?.map (fun r => r.bound)).getD 0
  if size = 0 then pure ([], 0)
  else do
    let p ← buildAll blocks []
    if p.length = size then pure (p, size)
    else throw (Failure.assertion "p == this->literals.end() && \"We didn't find them all.\"")

/-! ## The lowering stage: the constant data -/

/-- Modelled from the spec: the record `wax::StaticData` is declared outside the sources
at hand; the source uses its range `bytes` and its `uint` field `alignment`. -/
structure StaticData where
  bytes : Range
  alignment : Nat
  deriving DecidableEq, Repr

/-- The switch on `literal->baseType().Size` in `buildLiteralsArray`. -/
def literalSize (bt : BaseType) : Except Failure Nat :=
  match bt.Size with
  | .ST_8 => pure 1
  | .ST_16 => pure 2
  | .ST_32 => pure 4
  | .ST_64 => pure 8
  | _ => throw (Failure.reported "Unsupported literal size.")

/-- The loop `literalEntries[i++].alignment = literalEntries[i].bytes.bound = size`: the
right operand of the assignment is evaluated first, so both fields are those of the
entry `i`. -/
def sizeEntries : List SExpr → Except Failure (List StaticData)
  | [] => pure []
  | literal :: rest => do
    let size ← literalSize literal.baseType
    let entries ← sizeEntries rest
    pure (⟨⟨0, size⟩, size⟩ :: entries)

/-- The expression `bound + (alignment - 1) & ~(alignment - 1)` on `uint` operands: the
sum binds tighter than the conjunction. -/
def alignUp (bound alignment : Nat) : Nat :=
  Nat.land (uint (bound + uint (alignment + (2 ^ 32 - 1))))
    (2 ^ 32 - 1 - uint (alignment + (2 ^ 32 - 1)))

/-- The loop `for (auto& entry : constDataEntries.slice(1, -1)) entry.bytes.bound +=
entry.bytes.first = (&entry)[-1].bytes.bound + (entry.alignment - 1) &
~(entry.alignment - 1)`, run from an entry whose predecessor has the bound `prev`. -/
def layoutEntries (prev : Nat) : List StaticData → List StaticData
  | [] => []
  | entry :: rest =>
    { entry with
      bytes := ⟨alignUp prev entry.alignment,
        uint (entry.bytes.bound + alignUp prev entry.alignment)⟩ } ::
      layoutEntries (uint (entry.bytes.bound + alignUp prev entry.alignment)) rest

/-- The layout part of `ModuleBuilder::buildLiteralsArray`, on the array `literals` left
by the deduplication: the array `constDataEntries` and the length of `constData`, which
is the bound of the last entry. -/
def buildConstDataEntries (literals : List SExpr) : Except Failure (List StaticData × Nat) := do
  let entries ← sizeEntries literals
  match entries with
  | [] => pure ([], 0)
  | e0 :: rest =>
    let entries := { e0 with bytes := ⟨0, e0.bytes.bound⟩ } :: layoutEntries e0.bytes.bound rest
    pure (entries, (entries.getLast?.map (fun e => e.bytes.bound)).getD 0)

/-- The value of a literal. -/
def SExpr.literalValue : SExpr → Int
  | .Literal _ v => v
  | _ => 0

/-- The bytes of `value` as an unsigned integer of `n` bytes, least significant first. -/
def bytesOf : Nat → Int → List Nat
  | 0, _ => []
  | n + 1, value => (value % 256).toNat :: bytesOf n (value / 256)

/-- The buffer `constData`, and the log of the bytes stored past its end, each with its
offset; a run is a run of the C++ program only as long as this log stays empty. -/
structure ConstData where
  data : List Nat
  outside : List (Nat × Nat)
  deriving DecidableEq, Repr

/-- The store of one byte at an offset from `data`. -/
def ConstData.storeByte (d : ConstData) (offset byte : Nat) : ConstData :=
  if offset < d.data.length then { d with data := d.data.set offset byte }
  else { d with outside := d.outside ++ [(offset, byte)] }

/-- The store of consecutive bytes from an offset on. -/
def ConstData.store (d : ConstData) : Nat → List Nat → ConstData
  | _, [] => d
  | offset, byte :: rest => (d.storeByte offset byte).store (offset + 1) rest

/-- The switch of the last loop of `buildLiteralsArray` for one literal, stored at the
offset `addr`.  The case `ST_8` has no `break`: after the byte of the value is stored,
control falls into the case `ST_16`, which stores the object read as an `ushort`, that
is the byte of the value followed by the byte `next` that follows it in the literal.
A size without case stores nothing. -/
def storeLiteral (next : Nat) (literal : SExpr) (addr : Nat) (d : ConstData) : ConstData :=
  match literal.baseType.Size with
  | .ST_8 =>
    (d.store addr (bytesOf 1 literal.literalValue)).store addr
      (bytesOf 1 literal.literalValue ++ [next])
  | .ST_16 => d.store addr (bytesOf 2 literal.literalValue)
  | .ST_32 => d.store addr (bytesOf 4 literal.literalValue)
  | .ST_64 => d.store addr (bytesOf 8 literal.literalValue)
  | _ => d

/-- The last loop of `buildLiteralsArray`: every literal is stored at the start of its
entry. -/
def storeLiterals (next : Nat) : List SExpr → List StaticData → ConstData → ConstData
  | literal :: literals, entry :: entries, d =>
    storeLiterals next literals entries (storeLiteral next literal entry.bytes.first d)
  | _, _, d => d

/-- The layout and the filling of the constant data by `buildLiteralsArray`: the entries
and the buffer, allocated with the length that the layout gave. -/
def buildConstData (next : Nat) (literals : List SExpr) :
    Except Failure (List StaticData × ConstData) := do
  let (entries, length) ← buildConstDataEntries literals
  pure (entries, storeLiterals next literals entries ⟨List.replicate length 0, []⟩)

/-- A basic block without instruction that returns a literal. -/
def returnBlock : TilBlock := ⟨[], some (.Return (some (.Literal BaseType.int32 1))), 0, 0⟩

/-- A basic block of `n` negations of a literal that ends in a jump. -/
def manyLiterals (n : Nat) : TilBlock :=
  ⟨List.replicate n (.UnaryOp BaseType.int32 .UOP_Negative (.Literal BaseType.int32 1)),
    some (.Goto 0 []), 0, 0⟩

/-- The number of literals of a block: the result of `countBlockLiterals` where it
succeeds. -/
def literalCount (basicBlock : TilBlock) : Nat :=
  match countBlockLiterals basicBlock with
  | .ok count => count
  | .error _ => 0

/-- The number of literals of all blocks, as a natural number. -/
def totalLiterals (blocks : List TilBlock) : Nat := (blocks.map literalCount).sum

/-- The size in bytes of a literal of 8, 16, 32 or 64 bits: 1, 2, 4 or 8. -/
def byteSize (literal : SExpr) : Nat :=
  match literal.baseType.Size with
  | .ST_8 => 1
  | .ST_16 => 2
  | .ST_32 => 4
  | .ST_64 => 8
  | _ => 0

/-- The smallest multiple of `alignment` that is not below `offset`, as a natural
number. -/
def roundUp (offset alignment : Nat) : Nat :=
  (offset + (alignment - 1)) / alignment * alignment

/-- The layout of the constant data as the specification of the lowering stage has it,
in natural numbers: after data that ends at `prev`, every entry starts at the smallest
multiple of its size not below the end of the entry before it, and is as long as its
size. -/
def layoutFrom (prev : Nat) : List Nat → List StaticData
  | [] => []
  | size :: rest =>
    ⟨⟨roundUp prev size, roundUp prev size + size⟩, size⟩ ::
      layoutFrom (roundUp prev size + size) rest

/-- The end of the layout in natural numbers. -/
def layoutEnd (prev : Nat) : List Nat → Nat
  | [] => prev
  | size :: rest => layoutEnd (roundUp prev size + size) rest

/-! ## Theorems -/

/-! ### Binary operations: folding and canonical comparisons -/

/-- Swapping the operands of `checkAndExtendTypes` swaps its result, unless a conversion
exists in both directions. -/
theorem checkAndExtendTypes_swap (R : TypeRules) (A B : SExpr)
    (hdir : (A.baseType = B.baseType ∧ R.promoteInteger A.baseType = false ∧
        R.promoteInteger B.baseType = false) ∨
      R.typeConvertable A.baseType B.baseType = .CAST_none ∨
      R.typeConvertable B.baseType A.baseType = .CAST_none) :
    checkAndExtendTypes R B A =
      ((checkAndExtendTypes R A B).1, (checkAndExtendTypes R A B).2.2,
        (checkAndExtendTypes R A B).2.1) := by
  unfold checkAndExtendTypes
  simp only [Bool.or_comm (R.promoteInteger B.baseType)]
  generalize A.baseType = x at *
  generalize B.baseType = y at *
  rcases hdir with ⟨h1, h2, h3⟩ | h | h
  · subst h1; simp [h2]
  · split_ifs <;> first | rfl | simp_all
  · split_ifs <;> first | rfl | simp_all

/-- An operand that is a literal after `checkAndExtendTypes` was one before. -/
theorem checkAndExtendTypes_isLiteral (R : TypeRules) (A B : SExpr) :
    ((checkAndExtendTypes R A B).2.1.isLiteral = true → A.isLiteral = true) ∧
    ((checkAndExtendTypes R A B).2.2.isLiteral = true → B.isLiteral = true) := by
  unfold checkAndExtendTypes
  dsimp only
  split_ifs <;> simp [SExpr.isLiteral]

/-- When the operands have equal base types that need no promotion, or no conversion
exists in either direction, `checkAndExtendTypes` leaves both operands as they are. -/
theorem checkAndExtendTypes_unchanged (R : TypeRules) (A B : SExpr)
    (h : (A.baseType = B.baseType ∧ R.promoteInteger A.baseType = false ∧
        R.promoteInteger B.baseType = false) ∨
      (R.typeConvertable A.baseType B.baseType = .CAST_none ∧
        R.typeConvertable B.baseType A.baseType = .CAST_none)) :
    (checkAndExtendTypes R A B).2 = (A, B) := by
  unfold checkAndExtendTypes
  rcases h with ⟨h1, h2, h3⟩ | ⟨h1, h2⟩
  · simp [h1, h2, h3]
  · dsimp only
    split_ifs <;> simp_all

/-- The rule `reduceBinaryOp` changes nothing of the state but the diagnostics and the
assertion log: no block is touched. -/
theorem reduceBinaryOp_blocks (R : TypeRules) (op : TIL_BinaryOpcode) (a0 a1 : TypedCopyAttr)
    (s : St) :
    (reduceBinaryOp R op a0 a1 s).2.blocks = s.blocks ∧
    (reduceBinaryOp R op a0 a1 s).2.currentBB = s.currentBB := by
  unfold reduceBinaryOp
  cases a0.Exp <;> cases a1.Exp <;> dsimp only [St.error, St.assertFail]
  all_goals (try split_ifs)
  all_goals first
    | exact ⟨rfl, rfl⟩
    | (cases op <;> dsimp only <;> exact ⟨rfl, rfl⟩)

/-- C2 (as stated, refuted): the `int32` literal 2 and the `int64` literal 3 are both
literals, yet `reduceBinaryOp` does not fold their sum: type reconciliation first wraps
the left operand in a widening cast, which is no literal, so the residual is a newly
created `BinaryOp` over a newly created `Cast` and not a literal. -/
theorem C2_mixed_literals_not_folded :
    (reduceLiteral (.Literal BaseType.int32 2) St.init).1.Exp
        = some (.Literal BaseType.int32 2) ∧
    (reduceLiteral (.Literal BaseType.int64 3) St.init).1.Exp
        = some (.Literal BaseType.int64 3) ∧
    (reduceBinaryOp widenRules .BOP_Add (reduceLiteral (.Literal BaseType.int32 2) St.init).1
        (reduceLiteral (.Literal BaseType.int64 3) St.init).1 St.init).1.Exp
      = some (.BinaryOp BaseType.int64 .BOP_Add
          (.Cast BaseType.int64 .CAST_extendNum (.Literal BaseType.int32 2))
          (.Literal BaseType.int64 3)) ∧
    (reduceBinaryOp widenRules .BOP_Add (reduceLiteral (.Literal BaseType.int32 2) St.init).1
        (reduceLiteral (.Literal BaseType.int64 3) St.init).1 St.init).1.Exp
      ≠ some (widenRules.evaluateBinaryOp .BOP_Add BaseType.int32
          (.Literal BaseType.int32 2) (.Literal BaseType.int64 3)) := by
  refine ⟨rfl, rfl, ?_, ?_⟩ <;> decide

/-- C2 (amended): for every binary opcode and every pair of operands that both reduce to
literals which type reconciliation leaves as they are (equal base types that need no
promotion, or no conversion in either direction), `reduceBinaryOp` creates no
instruction: its residual is the literal returned by `evaluateBinaryOp` on the two
literals (with relation `BT_Type` and no type expression), and no block is touched. -/
theorem C2_reduceBinaryOp_folds_literals (R : TypeRules) (op : TIL_BinaryOpcode)
    (bt0 bt1 : BaseType) (v0 v1 : Int) (a0 a1 : TypedCopyAttr) (s : St)
    (h0 : a0.Exp = some (.Literal bt0 v0)) (h1 : a1.Exp = some (.Literal bt1 v1))
    (h : (bt0 = bt1 ∧ R.promoteInteger bt0 = false ∧ R.promoteInteger bt1 = false) ∨
      (R.typeConvertable bt0 bt1 = .CAST_none ∧ R.typeConvertable bt1 bt0 = .CAST_none)) :
    (reduceBinaryOp R op a0 a1 s).1 =
        .mk (some (R.evaluateBinaryOp op bt0 (.Literal bt0 v0) (.Literal bt1 v1)))
          .BT_Type none 0 [] ∧
    (reduceBinaryOp R op a0 a1 s).2.blocks = s.blocks ∧
    (reduceBinaryOp R op a0 a1 s).2.currentBB = s.currentBB := by
  refine ⟨?_, reduceBinaryOp_blocks R op a0 a1 s⟩
  have hu := checkAndExtendTypes_unchanged R (.Literal bt0 v0) (.Literal bt1 v1) h
  unfold reduceBinaryOp
  rw [h0, h1]
  dsimp only
  rw [show checkAndExtendTypes R (.Literal bt0 v0) (.Literal bt1 v1) =
    ((checkAndExtendTypes R (.Literal bt0 v0) (.Literal bt1 v1)).1, .Literal bt0 v0,
      .Literal bt1 v1) from by rw [← hu]]
  simp [SExpr.isInstruction, SExpr.isLiteral, SExpr.baseType]

/-- C2 (witness): literal 2 + literal 3 folds to literal 5 and leaves the blocks alone. -/
theorem C2_reduceBinaryOp_folds_literals_witness :
    (reduceBinaryOp widenRules .BOP_Add (reduceLiteral (.Literal BaseType.int32 2) St.init).1
        (reduceLiteral (.Literal BaseType.int32 3) St.init).1 St.init).1 =
      .mk (some (.Literal BaseType.int32 5)) .BT_Type none 0 [] ∧
    (reduceBinaryOp widenRules .BOP_Add (reduceLiteral (.Literal BaseType.int32 2) St.init).1
        (reduceLiteral (.Literal BaseType.int32 3) St.init).1 St.init).2.blocks = St.init.blocks ∧
    (reduceBinaryOp widenRules .BOP_Add (reduceLiteral (.Literal BaseType.int32 2) St.init).1
        (reduceLiteral (.Literal BaseType.int32 3) St.init).1 St.init).2.currentBB
      = St.init.currentBB :=
  C2_reduceBinaryOp_folds_literals widenRules .BOP_Add BaseType.int32 BaseType.int32 2 3
    (reduceLiteral (.Literal BaseType.int32 2) St.init).1
    (reduceLiteral (.Literal BaseType.int32 3) St.init).1 St.init rfl rfl
    (Or.inl ⟨rfl, by decide, by decide⟩)

/-- C4 (as stated, refuted): for two operands of the same 8-bit integer type, which needs
promotion, a conversion exists in both directions and the cast goes to whichever operand
comes first: `a > b` yields `Lt(b, Cast a)` but `b < a` yields `Lt(Cast b, a)`. -/
theorem C4_casts_differ :
    (reduceBinaryOp widenRules .BOP_Gt (int8Phi 0) (int8Phi 1) St.init).1.Exp =
      some (.BinaryOp BaseType.bool .BOP_Lt (.Phi BaseType.int8 0 1)
        (.Cast BaseType.int8 .CAST_extendNum (.Phi BaseType.int8 0 0))) ∧
    (reduceBinaryOp widenRules .BOP_Lt (int8Phi 1) (int8Phi 0) St.init).1.Exp =
      some (.BinaryOp BaseType.bool .BOP_Lt
        (.Cast BaseType.int8 .CAST_extendNum (.Phi BaseType.int8 0 1))
        (.Phi BaseType.int8 0 0)) ∧
    (reduceBinaryOp widenRules .BOP_Gt (int8Phi 0) (int8Phi 1) St.init).1.Exp ≠
      (reduceBinaryOp widenRules .BOP_Lt (int8Phi 1) (int8Phi 0) St.init).1.Exp := by
  refine ⟨?_, ?_, ?_⟩ <;> decide

/-- An operand that is a literal after `checkAndExtendTypes` is the operand as it was. -/
theorem checkAndExtendTypes_literal_eq (R : TypeRules) (A B : SExpr) :
    ((checkAndExtendTypes R A B).2.1.isLiteral = true → (checkAndExtendTypes R A B).2.1 = A) ∧
    ((checkAndExtendTypes R A B).2.2.isLiteral = true → (checkAndExtendTypes R A B).2.2 = B) := by
  unfold checkAndExtendTypes
  dsimp only
  split_ifs <;> simp [SExpr.isLiteral]

/-- The residual of `reduceBinaryOp`, whatever the operands: the undefined value after an
error on the operands, the value of the constant folder on two literals, or a `BinaryOp`
whose opcode is neither greater nor greater-or-equal. -/
theorem reduceBinaryOp_residual (R : TypeRules) (op : TIL_BinaryOpcode) (a b : TypedCopyAttr)
    (s : St) :
    (reduceBinaryOp R op a b s).1.Exp = some .Undefined ∨
    (∃ L0 L1 : SExpr, L0.isLiteral = true ∧ L1.isLiteral = true ∧
      (reduceBinaryOp R op a b s).1.Exp = some (R.evaluateBinaryOp op L0.baseType L0 L1)) ∨
    (∃ bt o e0 e1, (reduceBinaryOp R op a b s).1.Exp = some (.BinaryOp bt o e0 e1) ∧
      o ≠ .BOP_Gt ∧ o ≠ .BOP_Geq) := by
  unfold reduceBinaryOp
  cases hA : a.Exp with
  | none => cases b.Exp <;> exact Or.inl rfl
  | some A =>
    cases hB : b.Exp with
    | none => exact Or.inl rfl
    | some B =>
      dsimp only
      by_cases hi : (!A.isInstruction || !B.isInstruction) = true
      · rw [if_pos hi]
        exact Or.inl rfl
      · rw [if_neg hi]
        by_cases hl : ((checkAndExtendTypes R A B).2.1.isLiteral &&
            (checkAndExtendTypes R A B).2.2.isLiteral) = true
        · rw [if_pos hl]
          rw [Bool.and_eq_true] at hl
          exact Or.inr (Or.inl ⟨_, _, hl.1, hl.2, rfl⟩)
        · rw [if_neg hl]
          refine Or.inr (Or.inr ?_)
          cases op <;>
            exact ⟨_, _, _, _, rfl, by decide, by decide⟩

/-- C4 (amended): `reduceBinaryOp` on `a > b` and on `b < a`, and on `a >= b` and on
`b <= a`.  For all operand residuals `A` and `B` between whose base types a conversion
does not exist in both directions (or whose equal base types need no promotion), the two
rules leave the same state, hence report the same diagnostics; unless both operands are
literals after the reconciliation of their types, they yield the same instruction, in
opcode, order of the operands, inserted cast and base type; and two such literals yield
no instruction but the values of the constant folder, called with the opcode and the
operands in the order of each side.  And for all operands, without any condition, the
residual of `reduceBinaryOp` is the undefined value, a folded value, or a `BinaryOp` that
carries neither the opcode greater nor greater-or-equal. -/
theorem C4_reduceBinaryOp_canonical (R : TypeRules) (a b : TypedCopyAttr) (s : St) :
    (∀ A B : SExpr, a.Exp = some A → b.Exp = some B →
      ((A.baseType = B.baseType ∧ R.promoteInteger A.baseType = false ∧
          R.promoteInteger B.baseType = false) ∨
        R.typeConvertable A.baseType B.baseType = .CAST_none ∨
        R.typeConvertable B.baseType A.baseType = .CAST_none) →
      (reduceBinaryOp R .BOP_Gt a b s).2 = (reduceBinaryOp R .BOP_Lt b a s).2 ∧
      (reduceBinaryOp R .BOP_Geq a b s).2 = (reduceBinaryOp R .BOP_Leq b a s).2 ∧
      (¬ ((checkAndExtendTypes R A B).2.1.isLiteral = true ∧
          (checkAndExtendTypes R A B).2.2.isLiteral = true) →
        reduceBinaryOp R .BOP_Gt a b s = reduceBinaryOp R .BOP_Lt b a s ∧
        reduceBinaryOp R .BOP_Geq a b s = reduceBinaryOp R .BOP_Leq b a s) ∧
      ((checkAndExtendTypes R A B).2.1.isLiteral = true ∧
          (checkAndExtendTypes R A B).2.2.isLiteral = true →
        (reduceBinaryOp R .BOP_Gt a b s).1 =
          .mk (some (R.evaluateBinaryOp .BOP_Gt A.baseType A B)) .BT_Type none 0 [] ∧
        (reduceBinaryOp R .BOP_Lt b a s).1 =
          .mk (some (R.evaluateBinaryOp .BOP_Lt B.baseType B A)) .BT_Type none 0 [] ∧
        (reduceBinaryOp R .BOP_Geq a b s).1 =
          .mk (some (R.evaluateBinaryOp .BOP_Geq A.baseType A B)) .BT_Type none 0 [] ∧
        (reduceBinaryOp R .BOP_Leq b a s).1 =
          .mk (some (R.evaluateBinaryOp .BOP_Leq B.baseType B A)) .BT_Type none 0 [])) ∧
    (∀ op : TIL_BinaryOpcode,
      (reduceBinaryOp R op a b s).1.Exp = some .Undefined ∨
      (∃ L0 L1 : SExpr, L0.isLiteral = true ∧ L1.isLiteral = true ∧
        (reduceBinaryOp R op a b s).1.Exp = some (R.evaluateBinaryOp op L0.baseType L0 L1)) ∨
      (∃ bt o e0 e1, (reduceBinaryOp R op a b s).1.Exp = some (.BinaryOp bt o e0 e1) ∧
        o ≠ .BOP_Gt ∧ o ≠ .BOP_Geq)) := by
  refine ⟨fun A B hA hB hdir => ?_, fun op => reduceBinaryOp_residual R op a b s⟩
  have hs := checkAndExtendTypes_swap R A B hdir
  obtain ⟨e1, e2⟩ := checkAndExtendTypes_literal_eq R A B
  have hcomm : ((checkAndExtendTypes R A B).2.2.isLiteral &&
      (checkAndExtendTypes R A B).2.1.isLiteral) =
      ((checkAndExtendTypes R A B).2.1.isLiteral &&
        (checkAndExtendTypes R A B).2.2.isLiteral) := Bool.and_comm _ _
  have hgen : ∀ (o1 o2 : TIL_BinaryOpcode),
      (o1 = .BOP_Gt ∧ o2 = .BOP_Lt) ∨ (o1 = .BOP_Geq ∧ o2 = .BOP_Leq) →
      (reduceBinaryOp R o1 a b s).2 = (reduceBinaryOp R o2 b a s).2 ∧
      (¬ ((checkAndExtendTypes R A B).2.1.isLiteral = true ∧
          (checkAndExtendTypes R A B).2.2.isLiteral = true) →
        reduceBinaryOp R o1 a b s = reduceBinaryOp R o2 b a s) ∧
      ((checkAndExtendTypes R A B).2.1.isLiteral = true ∧
          (checkAndExtendTypes R A B).2.2.isLiteral = true →
        (reduceBinaryOp R o1 a b s).1 =
          .mk (some (R.evaluateBinaryOp o1 A.baseType A B)) .BT_Type none 0 [] ∧
        (reduceBinaryOp R o2 b a s).1 =
          .mk (some (R.evaluateBinaryOp o2 B.baseType B A)) .BT_Type none 0 []) := by
    intro o1 o2 ho
    unfold reduceBinaryOp
    rw [hA, hB]
    dsimp only
    rw [hs, Bool.or_comm (!B.isInstruction)]
    dsimp only
    rw [hcomm]
    by_cases hi : (!A.isInstruction || !B.isInstruction) = true
    · simp only [hi, if_true]
      refine ⟨by first | rfl | trivial, fun _ => by first | rfl | trivial, fun hl => ?_⟩
      exfalso
      have h1 := e1 hl.1
      have h2 := e2 hl.2
      rw [h1] at hl
      rw [h2] at hl
      have ha : A.isInstruction = true := by
        cases A <;> simp_all [SExpr.isLiteral, SExpr.isInstruction]
      have hb : B.isInstruction = true := by
        cases B <;> simp_all [SExpr.isLiteral, SExpr.isInstruction]
      simp [ha, hb] at hi
    · simp only [hi]
      by_cases hl : ((checkAndExtendTypes R A B).2.1.isLiteral &&
          (checkAndExtendTypes R A B).2.2.isLiteral) = true
      · simp only [hl, if_true]
        have hl' := Bool.and_eq_true_iff.mp hl
        refine ⟨rfl, fun hn => absurd hl' hn, fun _ => ?_⟩
        rw [e1 hl'.1, e2 hl'.2]
        exact ⟨rfl, rfl⟩
      · simp only [hl]
        have hl' : ¬ ((checkAndExtendTypes R A B).2.1.isLiteral = true ∧
            (checkAndExtendTypes R A B).2.2.isLiteral = true) :=
          fun h => hl (Bool.and_eq_true_iff.mpr h)
        rcases ho with ⟨rfl, rfl⟩ | ⟨rfl, rfl⟩
        · exact ⟨rfl, fun _ => rfl, fun h => absurd h hl'⟩
        · exact ⟨rfl, fun _ => rfl, fun h => absurd h hl'⟩
  obtain ⟨g1, g2, g3⟩ := hgen .BOP_Gt .BOP_Lt (Or.inl ⟨rfl, rfl⟩)
  obtain ⟨k1, k2, k3⟩ := hgen .BOP_Geq .BOP_Leq (Or.inr ⟨rfl, rfl⟩)
  exact ⟨g1, k1, fun h => ⟨g2 h, k2 h⟩, fun h => ⟨(g3 h).1, (g3 h).2, (k3 h).1, (k3 h).2⟩⟩

/-- C4 (witness): an `int32` phi parameter compared with an `int64` one gives the same
instruction on both sides, and two `int32` literals are folded on both sides. -/
theorem C4_reduceBinaryOp_canonical_witness :
    reduceBinaryOp widenRules .BOP_Gt (TypedCopyAttr.ofExp (.Phi BaseType.int32 0 0))
        (TypedCopyAttr.ofExp (.Phi BaseType.int64 0 1)) St.init =
      reduceBinaryOp widenRules .BOP_Lt (TypedCopyAttr.ofExp (.Phi BaseType.int64 0 1))
        (TypedCopyAttr.ofExp (.Phi BaseType.int32 0 0)) St.init ∧
    reduceBinaryOp widenRules .BOP_Geq (TypedCopyAttr.ofExp (.Phi BaseType.int32 0 0))
        (TypedCopyAttr.ofExp (.Phi BaseType.int64 0 1)) St.init =
      reduceBinaryOp widenRules .BOP_Leq (TypedCopyAttr.ofExp (.Phi BaseType.int64 0 1))
        (TypedCopyAttr.ofExp (.Phi BaseType.int32 0 0)) St.init ∧
    (reduceBinaryOp widenRules .BOP_Gt (TypedCopyAttr.ofExp (.Phi BaseType.int32 0 0))
        (TypedCopyAttr.ofExp (.Phi BaseType.int64 0 1)) St.init).1.Exp =
      some (.BinaryOp BaseType.bool .BOP_Lt (.Phi BaseType.int64 0 1)
        (.Cast BaseType.int64 .CAST_extendNum (.Phi BaseType.int32 0 0))) :=
  ⟨(((C4_reduceBinaryOp_canonical widenRules (TypedCopyAttr.ofExp (.Phi BaseType.int32 0 0))
      (TypedCopyAttr.ofExp (.Phi BaseType.int64 0 1)) St.init).1
      (.Phi BaseType.int32 0 0) (.Phi BaseType.int64 0 1) rfl rfl
      (Or.inr (Or.inr (by decide)))).2.2.1 (by decide)).1,
    (((C4_reduceBinaryOp_canonical widenRules (TypedCopyAttr.ofExp (.Phi BaseType.int32 0 0))
      (TypedCopyAttr.ofExp (.Phi BaseType.int64 0 1)) St.init).1
      (.Phi BaseType.int32 0 0) (.Phi BaseType.int64 0 1) rfl rfl
      (Or.inr (Or.inr (by decide)))).2.2.1 (by decide)).2,
    by decide⟩

/-! ### Calls to nested functions -/

/-- C5: for every call whose callee is an indexed pending block that has no continuation
yet, if the current continuation of the caller is null then `reduceCall` reports "Call to
nested function must be a tail call.", yields an undefined residual and changes nothing
else: no call instruction and no goto is created, the continuation of the pending block
stays unset and the queue of pending blocks is unchanged. -/
theorem C5_reduceCall_non_tail (trav : Trav) (Ca : TypedCopyAttr) (C : SExpr) (i : Nat)
    (Pb : PendingBlock) (s : St)
    (hT : Ca.TypeExpr = some C) (hC : C.isCode = true) (hf : s.findCode C = some i)
    (hp : s.PendingBlks[i]? = some Pb) (hc : Pb.Cont = none)
    (hk : s.currentContinuation = none) :
    reduceCall trav Ca s =
      (TypedCopyAttr.null.setExp (some .Undefined),
        s.error "Call to nested function must be a tail call.") ∧
    (reduceCall trav Ca s).1.Exp = some .Undefined ∧
    (reduceCall trav Ca s).2.diag = s.diag ++ ["Call to nested function must be a tail call."] ∧
    (reduceCall trav Ca s).2.blocks = s.blocks ∧
    (reduceCall trav Ca s).2.currentBB = s.currentBB ∧
    (reduceCall trav Ca s).2.PendingBlks = s.PendingBlks ∧
    (reduceCall trav Ca s).2.PendingBlks[i]? = some Pb ∧
    (reduceCall trav Ca s).2.PendingBlockQueue = s.PendingBlockQueue := by
  have h : reduceCall trav Ca s =
      (TypedCopyAttr.null.setExp (some .Undefined),
        s.error "Call to nested function must be a tail call.") := by
    simp [reduceCall, reduceNestedCall, hT, hC, hf, hp, hc, hk]
  rw [h]
  exact ⟨rfl, rfl, rfl, rfl, rfl, rfl, hp, rfl⟩

/-- C5 (witness): the nested function of `nestedDemo`, called with a null continuation. -/
theorem C5_reduceCall_non_tail_witness :
    reduceCall (traverse widenRules 3) nestedDemo.1 (nestedDemo.2.setContinuation none) =
      (TypedCopyAttr.null.setExp (some .Undefined),
        (nestedDemo.2.setContinuation none).error
          "Call to nested function must be a tail call.") :=
  (C5_reduceCall_non_tail (traverse widenRules 3) nestedDemo.1
    (.CodeDecl 0 (.ScalarType BaseType.int32)) 0
    ⟨some (.Literal BaseType.int32 1), 2, none, ScopeCPS.ofNull 1⟩
    (nestedDemo.2.setContinuation none) rfl rfl rfl rfl rfl rfl).1

/-- C6: for every pending block whose continuation has been fixed to `c`, a later call to
it made while the current continuation of the caller differs from `c` (null included)
reports "Calls to nested function are not a valid CFG.", yields an undefined residual and
emits no goto: the state is otherwise unchanged. -/
theorem C6_reduceNestedCall_divergent (Ca Res : TypedCopyAttr) (C : SExpr) (i c : Nat)
    (Pb : PendingBlock) (s : St)
    (hf : s.findCode C = some i) (hp : s.PendingBlks[i]? = some Pb)
    (hc : Pb.Cont = some c) (hk : s.currentContinuation ≠ some c) :
    reduceNestedCall Ca Res C s =
      (true, Res.setExp (some .Undefined),
        s.error "Calls to nested function are not a valid CFG.") ∧
    (reduceNestedCall Ca Res C s).2.1.Exp = some .Undefined ∧
    (reduceNestedCall Ca Res C s).2.2.diag =
      s.diag ++ ["Calls to nested function are not a valid CFG."] ∧
    (reduceNestedCall Ca Res C s).2.2.blocks = s.blocks ∧
    (reduceNestedCall Ca Res C s).2.2.currentBB = s.currentBB ∧
    (reduceNestedCall Ca Res C s).2.2.invalid = s.invalid := by
  have h : reduceNestedCall Ca Res C s =
      (true, Res.setExp (some .Undefined),
        s.error "Calls to nested function are not a valid CFG.") := by
    have hk2 : ¬ (some c = s.currentContinuation) := fun e => hk e.symm
    simp [reduceNestedCall, hf, hp, hc, hk2]
  rw [h]
  refine ⟨rfl, ?_, rfl, rfl, rfl, rfl⟩
  cases Res; rfl

/-- C6 (witness): after a first tail call fixed the continuation to the exit block, a call
under a null continuation is rejected. -/
theorem C6_reduceNestedCall_divergent_witness :
    reduceNestedCall nestedDemo.1 TypedCopyAttr.null (.CodeDecl 0 (.ScalarType BaseType.int32))
        (nestedCalled.2.setContinuation none) =
      (true, TypedCopyAttr.null.setExp (some .Undefined),
        (nestedCalled.2.setContinuation none).error
          "Calls to nested function are not a valid CFG.") :=
  (C6_reduceNestedCall_divergent nestedDemo.1 TypedCopyAttr.null
    (.CodeDecl 0 (.ScalarType BaseType.int32)) 0 1
    ⟨some (.Literal BaseType.int32 1), 2, some 1, ScopeCPS.ofNull 1⟩
    (nestedCalled.2.setContinuation none) rfl rfl rfl (by decide)).1

/-- The tail of `reduceNestedCall` leaves the pending blocks and their queue alone. -/
theorem nestedCallGoto_pending (Ca Res : TypedCopyAttr) (Pb : PendingBlock) (s : St) :
    (nestedCallGoto Ca Res Pb s).2.2.PendingBlks = s.PendingBlks ∧
    (nestedCallGoto Ca Res Pb s).2.2.PendingBlockQueue = s.PendingBlockQueue ∧
    (nestedCallGoto Ca Res Pb s).2.2.scope = s.scope := by
  unfold nestedCallGoto
  split_ifs <;> simp [St.error, St.assertFail, St.newGoto, St.finishBlock] <;>
    (cases s.currentBB <;> simp)

/-- One invocation of `reduceNestedCall` never changes a continuation that is set, and
never changes the entry block of a pending block. -/
theorem reduceNestedCall_cont_stable (Ca Res : TypedCopyAttr) (C : SExpr) (s : St) (j c : Nat)
    (P : PendingBlock) (hj : s.PendingBlks[j]? = some P) (hc : P.Cont = some c) :
    ∃ P', (reduceNestedCall Ca Res C s).2.2.PendingBlks[j]? = some P' ∧ P'.Cont = some c ∧
      P'.Block = P.Block := by
  unfold reduceNestedCall
  cases hf : s.findCode C with
  | none => exact ⟨P, hj, hc, rfl⟩
  | some i =>
    dsimp only
    cases hp : s.PendingBlks[i]? with
    | none => exact ⟨P, hj, hc, rfl⟩
    | some Pb =>
      dsimp only
      cases hpc : Pb.Cont with
      | none =>
        dsimp only
        cases hk : s.currentContinuation with
        | none => exact ⟨P, hj, hc, rfl⟩
        | some k =>
          dsimp only
          rw [(nestedCallGoto_pending _ _ _ _).1]
          have hne : i ≠ j := by
            intro e; subst e
            rw [hp] at hj
            cases hj
            rw [hpc] at hc
            cases hc
          refine ⟨P, ?_, hc, rfl⟩
          simp [List.getElem?_set, hne, hj]
      | some k =>
        dsimp only
        split_ifs
        · exact ⟨P, hj, hc, rfl⟩
        · rw [(nestedCallGoto_pending _ _ _ _).1]
          exact ⟨P, hj, hc, rfl⟩

/-- The tail of `reduceNestedCall` changes the blocks only by a goto from the current
block; on the arity error it leaves them alone. -/
theorem nestedCallGoto_blocks (Ca Res : TypedCopyAttr) (Pb : PendingBlock) (s : St)
    (h : Ca.Subst.numSubstVars ≠ s.blocks[Pb.Block]?.elim 0 (·.arguments)) :
    (nestedCallGoto Ca Res Pb s).2.2.blocks = s.blocks := by
  unfold nestedCallGoto
  simp [h, St.error]

/-- A pending block without continuation either keeps none or receives the non-null
current continuation of the caller, and then it is the callee. -/
theorem reduceNestedCall_cont_first (Ca Res : TypedCopyAttr) (C : SExpr) (s : St) (j : Nat)
    (P : PendingBlock) (hj : s.PendingBlks[j]? = some P) (hc : P.Cont = none) :
    ∃ P', (reduceNestedCall Ca Res C s).2.2.PendingBlks[j]? = some P' ∧ P'.Block = P.Block ∧
      (P'.Cont = none ∨ (P'.Cont = s.currentContinuation ∧ s.currentContinuation.isSome = true ∧
        s.findCode C = some j)) := by
  unfold reduceNestedCall
  cases hf : s.findCode C with
  | none => exact ⟨P, hj, rfl, Or.inl hc⟩
  | some i =>
    dsimp only
    cases hp : s.PendingBlks[i]? with
    | none => exact ⟨P, hj, rfl, Or.inl hc⟩
    | some Pb =>
      dsimp only
      cases hpc : Pb.Cont with
      | none =>
        dsimp only
        cases hk : s.currentContinuation with
        | none => exact ⟨P, hj, rfl, Or.inl hc⟩
        | some k =>
          dsimp only
          rw [(nestedCallGoto_pending _ _ _ _).1]
          by_cases hij : i = j
          · subst hij
            rw [hp] at hj
            cases hj
            have hlt : i < s.PendingBlks.length := by
              by_contra hge
              rw [List.getElem?_eq_none (by omega)] at hp
              cases hp
            exact ⟨{ P with Cont := some k }, by simp [List.getElem?_set, hlt], rfl,
              Or.inr ⟨rfl, rfl, rfl⟩⟩
          · exact ⟨P, by simp [List.getElem?_set, hij, hj], rfl, Or.inl hc⟩
      | some k =>
        dsimp only
        split_ifs
        · exact ⟨P, hj, rfl, Or.inl hc⟩
        · rw [(nestedCallGoto_pending _ _ _ _).1]
          exact ⟨P, hj, rfl, Or.inl hc⟩

/-- A call to a pending block whose continuation is fixed changes the blocks only if it
is made under that very continuation. -/
theorem reduceNestedCall_goto_same_cont (Ca Res : TypedCopyAttr) (C : SExpr) (s : St)
    (j c : Nat) (P : PendingBlock) (hf : s.findCode C = some j)
    (hj : s.PendingBlks[j]? = some P) (hc : P.Cont = some c)
    (hg : (reduceNestedCall Ca Res C s).2.2.blocks ≠ s.blocks) :
    s.currentContinuation = some c := by
  by_contra hk
  apply hg
  have hk2 : ¬ (some c = s.currentContinuation) := fun e => hk e.symm
  simp [reduceNestedCall, hf, hj, hc, hk2, St.error]

/-- A sequence of invocations never changes a continuation that is set. -/
theorem runNestedCalls_cont_stable (evs : List NestedCallEvent) (s : St) (j c : Nat)
    (P : PendingBlock) (hj : s.PendingBlks[j]? = some P) (hc : P.Cont = some c) :
    ∃ P', (runNestedCalls evs s).PendingBlks[j]? = some P' ∧ P'.Cont = some c ∧
      P'.Block = P.Block := by
  induction evs generalizing s P with
  | nil => exact ⟨P, hj, hc, rfl⟩
  | cons ev evs ih =>
    unfold runNestedCalls
    obtain ⟨P1, h1, h2, h3⟩ := reduceNestedCall_cont_stable ev.Ca TypedCopyAttr.null ev.C
      { (s.setContinuation ev.cont) with currentBB := ev.currentBB } j c P hj hc
    obtain ⟨P2, h4, h5, h6⟩ := ih _ P1 h1 h2
    exact ⟨P2, h4, h5, h6.trans h3⟩

/-- C7 (invariant I3): across any sequence of `reduceNestedCall` invocations, whatever
continuation and current block are in force at each of them, (1) a continuation of a
pending block that is set is never reassigned, and its entry block never changes;
(2) a continuation that is unset either stays unset or becomes the non-null current
continuation of the caller, and this only for the callee; (3) a call to a pending block
with a set continuation that emits a goto was made under that identical continuation. -/
theorem C7_continuation_fixed_once :
    (∀ (evs : List NestedCallEvent) (s : St) (j c : Nat) (P : PendingBlock),
      s.PendingBlks[j]? = some P → P.Cont = some c →
      ∃ P', (runNestedCalls evs s).PendingBlks[j]? = some P' ∧ P'.Cont = some c ∧
        P'.Block = P.Block) ∧
    (∀ (Ca Res : TypedCopyAttr) (C : SExpr) (s : St) (j : Nat) (P : PendingBlock),
      s.PendingBlks[j]? = some P → P.Cont = none →
      ∃ P', (reduceNestedCall Ca Res C s).2.2.PendingBlks[j]? = some P' ∧ P'.Block = P.Block ∧
        (P'.Cont = none ∨ (P'.Cont = s.currentContinuation ∧
          s.currentContinuation.isSome = true ∧ s.findCode C = some j))) ∧
    (∀ (Ca Res : TypedCopyAttr) (C : SExpr) (s : St) (j c : Nat) (P : PendingBlock),
      s.findCode C = some j → s.PendingBlks[j]? = some P → P.Cont = some c →
      (reduceNestedCall Ca Res C s).2.2.blocks ≠ s.blocks → s.currentContinuation = some c) :=
  ⟨runNestedCalls_cont_stable, reduceNestedCall_cont_first, reduceNestedCall_goto_same_cont⟩

/-- C7 (witness): after the first tail call of `nestedCalled` fixed the continuation of the
pending block to the exit block, two further calls, one under a null continuation and
one under the entry block as continuation, leave it fixed to the exit block. -/
theorem C7_continuation_fixed_once_witness :
    ∃ P', (runNestedCalls
        [⟨nestedDemo.1, .CodeDecl 0 (.ScalarType BaseType.int32), none, some 0⟩,
         ⟨nestedDemo.1, .CodeDecl 0 (.ScalarType BaseType.int32), some 0, some 0⟩]
        nestedCalled.2).PendingBlks[0]? = some P' ∧ P'.Cont = some 1 ∧ P'.Block = 2 :=
  C7_continuation_fixed_once.1
    [⟨nestedDemo.1, .CodeDecl 0 (.ScalarType BaseType.int32), none, some 0⟩,
     ⟨nestedDemo.1, .CodeDecl 0 (.ScalarType BaseType.int32), some 0, some 0⟩]
    nestedCalled.2 0 1 ⟨some (.Literal BaseType.int32 1), 2, some 1, ScopeCPS.ofNull 1⟩ rfl rfl

/-- Reading back the residual that was just assigned. -/
theorem TypedCopyAttr.Exp_setExp (At : TypedCopyAttr) (e : Option SExpr) :
    (At.setExp e).Exp = e := by
  cases At; rfl

/-- The argument passed for a substituted variable is a null placeholder for a function
and for a self-function variable, and the residual otherwise. -/
theorem nestedCallArg_eq (At : TypedCopyAttr) :
    nestedCallArg At = if isPlaceholderArg At.Exp then none else At.Exp := by
  unfold nestedCallArg isPlaceholderArg
  split <;> simp_all

/-- C8: whenever `reduceNestedCall` gets as far as the arity check (the callee is an
indexed pending block, and its continuation is either unset with a non-null current
continuation or equal to the current continuation): if the number of substituted
variables equals the phi arity of the block, the current block is terminated by a goto
to the block that carries exactly as many arguments as the block has phi parameters, the
`k`-th argument being the residual of the `k`-th substituted variable, or a null
placeholder when that residual is a function or a self-function variable; otherwise it
reports "Invalid number of arguments to function call.", yields an undefined residual
and emits no goto. -/
theorem C8_nested_call_arguments (Ca Res : TypedCopyAttr) (C : SExpr) (s : St) (i b : Nat)
    (Pb : PendingBlock) (B : BasicBlock)
    (hf : s.findCode C = some i) (hp : s.PendingBlks[i]? = some Pb)
    (hk : (Pb.Cont = none ∧ s.currentContinuation.isSome = true) ∨
      (Pb.Cont.isSome = true ∧ Pb.Cont = s.currentContinuation))
    (hb : s.currentBB = some b) (hB : s.blocks[b]? = some B) :
    (Ca.Subst.numSubstVars = s.blocks[Pb.Block]?.elim 0 (·.arguments) →
      (reduceNestedCall Ca Res C s).2.2.blocks[b]? =
        some { B with terminators :=
          (Terminator.Goto Pb.Block (Ca.Subst.varAttrs.map nestedCallArg)) :: B.terminators } ∧
      (reduceNestedCall Ca Res C s).2.2.currentBB = none ∧
      (Ca.Subst.varAttrs.map nestedCallArg).length = s.blocks[Pb.Block]?.elim 0 (·.arguments) ∧
      (∀ (k : Nat) (At : TypedCopyAttr), Ca.Subst.varAttrs[k]? = some At →
        (Ca.Subst.varAttrs.map nestedCallArg)[k]? =
          some (if isPlaceholderArg At.Exp then none else At.Exp)) ∧
      (reduceNestedCall Ca Res C s).2.2.diag = s.diag) ∧
    (Ca.Subst.numSubstVars ≠ s.blocks[Pb.Block]?.elim 0 (·.arguments) →
      (reduceNestedCall Ca Res C s).2.1.Exp = some .Undefined ∧
      (reduceNestedCall Ca Res C s).2.2.diag =
        s.diag ++ ["Invalid number of arguments to function call."] ∧
      (reduceNestedCall Ca Res C s).2.2.blocks = s.blocks ∧
      (reduceNestedCall Ca Res C s).2.2.currentBB = s.currentBB) := by
  have hargs : ∀ (k : Nat) (At : TypedCopyAttr), Ca.Subst.varAttrs[k]? = some At →
      (Ca.Subst.varAttrs.map nestedCallArg)[k]? =
        some (if isPlaceholderArg At.Exp then none else At.Exp) := by
    intro k At h
    rw [List.getElem?_map, h, Option.map_some', nestedCallArg_eq]
  have hlen : (Ca.Subst.varAttrs.map nestedCallArg).length = Ca.Subst.numSubstVars := by
    simp [Substitution.numSubstVars, Substitution.varAttrs]
  rcases hk with ⟨hc, hk⟩ | ⟨hc, hk⟩
  · obtain ⟨c, hk⟩ := Option.isSome_iff_exists.mp hk
    constructor
    · intro hn
      refine ⟨?_, ?_, hlen.trans hn, hargs, ?_⟩ <;>
      · simp only [reduceNestedCall, hf, hp, hc, hk, nestedCallGoto, hn, ne_eq, not_true,
          if_false, St.newGoto, St.finishBlock, St.assertFail]
        split_ifs <;> simp [hb, hB]
    · intro hn
      simp [reduceNestedCall, hf, hp, hc, hk, nestedCallGoto, hn, St.error,
        TypedCopyAttr.Exp_setExp]
  · obtain ⟨c, hc⟩ := Option.isSome_iff_exists.mp hc
    have hk2 : s.currentContinuation = some c := by rw [← hk, hc]
    constructor
    · intro hn
      refine ⟨?_, ?_, hlen.trans hn, hargs, ?_⟩ <;>
      · simp only [reduceNestedCall, hf, hp, hc, hk2, nestedCallGoto, hn, ne_eq, not_true,
          if_false, St.newGoto, St.finishBlock, St.assertFail]
        split_ifs <;> simp [hb, hB]
    · intro hn
      simp [reduceNestedCall, hf, hp, hc, hk2, nestedCallGoto, hn, St.error,
        TypedCopyAttr.Exp_setExp]

/-- C8 (witness): a first tail call with two substituted variables, a literal and a
function, to a block with two phi parameters: the goto carries the literal and a null
placeholder. -/
theorem C8_nested_call_arguments_witness :
    (reduceNestedCall argDemoCallee TypedCopyAttr.null
        (.CodeDecl 0 (.ScalarType BaseType.int32)) argDemoState).2.2.blocks[0]? =
      some ⟨0, [], [.Goto 2 [some (.Literal BaseType.int32 7), none]], 1⟩ :=
  ((C8_nested_call_arguments argDemoCallee TypedCopyAttr.null
    (.CodeDecl 0 (.ScalarType BaseType.int32)) argDemoState 0 0
    ⟨some (.Literal BaseType.int32 1), 2, none, ScopeCPS.ofNull 1⟩ ⟨0, [], [], 1⟩
    rfl rfl (Or.inl ⟨rfl, rfl⟩) rfl rfl).1 rfl).1

/-- C9: for every pending block whose continuation is already fixed to `c`, a further
call to it under the same continuation `c` with the right number of arguments is
compiled as a goto from the current block to the entry block that was allocated for it:
no block is allocated, the pending block is not enqueued again, no pending block and no
index entry changes, nothing is reported, and the result has no residual, so that no call
instruction is created. -/
theorem C9_repeated_call_is_goto (trav : Trav) (Ca : TypedCopyAttr) (C : SExpr) (s : St)
    (i b c : Nat) (Pb : PendingBlock) (B : BasicBlock)
    (hT : Ca.TypeExpr = some C) (hC : C.isCode = true) (hf : s.findCode C = some i)
    (hp : s.PendingBlks[i]? = some Pb) (hc : Pb.Cont = some c)
    (hk : s.currentContinuation = some c)
    (hn : Ca.Subst.numSubstVars = s.blocks[Pb.Block]?.elim 0 (·.arguments))
    (hb : s.currentBB = some b) (hB : s.blocks[b]? = some B) :
    (reduceCall trav Ca s).1 = TypedCopyAttr.null ∧
    (reduceCall trav Ca s).1.Exp = none ∧
    (reduceCall trav Ca s).2.blocks.length = s.blocks.length ∧
    (reduceCall trav Ca s).2.blocks[b]? =
      some { B with terminators :=
        (Terminator.Goto Pb.Block (Ca.Subst.varAttrs.map nestedCallArg)) :: B.terminators } ∧
    (∀ b', b' ≠ b → (reduceCall trav Ca s).2.blocks[b']? = s.blocks[b']?) ∧
    (reduceCall trav Ca s).2.currentBB = none ∧
    (reduceCall trav Ca s).2.PendingBlockQueue = s.PendingBlockQueue ∧
    (reduceCall trav Ca s).2.PendingBlks = s.PendingBlks ∧
    (reduceCall trav Ca s).2.CodeMap = s.CodeMap ∧
    (reduceCall trav Ca s).2.diag = s.diag ∧
    (reduceCall trav Ca s).2.invalid = s.invalid := by
  have h : reduceCall trav Ca s = (TypedCopyAttr.null,
      (if Ca.Subst.varAttrs.any (fun At => At.Exp.isNone)
        then s.assertFail "isa<> used on a null pointer" else s).newGoto Pb.Block
          (Ca.Subst.varAttrs.map nestedCallArg)) := by
    simp [reduceCall, reduceNestedCall, nestedCallGoto, hT, hC, hf, hp, hc, hk, hn]
  rw [h]
  refine ⟨rfl, rfl, ?_, ?_, ?_, ?_, ?_, ?_, ?_, ?_, ?_⟩ <;>
    simp only [St.newGoto, St.finishBlock, St.assertFail] <;> split_ifs <;>
    simp [hb, hB]
  all_goals
    intro b' hb'
    exact List.getElem?_modify_ne _ _ (Ne.symm hb')

/-- C9 (witness): while the body of the nested function of `nestedCalled` is reduced in
its own entry block, the block 2, under the continuation that was fixed by the first
call, a call to the function itself becomes a goto from the block 2 to the block 2, and
the graph keeps its three blocks. -/
theorem C9_repeated_call_is_goto_witness :
    (reduceCall (traverse widenRules 3) nestedDemo.1 selfCallState).2.blocks[2]? =
      some ⟨0, [], [.Goto 2 []], 1⟩ ∧
    (reduceCall (traverse widenRules 3) nestedDemo.1 selfCallState).2.blocks.length = 3 :=
  have h := C9_repeated_call_is_goto (traverse widenRules 3) nestedDemo.1
    (.CodeDecl 0 (.ScalarType BaseType.int32)) selfCallState 0 2 1
    ⟨some (.Literal BaseType.int32 1), 2, some 1, ScopeCPS.ofNull 1⟩ ⟨0, [], [], 1⟩
    rfl rfl rfl rfl rfl rfl rfl rfl rfl
  ⟨h.2.2.2.1, h.2.2.1⟩

/-! ### The traversal driver and the branch compiler -/

/-- Appending an instruction changes nothing but the blocks. -/
theorem St.addInstruction_scope (s : St) (e : Option SExpr) :
    (s.addInstruction e).scope = s.scope := by
  unfold St.addInstruction
  split
  · split_ifs <;> rfl
  · rfl

/-- Finishing a block changes nothing of the scope. -/
theorem St.finishBlock_scope (s : St) (t : Terminator) : (s.finishBlock t).scope = s.scope := by
  unfold St.finishBlock
  split <;> rfl

/-- Restoring the continuation and the pending arguments leaves the continuation given
and touches neither blocks nor pending blocks. -/
theorem traverseRestore_fields (cont : Option Nat) (plen : Nat) (k : TraversalKind) (s : St) :
    (traverseRestore cont plen k s).scope.Cont = cont ∧
    (traverseRestore cont plen k s).blocks = s.blocks ∧
    (traverseRestore cont plen k s).currentBB = s.currentBB ∧
    (traverseRestore cont plen k s).invalid = s.invalid ∧
    (traverseRestore cont plen k s).PendingBlks = s.PendingBlks ∧
    (traverseRestore cont plen k s).PendingBlockQueue = s.PendingBlockQueue ∧
    (traverseRestore cont plen k s).emitInstrs = s.emitInstrs := by
  unfold traverseRestore
  dsimp only
  split_ifs <;> exact ⟨rfl, rfl, rfl, rfl, rfl, rfl, rfl⟩

/-- The second half of the driver leaves the continuation it was given. -/
theorem traverseExit_currentContinuation (cont : Option Nat) (plen : Nat) (k : TraversalKind)
    (r : Result) : (traverseExit cont plen k r).2.currentContinuation = cont := by
  obtain ⟨result, s⟩ := r
  have h := (traverseRestore_fields cont plen k s).1
  unfold traverseExit
  dsimp only
  split
  · exact h
  · split
    · split_ifs
      · simp only [St.currentContinuation, St.createGoto, St.newGoto, St.finishBlock_scope,
          St.addInstruction_scope]
        exact h
      · simp only [St.currentContinuation, St.addInstruction_scope]
        exact h
    · simp only [St.currentContinuation, St.addInstruction_scope]
      exact h

/-- The driver restores the continuation: after `traverse` the current continuation is
the one in force before the call. -/
theorem traverse_currentContinuation (R : TypeRules) (n : Nat) (e : SExpr) (k : TraversalKind)
    (s : St) : (traverse R n e k s).2.currentContinuation = s.currentContinuation := by
  cases n with
  | zero => rfl
  | succ n =>
    unfold traverse
    split_ifs
    · rfl
    · exact traverseExit_currentContinuation _ _ _ _

/-- Whatever traversal is used for the sub-expressions, a condition that reduces to a
boolean literal makes `traverseIfThenElse` the traversal of the selected arm in tail
position, from the state left by the condition. -/
theorem traverseIfThenElse_literal (trav : Trav) (cond A B : SExpr) (s : St) (sz : SizeCode)
    (vs : Nat) (v : Int)
    (h : (trav cond .TRV_Arg s).1.Exp = some (.Literal ⟨.BT_Bool, sz, vs⟩ v)) :
    traverseIfThenElse trav (.IfThenElse cond A B) s =
      if v ≠ 0 then trav A .TRV_Tail (trav cond .TRV_Arg s).2
      else trav B .TRV_Tail (trav cond .TRV_Arg s).2 := by
  have hs : staticCondition (trav cond .TRV_Arg s).1 = some (decide (v ≠ 0)) := by
    unfold staticCondition; rw [h]
  have hc : checkCondition (trav cond .TRV_Arg s).1 (trav cond .TRV_Arg s).2 =
      (trav cond .TRV_Arg s).2 := by
    unfold checkCondition condInstr
    rw [h]
    simp [SExpr.isInstruction, SExpr.baseType]
  unfold traverseIfThenElse
  dsimp only
  rw [hs, hc]
  by_cases hv : v = 0 <;> simp [hv]

/-- C3: for every then-expression `A`, else-expression `B` and state (hence every ambient
continuation), when the condition reduces to a boolean literal `traverseIfThenElse` is
exactly the traversal of one arm in tail position from the state left by the condition:
of `A` for the literal true, of `B` for the literal false, with the same result
attribute and the same final state, hence with no block allocated, no branch created and
the other arm not traversed; and the arm is traversed under the ambient continuation,
which the traversal of the condition restores. -/
theorem C3_static_conditional (R : TypeRules) (n : Nat) (cond A B : SExpr) (s : St)
    (sz : SizeCode) (vs : Nat) (v : Int)
    (h : (traverse R n cond .TRV_Arg s).1.Exp = some (.Literal ⟨.BT_Bool, sz, vs⟩ v)) :
    (v ≠ 0 → traverseIfThenElse (traverse R n) (.IfThenElse cond A B) s =
      traverse R n A .TRV_Tail (traverse R n cond .TRV_Arg s).2) ∧
    (v = 0 → traverseIfThenElse (traverse R n) (.IfThenElse cond A B) s =
      traverse R n B .TRV_Tail (traverse R n cond .TRV_Arg s).2) ∧
    (traverse R n cond .TRV_Arg s).2.currentContinuation = s.currentContinuation := by
  have h1 := traverseIfThenElse_literal (traverse R n) cond A B s sz vs v h
  refine ⟨fun hv => ?_, fun hv => ?_, traverse_currentContinuation R n cond .TRV_Arg s⟩
  · rw [h1, if_pos hv]
  · rw [h1, if_neg (not_not.mpr hv)]

/-- C3 (witness): `if true then 2 + 3 else (if false then 1 else 2)` in the entry block of
a fresh graph is reduced exactly as `2 + 3` is. -/
theorem C3_static_conditional_witness :
    traverseIfThenElse (traverse widenRules 3)
        (.IfThenElse (.Literal BaseType.bool 1)
          (.BinaryOp BaseType.void .BOP_Add (.Literal BaseType.int32 2) (.Literal BaseType.int32 3))
          (.IfThenElse (.Literal BaseType.bool 0) (.Literal BaseType.int32 1)
            (.Literal BaseType.int32 2)))
        (enterCFG St.init) =
      traverse widenRules 3
        (.BinaryOp BaseType.void .BOP_Add (.Literal BaseType.int32 2) (.Literal BaseType.int32 3))
        .TRV_Tail (traverse widenRules 3 (.Literal BaseType.bool 1) .TRV_Arg (enterCFG St.init)).2 :=
  (C3_static_conditional widenRules 3 (.Literal BaseType.bool 1) _ _ (enterCFG St.init)
    .ST_1 1 1 rfl).1 (by decide)

/-! ### The terminator discipline -/

/-- The view extension is reflexive. -/
theorem View.Ext.ext_refl (v : View) : v.Ext v :=
  ⟨le_refl _, fun _ B h => ⟨B, h, rfl, rfl, fun _ => rfl⟩, fun _ _ h => h,
    fun P hP => Or.inl ⟨P, hP, rfl⟩⟩

/-- The view extension is transitive. -/
theorem View.Ext.ext_trans {u v w : View} (h1 : u.Ext v) (h2 : v.Ext w) : u.Ext w := by
  refine ⟨le_trans h1.length h2.length, ?_, ?_, ?_⟩
  · intro b B hb
    obtain ⟨B1, hb1, hg1, ha1, ht1⟩ := h1.block b B hb
    obtain ⟨B2, hb2, hg2, ha2, ht2⟩ := h2.block b B1 hb1
    refine ⟨B2, hb2, hg2.trans hg1, ha2.trans ha1, fun hc => ?_⟩
    have hlt : b < u.blocks.length := by
      by_contra hge
      rw [List.getElem?_eq_none (by omega)] at hb
      cases hb
    exact (ht2 (h1.cur b hlt hc)).trans (ht1 hc)
  · intro b hb hc
    exact h2.cur b (lt_of_lt_of_le hb h1.length) (h1.cur b hb hc)
  · intro P hP
    rcases h2.pend P hP with ⟨Q, hQ, hQP⟩ | hge
    · rcases h1.pend Q hQ with ⟨Q', hQ', hQQ⟩ | hge
      · exact Or.inl ⟨Q', hQ', hQQ.trans hQP⟩
      · exact Or.inr (hQP ▸ hge)
    · exact Or.inr (le_trans h1.length hge)

/-- Modifying the instructions of a block does not change the view of the blocks. -/
theorem map_view_modify (l : List BasicBlock) (f : BasicBlock → BasicBlock) (b : Nat)
    (hf : ∀ B, (f B).view = B.view) : (l.modify f b).map BasicBlock.view = l.map BasicBlock.view := by
  apply List.ext_getElem?
  intro i
  simp only [List.getElem?_map, List.getElem?_modify]
  split_ifs with h
  · cases l[i]? <;> simp [hf]
  · cases l[i]? <;> simp

@[simp] theorem St.view_error (s : St) (m : String) : (s.error m).view = s.view := rfl

@[simp] theorem St.view_assertFail (s : St) (m : String) : (s.assertFail m).view = s.view := rfl

@[simp] theorem St.view_setContinuation (s : St) (c : Option Nat) :
    (s.setContinuation c).view = s.view := rfl

@[simp] theorem St.view_restoreScope (s : St) (S : ScopeCPS) : (s.restoreScope S).view = s.view :=
  rfl

@[simp] theorem St.view_switchScope (s : St) (S : ScopeCPS) : (s.switchScope S).2.view = s.view :=
  rfl

@[simp] theorem St.view_disableEmit (s : St) : s.disableEmit.2.view = s.view := rfl

@[simp] theorem St.view_restoreEmit (s : St) (B : Bool) : (s.restoreEmit B).view = s.view := rfl

@[simp] theorem St.view_switchEvalMode (s : St) (M : EvalModeKind) :
    (s.switchEvalMode M).2.view = s.view := rfl

@[simp] theorem St.view_restoreEvalMode (s : St) (M : EvalModeKind) :
    (s.restoreEvalMode M).view = s.view := rfl

@[simp] theorem St.view_addInstruction (s : St) (e : Option SExpr) :
    (s.addInstruction e).view = s.view := by
  unfold St.addInstruction
  split
  · split_ifs
    · simp only [St.view]
      congr 1
      exact map_view_modify _ _ _ (fun _ => rfl)
    · rfl
  · rfl

/-- A clean run is sound. -/
theorem St.clean.toSound {s : St} (h : s.clean) : s.sound := h.2

@[simp] theorem St.sound_error (s : St) (m : String) : (s.error m).sound ↔ s.sound := Iff.rfl

@[simp] theorem St.sound_assertFail (s : St) (m : String) : ¬ (s.assertFail m).sound := by
  simp [St.sound, St.assertFail]

@[simp] theorem St.sound_setContinuation (s : St) (c : Option Nat) :
    (s.setContinuation c).sound ↔ s.sound := Iff.rfl

@[simp] theorem St.sound_restoreScope (s : St) (S : ScopeCPS) :
    (s.restoreScope S).sound ↔ s.sound := Iff.rfl

@[simp] theorem St.sound_switchScope (s : St) (S : ScopeCPS) :
    (s.switchScope S).2.sound ↔ s.sound := Iff.rfl

@[simp] theorem St.sound_disableEmit (s : St) : s.disableEmit.2.sound ↔ s.sound := Iff.rfl

@[simp] theorem St.sound_restoreEmit (s : St) (B : Bool) : (s.restoreEmit B).sound ↔ s.sound :=
  Iff.rfl

@[simp] theorem St.sound_switchEvalMode (s : St) (M : EvalModeKind) :
    (s.switchEvalMode M).2.sound ↔ s.sound := Iff.rfl

@[simp] theorem St.sound_restoreEvalMode (s : St) (M : EvalModeKind) :
    (s.restoreEvalMode M).sound ↔ s.sound := Iff.rfl

@[simp] theorem St.sound_addInstruction (s : St) (e : Option SExpr) :
    (s.addInstruction e).sound ↔ s.sound := by
  unfold St.addInstruction
  split
  · split_ifs <;> exact Iff.rfl
  · exact Iff.rfl

@[simp] theorem St.sound_finishBlock (s : St) (t : Terminator) :
    (s.finishBlock t).sound ↔ s.sound := by
  unfold St.finishBlock
  split <;> exact Iff.rfl

@[simp] theorem St.sound_beginBlock (s : St) (b : Nat) : (s.beginBlock b).sound ↔ s.sound := by
  unfold St.beginBlock
  split <;> exact Iff.rfl

@[simp] theorem St.sound_newBlock (s : St) (n : Nat) : (s.newBlock n).2.sound ↔ s.sound := Iff.rfl

@[simp] theorem St.scope_beginBlock (s : St) (b : Nat) : (s.beginBlock b).scope = s.scope := by
  unfold St.beginBlock
  split <;> rfl

@[simp] theorem St.scope_newBlock (s : St) (n : Nat) : (s.newBlock n).2.scope = s.scope := rfl

@[simp] theorem St.currentBB_addInstruction (s : St) (e : Option SExpr) :
    (s.addInstruction e).currentBB = s.currentBB := by
  unfold St.addInstruction
  split
  · split_ifs <;> rfl
  · rfl

/-- Modifying a block and taking views commute. -/
theorem map_view_modify_comm (l : List BasicBlock) (f : BasicBlock → BasicBlock)
    (g : BlockView → BlockView) (b : Nat) (hf : ∀ B, (f B).view = g B.view) :
    (l.modify f b).map BasicBlock.view = (l.map BasicBlock.view).modify g b := by
  apply List.ext_getElem?
  intro i
  simp only [List.getElem?_map, List.getElem?_modify]
  split_ifs with h
  · cases l[i]? <;> simp [hf]
  · cases l[i]? <;> simp

/-- The view after allocating a block. -/
theorem St.view_newBlock (s : St) (n : Nat) :
    (s.newBlock n).2.view = { s.view with blocks := s.view.blocks ++ [⟨n, [], 0⟩] } := by
  simp [St.view, St.newBlock, BasicBlock.view]

/-- The view after beginning a block while no block is open. -/
theorem St.view_beginBlock (s : St) (b : Nat) (hc : s.currentBB = none) :
    (s.beginBlock b).view =
      { s.view with cur := some b,
                    blocks := s.view.blocks.modify (fun B => { B with begun := B.begun + 1 }) b } := by
  unfold St.beginBlock
  rw [hc]
  simp only [St.view]
  congr 1
  exact map_view_modify_comm _ _ _ _ (fun _ => rfl)

/-- The view after finishing the open block. -/
theorem St.view_finishBlock (s : St) (t : Terminator) (c : Nat) (hc : s.currentBB = some c) :
    (s.finishBlock t).view =
      { s.view with cur := none,
                    blocks := s.view.blocks.modify
                      (fun B => { B with terminators := t :: B.terminators }) c } := by
  unfold St.finishBlock
  rw [hc]
  simp only [St.view]
  congr 1
  exact map_view_modify_comm _ _ _ _ (fun _ => rfl)

/-- A block that exists has an index below the number of blocks. -/
theorem lt_length_of_getElem? {α : Type} {l : List α} {i : Nat} {a : α} (h : l[i]? = some a) :
    i < l.length := by
  by_contra hge
  rw [List.getElem?_eq_none (by omega)] at h
  cases h

/-- Allocating a block preserves the terminator discipline. -/
theorem View.WF.wf_newBlock {v : View} (h : v.WF) (n : Nat) :
    ({ v with blocks := v.blocks ++ [⟨n, [], 0⟩] } : View).WF := by
  have key : ∀ (b : Nat) (B : BlockView), (v.blocks ++ [(⟨n, [], 0⟩ : BlockView)])[b]? = some B →
      v.blocks[b]? = some B ∨ (B.begun = 0 ∧ B.terminators = []) := by
    intro b B hb
    by_cases hlt : b < v.blocks.length
    · rw [List.getElem?_append_left hlt] at hb
      exact Or.inl hb
    · rw [List.getElem?_append_right (by omega)] at hb
      have : b - v.blocks.length = 0 := by
        by_contra hne
        rw [List.getElem?_eq_none (by simp; omega)] at hb
        cases hb
      rw [this] at hb
      simp at hb
      subst hb
      exact Or.inr ⟨rfl, rfl⟩
  have old : ∀ (b : Nat) (B : BlockView), v.blocks[b]? = some B →
      (v.blocks ++ [(⟨n, [], 0⟩ : BlockView)])[b]? = some B := by
    intro b B hb
    rw [List.getElem?_append_left (lt_length_of_getElem? hb)]
    exact hb
  refine ⟨h.invalid, ?_, ?_, ?_, ?_, h.pend_inj, ?_, h.queue_fixed, h.queue_nodup⟩
  · intro b B hb
    rcases key b B hb with ho | ⟨h0, ht⟩
    · exact h.once b B ho
    · rw [h0, ht]; simp
  · intro c hc
    obtain ⟨B, hB, h1, h2⟩ := h.cur c hc
    exact ⟨B, old c B hB, h1, h2⟩
  · intro b B hb h1 h2
    rcases key b B hb with ho | ⟨h0, _⟩
    · exact h.open_cur b B ho h1 h2
    · omega
  · intro i P hP
    have := h.pend_lt i P hP
    simp only [List.length_append, List.length_singleton]
    omega
  · intro i P hP hq
    obtain ⟨B, hB, h0⟩ := h.pend_fresh i P hP hq
    exact ⟨B, old _ B hB, h0⟩

/-- Allocating a block extends the view. -/
theorem View.Ext.ext_newBlock (v : View) (n : Nat) :
    v.Ext { v with blocks := v.blocks ++ [⟨n, [], 0⟩] } := by
  refine ⟨by simp, ?_, fun _ _ h => h, fun P hP => Or.inl ⟨P, hP, rfl⟩⟩
  intro b B hb
  refine ⟨B, ?_, rfl, rfl, fun _ => rfl⟩
  rw [List.getElem?_append_left (lt_length_of_getElem? hb)]
  exact hb

/-- Finishing the current block preserves the terminator discipline. -/
theorem View.WF.wf_finishBlock {v : View} (h : v.WF) (t : Terminator) (c : Nat)
    (hc : v.cur = some c) :
    ({ v with cur := none,
              blocks := v.blocks.modify (fun B => { B with terminators := t :: B.terminators }) c }
      : View).WF := by
  obtain ⟨Bc, hBc, hbeg, hterm⟩ := h.cur c hc
  have key : ∀ (b : Nat) (B : BlockView),
      (v.blocks.modify (fun B => { B with terminators := t :: B.terminators }) c)[b]? = some B →
      (b ≠ c ∧ v.blocks[b]? = some B) ∨
        (b = c ∧ B = { Bc with terminators := [t] }) := by
    intro b B hb
    by_cases hbc : c = b
    · subst hbc
      rw [List.getElem?_modify_eq, hBc] at hb
      simp only [Option.map_eq_map, Option.map_some', Option.some.injEq] at hb
      subst hb
      exact Or.inr ⟨rfl, by rw [hterm]⟩
    · rw [List.getElem?_modify_ne _ _ hbc] at hb
      exact Or.inl ⟨fun e => hbc e.symm, hb⟩
  refine ⟨h.invalid, ?_, ?_, ?_, ?_, h.pend_inj, ?_, h.queue_fixed, h.queue_nodup⟩
  · intro b B hb
    rcases key b B hb with ⟨_, ho⟩ | ⟨_, hB⟩
    · exact h.once b B ho
    · subst hB
      simp [hbeg]
  · intro c' hc'
    cases hc'
  · intro b B hb h1 h2
    rcases key b B hb with ⟨hne, ho⟩ | ⟨_, hB⟩
    · have := h.open_cur b B ho h1 h2
      rw [hc] at this
      cases this
      exact absurd rfl hne
    · subst hB
      cases h2
  · intro i P hP
    simpa using h.pend_lt i P hP
  · intro i P hP hq
    obtain ⟨B, hB, h0⟩ := h.pend_fresh i P hP hq
    by_cases hbc : c = P.1
    · refine ⟨{ B with terminators := t :: B.terminators }, ?_, h0⟩
      rw [← hbc] at hB ⊢
      rw [List.getElem?_modify_eq, hB]
      rfl
    · exact ⟨B, by rw [List.getElem?_modify_ne _ _ hbc]; exact hB, h0⟩

/-- Finishing the current block extends the view. -/
theorem View.Ext.ext_finishBlock (v : View) (t : Terminator) (c : Nat) (hc : v.cur = some c) :
    v.Ext { v with cur := none,
                   blocks := v.blocks.modify
                     (fun B => { B with terminators := t :: B.terminators }) c } := by
  refine ⟨?_, ?_, ?_, ?_⟩
  · simp
  rotate_left
  · intro b _ _ h
    cases h
  · intro P hP
    exact Or.inl ⟨P, hP, rfl⟩
  intro b B hb
  by_cases hbc : c = b
  · subst hbc
    refine ⟨{ B with terminators := t :: B.terminators }, ?_, rfl, rfl, ?_⟩
    · rw [List.getElem?_modify_eq, hb]; rfl
    · intro hne
      exact absurd hc hne
  · exact ⟨B, by rw [List.getElem?_modify_ne _ _ hbc]; exact hb, rfl, rfl, fun _ => rfl⟩

/-- Beginning a block that is not begun, while no block is open, preserves the terminator
discipline, provided that the block is not the entry block of a pending block that has
no continuation yet or waits in the queue. -/
theorem View.WF.wf_beginBlock {v : View} (h : v.WF) (b : Nat) (B : BlockView) (hc : v.cur = none)
    (hb : v.blocks[b]? = some B) (h0 : B.begun = 0)
    (hp : ∀ (i : Nat) (P : Nat × Option Nat), v.pend[i]? = some P → P.1 = b →
      P.2.isSome = true ∧ i ∉ v.queue) :
    ({ v with cur := some b,
              blocks := v.blocks.modify (fun B => { B with begun := B.begun + 1 }) b } : View).WF := by
  have hterm : B.terminators = [] := by
    have := (h.once b B hb).2
    rw [h0] at this
    exact List.length_eq_zero.mp (Nat.le_zero.mp this)
  have key : ∀ (b' : Nat) (B' : BlockView),
      (v.blocks.modify (fun B => { B with begun := B.begun + 1 }) b)[b']? = some B' →
      (b' ≠ b ∧ v.blocks[b']? = some B') ∨ (b' = b ∧ B' = { B with begun := 1 }) := by
    intro b' B' hb'
    by_cases hbc : b = b'
    · subst hbc
      rw [List.getElem?_modify_eq, hb] at hb'
      simp only [Option.map_eq_map, Option.map_some', Option.some.injEq] at hb'
      subst hb'
      exact Or.inr ⟨rfl, by rw [h0]⟩
    · rw [List.getElem?_modify_ne _ _ hbc] at hb'
      exact Or.inl ⟨fun e => hbc e.symm, hb'⟩
  refine ⟨h.invalid, ?_, ?_, ?_, ?_, h.pend_inj, ?_, h.queue_fixed, h.queue_nodup⟩
  · intro b' B' hb'
    rcases key b' B' hb' with ⟨_, ho⟩ | ⟨_, hB⟩
    · exact h.once b' B' ho
    · subst hB
      simp [hterm]
  · intro c hc'
    cases hc'
    refine ⟨{ B with begun := 1 }, ?_, rfl, hterm⟩
    rw [List.getElem?_modify_eq, hb]
    simp [h0]
  · intro b' B' hb' h1 h2
    rcases key b' B' hb' with ⟨_, ho⟩ | ⟨he, _⟩
    · have := h.open_cur b' B' ho h1 h2
      rw [hc] at this
      cases this
    · rw [he]
  · intro i P hP
    simpa using h.pend_lt i P hP
  · intro i P hP hq
    obtain ⟨B0, hB0, h00⟩ := h.pend_fresh i P hP hq
    have hne : b ≠ P.1 := by
      intro e
      obtain ⟨hs, hnq⟩ := hp i P hP e.symm
      rcases hq with hq | hq
      · rw [hq] at hs
        cases hs
      · exact hnq hq
    exact ⟨B0, by rw [List.getElem?_modify_ne _ _ hne]; exact hB0, h00⟩

/-- Beginning a new block keeps the view an extension of an earlier one. -/
theorem View.Ext.ext_beginBlock {u v : View} (h : u.Ext v) (b : Nat) (hle : u.blocks.length ≤ b) :
    u.Ext { v with cur := some b,
                   blocks := v.blocks.modify (fun B => { B with begun := B.begun + 1 }) b } := by
  refine ⟨?_, ?_, ?_, h.pend⟩
  · simpa using h.length
  · intro b0 B0 hb0
    have hlt := lt_length_of_getElem? hb0
    obtain ⟨B', hB', h1, h2, h3⟩ := h.block b0 B0 hb0
    have hne : b ≠ b0 := by omega
    exact ⟨B', by rw [List.getElem?_modify_ne _ _ hne]; exact hB', h1, h2, h3⟩
  · intro b0 hb0 _ he
    cases he
    omega

/-- Fixing the continuation of a pending block that had none, and enqueueing it,
preserves the terminator discipline. -/
theorem View.WF.wf_fixCont {v : View} (h : v.WF) (i blk c : Nat)
    (hi : v.pend[i]? = some (blk, none)) :
    ({ v with pend := v.pend.set i (blk, some c), queue := v.queue ++ [i] } : View).WF := by
  have hlt := lt_length_of_getElem? hi
  have hnq : i ∉ v.queue := by
    intro hq
    obtain ⟨P, hP, hs⟩ := h.queue_fixed i hq
    rw [hi] at hP
    cases hP
    cases hs
  have key : ∀ (j : Nat) (P : Nat × Option Nat), (v.pend.set i (blk, some c))[j]? = some P →
      (j ≠ i ∧ v.pend[j]? = some P) ∨ (j = i ∧ P = (blk, some c)) := by
    intro j P hP
    by_cases hji : i = j
    · subst hji
      rw [List.getElem?_set_self hlt] at hP
      cases hP
      exact Or.inr ⟨rfl, rfl⟩
    · rw [List.getElem?_set_ne hji] at hP
      exact Or.inl ⟨fun e => hji e.symm, hP⟩
  have fst : ∀ (j : Nat) (P : Nat × Option Nat), (v.pend.set i (blk, some c))[j]? = some P →
      ∃ Q, v.pend[j]? = some Q ∧ Q.1 = P.1 := by
    intro j P hP
    rcases key j P hP with ⟨_, ho⟩ | ⟨he, hPe⟩
    · exact ⟨P, ho, rfl⟩
    · subst he hPe
      exact ⟨_, hi, rfl⟩
  refine ⟨h.invalid, h.once, h.cur, h.open_cur, ?_, ?_, ?_, ?_, ?_⟩
  · intro j P hP
    obtain ⟨Q, hQ, hQP⟩ := fst j P hP
    rw [← hQP]
    exact h.pend_lt j Q hQ
  · intro j k P Q hP hQ hPQ
    obtain ⟨P', hP', hP1⟩ := fst j P hP
    obtain ⟨Q', hQ', hQ1⟩ := fst k Q hQ
    exact h.pend_inj j k P' Q' hP' hQ' (by rw [hP1, hQ1, hPQ])
  · intro j P hP hq
    rcases key j P hP with ⟨hne, ho⟩ | ⟨he, hPe⟩
    · apply h.pend_fresh j P ho
      rcases hq with hq | hq
      · exact Or.inl hq
      · simp only [List.mem_append, List.mem_singleton] at hq
        rcases hq with hq | hq
        · exact Or.inr hq
        · exact absurd hq hne
    · subst hPe
      exact h.pend_fresh i (blk, none) hi (Or.inl rfl)
  · intro j hj
    simp only [List.mem_append, List.mem_singleton] at hj
    by_cases hji : j = i
    · subst hji
      exact ⟨(blk, some c), List.getElem?_set_self hlt, rfl⟩
    · rcases hj with hj | hj
      · obtain ⟨P, hP, hs⟩ := h.queue_fixed j hj
        exact ⟨P, by rw [List.getElem?_set_ne (fun e => hji e.symm)]; exact hP, hs⟩
      · exact absurd hj hji
  · exact List.Nodup.append h.queue_nodup (List.nodup_singleton i)
      (by simpa [List.disjoint_singleton] using hnq)

/-- Fixing the continuation of a pending block keeps the view an extension. -/
theorem View.Ext.ext_fixCont {u v : View} (h : u.Ext v) (i blk c : Nat)
    (hi : v.pend[i]? = some (blk, none)) :
    u.Ext { v with pend := v.pend.set i (blk, some c), queue := v.queue ++ [i] } := by
  refine ⟨h.length, h.block, h.cur, ?_⟩
  intro P hP
  rcases List.mem_or_eq_of_mem_set hP with hP | hP
  · exact h.pend P hP
  · have hm : (blk, (none : Option Nat)) ∈ v.pend := List.getElem?_mem hi
    rcases h.pend _ hm with ⟨Q, hQ, hQP⟩ | hge
    · exact Or.inl ⟨Q, hQ, by rw [hP]; exact hQP⟩
    · exact Or.inr (by rw [hP]; exact hge)

/-- Recording a new pending block, whose entry block is not begun and is the entry block
of no other pending block, preserves the terminator discipline. -/
theorem View.WF.wf_addPending {v : View} (h : v.WF) (Nb : Nat) (B : BlockView)
    (hB : v.blocks[Nb]? = some B) (h0 : B.begun = 0) (hne : ∀ P ∈ v.pend, P.1 ≠ Nb) :
    ({ v with pend := v.pend ++ [(Nb, none)] } : View).WF := by
  have key : ∀ (j : Nat) (P : Nat × Option Nat), (v.pend ++ [(Nb, (none : Option Nat))])[j]? = some P →
      v.pend[j]? = some P ∨ (j = v.pend.length ∧ P = (Nb, none)) := by
    intro j P hP
    by_cases hlt : j < v.pend.length
    · rw [List.getElem?_append_left hlt] at hP
      exact Or.inl hP
    · rw [List.getElem?_append_right (by omega)] at hP
      have h0 : j - v.pend.length = 0 := by
        by_contra hne
        rw [List.getElem?_eq_none (by simp; omega)] at hP
        cases hP
      rw [h0] at hP
      simp at hP
      exact Or.inr ⟨by omega, hP.symm⟩
  refine ⟨h.invalid, h.once, h.cur, h.open_cur, ?_, ?_, ?_, ?_, h.queue_nodup⟩
  · intro j P hP
    rcases key j P hP with ho | ⟨_, hPe⟩
    · exact h.pend_lt j P ho
    · subst hPe
      exact lt_length_of_getElem? hB
  · intro j k P Q hP hQ hPQ
    rcases key j P hP with ho | ⟨hj, hPe⟩ <;> rcases key k Q hQ with ho' | ⟨hk, hQe⟩
    · exact h.pend_inj j k P Q ho ho' hPQ
    · subst hQe
      exact absurd hPQ (hne P (List.getElem?_mem ho))
    · subst hPe
      exact absurd hPQ.symm (hne Q (List.getElem?_mem ho'))
    · omega
  · intro j P hP hq
    rcases key j P hP with ho | ⟨_, hPe⟩
    · exact h.pend_fresh j P ho hq
    · subst hPe
      exact ⟨B, hB, h0⟩
  · intro j hj
    obtain ⟨P, hP, hs⟩ := h.queue_fixed j hj
    exact ⟨P, by rw [List.getElem?_append_left (lt_length_of_getElem? hP)]; exact hP, hs⟩

/-- Recording a pending block for a new block keeps the view an extension. -/
theorem View.Ext.ext_addPending {u v : View} (h : u.Ext v) (Nb : Nat) (hle : u.blocks.length ≤ Nb) :
    u.Ext { v with pend := v.pend ++ [(Nb, none)] } := by
  refine ⟨h.length, h.block, h.cur, ?_⟩
  intro P hP
  simp only [List.mem_append, List.mem_singleton] at hP
  rcases hP with hP | hP
  · exact h.pend P hP
  · exact Or.inr (by rw [hP]; exact hle)

/-- Taking the first pending block off the queue preserves the terminator discipline. -/
theorem View.WF.pop {v : View} (h : v.WF) (i : Nat) (q : List Nat) (hq : v.queue = i :: q) :
    ({ v with queue := q } : View).WF := by
  refine ⟨h.invalid, h.once, h.cur, h.open_cur, h.pend_lt, h.pend_inj, ?_, ?_, ?_⟩
  · intro j P hP hj
    apply h.pend_fresh j P hP
    rcases hj with hj | hj
    · exact Or.inl hj
    · exact Or.inr (by rw [hq]; exact List.mem_cons_of_mem _ hj)
  · intro j hj
    exact h.queue_fixed j (by rw [hq]; exact List.mem_cons_of_mem _ hj)
  · have := h.queue_nodup
    rw [hq] at this
    exact (List.nodup_cons.mp this).2

/-- A quiet step may be empty. -/
theorem Quiet.refl (s : St) : Quiet s s :=
  ⟨id, fun _ h hb => ⟨h, View.Ext.ext_refl _, hb⟩⟩

/-- Quiet steps compose. -/
theorem Quiet.trans {s t u : St} (h1 : Quiet s t) (h2 : Quiet t u) : Quiet s u := by
  refine ⟨fun hc => h1.sound (h2.sound hc), fun hc hw hb => ?_⟩
  obtain ⟨hw1, he1, hb1⟩ := h1.wf (h2.sound hc) hw hb
  obtain ⟨hw2, he2, hb2⟩ := h2.wf hc hw1 hb1
  exact ⟨hw2, he1.ext_trans he2, hb2⟩

/-- A change that leaves the view alone and clears no log prolongs a quiet step. -/
theorem Quiet.pure {s t : St} (h : Quiet s t) (t' : St) (hv : t'.view = t.view)
    (hc : t'.sound → t.sound) : Quiet s t' := by
  refine ⟨fun hc' => h.sound (hc hc'), fun hc' hw hb => ?_⟩
  obtain ⟨hw1, he1, hb1⟩ := h.wf (hc hc') hw hb
  rw [hv]
  exact ⟨hw1, he1, by
    have : t'.currentBB = t.currentBB := congrArg View.cur hv
    rw [this]; exact hb1⟩

theorem Quiet.error {s t : St} (m : String) (h : Quiet s t) : Quiet s (t.error m) :=
  h.pure _ rfl id

theorem Quiet.assertFail {s t : St} (m : String) (h : Quiet s t) : Quiet s (t.assertFail m) :=
  h.pure _ rfl (fun hc => absurd hc (St.sound_assertFail t m))

theorem Quiet.setContinuation {s t : St} (c : Option Nat) (h : Quiet s t) :
    Quiet s (t.setContinuation c) := h.pure _ rfl id

theorem Quiet.restoreScope {s t : St} (S : ScopeCPS) (h : Quiet s t) :
    Quiet s (t.restoreScope S) := h.pure _ rfl id

theorem Quiet.switchScope {s t : St} (S : ScopeCPS) (h : Quiet s t) :
    Quiet s (t.switchScope S).2 := h.pure _ rfl id

theorem Quiet.disableEmit {s t : St} (h : Quiet s t) : Quiet s t.disableEmit.2 := h.pure _ rfl id

theorem Quiet.restoreEmit {s t : St} (B : Bool) (h : Quiet s t) : Quiet s (t.restoreEmit B) :=
  h.pure _ rfl id

theorem Quiet.switchEvalMode {s t : St} (M : EvalModeKind) (h : Quiet s t) :
    Quiet s (t.switchEvalMode M).2 := h.pure _ rfl id

theorem Quiet.restoreEvalMode {s t : St} (M : EvalModeKind) (h : Quiet s t) :
    Quiet s (t.restoreEvalMode M) := h.pure _ rfl id

theorem Quiet.restorePendingArgs {s t : St} (n : Nat) (h : Quiet s t) :
    Quiet s (t.restorePendingArgs n) := h.pure _ rfl id

theorem Quiet.savePendingArgs {s t : St} (h : Quiet s t) : Quiet s t.savePendingArgs.2 :=
  h.pure _ rfl id

theorem Quiet.addInstruction {s t : St} (e : Option SExpr) (h : Quiet s t) :
    Quiet s (t.addInstruction e) :=
  h.pure _ (St.view_addInstruction t e) (St.sound_addInstruction t e).mp

theorem Quiet.setScope {s t : St} (S : ScopeCPS) (h : Quiet s t) :
    Quiet s { t with scope := S } := h.pure _ rfl id

theorem Quiet.setNextAddr {s t : St} (a : Nat) (h : Quiet s t) :
    Quiet s { t with nextAddr := a } := h.pure _ rfl id

/-- Allocating a block prolongs a quiet step. -/
theorem Quiet.newBlock {s t : St} (n : Nat) (h : Quiet s t) : Quiet s (t.newBlock n).2 := by
  refine h.trans ⟨id, fun _ hw hb => ?_⟩
  rw [St.view_newBlock]
  exact ⟨hw.wf_newBlock n, View.Ext.ext_newBlock _ n, hb⟩

/-- A traversal of a node that is not in tail position prolongs a quiet step. -/
theorem Quiet.trav {s t : St} {trav : Trav} (ht : TravOK trav) (e : SExpr) (k : TraversalKind)
    (hk : k ≠ .TRV_Tail) (h : Quiet s t) : Quiet s (trav e k t).2 := by
  refine h.trans ⟨ht.sound e k t, fun hc hw hb => ?_⟩
  obtain ⟨h1, h2, h3⟩ := ht.wf e k t hc hw hb
  refine ⟨h1, h2, ?_⟩
  rw [if_neg (fun hh => hk hh.1)] at h3
  exact h3

/-- Setting the element type of an instruction from a type expression is quiet. -/
theorem Quiet.setBaseTypeFromExpr {s t : St} (I : SExpr) (Typ : Option SExpr) (h : Quiet s t) :
    Quiet s (setBaseTypeFromExpr t I Typ).2 := by
  unfold ohmu.setBaseTypeFromExpr
  split <;> first | exact h | exact h.assertFail _

/-- The function `computeAttrType` is quiet. -/
theorem Quiet.computeAttrType {s t : St} {trav : Trav} (ht : TravOK trav) (At : TypedCopyAttr)
    (E : SExpr) (h : Quiet s t) : Quiet s (computeAttrType trav At E t).2 := by
  have h1 : Quiet s
      (((trav E .TRV_Decl ((t.switchEvalMode .TEval_WeakHead).2.disableEmit).2).2.restoreEmit
        ((t.switchEvalMode .TEval_WeakHead).2.disableEmit).1).restoreEvalMode
          (t.switchEvalMode .TEval_WeakHead).1) :=
    ((((h.switchEvalMode _).disableEmit).trav ht E .TRV_Decl (by decide)).restoreEmit _).restoreEvalMode _
  unfold ohmu.computeAttrType
  dsimp only
  split
  · split_ifs
    · exact h1.setBaseTypeFromExpr _ _
    · exact h1
  · exact h1

/-- The function `evaluateTypeExpr` is quiet. -/
theorem Quiet.evaluateTypeExpr {s t : St} {trav : Trav} (ht : TravOK trav) (At : TypedCopyAttr)
    (h : Quiet s t) : Quiet s (evaluateTypeExpr trav At t).2 := by
  unfold ohmu.evaluateTypeExpr
  split
  · exact h.assertFail _
  · split_ifs
    · exact h
    · exact ((h.switchScope _).computeAttrType ht _ _).restoreScope _

/-- The function `promoteVariable` is quiet. -/
theorem Quiet.promoteVariable {s t : St} {trav : Trav} (ht : TravOK trav) (V : SExpr)
    (h : Quiet s t) : Quiet s (promoteVariable trav V t).2 := by
  unfold ohmu.promoteVariable
  split
  · exact ((h.switchScope _).computeAttrType ht _ _).restoreScope _
  · exact h.assertFail _

/-- The function `reduceVarSubstitution` is quiet. -/
theorem Quiet.reduceVarSubstitution {s t : St} {trav : Trav} (R : TypeRules) (ht : TravOK trav)
    (Vidx : Nat) (h : Quiet s t) : Quiet s (reduceVarSubstitution R trav Vidx t).2 := by
  unfold ohmu.reduceVarSubstitution
  split
  · exact h.assertFail _
  · split_ifs
    · exact h
    · split
      · exact h.assertFail _
      · exact h.promoteVariable ht _
      · split_ifs
        · exact h
        · exact h.assertFail _

/-- The rule `reduceVariable` is quiet. -/
theorem Quiet.reduceVariable {s t : St} {trav : Trav} (R : TypeRules) (ht : TravOK trav)
    (Orig : SExpr) (h : Quiet s t) : Quiet s (reduceVariable R trav Orig t).2 := by
  unfold ohmu.reduceVariable
  split
  · split_ifs
    · exact h.promoteVariable ht _
    · exact h.reduceVarSubstitution R ht _
  · exact h.assertFail _

/-- The rule `reduceUnaryOp` is quiet. -/
theorem Quiet.reduceUnaryOp {s t : St} (R : TypeRules) (op : TIL_UnaryOpcode)
    (a0 : TypedCopyAttr) (h : Quiet s t) : Quiet s (reduceUnaryOp R op a0 t).2 := by
  unfold ohmu.reduceUnaryOp
  repeat (first | assumption | apply Quiet.error | apply Quiet.assertFail | split)

/-- The rule `reduceBinaryOp` is quiet. -/
theorem Quiet.reduceBinaryOp {s t : St} (R : TypeRules) (op : TIL_BinaryOpcode)
    (a0 a1 : TypedCopyAttr) (h : Quiet s t) : Quiet s (reduceBinaryOp R op a0 a1 t).2 := by
  unfold ohmu.reduceBinaryOp
  cases a0.Exp <;> cases a1.Exp <;> dsimp only
  all_goals (try split_ifs)
  all_goals first
    | exact h
    | exact h.error _
    | exact (h.assertFail _).error _
    | (cases op <;> dsimp only <;> first
        | exact h
        | exact h.error _
        | exact (h.error _).error _)

/-- The rule `reduceCode` is quiet. -/
theorem Quiet.reduceCode {s t : St} (e0 e1 : Option SExpr) (h : Quiet s t) :
    Quiet s (reduceCode e0 e1 t).2 := by
  unfold ohmu.reduceCode
  dsimp only
  apply Quiet.setNextAddr
  repeat (first | assumption | apply Quiet.error | apply Quiet.assertFail | split)

/-- The loop `rebindPhis` is quiet. -/
theorem Quiet.rebindPhis {s : St} (Nb Vidx : Nat) (is : List Nat) (Ns : ScopeCPS) (t : St)
    (h : Quiet s t) : Quiet s (rebindPhis Nb Vidx is (Ns, t)).2 := by
  induction is generalizing Ns t with
  | nil => exact h
  | cons i is ih =>
    unfold ohmu.rebindPhis
    split
    · exact ih _ _ h
    · split_ifs
      · exact ih _ _ h
      all_goals
        dsimp only
        split <;> exact ih _ _ (by
          first
            | exact h
            | exact h.assertFail _
            | exact (h.assertFail _).assertFail _)

/-- The loop `rebindPhis` leaves the view alone and clears no log. -/
theorem rebindPhis_view (Nb Vidx : Nat) (is : List Nat) (Ns : ScopeCPS) (t : St) :
    (rebindPhis Nb Vidx is (Ns, t)).2.view = t.view ∧
    ((rebindPhis Nb Vidx is (Ns, t)).2.sound → t.sound) := by
  induction is generalizing Ns t with
  | nil => exact ⟨rfl, id⟩
  | cons i is ih =>
    unfold ohmu.rebindPhis
    split
    · exact ih _ _
    · split_ifs
      · exact ih _ _
      all_goals
        dsimp only
        split
        all_goals
          refine ⟨(ih _ _).1.trans ?_, fun hc => ?_⟩
          · rfl
          · have := (ih _ _).2 hc
            first
              | exact this
              | exact absurd this (St.sound_assertFail _ _)

/-- Creating a pending block is quiet: the block it allocates is not begun, and it is the
entry block of the new pending block only. -/
theorem Quiet.newPendingBlock {s t : St} (Nc body : Option SExpr) (h : Quiet s t) :
    Quiet s (newPendingBlock Nc body t) := by
  unfold ohmu.newPendingBlock
  dsimp only
  generalize usub32 t.deBruinIndex t.deBruinIndexOfEnclosingNestedFunction = Nargs
  generalize usub32 t.scope.size Nargs = Vidx
  have hv := rebindPhis_view (t.newBlock Nargs).1 Vidx (List.range Nargs)
    (t.newBlock Nargs).2.scope.clone (t.newBlock Nargs).2
  generalize ohmu.rebindPhis (t.newBlock Nargs).1 Vidx (List.range Nargs)
    ((t.newBlock Nargs).2.scope.clone, (t.newBlock Nargs).2) = rb at hv ⊢
  obtain ⟨Ns, t2⟩ := rb
  dsimp only at hv ⊢
  have hcl : (addPendingBlock Nc body (t.newBlock Nargs).1 Ns t2).sound → t.sound :=
    fun hc => hv.2 hc
  refine ⟨fun hc => h.sound (hcl hc), fun hc hw hb => ?_⟩
  obtain ⟨hw1, he1, hb1⟩ := h.wf (hcl hc) hw hb
  have hview : (addPendingBlock Nc body (t.newBlock Nargs).1 Ns t2).view =
      { ({ t.view with blocks := t.view.blocks ++ [⟨Nargs, [], 0⟩] } : View) with
        pend := t.view.pend ++ [(t.blocks.length, none)] } := by
    have := hv.1
    rw [St.view_newBlock] at this
    simp only [St.view, View.mk.injEq] at this
    simp only [St.view, addPendingBlock, St.newBlock, List.map_append, List.map_cons,
      List.map_nil, this.1, this.2.1, this.2.2.1, this.2.2.2.1, this.2.2.2.2]
  have hlen : t.view.blocks.length = t.blocks.length := by simp [St.view]
  have hcur : (addPendingBlock Nc body (t.newBlock Nargs).1 Ns t2).currentBB = t.currentBB := by
    have := congrArg View.cur hview
    exact this
  rw [hview, hcur]
  refine ⟨?_, ?_, hb1⟩
  · apply View.WF.wf_addPending (hw1.wf_newBlock Nargs) t.blocks.length ⟨Nargs, [], 0⟩
    · dsimp only
      rw [← hlen]
      simp
    · rfl
    · intro P hP
      obtain ⟨i, hi⟩ := List.getElem?_of_mem hP
      have := hw1.pend_lt i P hi
      omega
  · apply View.Ext.ext_addPending (he1.ext_trans (View.Ext.ext_newBlock _ Nargs))
    rw [← hlen]
    exact he1.length

/-- The function `traverseNestedCode` is quiet. -/
theorem Quiet.traverseNestedCode {s t : St} {trav : Trav} (ht : TravOK trav) (Orig : SExpr)
    (h : Quiet s t) : Quiet s (traverseNestedCode trav Orig t).2 := by
  unfold ohmu.traverseNestedCode
  exact ((h.trav ht _ .TRV_Type (by decide)).reduceCode _ _).newPendingBlock _ _

/-- Pushing a future on the queue of futures is quiet. -/
theorem Quiet.setFutureQueue {s t : St} (q : List (SExpr × ScopeCPS)) (h : Quiet s t) :
    Quiet s { t with FutureQueue := q } := h.pure _ rfl id

/-- The function `traverseCode` is quiet. -/
theorem Quiet.traverseCode {s t : St} {trav : Trav} (ht : TravOK trav) (Orig : SExpr)
    (h : Quiet s t) : Quiet s (traverseCode trav Orig t).2 := by
  unfold ohmu.traverseCode
  split_ifs
  · exact h
  · exact h.traverseNestedCode ht _
  · dsimp only
    split
    · exact (h.trav ht _ .TRV_Type (by decide)).reduceCode _ _
    · exact ((h.trav ht _ .TRV_Type (by decide)).setFutureQueue _).reduceCode _ _

/-- Entering the scope of a copied binder is quiet. -/
theorem Quiet.enterBinder {s t : St} (Vd : VarDecl) (Nd : SExpr) (h : Quiet s t) :
    Quiet s (t.enterScope Vd Nd) := h.pure _ rfl id

/-- Leaving the scope of a copied binder is quiet. -/
theorem Quiet.exitBinder {s t : St} (h : Quiet s t) : Quiet s t.exitScope := h.pure _ rfl id

/-- The traversal of the declaration of a binder is quiet. -/
theorem Quiet.traverseVarDecl {s t : St} {trav : Trav} (ht : TravOK trav) (kind : VariableKind)
    (d : SExpr) (h : Quiet s t) : Quiet s (traverseVarDecl trav kind d t).2 := by
  unfold ohmu.traverseVarDecl
  split
  · exact h.trav ht _ .TRV_Type (by decide)
  · exact h
  · exact h.trav ht _ .TRV_Decl (by decide)

/-- The traversal of the declaration of a binder restores the continuation. -/
theorem traverseVarDecl_cont {trav : Trav} (ht : TravOK trav) (kind : VariableKind)
    (d : SExpr) (t : St) : (traverseVarDecl trav kind d t).2.scope.Cont = t.scope.Cont := by
  unfold traverseVarDecl
  split
  · exact ht.cont _ _ _
  · rfl
  · exact ht.cont _ _ _

/-- The report of an operand that is not of the required kind is quiet. -/
theorem Quiet.reportUnlessUndefined {s t : St} (E : Option SExpr) (msg : String)
    (h : Quiet s t) : Quiet s (reportUnlessUndefined E msg t) := by
  unfold ohmu.reportUnlessUndefined
  split
  · exact (h.assertFail _).error _
  · split_ifs
    · exact h.error _
    · exact h

/-- The rule `reduceApply` is quiet. -/
theorem Quiet.reduceApply {s t : St} {trav : Trav} (ht : TravOK trav) (kind : ApplyKind)
    (Fa Aa : TypedCopyAttr) (h : Quiet s t) : Quiet s (reduceApply trav kind Fa Aa t).2 := by
  unfold ohmu.reduceApply
  dsimp only
  repeat' split
  all_goals first
    | exact (h.evaluateTypeExpr ht _).setBaseTypeFromExpr _ _
    | exact h.evaluateTypeExpr ht _
    | exact h.reportUnlessUndefined _ _

/-- The rule `reduceProject` is quiet. -/
theorem Quiet.reduceProject {s t : St} {trav : Trav} (ht : TravOK trav) (slotName : String)
    (Ra : TypedCopyAttr) (h : Quiet s t) : Quiet s (reduceProject trav slotName Ra t).2 := by
  unfold ohmu.reduceProject
  dsimp only
  repeat' split
  all_goals first
    | exact (h.evaluateTypeExpr ht _).setBaseTypeFromExpr _ _
    | exact h.evaluateTypeExpr ht _
    | exact h.reportUnlessUndefined _ _
    | exact h.error _

/-- The rule `reduceLoad` is quiet. -/
theorem Quiet.reduceLoad {s t : St} {trav : Trav} (ht : TravOK trav) (Fa : TypedCopyAttr)
    (h : Quiet s t) : Quiet s (reduceLoad trav Fa t).2 := by
  unfold ohmu.reduceLoad
  dsimp only
  repeat' split
  all_goals first
    | exact (h.evaluateTypeExpr ht _).setBaseTypeFromExpr _ _
    | exact h.evaluateTypeExpr ht _
    | exact h.reportUnlessUndefined _ _

/-- The rule `reduceAlloc` is quiet. -/
theorem Quiet.reduceAlloc {s t : St} (allocKind : AllocKind) (a0 : TypedCopyAttr)
    (h : Quiet s t) : Quiet s (reduceAlloc allocKind a0 t).2 := by
  unfold ohmu.reduceAlloc
  split
  · exact h.assertFail _
  · split_ifs
    · exact h.error _
    · exact h

/-- The loop of `reduceIdentifier` is quiet. -/
theorem Quiet.identifierLoop {s : St} {trav : Trav} (R : TypeRules) (ht : TravOK trav)
    (Idstr : String) (i : Nat) (t : St) (h : Quiet s t) :
    Quiet s (identifierLoop R trav Idstr i t).2 := by
  induction i generalizing t with
  | zero => exact h
  | succ i ih =>
    unfold ohmu.identifierLoop
    split
    · exact ih _ h
    · split_ifs
      · exact h.reduceVarSubstitution R ht _
      · split
        · exact ih _ (h.assertFail _)
        · split
          · split
            · exact ih _ h
            · split_ifs
              · exact h
              · exact (h.setBaseTypeFromExpr _ _).assertFail _
              · exact h.setBaseTypeFromExpr _ _
          · exact ih _ (h.assertFail _)
          · exact ih _ h
      · exact ih _ h

/-- The rule `reduceIdentifier` is quiet. -/
theorem Quiet.reduceIdentifier {s t : St} {trav : Trav} (R : TypeRules) (ht : TravOK trav)
    (Orig : SExpr) (h : Quiet s t) : Quiet s (reduceIdentifier R trav Orig t).2 := by
  unfold ohmu.reduceIdentifier
  split
  · rename_i Idstr
    have hl := Quiet.identifierLoop R ht Idstr (usub32 t.scope.size 1) t h
    generalize ohmu.identifierLoop R trav Idstr (usub32 t.scope.size 1) t = r at hl ⊢
    obtain ⟨o, u⟩ := r
    unfold identifierResult superReduceIdentifier
    cases o with
    | some Res => exact hl
    | none => exact hl.error _
  · exact h.assertFail _

/-- The function `traverseFunction` is quiet. -/
theorem Quiet.traverseFunction {s t : St} {trav : Trav} (ht : TravOK trav) (Orig : SExpr)
    (h : Quiet s t) : Quiet s (traverseFunction trav Orig t).2 := by
  unfold ohmu.traverseFunction
  split_ifs
  · exact h
  · unfold ohmu.superTraverseFunction
    split
    · dsimp only [reduceFunction, superReduceFunction]
      exact (((h.traverseVarDecl ht _ _).enterBinder _ _).trav ht _ .TRV_Decl
        (by decide)).exitBinder
    · exact h.assertFail _

/-- The traversal of a slot is quiet. -/
theorem Quiet.traverseSlot {s t : St} {trav : Trav} (ht : TravOK trav) (Orig : SExpr)
    (h : Quiet s t) : Quiet s (traverseSlot trav Orig t).2 := by
  unfold ohmu.traverseSlot
  split
  · exact h.trav ht _ .TRV_Decl (by decide)
  · exact h.assertFail _

/-- The loop over the slots of a record is quiet. -/
theorem Quiet.traverseSlots {s : St} {trav : Trav} (ht : TravOK trav) (e : SExpr) (t : St)
    (h : Quiet s t) : Quiet s (traverseSlots trav e t).2 := by
  induction e generalizing t with
  | Slot n fin d next _ ih =>
    unfold ohmu.traverseSlots
    exact ih _ (h.trav ht _ .TRV_Decl (by decide))
  | _ =>
    unfold ohmu.traverseSlots
    exact h

/-- The function `traverseRecord` is quiet. -/
theorem Quiet.traverseRecord {s t : St} {trav : Trav} (ht : TravOK trav) (Orig : SExpr)
    (h : Quiet s t) : Quiet s (traverseRecord trav Orig t).2 := by
  unfold ohmu.traverseRecord
  split_ifs
  · exact h
  · unfold ohmu.superTraverseRecord
    split
    · exact Quiet.traverseSlots ht _ _ h
    · exact h.assertFail _

/-- The function `traverseField` is quiet. -/
theorem Quiet.traverseField {s t : St} {trav : Trav} (ht : TravOK trav) (Orig : SExpr)
    (h : Quiet s t) : Quiet s (traverseField trav Orig t).2 := by
  unfold ohmu.traverseField
  split_ifs
  · exact h
  · unfold ohmu.superTraverseField
    split
    · exact (h.trav ht _ .TRV_Type (by decide)).trav ht _ .TRV_Lazy (by decide)
    · exact h.assertFail _

/-- A quiet step is a closing step that closes nothing. -/
theorem Quiet.closing {s t : St} (h : Quiet s t) : Closing s t := by
  refine ⟨h.sound, fun hc hw hb => ?_⟩
  obtain ⟨h1, h2, h3⟩ := h.wf hc hw hb
  refine ⟨h1, h2, fun hn => ?_⟩
  rw [hn] at h3
  cases h3

/-- A change that leaves the view alone and clears no log prolongs a closing step. -/
theorem Closing.congr_view {s t : St} (h : Closing s t) (t' : St) (hv : t'.view = t.view)
    (hc : t'.sound → t.sound) : Closing s t' := by
  refine ⟨fun hc' => h.sound (hc hc'), fun hc' hw hb => ?_⟩
  obtain ⟨hw1, he1, hb1⟩ := h.wf (hc hc') hw hb
  rw [hv]
  refine ⟨hw1, he1, fun hn => hb1 ?_⟩
  have : t'.currentBB = t.currentBB := congrArg View.cur hv
  rw [← this]; exact hn

theorem Closing.withScope {s t : St} (S : ScopeCPS) (h : Closing s t) :
    Closing s { t with scope := S } := h.congr_view _ rfl id

/-- A quiet step that keeps the continuation, followed by a closing step, is a closing
step. -/
theorem Quiet.then_closing {s t u : St} (h1 : Quiet s t) (hcont : t.scope.Cont = s.scope.Cont)
    (h2 : Closing t u) : Closing s u := by
  refine ⟨fun hc => h1.sound (h2.sound hc), fun hc hw hb => ?_⟩
  obtain ⟨hw1, he1, hb1⟩ := h1.wf (h2.sound hc) hw hb
  obtain ⟨hw2, he2, hb2⟩ := h2.wf hc hw1 hb1
  exact ⟨hw2, he1.ext_trans he2, fun hn => hcont ▸ hb2 hn⟩

/-- Every traversal is a closing step. -/
theorem Closing.ofTrav {trav : Trav} (ht : TravOK trav) (e : SExpr) (k : TraversalKind) (t : St) :
    Closing t (trav e k t).2 := by
  refine ⟨ht.sound e k t, fun hc hw hb => ?_⟩
  obtain ⟨h1, h2, h3⟩ := ht.wf e k t hc hw hb
  refine ⟨h1, h2, fun hn => ?_⟩
  split_ifs at h3 with hk
  · exact hk.2
  · rw [hn] at h3
    cases h3

/-- Finishing the open block under a continuation is a closing step. -/
theorem Closing.ofFinishBlock (t : St) (term : Terminator) (hcont : t.scope.Cont.isSome = true) :
    Closing t (t.finishBlock term) := by
  refine ⟨(St.sound_finishBlock t term).mp, fun _ hw hb => ?_⟩
  obtain ⟨c, hc⟩ := Option.isSome_iff_exists.mp hb
  rw [St.view_finishBlock t term c hc]
  exact ⟨hw.wf_finishBlock term c hc, View.Ext.ext_finishBlock _ term c hc, fun _ => hcont⟩

/-- The tail of `reduceNestedCall` is a closing step under a continuation. -/
theorem Closing.nestedCallGoto (Ca Res : TypedCopyAttr) (Pb : PendingBlock) (t : St)
    (hcont : t.scope.Cont.isSome = true) : Closing t (nestedCallGoto Ca Res Pb t).2.2 := by
  unfold ohmu.nestedCallGoto
  split_ifs
  · exact ((Quiet.refl t).error _).closing
  · exact ((Quiet.refl t).assertFail _).then_closing rfl (Closing.ofFinishBlock _ _ hcont)
  · exact Closing.ofFinishBlock _ _ hcont

/-- Fixing the continuation of a pending block and enqueueing it is quiet. -/
theorem Quiet.fixCont (t u : St) (i c : Nat) (Pb : PendingBlock)
    (hp : t.PendingBlks[i]? = some Pb) (hpc : Pb.Cont = none)
    (h1 : u.PendingBlks = t.PendingBlks.set i { Pb with Cont := some c })
    (h2 : u.PendingBlockQueue = t.PendingBlockQueue ++ [i]) (h3 : u.blocks = t.blocks)
    (h4 : u.currentBB = t.currentBB) (h5 : u.invalid = t.invalid) (h6 : u.sound → t.sound) :
    Quiet t u := by
  refine ⟨h6, fun _ hw hb => ?_⟩
  have hview : u.view =
      { t.view with pend := t.view.pend.set i (Pb.Block, some c), queue := t.view.queue ++ [i] } := by
    simp [St.view, List.map_set, h1, h2, h3, h4, h5]
  have hi : t.view.pend[i]? = some (Pb.Block, none) := by
    simp [St.view, List.getElem?_map, hp, hpc]
  rw [hview, h4]
  exact ⟨hw.wf_fixCont i Pb.Block c hi, (View.Ext.ext_refl _).ext_fixCont i Pb.Block c hi, hb⟩

/-- The first tail call to a pending block: fixing its continuation and jumping to it
is a closing step. -/
theorem Closing.fixContGoto (Ca Res : TypedCopyAttr) (Pb : PendingBlock) (t : St) (i c : Nat)
    (hp : t.PendingBlks[i]? = some Pb) (hpc : Pb.Cont = none) (hk : t.scope.Cont = some c)
    (u : St) (h1 : u.PendingBlks = t.PendingBlks.set i { Pb with Cont := some c })
    (h2 : u.PendingBlockQueue = t.PendingBlockQueue ++ [i]) (h3 : u.blocks = t.blocks)
    (h4 : u.currentBB = t.currentBB) (h5 : u.invalid = t.invalid) (h6 : u.sound → t.sound)
    (h7 : u.scope = t.scope) : Closing t (ohmu.nestedCallGoto Ca Res Pb u).2.2 :=
  (Quiet.fixCont t u i c Pb hp hpc h1 h2 h3 h4 h5 h6).then_closing (by rw [h7])
    (Closing.nestedCallGoto Ca Res Pb u (by rw [h7, hk]; rfl))

/-- The function `reduceNestedCall` is a closing step. -/
theorem Closing.reduceNestedCall (Ca Res : TypedCopyAttr) (C : SExpr) (t : St) :
    Closing t (reduceNestedCall Ca Res C t).2.2 := by
  unfold ohmu.reduceNestedCall
  cases hf : t.findCode C with
  | none => exact (Quiet.refl t).closing
  | some i =>
    dsimp only
    cases hp : t.PendingBlks[i]? with
    | none => exact ((Quiet.refl t).assertFail _).closing
    | some Pb =>
      dsimp only
      cases hpc : Pb.Cont with
      | none =>
        dsimp only
        cases hk : t.currentContinuation with
        | none => exact ((Quiet.refl t).error _).closing
        | some c =>
          dsimp only
          exact Closing.fixContGoto Ca Res Pb t i c hp hpc hk _ rfl rfl rfl rfl rfl id rfl
      | some c =>
        dsimp only
        split_ifs with hne
        · exact ((Quiet.refl t).error _).closing
        · apply Closing.nestedCallGoto
          have : t.scope.Cont = some c := (not_not.mp hne).symm
          rw [this]; rfl

/-- When `reduceNestedCall` returns false it has changed nothing. -/
theorem reduceNestedCall_false (Ca Res : TypedCopyAttr) (C : SExpr) (t : St)
    (h : (reduceNestedCall Ca Res C t).1 = false) :
    reduceNestedCall Ca Res C t = (false, Res, t) := by
  unfold ohmu.reduceNestedCall at h ⊢
  cases hf : t.findCode C with
  | none => rfl
  | some i =>
    exfalso
    rw [hf] at h
    dsimp only at h
    cases hp : t.PendingBlks[i]? with
    | none => rw [hp] at h; cases h
    | some Pb =>
      rw [hp] at h
      dsimp only at h
      have hg : ∀ u, (nestedCallGoto Ca Res Pb u).1 = true := by
        intro u; unfold nestedCallGoto; split_ifs <;> rfl
      cases hpc : Pb.Cont with
      | none =>
        rw [hpc] at h
        dsimp only at h
        cases hk : t.currentContinuation with
        | none => rw [hk] at h; cases h
        | some c =>
          rw [hk] at h
          dsimp only at h
          rw [hg] at h
          cases h
      | some c =>
        rw [hpc] at h
        dsimp only at h
        split_ifs at h
        rw [hg] at h
        cases h

/-- The rule `reduceCall` is a closing step. -/
theorem Closing.reduceCall {trav : Trav} (ht : TravOK trav) (Ca : TypedCopyAttr) (t : St) :
    Closing t (reduceCall trav Ca t).2 := by
  unfold ohmu.reduceCall
  dsimp only
  split_ifs with hnc hn
  · split
    · exact (((Quiet.refl t).assertFail _).error _).closing
    · split_ifs
      · exact ((Quiet.refl t).error _).closing
      · exact (Quiet.refl t).closing
  · exact Closing.reduceNestedCall _ _ _ _
  · have hf := reduceNestedCall_false Ca TypedCopyAttr.null (Ca.TypeExpr.getD .Undefined) t
      (by simpa using hn)
    rw [hf]
    dsimp only
    split
    · exact (((Quiet.refl t).evaluateTypeExpr ht _).setBaseTypeFromExpr _ _).closing
    · exact ((Quiet.refl t).evaluateTypeExpr ht _).closing

/-- Leaving the scope of a copied binder prolongs a closing step. -/
theorem Closing.afterBinder {s t : St} (h : Closing s t) : Closing s t.exitScope :=
  h.congr_view _ rfl id

/-- The inherited traversal of a let is a closing step. -/
theorem Closing.superTraverseLet {trav : Trav} (ht : TravOK trav) (Orig : SExpr) (t : St) :
    Closing t (superTraverseLet trav Orig t).2 := by
  unfold ohmu.superTraverseLet
  split
  · dsimp only
    apply Closing.afterBinder
    refine Quiet.then_closing (((Quiet.refl t).traverseVarDecl ht _ _).enterBinder _ _) ?_
      (Closing.ofTrav ht _ _ _)
    exact traverseVarDecl_cont ht _ _ _
  · exact ((Quiet.refl t).assertFail _).closing

/-- The function `traverseLet` is a closing step. -/
theorem Closing.traverseLet {trav : Trav} (ht : TravOK trav) (Orig : SExpr) (t : St) :
    Closing t (traverseLet trav Orig t).2 := by
  unfold ohmu.traverseLet
  split
  · split_ifs
    · exact Closing.superTraverseLet ht _ _
    · dsimp only
      apply Closing.withScope
      refine Quiet.then_closing (((Quiet.refl t).trav ht _ .TRV_Decl (by decide)).setScope _) ?_
        (Closing.ofTrav ht _ _ _)
      exact ht.cont _ _ _
  · exact ((Quiet.refl t).assertFail _).closing

/-- A reserved block stays reserved when the view is extended. -/
theorem View.Reserved.ext {v w : View} {b n : Nat} (h : v.Reserved b n) (he : v.Ext w) :
    w.Reserved b n := by
  obtain ⟨⟨B, hB, h0, hn⟩, hp⟩ := h
  obtain ⟨B', hB', h1, h2, _⟩ := he.block b B hB
  refine ⟨⟨B', hB', h1.trans h0, h2.trans hn⟩, fun P hP => ?_⟩
  rcases he.pend P hP with ⟨Q, hQ, hQP⟩ | hge
  · rw [← hQP]; exact hp Q hQ
  · have := lt_length_of_getElem? hB
    omega

/-- The number of blocks of the view. -/
theorem St.view_blocks_length (s : St) : s.view.blocks.length = s.blocks.length := by
  simp [St.view]

/-- What allocating a block does. -/
theorem St.newBlock_spec (s : St) (n : Nat) (hw : s.view.WF) :
    (s.newBlock n).2.view.WF ∧ s.view.Ext (s.newBlock n).2.view ∧
    (s.newBlock n).2.view.Reserved s.blocks.length n ∧
    (s.newBlock n).2.currentBB = s.currentBB ∧
    (s.newBlock n).2.blocks.length = s.blocks.length + 1 ∧
    (s.newBlock n).1 = s.blocks.length := by
  refine ⟨?_, ?_, ?_, rfl, by simp [St.newBlock], rfl⟩
  · rw [St.view_newBlock]; exact hw.wf_newBlock n
  · rw [St.view_newBlock]; exact View.Ext.ext_newBlock _ n
  · rw [St.view_newBlock]
    refine ⟨⟨⟨n, [], 0⟩, ?_, rfl, rfl⟩, fun P hP => ?_⟩
    · dsimp only
      rw [← St.view_blocks_length]
      simp
    · obtain ⟨i, hi⟩ := List.getElem?_of_mem hP
      have := hw.pend_lt i P hi
      rw [St.view_blocks_length] at this
      omega

/-- What finishing the open block does. -/
theorem St.finishBlock_spec (s : St) (t : Terminator) (c : Nat) (hw : s.view.WF)
    (hc : s.currentBB = some c) :
    (s.finishBlock t).view.WF ∧ s.view.Ext (s.finishBlock t).view ∧
    (s.finishBlock t).currentBB = none ∧
    (s.finishBlock t).blocks.length = s.blocks.length := by
  refine ⟨?_, ?_, ?_, ?_⟩
  · rw [St.view_finishBlock s t c hc]; exact hw.wf_finishBlock t c hc
  · rw [St.view_finishBlock s t c hc]; exact View.Ext.ext_finishBlock _ t c hc
  · simp [St.finishBlock, hc]
  · simp [St.finishBlock, hc]

/-- What beginning a reserved block does. -/
theorem St.beginBlock_spec (s : St) (b n : Nat) (hw : s.view.WF) (hcur : s.currentBB = none)
    (hres : s.view.Reserved b n) :
    (s.beginBlock b).view.WF ∧ (s.beginBlock b).currentBB = some b ∧
    (s.beginBlock b).blocks.length = s.blocks.length ∧
    (∀ v0 : View, v0.Ext s.view → v0.blocks.length ≤ b → v0.Ext (s.beginBlock b).view) ∧
    (∀ b' n', b' ≠ b → s.view.Reserved b' n' → (s.beginBlock b).view.Reserved b' n') ∧
    (s.beginBlock b).view.blocks[b]?.map (·.arguments) = some n := by
  obtain ⟨⟨B, hB, h0, hn⟩, hp⟩ := hres
  rw [St.view_beginBlock s b hcur]
  refine ⟨?_, ?_, ?_, ?_, ?_, ?_⟩
  · apply hw.wf_beginBlock b B hcur hB h0
    intro i P hP he
    exact absurd he (hp P (List.getElem?_mem hP))
  · simp [St.beginBlock, hcur]
  · simp [St.beginBlock, hcur]
  · intro v0 he hle
    exact he.ext_beginBlock b hle
  · intro b' n' hne ⟨⟨B', hB', h0', hn'⟩, hp'⟩
    refine ⟨⟨B', ?_, h0', hn'⟩, hp'⟩
    dsimp only
    rw [List.getElem?_modify_ne _ _ (Ne.symm hne)]
    exact hB'
  · dsimp only
    rw [List.getElem?_modify_eq, hB]
    simp [hn]

/-- One arm of a conditional: the reserved block is begun, the arm is traversed in tail
position under a continuation, and no block is open afterwards. -/
theorem arm_step {trav : Trav} (ht : TravOK trav) (e : SExpr) (u : St) (b n Cont : Nat)
    (hw : u.view.WF) (hcur : u.currentBB = none) (hres : u.view.Reserved b n)
    (hc : (trav e .TRV_Tail ((u.beginBlock b).setContinuation (some Cont))).2.sound) :
    (trav e .TRV_Tail ((u.beginBlock b).setContinuation (some Cont))).2.view.WF ∧
    (trav e .TRV_Tail ((u.beginBlock b).setContinuation (some Cont))).2.currentBB = none ∧
    (u.beginBlock b).view.Ext
      (trav e .TRV_Tail ((u.beginBlock b).setContinuation (some Cont))).2.view ∧
    u.sound := by
  obtain ⟨h1, h2, _, _, _, _⟩ := St.beginBlock_spec u b n hw hcur hres
  have hb : ((u.beginBlock b).setContinuation (some Cont)).currentBB.isSome = true := by
    show (u.beginBlock b).currentBB.isSome = true
    rw [h2]; rfl
  obtain ⟨h3, h4, h5⟩ := ht.wf e .TRV_Tail _ hc h1 hb
  rw [if_pos ⟨rfl, rfl⟩] at h5
  refine ⟨h3, h5, h4, ?_⟩
  have := ht.sound e .TRV_Tail _ hc
  simpa using this

/-- The two arms of a conditional. -/
theorem traverseArms_spec {trav : Trav} (ht : TravOK trav) (A B : SExpr) (Tb Eb Cont : Nat)
    (CurrCont : Option Nat) (u : St) (hw : u.view.WF) (hcur : u.currentBB = none)
    (hT : u.view.Reserved Tb 0) (hE : u.view.Reserved Eb 0) (hne : Eb ≠ Tb)
    (hc : (traverseArms trav A B Tb Eb Cont CurrCont u).sound) :
    (traverseArms trav A B Tb Eb Cont CurrCont u).view.WF ∧
    (traverseArms trav A B Tb Eb Cont CurrCont u).currentBB = none ∧
    u.sound ∧
    (∀ v0 : View, v0.Ext u.view → v0.blocks.length ≤ Tb → v0.blocks.length ≤ Eb →
      v0.Ext (traverseArms trav A B Tb Eb Cont CurrCont u).view) ∧
    (∀ b n, b ≠ Tb → b ≠ Eb → u.view.Reserved b n →
      (traverseArms trav A B Tb Eb Cont CurrCont u).view.Reserved b n) := by
  unfold traverseArms at hc ⊢
  dsimp only at hc ⊢
  simp only [St.sound_setContinuation, St.view_setContinuation] at hc ⊢
  generalize hu1 : (trav A .TRV_Tail ((u.beginBlock Tb).setContinuation (some Cont))).2 = u1
    at hc ⊢
  have hc1 : u1.sound := by
    have := ht.sound B .TRV_Tail _ hc
    simpa using this
  obtain ⟨b1, b2, b3, b4, b5, _⟩ := St.beginBlock_spec u Tb 0 hw hcur hT
  have a := arm_step ht A u Tb 0 Cont hw hcur hT (by rw [hu1]; exact hc1)
  rw [hu1] at a
  obtain ⟨a1, a2, a3, a4⟩ := a
  have hE1 : u1.view.Reserved Eb 0 := (b5 Eb 0 hne hE).ext a3
  obtain ⟨c1, c2, c3, c4, c5, _⟩ := St.beginBlock_spec u1 Eb 0 a1 a2 hE1
  obtain ⟨d1, d2, d3, _⟩ := arm_step ht B u1 Eb 0 Cont a1 a2 hE1 hc
  refine ⟨d1, d2, a4, ?_, ?_⟩
  · intro v0 he h1 h2
    exact (c4 v0 ((b4 v0 he h1).ext_trans a3) h2).ext_trans d3
  · intro b n hb1 hb2 hr
    exact (c5 b n hb2 ((b5 b n hb1 hr).ext a3)).ext d3

/-- The arms of a conditional clear no log. -/
theorem traverseArms_sound {trav : Trav} (ht : TravOK trav) (A B : SExpr) (Tb Eb Cont : Nat)
    (CurrCont : Option Nat) (u : St)
    (hc : (traverseArms trav A B Tb Eb Cont CurrCont u).sound) : u.sound := by
  unfold traverseArms at hc
  dsimp only at hc
  simp only [St.sound_setContinuation] at hc
  have h1 := ht.sound B .TRV_Tail _ hc
  simp only [St.sound_setContinuation, St.sound_beginBlock] at h1
  have h2 := ht.sound A .TRV_Tail _ h1
  simpa using h2

/-- The join block of a conditional, once begun, is the current block. -/
theorem beginJoin_spec (Cont : Nat) (u : St) (hw : u.view.WF) (hcur : u.currentBB = none)
    (hres : u.view.Reserved Cont 1) :
    (beginJoin Cont u).2 = u.beginBlock Cont ∧
    (beginJoin Cont u).1 = TypedCopyAttr.null.setExp (some (St.phi Cont 0)) := by
  obtain ⟨_, h2, _, _, _, h6⟩ := St.beginBlock_spec u Cont 1 hw hcur hres
  have ha : (u.beginBlock Cont).blocks[Cont]?.elim 0 (·.arguments) = 1 := by
    simp only [St.view, List.getElem?_map] at h6
    cases hb : (u.beginBlock Cont).blocks[Cont]? with
    | none => rw [hb] at h6; simp at h6
    | some b =>
      rw [hb] at h6
      simp only [Option.map_some', BasicBlock.view, Option.some.injEq] at h6
      simpa using h6
  unfold beginJoin
  dsimp only
  rw [h2]
  dsimp only
  rw [ha]
  simp

/-- Beginning the join block clears no log. -/
theorem beginJoin_sound (Cont : Nat) (u : St) (hc : (beginJoin Cont u).2.sound) : u.sound := by
  unfold beginJoin at hc
  dsimp only at hc
  split at hc
  · split_ifs at hc
    · simpa using hc
    · simp at hc
  · simp at hc

/-- The branch compiler clears no log. -/
theorem traverseBranches_sound {trav : Trav} (ht : TravOK trav) (Nc : Option SExpr)
    (A B : SExpr) (t : St) (hc : (traverseBranches trav Nc A B t).2.sound) : t.sound := by
  unfold traverseBranches at hc
  dsimp only at hc
  split at hc
  · have := traverseArms_sound ht _ _ _ _ _ _ _ hc
    simpa [St.newBranch] using this
  · have := traverseArms_sound ht _ _ _ _ _ _ _ (beginJoin_sound _ _ hc)
    simpa [St.newBranch] using this
/-- Modifying an element of a list commutes with appending to the list. -/
theorem modify_append_left {α : Type} (f : α → α) (l l' : List α) (c : Nat)
    (h : c < l.length) : (l ++ l').modify f c = l.modify f c ++ l' := by
  induction l generalizing c with
  | nil => simp at h
  | cons a l ih =>
    cases c with
    | zero => rfl
    | succ c =>
      simp only [List.cons_append, List.modify_succ_cons, List.cons.injEq, true_and]
      exact ih c (by simpa using h)

/-- Terminating the current block commutes with allocating a block. -/
theorem St.finishBlock_newBlock (s : St) (term : Terminator) (n c : Nat)
    (hc : s.currentBB = some c) (hlt : c < s.blocks.length) :
    (s.newBlock n).2.finishBlock term = ((s.finishBlock term).newBlock n).2 := by
  simp only [St.newBlock, St.finishBlock, hc, modify_append_left _ _ _ _ hlt]

/-- The branch compiler, with the branch moved before the allocation of the blocks of the
arms: from a state with a current block, the blocks of the arms are the next two blocks
and the join block, if there is one, the third. -/
theorem traverseBranches_eq (trav : Trav) (Nc : Option SExpr) (A B : SExpr) (t : St) (c0 : Nat)
    (hcur : t.currentBB = some c0) (hlt : c0 < t.blocks.length) :
    traverseBranches trav Nc A B t =
      match t.scope.Cont with
      | some c =>
        (TypedCopyAttr.null,
          traverseArms trav A B t.blocks.length (t.blocks.length + 1) c (some c)
            (((t.finishBlock (.Branch Nc t.blocks.length (t.blocks.length + 1))).newBlock
              0).2.newBlock 0).2)
      | none =>
        beginJoin (t.blocks.length + 2)
          (traverseArms trav A B t.blocks.length (t.blocks.length + 1) (t.blocks.length + 2) none
            ((((t.finishBlock (.Branch Nc t.blocks.length (t.blocks.length + 1))).newBlock
              0).2.newBlock 0).2.newBlock 1).2) := by
  have e1 : (t.newBlock 0).1 = t.blocks.length := rfl
  have e2 : ((t.newBlock 0).2.newBlock 0).1 = t.blocks.length + 1 := by simp [St.newBlock]
  have e3 : ((t.newBlock 0).2.newBlock 0).2.newBranch Nc t.blocks.length (t.blocks.length + 1) =
      (((t.finishBlock (.Branch Nc t.blocks.length (t.blocks.length + 1))).newBlock
        0).2.newBlock 0).2 := by
    unfold St.newBranch
    rw [St.finishBlock_newBlock _ _ 0 c0 (by exact hcur) (by simp [St.newBlock]; omega),
      St.finishBlock_newBlock _ _ 0 c0 hcur hlt]
  have e4 : ((((t.finishBlock (.Branch Nc t.blocks.length (t.blocks.length + 1))).newBlock
      0).2.newBlock 0).2.newBlock 1).1 = t.blocks.length + 2 := by
    simp [St.newBlock, St.finishBlock, hcur]
  have e5 : (((t.finishBlock (.Branch Nc t.blocks.length (t.blocks.length + 1))).newBlock
      0).2.newBlock 0).2.currentContinuation = t.scope.Cont := by
    simp [St.currentContinuation, St.finishBlock_scope]
  unfold traverseBranches
  dsimp only
  rw [e1, e2, e3, e5]
  cases t.scope.Cont with
  | some c => rfl
  | none =>
    dsimp only
    rw [e4]
/-- The current block of a disciplined state is an allocated block. -/
theorem St.currentBB_lt (s : St) (c : Nat) (hw : s.view.WF) (hc : s.currentBB = some c) :
    c < s.blocks.length := by
  obtain ⟨B, hB, _⟩ := hw.cur c (by simpa [St.view] using hc)
  have := lt_length_of_getElem? hB
  rwa [St.view_blocks_length] at this

/-- The branch compiler on a disciplined state with a current block: the current block
is terminated by the branch, and beyond that the graph is only extended; under a
continuation no block is open afterwards, and without one the join block, with one phi
parameter, is the current block and its phi parameter is the residual. -/
theorem traverseBranches_spec {trav : Trav} (ht : TravOK trav) (Nc : Option SExpr)
    (A B : SExpr) (t : St) (c0 : Nat) (hw : t.view.WF) (hcur : t.currentBB = some c0)
    (hc : (traverseBranches trav Nc A B t).2.sound) :
    (traverseBranches trav Nc A B t).2.view.WF ∧
    (t.finishBlock (.Branch Nc t.blocks.length (t.blocks.length + 1))).view.Ext
      (traverseBranches trav Nc A B t).2.view ∧
    (match t.scope.Cont with
      | some _ => (traverseBranches trav Nc A B t).2.currentBB = none
      | none =>
        (traverseBranches trav Nc A B t).2.currentBB = some (t.blocks.length + 2) ∧
        (traverseBranches trav Nc A B t).1 =
          TypedCopyAttr.null.setExp (some (St.phi (t.blocks.length + 2) 0)) ∧
        (traverseBranches trav Nc A B t).2.view.blocks[t.blocks.length + 2]?.map (·.arguments)
          = some 1) := by
  have hlt := St.currentBB_lt t c0 hw hcur
  rw [traverseBranches_eq trav Nc A B t c0 hcur hlt] at hc ⊢
  obtain ⟨f1, -, f3, f4⟩ :=
    St.finishBlock_spec t (.Branch Nc t.blocks.length (t.blocks.length + 1)) c0 hw hcur
  generalize t.finishBlock (.Branch Nc t.blocks.length (t.blocks.length + 1)) = t1 at *
  obtain ⟨n1, n2, n3, n4, n5, -⟩ := St.newBlock_spec t1 0 f1
  rw [f4] at n3 n5
  generalize (t1.newBlock 0).2 = t2 at *
  obtain ⟨m1, m2, m3, m4, m5, -⟩ := St.newBlock_spec t2 0 n1
  rw [n5] at m3 m5
  have hT := n3.ext m2
  have h12 := n2.ext_trans m2
  have hl1 : t1.view.blocks.length = t.blocks.length := by rw [St.view_blocks_length, f4]
  generalize (t2.newBlock 0).2 = t3 at *
  have hcur3 : t3.currentBB = none := by rw [m4, n4, f3]
  cases hk : t.scope.Cont with
  | some c =>
    rw [hk] at hc
    dsimp only at hc ⊢
    obtain ⟨a1, a2, -, a4, -⟩ := traverseArms_spec ht A B t.blocks.length (t.blocks.length + 1)
      c (some c) t3 m1 hcur3 hT m3 (by omega) hc
    exact ⟨a1, a4 _ h12 (by omega) (by omega), a2⟩
  | none =>
    rw [hk] at hc
    dsimp only at hc ⊢
    obtain ⟨p1, p2, p3, p4, p5, -⟩ := St.newBlock_spec t3 1 m1
    rw [m5] at p3
    have hT4 := hT.ext p2
    have hE4 := m3.ext p2
    have h14 := h12.ext_trans p2
    generalize (t3.newBlock 1).2 = t4 at *
    have hca := beginJoin_sound _ _ hc
    obtain ⟨a1, a2, -, a4, a5⟩ := traverseArms_spec ht A B t.blocks.length
      (t.blocks.length + 1) (t.blocks.length + 2) none t4 p1 (by rw [p4, hcur3]) hT4 hE4
      (by omega) hca
    have hJ := a5 _ 1 (by omega) (by omega) p3
    have h1a := a4 _ h14 (by omega) (by omega)
    generalize traverseArms trav A B t.blocks.length (t.blocks.length + 1)
      (t.blocks.length + 2) none t4 = t5 at *
    obtain ⟨j1, j2⟩ := beginJoin_spec (t.blocks.length + 2) t5 a1 a2 hJ
    obtain ⟨b1, b2, -, b4, -, b6⟩ := St.beginBlock_spec t5 (t.blocks.length + 2) 1 a1 a2 hJ
    rw [j1, j2]
    exact ⟨b1, b4 _ h1a (by omega), b2, rfl, b6⟩

/-- The branch compiler is a closing step. -/
theorem Closing.traverseBranches {trav : Trav} (ht : TravOK trav) (Nc : Option SExpr)
    (A B : SExpr) (t : St) : Closing t (traverseBranches trav Nc A B t).2 := by
  refine ⟨traverseBranches_sound ht Nc A B t, fun hc hw hb => ?_⟩
  obtain ⟨c0, hcur⟩ := Option.isSome_iff_exists.mp hb
  obtain ⟨h1, h2, h3⟩ := traverseBranches_spec ht Nc A B t c0 hw hcur hc
  obtain ⟨-, f2, -, -⟩ :=
    St.finishBlock_spec t (.Branch Nc t.blocks.length (t.blocks.length + 1)) c0 hw hcur
  refine ⟨h1, f2.ext_trans h2, fun hn => ?_⟩
  cases hk : t.scope.Cont with
  | some c => rfl
  | none =>
    rw [hk] at h3
    rw [h3.1] at hn
    cases hn

/-- The type check of a condition is a quiet step. -/
theorem Quiet.checkCondition {s t : St} (lastC : TypedCopyAttr) (h : Quiet s t) :
    Quiet s (checkCondition lastC t) := by
  unfold ohmu.checkCondition
  dsimp only
  split <;> split_ifs <;>
    first | exact h | exact h.error _ | exact h.assertFail _ | exact (h.assertFail _).error _

/-- The type check of a condition leaves the scope alone. -/
theorem checkCondition_scope (lastC : TypedCopyAttr) (t : St) :
    (checkCondition lastC t).scope = t.scope := by
  unfold checkCondition
  dsimp only
  split <;> split_ifs <;> rfl

/-- The rule `traverseIfThenElse` is a closing step. -/
theorem Closing.traverseIfThenElse {trav : Trav} (ht : TravOK trav) (Orig : SExpr) (t : St) :
    Closing t (traverseIfThenElse trav Orig t).2 := by
  unfold ohmu.traverseIfThenElse
  split
  · rename_i c A B
    dsimp only
    have hq : Quiet t (checkCondition (trav c .TRV_Arg t).1 (trav c .TRV_Arg t).2) :=
      ((Quiet.refl t).trav ht c .TRV_Arg (by decide)).checkCondition _
    have hcont : (checkCondition (trav c .TRV_Arg t).1 (trav c .TRV_Arg t).2).scope.Cont =
        t.scope.Cont := by
      rw [checkCondition_scope, ht.cont]
    split
    · split_ifs
      · exact hq.then_closing hcont (Closing.ofTrav ht _ _ _)
      · exact hq.then_closing hcont (Closing.ofTrav ht _ _ _)
    · split_ifs
      · have h2 := (hq.trav ht A .TRV_Arg (by decide)).trav ht B .TRV_Arg (by decide)
        unfold reduceIfThenElse
        split <;> exact h2.closing
      · exact hq.then_closing hcont (Closing.traverseBranches ht _ _ _ _)
  · exact ((Quiet.refl t).assertFail _).closing

/-- The dispatch over the kinds of node is a closing step. -/
theorem Closing.superTraverse {trav : Trav} (R : TypeRules) (ht : TravOK trav) (e : SExpr)
    (t : St) : Closing t (superTraverse R trav e t).2 := by
  unfold ohmu.superTraverse
  split
  · exact (Quiet.refl t).closing
  · exact (Quiet.refl t).closing
  · exact ((Quiet.refl t).reduceVariable R ht _).closing
  · exact (((Quiet.refl t).trav ht _ .TRV_Arg (by decide)).reduceUnaryOp R _ _).closing
  · exact ((((Quiet.refl t).trav ht _ .TRV_Arg (by decide)).trav ht _ .TRV_Arg
      (by decide)).reduceBinaryOp R _ _ _).closing
  · exact ((Quiet.refl t).trav ht _ .TRV_Path (by decide)).then_closing (ht.cont _ _ _)
      (Closing.reduceCall ht _ _)
  · exact Closing.traverseLet ht _ _
  · exact Closing.traverseIfThenElse ht _ _
  · exact ((Quiet.refl t).traverseCode ht _).closing
  · exact ((Quiet.refl t).traverseCode ht _).closing
  · exact ((((Quiet.refl t).trav ht _ .TRV_Path (by decide)).trav ht _ .TRV_Arg
      (by decide)).reduceApply ht _ _ _).closing
  · exact (((Quiet.refl t).trav ht _ .TRV_Path (by decide)).reduceApply ht _ _ _).closing
  · exact (((Quiet.refl t).trav ht _ .TRV_Path (by decide)).reduceProject ht _ _).closing
  · exact (((Quiet.refl t).trav ht _ .TRV_Arg (by decide)).reduceLoad ht _).closing
  · exact (((Quiet.refl t).trav ht _ .TRV_Arg (by decide)).reduceAlloc _ _).closing
  · exact ((Quiet.refl t).reduceIdentifier R ht _).closing
  · exact ((Quiet.refl t).traverseFunction ht _).closing
  · exact ((Quiet.refl t).traverseRecord ht _).closing
  · exact ((Quiet.refl t).traverseField ht _).closing
  · exact ((Quiet.refl t).traverseSlot ht _).closing
  · exact ((Quiet.refl t).trav ht _ .TRV_Arg (by decide)).closing
  · exact (Quiet.refl t).closing
  · exact (Quiet.refl t).closing
  · exact (Quiet.refl t).closing

/-- The first half of the driver does not touch the graph. -/
theorem traverseEnter_view (k : TraversalKind) (s : St) : (traverseEnter k s).view = s.view := by
  unfold traverseEnter
  dsimp only
  split_ifs <;> rfl

/-- The first half of the driver writes to no log. -/
theorem traverseEnter_sound (k : TraversalKind) (s : St) :
    (traverseEnter k s).sound ↔ s.sound := by
  unfold traverseEnter
  dsimp only
  split_ifs <;> exact Iff.rfl

/-- The first half of the driver keeps the continuation only in tail position. -/
theorem traverseEnter_cont (k : TraversalKind) (s : St) :
    (traverseEnter k s).scope.Cont = if k = .TRV_Tail then s.scope.Cont else none := by
  unfold traverseEnter
  dsimp only
  by_cases hk : k = .TRV_Tail
  · simp only [hk, ne_eq, not_true_eq_false, if_false, if_true]
    rfl
  · simp only [hk, ne_eq, not_false_eq_true, if_true, if_false]
    rfl

/-- Restoring the continuation and the pending arguments does not touch the graph. -/
theorem traverseRestore_view (cont : Option Nat) (plen : Nat) (k : TraversalKind) (s : St) :
    (traverseRestore cont plen k s).view = s.view := by
  obtain ⟨-, h1, h2, h3, h4, h5, -⟩ := traverseRestore_fields cont plen k s
  simp only [St.view, h1, h2, h3, h4, h5]

/-- Restoring the continuation and the pending arguments clears no log. -/
theorem traverseRestore_sound (cont : Option Nat) (plen : Nat) (k : TraversalKind) (s : St)
    (h : (traverseRestore cont plen k s).sound) : s.sound := by
  unfold traverseRestore at h
  dsimp only at h
  split_ifs at h
  · exact absurd (show ((s.setContinuation cont).assertFail "Unhandled arguments.").sound from h)
      (St.sound_assertFail _ _)
  · exact h
  · exact h

/-- The second half of the driver clears no log. -/
theorem traverseExit_sound (cont : Option Nat) (plen : Nat) (k : TraversalKind) (r : Result)
    (h : (traverseExit cont plen k r).2.sound) : r.2.sound := by
  obtain ⟨result, s⟩ := r
  apply traverseRestore_sound cont plen k s
  unfold traverseExit at h
  dsimp only at h
  split at h
  · exact h
  · split at h
    · split_ifs at h
      · simpa [St.createGoto, St.newGoto] using h
      · simpa using h
    · simpa using h

/-- The second half of the driver: if the rule left no block open only in tail position
under a continuation, then afterwards no block is open in tail position under a
continuation, and a block is open otherwise. -/
theorem traverseExit_spec (cont : Option Nat) (plen : Nat) (k : TraversalKind) (r : Result)
    (hw : r.2.view.WF)
    (hn : r.2.currentBB = none → k = .TRV_Tail ∧ cont.isSome = true) :
    (traverseExit cont plen k r).2.view.WF ∧
    r.2.view.Ext (traverseExit cont plen k r).2.view ∧
    (if k = .TRV_Tail ∧ cont.isSome = true then (traverseExit cont plen k r).2.currentBB = none
      else (traverseExit cont plen k r).2.currentBB.isSome = true) := by
  obtain ⟨result, s⟩ := r
  have hv := traverseRestore_view cont plen k s
  have hcur := (traverseRestore_fields cont plen k s).2.2.1
  dsimp only at hw hn
  rw [← hv] at hw ⊢
  rw [← hcur] at hn
  unfold traverseExit
  dsimp only
  generalize traverseRestore cont plen k s = u at *
  cases hu : u.currentBB with
  | none =>
    dsimp only
    rw [if_pos (hn hu)]
    exact ⟨hw, View.Ext.ext_refl _, hu⟩
  | some b =>
    dsimp only
    have ha : (u.addInstruction result.Exp).view.WF := by
      rw [St.view_addInstruction]; exact hw
    have hb : (u.addInstruction result.Exp).currentBB = some b := by
      rw [St.currentBB_addInstruction]; exact hu
    cases cont with
    | none =>
      dsimp only
      rw [if_neg (by simp), hb, St.view_addInstruction]
      exact ⟨hw, View.Ext.ext_refl _, rfl⟩
    | some c =>
      dsimp only
      by_cases hk : k = .TRV_Tail
      · rw [if_pos hk, if_pos ⟨hk, rfl⟩]
        obtain ⟨f1, f2, f3, -⟩ := St.finishBlock_spec _ (.Goto c [result.Exp]) b ha hb
        rw [St.view_addInstruction] at f2
        exact ⟨f1, f2, f3⟩
      · rw [if_neg hk, if_neg (fun h => hk h.1), hb, St.view_addInstruction]
        exact ⟨hw, View.Ext.ext_refl _, rfl⟩

/-- The driver `traverse` meets, at every fuel, what the rules need to know of the
traversal of sub-expressions. -/
theorem TravOK_traverse (R : TypeRules) (n : Nat) : TravOK (traverse R n) := by
  induction n with
  | zero =>
    refine ⟨fun e k s h => ?_, fun e k s => rfl, fun e k s h => ?_⟩
    · exact absurd h.2 (by simp [traverse])
    · exact absurd h.2 (by simp [traverse])
  | succ n ih =>
    refine ⟨fun e k s h => ?_, fun e k s => traverse_currentContinuation R (n + 1) e k s,
      fun e k s h hw hb => ?_⟩
    · unfold traverse at h
      split_ifs at h
      · exact h
      · exact (traverseEnter_sound k s).mp
          ((Closing.superTraverse R ih e _).sound (traverseExit_sound _ _ _ _ h))
    · unfold traverse at h ⊢
      by_cases hl : k = .TRV_Lazy
      · subst hl
        rw [if_pos rfl, if_neg (fun h => by cases h.1)]
        exact ⟨hw, View.Ext.ext_refl _, hb⟩
      · rw [if_neg hl] at h ⊢
        have hc := traverseExit_sound _ _ _ _ h
        obtain ⟨s1, s2, s3⟩ := (Closing.superTraverse R ih e (traverseEnter k s)).wf hc
          (by rw [traverseEnter_view]; exact hw)
          (by
            have := congrArg View.cur (traverseEnter_view k s)
            simp only [St.view] at this
            rw [this]; exact hb)
        rw [traverseEnter_view] at s2
        rw [traverseEnter_cont] at s3
        obtain ⟨x1, x2, x3⟩ := traverseExit_spec s.currentContinuation s.pendingPathArgLen k
          (superTraverse R (traverse R n) e (traverseEnter k s)) s1 (fun hnone => by
            have := s3 hnone
            by_cases hk : k = .TRV_Tail
            · rw [if_pos hk] at this
              exact ⟨hk, this⟩
            · rw [if_neg hk] at this
              cases this)
        exact ⟨x1, s2.ext_trans x2, x3⟩

/-- Processing the pending blocks clears no log. -/
theorem processPendingBlocks_sound (R : TypeRules) (n : Nat) (s : St)
    (hc : (processPendingBlocks R n s).sound) : s.sound := by
  induction n generalizing s with
  | zero =>
    unfold processPendingBlocks at hc
    split at hc
    · exact hc
    · exact absurd hc.2 (by simp)
  | succ n ih =>
    unfold processPendingBlocks at hc
    split at hc
    · exact hc
    · dsimp only at hc
      split at hc
      · exact absurd hc (St.sound_assertFail _ _)
      · rename_i Pb hp
        have h1 := ih _ hc
        simp only [St.sound_restoreScope] at h1
        cases hb : Pb.Exp with
        | none =>
          rw [hb] at h1
          exact absurd h1 (St.sound_assertFail _ _)
        | some body =>
          rw [hb] at h1
          have h2 := (TravOK_traverse R n).sound _ _ _ h1
          simpa using h2

/-- Clearing the list of pending blocks when the queue is empty preserves the terminator
discipline. -/
theorem View.WF.clearPending {v : View} (h : v.WF) (hq : v.queue = []) :
    ({ v with pend := [] } : View).WF := by
  refine ⟨h.invalid, h.once, h.cur, h.open_cur, ?_, ?_, ?_, ?_, h.queue_nodup⟩
  · intro i P hP
    simp at hP
  · intro i j P Q hP
    simp at hP
  · intro i P hP
    simp at hP
  · intro i hi
    rw [show ({ v with pend := [] } : View).queue = v.queue from rfl, hq] at hi
    simp at hi

/-- Taking the first pending block off the queue and beginning its entry block preserves
the terminator discipline. -/
theorem View.WF.beginPending {v : View} (h : v.WF) (hc : v.cur = none) (i : Nat) (q : List Nat)
    (hq : v.queue = i :: q) (P : Nat × Option Nat) (hP : v.pend[i]? = some P) :
    ({ v with queue := q, cur := some P.1,
              blocks := v.blocks.modify (fun B => { B with begun := B.begun + 1 }) P.1 } :
      View).WF ∧ P.2.isSome = true := by
  have hi : i ∈ v.queue := by rw [hq]; exact List.mem_cons_self _ _
  obtain ⟨B, hB, h0⟩ := h.pend_fresh i P hP (Or.inr hi)
  obtain ⟨P', hP', hs⟩ := h.queue_fixed i hi
  rw [hP] at hP'
  cases hP'
  refine ⟨?_, hs⟩
  apply (h.pop i q hq).wf_beginBlock P.1 B hc hB h0
  intro j Q hQ he
  have hji : j = i := h.pend_inj j i Q P hQ hP he
  subst hji
  rw [hP] at hQ
  cases hQ
  refine ⟨hs, ?_⟩
  have := h.queue_nodup
  rw [hq] at this
  exact (List.nodup_cons.mp this).1
/-- With an empty queue, processing the pending blocks only clears their list. -/
theorem processPendingBlocks_nil (R : TypeRules) (n : Nat) (s : St)
    (hq : s.PendingBlockQueue = []) :
    processPendingBlocks R n s = { s with PendingBlks := [] } := by
  cases n <;> unfold processPendingBlocks <;> split
  · rfl
  · rename_i h; rw [hq] at h; cases h
  · rfl
  · rename_i h; rw [hq] at h; cases h

/-- One round of processing the pending blocks. -/
theorem processPendingBlocks_cons (R : TypeRules) (n : Nat) (s : St) (i : Nat) (q : List Nat)
    (Pb : PendingBlock) (body : SExpr) (hq : s.PendingBlockQueue = i :: q)
    (hp : s.PendingBlks[i]? = some Pb) (hb : Pb.Exp = some body) :
    processPendingBlocks R (n + 1) s =
      processPendingBlocks R n
        ((traverse R n body .TRV_Tail
          ((({ s with PendingBlockQueue := q } : St).beginBlock Pb.Block).switchScope
            (Pb.Scope.setCurrentContinuation Pb.Cont)).2).2.restoreScope s.scope) := by
  rw [processPendingBlocks]
  split
  · rename_i h; rw [hq] at h; cases h
  · rename_i i0 q0 h
    rw [hq] at h
    cases h
    dsimp only
    rw [hp]
    dsimp only
    rw [hb]
    dsimp only [St.switchScope]
    rw [St.scope_beginBlock]

/-- The view of a state whose list of pending blocks is cleared while the queue is
empty. -/
theorem St.clearPending_WF (s : St) (hw : s.view.WF) (hq : s.PendingBlockQueue = []) :
    ({ s with PendingBlks := [] } : St).view.WF :=
  hw.clearPending hq

/-- Processing the pending blocks of a disciplined state in which no block is open: if
the run is sound, the final state obeys the discipline and no block is open. -/
theorem processPendingBlocks_spec (R : TypeRules) (n : Nat) (s : St) (hw : s.view.WF)
    (hcur : s.currentBB = none) (hc : (processPendingBlocks R n s).sound) :
    (processPendingBlocks R n s).view.WF ∧ (processPendingBlocks R n s).currentBB = none := by
  induction n generalizing s with
  | zero =>
    cases hq : s.PendingBlockQueue with
    | nil =>
      rw [processPendingBlocks_nil R 0 s hq]
      exact ⟨s.clearPending_WF hw hq, hcur⟩
    | cons i q =>
      unfold processPendingBlocks at hc
      split at hc
      · rename_i h; rw [hq] at h; cases h
      · exact absurd hc.2 (by simp)
  | succ n ih =>
    cases hq : s.PendingBlockQueue with
    | nil =>
      rw [processPendingBlocks_nil R (n + 1) s hq]
      exact ⟨s.clearPending_WF hw hq, hcur⟩
    | cons i q =>
      have hs := processPendingBlocks_sound R (n + 1) s hc
      cases hp : s.PendingBlks[i]? with
      | none =>
        exfalso
        rw [processPendingBlocks] at hc
        split at hc
        · rename_i h; rw [hq] at h; cases h
        · rename_i i0 q0 h
          rw [hq] at h
          cases h
          dsimp only at hc
          rw [hp] at hc
          exact absurd hc (St.sound_assertFail _ _)
      | some Pb =>
        cases hb : Pb.Exp with
        | none =>
          exfalso
          rw [processPendingBlocks] at hc
          split at hc
          · rename_i h; rw [hq] at h; cases h
          · rename_i i0 q0 h
            rw [hq] at h
            cases h
            dsimp only at hc
            rw [hp] at hc
            dsimp only at hc
            rw [hb] at hc
            have := processPendingBlocks_sound R n _ hc
            simp only [St.sound_restoreScope, St.sound_assertFail] at this
        | some body =>
          rw [processPendingBlocks_cons R n s i q Pb body hq hp hb] at hc ⊢
          have hc3 := processPendingBlocks_sound R n _ hc
          simp only [St.sound_restoreScope] at hc3
          have hP : s.view.pend[i]? = some (Pb.Block, Pb.Cont) := by
            simp [St.view, hp]
          obtain ⟨b1, b2⟩ := hw.beginPending hcur i q hq (Pb.Block, Pb.Cont) hP
          have hv : (({ s with PendingBlockQueue := q } : St).beginBlock Pb.Block).view =
              { s.view with queue := q, cur := some Pb.Block,
                            blocks := s.view.blocks.modify
                              (fun B => { B with begun := B.begun + 1 }) Pb.Block } :=
            St.view_beginBlock _ _ hcur
          obtain ⟨w1, -, w3⟩ := (TravOK_traverse R n).wf body .TRV_Tail _ hc3
            (by rw [St.view_switchScope, hv]; exact b1)
            (by
              show (({ s with PendingBlockQueue := q } : St).beginBlock Pb.Block).currentBB.isSome
                = true
              simp [St.beginBlock, hcur])
          rw [if_pos ⟨rfl, b2⟩] at w3
          exact ih _ (by rw [St.view_restoreScope]; exact w1) w3 hc

/-- The state in which the conversion starts traversing, entered from a fresh evaluator,
obeys the terminator discipline: the entry block is open and the exit block is
finished. -/
theorem enterCFG_init_WF : (enterCFG St.init).view.WF := by
  have hv : (enterCFG St.init).view =
      ⟨[⟨0, [], 1⟩, ⟨1, [.Return (some (St.phi 1 0))], 1⟩], some 0, [], [], []⟩ := rfl
  rw [hv]
  refine ⟨rfl, ?_, ?_, ?_, ?_, ?_, ?_, ?_, List.nodup_nil⟩
  · intro b B hb
    match b, hb with
    | 0, hb => cases hb; decide
    | 1, hb => cases hb; decide
    | n + 2, hb => simp at hb
  · intro c hc
    cases hc
    exact ⟨_, rfl, rfl, rfl⟩
  · intro b B hb h1 h2
    match b, hb with
    | 0, hb => rfl
    | 1, hb => cases hb; cases h2
    | n + 2, hb => simp at hb
  · intro i P hP
    simp at hP
  · intro i j P Q hP
    simp at hP
  · intro i P hP
    simp at hP
  · intro i hi
    simp at hi

/-- The conversion of an expression from a fresh evaluator: a sound run ends in a state
that obeys the terminator discipline and in which no block is open. -/
theorem convertSExprToCFG_spec (R : TypeRules) (fuel : Nat) (e : SExpr)
    (hc : (convertSExprToCFG R fuel e St.init).sound) :
    (convertSExprToCFG R fuel e St.init).view.WF ∧
    (convertSExprToCFG R fuel e St.init).currentBB = none := by
  unfold convertSExprToCFG at hc ⊢
  dsimp only at hc ⊢
  have h1 := processPendingBlocks_sound R fuel _ hc
  obtain ⟨w1, -, w3⟩ := (TravOK_traverse R fuel).wf e .TRV_Tail (enterCFG St.init) h1
    enterCFG_init_WF (by decide)
  rw [if_pos ⟨rfl, by decide⟩] at w3
  exact processPendingBlocks_spec R fuel _ w1 w3 hc

/-! ### C1: every block that was begun is terminated exactly once -/

/-- C1 (as stated, refuted): a nested function that is never called.  The conversion of
`let f = code(int32) { 1 } in 3` reports nothing and violates no rule of the builder, yet
the block allocated for `f`, the block 2, is neither begun nor terminated: a pending
block is put on the queue by its first call only. -/
theorem C1_uncalled_nested_function_unterminated :
    (convertSExprToCFG widenRules 4
      (.Let "f" 1 (.Code 0 (.ScalarType BaseType.int32) (.Literal BaseType.int32 1))
        (.Literal BaseType.int32 3)) St.init).diag = [] ∧
    (convertSExprToCFG widenRules 4
      (.Let "f" 1 (.Code 0 (.ScalarType BaseType.int32) (.Literal BaseType.int32 1))
        (.Literal BaseType.int32 3)) St.init).failed = [] ∧
    (convertSExprToCFG widenRules 4
      (.Let "f" 1 (.Code 0 (.ScalarType BaseType.int32) (.Literal BaseType.int32 1))
        (.Literal BaseType.int32 3)) St.init).invalid = [] ∧
    (convertSExprToCFG widenRules 4
      (.Let "f" 1 (.Code 0 (.ScalarType BaseType.int32) (.Literal BaseType.int32 1))
        (.Literal BaseType.int32 3)) St.init).fuelOut = false ∧
    (convertSExprToCFG widenRules 4
      (.Let "f" 1 (.Code 0 (.ScalarType BaseType.int32) (.Literal BaseType.int32 1))
        (.Literal BaseType.int32 3)) St.init).blocks.map
        (fun B => (B.begun, B.terminators.length)) = [(1, 1), (1, 1), (0, 0)] := by
  decide

/-- C1 (amended): for every expression tree whose conversion from a fresh evaluator
reports no diagnostic, fails no assertion and does not run out of fuel, the builder's
discipline is never violated, no block is left open, and every block was begun at most
once and terminated exactly as often as it was begun: a block that was begun has exactly
one terminator, set exactly once, and a block without terminator was never begun.  And
when no block is active after a sub-expression was reduced, the second half of the driver
returns the result as it is and leaves every block as it is, with no block active: it
appends no instruction and sets no terminator. -/
theorem C1_begun_blocks_terminated_once (R : TypeRules) (fuel : Nat) (e : SExpr)
    (hc : (convertSExprToCFG R fuel e St.init).clean) :
    (convertSExprToCFG R fuel e St.init).invalid = [] ∧
    (convertSExprToCFG R fuel e St.init).currentBB = none ∧
    (∀ (b : Nat) (B : BasicBlock), (convertSExprToCFG R fuel e St.init).blocks[b]? = some B →
      B.begun ≤ 1 ∧ B.terminators.length = B.begun) ∧
    ∀ (cont : Option Nat) (plen : Nat) (k : TraversalKind) (result : TypedCopyAttr) (u : St),
      u.currentBB = none →
      (traverseExit cont plen k (result, u)).1 = result ∧
      (traverseExit cont plen k (result, u)).2.blocks = u.blocks ∧
      (traverseExit cont plen k (result, u)).2.currentBB = none := by
  obtain ⟨hw, hcur⟩ := convertSExprToCFG_spec R fuel e hc.toSound
  refine ⟨hw.invalid, hcur, fun b B hB => ?_, fun cont plen k result u hu => ?_⟩
  rotate_left
  · obtain ⟨-, f1, f2, -⟩ := traverseRestore_fields cont plen k u
    have hn : (traverseRestore cont plen k u).currentBB = none := f2.trans hu
    unfold traverseExit
    dsimp only
    split
    · exact ⟨rfl, f1, hn⟩
    · rename_i b hb
      rw [hn] at hb
      cases hb
  have hv : (convertSExprToCFG R fuel e St.init).view.blocks[b]? = some B.view := by
    simp [St.view, hB]
  obtain ⟨h1, h2⟩ := hw.once b B.view hv
  refine ⟨h1, ?_⟩
  have h3 : B.begun = 1 → B.terminators ≠ [] := fun hb ht => by
    have := hw.open_cur b B.view hv hb ht
    rw [show (convertSExprToCFG R fuel e St.init).view.cur =
      (convertSExprToCFG R fuel e St.init).currentBB from rfl, hcur] at this
    cases this
  change B.begun ≤ 1 at h1
  change B.terminators.length ≤ B.begun at h2
  rcases Nat.le_one_iff_eq_zero_or_eq_one.mp h1 with h0 | h1'
  · omega
  · have := List.length_pos.mpr (h3 h1')
    omega

/-- C1 (witness): the conversion of `if (n < 0) then (0 - n) else n`, with `n` a
parameter, is clean; its four blocks are begun once and terminated once. -/
theorem C1_begun_blocks_terminated_once_witness :
    (convertSExprToCFG widenRules 4
      (.IfThenElse
        (.BinaryOp BaseType.void .BOP_Lt
          (.Variable BaseType.void .VK_Fun "n" 0 (.ScalarType BaseType.int32))
          (.Literal BaseType.int32 0))
        (.BinaryOp BaseType.void .BOP_Sub (.Literal BaseType.int32 0)
          (.Variable BaseType.void .VK_Fun "n" 0 (.ScalarType BaseType.int32)))
        (.Variable BaseType.void .VK_Fun "n" 0 (.ScalarType BaseType.int32))) St.init).blocks.length
      = 4 ∧
    ∀ (b : Nat) (B : BasicBlock),
      (convertSExprToCFG widenRules 4
        (.IfThenElse
          (.BinaryOp BaseType.void .BOP_Lt
            (.Variable BaseType.void .VK_Fun "n" 0 (.ScalarType BaseType.int32))
            (.Literal BaseType.int32 0))
          (.BinaryOp BaseType.void .BOP_Sub (.Literal BaseType.int32 0)
            (.Variable BaseType.void .VK_Fun "n" 0 (.ScalarType BaseType.int32)))
          (.Variable BaseType.void .VK_Fun "n" 0 (.ScalarType BaseType.int32)))
        St.init).blocks[b]? = some B →
      B.begun ≤ 1 ∧ B.terminators.length = B.begun :=
  ⟨by decide, (C1_begun_blocks_terminated_once widenRules 4 _
    ⟨by decide, by decide, by decide⟩).2.2.1⟩

/-! ### Instruction emission is restored by every rule -/

theorem St.emitInstrs_beginBlock (s : St) (b : Nat) :
    (s.beginBlock b).emitInstrs = s.emitInstrs := by
  unfold St.beginBlock
  split <;> rfl

theorem St.emitInstrs_finishBlock (s : St) (t : Terminator) :
    (s.finishBlock t).emitInstrs = s.emitInstrs := by
  unfold St.finishBlock
  split <;> rfl

theorem St.emitInstrs_addInstruction (s : St) (e : Option SExpr) :
    (s.addInstruction e).emitInstrs = s.emitInstrs := by
  unfold St.addInstruction
  split
  · split_ifs <;> rfl
  · rfl

theorem setBaseTypeFromExpr_emitInstrs (s : St) (I : SExpr) (Typ : Option SExpr) :
    (setBaseTypeFromExpr s I Typ).2.emitInstrs = s.emitInstrs := by
  unfold setBaseTypeFromExpr
  split <;> rfl

theorem computeAttrType_emitInstrs (trav : Trav) (At : TypedCopyAttr) (E : SExpr) (s : St) :
    (computeAttrType trav At E s).2.emitInstrs = s.emitInstrs := by
  unfold computeAttrType
  dsimp only
  split
  · split_ifs
    · rw [setBaseTypeFromExpr_emitInstrs]; rfl
    · rfl
  · rfl

theorem evaluateTypeExpr_emitInstrs (trav : Trav) (At : TypedCopyAttr) (s : St) :
    (evaluateTypeExpr trav At s).2.emitInstrs = s.emitInstrs := by
  unfold evaluateTypeExpr
  split
  · rfl
  · split_ifs
    · rfl
    · dsimp only [St.switchScope, St.restoreScope]
      exact computeAttrType_emitInstrs _ _ _ _

theorem promoteVariable_emitInstrs (trav : Trav) (V : SExpr) (s : St) :
    (promoteVariable trav V s).2.emitInstrs = s.emitInstrs := by
  unfold promoteVariable
  split
  · dsimp only [St.switchScope, St.restoreScope]
    exact computeAttrType_emitInstrs _ _ _ _
  · rfl

theorem reduceVarSubstitution_emitInstrs (R : TypeRules) (trav : Trav) (Vidx : Nat) (s : St) :
    (reduceVarSubstitution R trav Vidx s).2.emitInstrs = s.emitInstrs := by
  unfold reduceVarSubstitution
  split
  · rfl
  · split_ifs
    · rfl
    · split
      · rfl
      · exact promoteVariable_emitInstrs _ _ _
      · split_ifs <;> rfl

theorem reduceVariable_emitInstrs (R : TypeRules) (trav : Trav) (Orig : SExpr) (s : St) :
    (reduceVariable R trav Orig s).2.emitInstrs = s.emitInstrs := by
  unfold reduceVariable
  split
  · split_ifs
    · exact promoteVariable_emitInstrs _ _ _
    · exact reduceVarSubstitution_emitInstrs _ _ _ _
  · rfl

theorem reduceUnaryOp_emitInstrs (R : TypeRules) (op : TIL_UnaryOpcode) (a0 : TypedCopyAttr)
    (s : St) : (reduceUnaryOp R op a0 s).2.emitInstrs = s.emitInstrs := by
  unfold reduceUnaryOp
  split
  · rfl
  · split_ifs
    all_goals first
      | rfl
      | (cases op <;> rfl)

theorem reduceBinaryOp_emitInstrs (R : TypeRules) (op : TIL_BinaryOpcode)
    (a0 a1 : TypedCopyAttr) (s : St) :
    (reduceBinaryOp R op a0 a1 s).2.emitInstrs = s.emitInstrs := by
  unfold reduceBinaryOp
  cases a0.Exp <;> cases a1.Exp <;> dsimp only [St.error, St.assertFail]
  all_goals (try split_ifs)
  all_goals first
    | rfl
    | (cases op <;> dsimp only)

theorem nestedCallGoto_emitInstrs (Ca Res : TypedCopyAttr) (Pb : PendingBlock) (s : St) :
    (nestedCallGoto Ca Res Pb s).2.2.emitInstrs = s.emitInstrs := by
  unfold nestedCallGoto
  split_ifs
  · rfl
  · dsimp only [St.newGoto]
    rw [St.emitInstrs_finishBlock]
    rfl
  · dsimp only [St.newGoto]
    rw [St.emitInstrs_finishBlock]

theorem reduceNestedCall_emitInstrs (Ca Res : TypedCopyAttr) (C : SExpr) (s : St) :
    (reduceNestedCall Ca Res C s).2.2.emitInstrs = s.emitInstrs := by
  unfold reduceNestedCall
  split
  · rfl
  · split
    · rfl
    · split
      · split
        · rfl
        · rw [nestedCallGoto_emitInstrs]
      · split_ifs
        · rfl
        · rw [nestedCallGoto_emitInstrs]

theorem reduceCall_emitInstrs (trav : Trav) (Ca : TypedCopyAttr) (s : St) :
    (reduceCall trav Ca s).2.emitInstrs = s.emitInstrs := by
  unfold reduceCall
  dsimp only
  split_ifs
  · split
    · rfl
    · split_ifs <;> rfl
  · exact reduceNestedCall_emitInstrs _ _ _ _
  · split
    · rw [setBaseTypeFromExpr_emitInstrs, evaluateTypeExpr_emitInstrs,
        reduceNestedCall_emitInstrs]
    · rw [evaluateTypeExpr_emitInstrs, reduceNestedCall_emitInstrs]

theorem reduceCode_emitInstrs (e0 e1 : Option SExpr) (s : St) :
    (reduceCode e0 e1 s).2.emitInstrs = s.emitInstrs := rfl

theorem rebindPhis_emitInstrs (Nb Vidx : Nat) (is : List Nat) (Ns : ScopeCPS) (s : St) :
    (rebindPhis Nb Vidx is (Ns, s)).2.emitInstrs = s.emitInstrs := by
  induction is generalizing Ns s with
  | nil => rfl
  | cons i is ih =>
    unfold rebindPhis
    split
    · exact ih _ _
    · split_ifs
      · exact ih _ _
      · dsimp only
        split <;> first | (rw [ih]; done) | (rw [ih]; rfl)
      · dsimp only
        split <;> first | (rw [ih]; done) | (rw [ih]; rfl)

theorem newPendingBlock_emitInstrs (Nc body : Option SExpr) (s : St) :
    (newPendingBlock Nc body s).emitInstrs = s.emitInstrs := by
  unfold newPendingBlock addPendingBlock
  dsimp only
  rw [rebindPhis_emitInstrs]
  rfl

theorem traverseCode_emitInstrs {trav : Trav}
    (he : ∀ e k s, (trav e k s).2.emitInstrs = s.emitInstrs) (Orig : SExpr) (s : St) :
    (traverseCode trav Orig s).2.emitInstrs = s.emitInstrs := by
  unfold traverseCode traverseNestedCode
  split_ifs
  · rfl
  · dsimp only
    rw [newPendingBlock_emitInstrs, reduceCode_emitInstrs, he]
  · dsimp only
    split
    · rw [reduceCode_emitInstrs, he]
    · rw [reduceCode_emitInstrs]
      exact he _ _ _

theorem traverseVarDecl_emitInstrs {trav : Trav}
    (he : ∀ e k s, (trav e k s).2.emitInstrs = s.emitInstrs) (kind : VariableKind) (d : SExpr)
    (s : St) : (traverseVarDecl trav kind d s).2.emitInstrs = s.emitInstrs := by
  unfold traverseVarDecl
  split
  · exact he _ _ _
  · rfl
  · exact he _ _ _

theorem superTraverseLet_emitInstrs {trav : Trav}
    (he : ∀ e k s, (trav e k s).2.emitInstrs = s.emitInstrs) (Orig : SExpr) (s : St) :
    (superTraverseLet trav Orig s).2.emitInstrs = s.emitInstrs := by
  unfold superTraverseLet
  split
  · dsimp only
    show (trav _ .TRV_Tail _).2.emitInstrs = _
    rw [he]
    exact traverseVarDecl_emitInstrs he _ _ _
  · rfl

theorem reportUnlessUndefined_emitInstrs (E : Option SExpr) (msg : String) (s : St) :
    (reportUnlessUndefined E msg s).emitInstrs = s.emitInstrs := by
  unfold reportUnlessUndefined
  split
  · rfl
  · split_ifs <;> rfl

theorem reduceApply_emitInstrs (trav : Trav) (kind : ApplyKind) (Fa Aa : TypedCopyAttr)
    (s : St) : (reduceApply trav kind Fa Aa s).2.emitInstrs = s.emitInstrs := by
  unfold reduceApply
  dsimp only
  repeat' split
  all_goals first
    | rw [setBaseTypeFromExpr_emitInstrs, evaluateTypeExpr_emitInstrs]
    | rw [evaluateTypeExpr_emitInstrs]
    | exact reportUnlessUndefined_emitInstrs _ _ _

theorem reduceProject_emitInstrs (trav : Trav) (slotName : String) (Ra : TypedCopyAttr)
    (s : St) : (reduceProject trav slotName Ra s).2.emitInstrs = s.emitInstrs := by
  unfold reduceProject
  dsimp only
  repeat' split
  all_goals first
    | rfl
    | rw [setBaseTypeFromExpr_emitInstrs, evaluateTypeExpr_emitInstrs]
    | rw [evaluateTypeExpr_emitInstrs]
    | exact reportUnlessUndefined_emitInstrs _ _ _

theorem reduceLoad_emitInstrs (trav : Trav) (Fa : TypedCopyAttr) (s : St) :
    (reduceLoad trav Fa s).2.emitInstrs = s.emitInstrs := by
  unfold reduceLoad
  dsimp only
  repeat' split
  all_goals first
    | rw [setBaseTypeFromExpr_emitInstrs, evaluateTypeExpr_emitInstrs]
    | rw [evaluateTypeExpr_emitInstrs]
    | exact reportUnlessUndefined_emitInstrs _ _ _

theorem reduceAlloc_emitInstrs (allocKind : AllocKind) (a0 : TypedCopyAttr) (s : St) :
    (reduceAlloc allocKind a0 s).2.emitInstrs = s.emitInstrs := by
  unfold reduceAlloc
  split
  · rfl
  · split_ifs <;> rfl

theorem identifierLoop_emitInstrs (R : TypeRules) (trav : Trav) (Idstr : String) (i : Nat)
    (s : St) : (identifierLoop R trav Idstr i s).2.emitInstrs = s.emitInstrs := by
  induction i generalizing s with
  | zero => rfl
  | succ i ih =>
    unfold identifierLoop
    split
    · exact ih _
    · split_ifs
      · exact reduceVarSubstitution_emitInstrs _ _ _ _
      · split
        · rw [ih]; rfl
        · split
          · split
            · exact ih _
            · split_ifs
              · rfl
              · exact setBaseTypeFromExpr_emitInstrs _ _ _
              · exact setBaseTypeFromExpr_emitInstrs _ _ _
          · rw [ih]; rfl
          · exact ih _
      · exact ih _

theorem reduceIdentifier_emitInstrs (R : TypeRules) (trav : Trav) (Orig : SExpr) (s : St) :
    (reduceIdentifier R trav Orig s).2.emitInstrs = s.emitInstrs := by
  unfold reduceIdentifier
  split
  · rename_i Idstr
    have hl := identifierLoop_emitInstrs R trav Idstr (usub32 s.scope.size 1) s
    generalize identifierLoop R trav Idstr (usub32 s.scope.size 1) s = r at hl ⊢
    obtain ⟨o, u⟩ := r
    unfold identifierResult superReduceIdentifier
    cases o with
    | some Res => exact hl
    | none => exact hl
  · rfl

theorem traverseFunction_emitInstrs {trav : Trav}
    (he : ∀ e k s, (trav e k s).2.emitInstrs = s.emitInstrs) (Orig : SExpr) (s : St) :
    (traverseFunction trav Orig s).2.emitInstrs = s.emitInstrs := by
  unfold traverseFunction
  split_ifs
  · rfl
  · unfold superTraverseFunction
    split
    · dsimp only [reduceFunction, superReduceFunction]
      show (trav _ .TRV_Decl _).2.emitInstrs = _
      rw [he]
      exact traverseVarDecl_emitInstrs he _ _ _
    · rfl

theorem traverseSlot_emitInstrs {trav : Trav}
    (he : ∀ e k s, (trav e k s).2.emitInstrs = s.emitInstrs) (Orig : SExpr) (s : St) :
    (traverseSlot trav Orig s).2.emitInstrs = s.emitInstrs := by
  unfold traverseSlot
  split
  · exact he _ _ _
  · rfl

theorem traverseSlots_emitInstrs {trav : Trav}
    (he : ∀ e k s, (trav e k s).2.emitInstrs = s.emitInstrs) (e : SExpr) (s : St) :
    (traverseSlots trav e s).2.emitInstrs = s.emitInstrs := by
  induction e generalizing s with
  | Slot n fin d next _ ih =>
    unfold traverseSlots
    dsimp only
    rw [ih, he]
  | _ =>
    unfold traverseSlots
    rfl

theorem traverseRecord_emitInstrs {trav : Trav}
    (he : ∀ e k s, (trav e k s).2.emitInstrs = s.emitInstrs) (Orig : SExpr) (s : St) :
    (traverseRecord trav Orig s).2.emitInstrs = s.emitInstrs := by
  unfold traverseRecord
  split_ifs
  · rfl
  · unfold superTraverseRecord
    split
    · exact traverseSlots_emitInstrs he _ _
    · rfl

theorem traverseField_emitInstrs {trav : Trav}
    (he : ∀ e k s, (trav e k s).2.emitInstrs = s.emitInstrs) (Orig : SExpr) (s : St) :
    (traverseField trav Orig s).2.emitInstrs = s.emitInstrs := by
  unfold traverseField
  split_ifs
  · rfl
  · unfold superTraverseField
    split
    · dsimp only [reduceField, superReduceField]
      rw [he, he]
    · rfl

theorem traverseLet_emitInstrs {trav : Trav}
    (he : ∀ e k s, (trav e k s).2.emitInstrs = s.emitInstrs) (Orig : SExpr) (s : St) :
    (traverseLet trav Orig s).2.emitInstrs = s.emitInstrs := by
  unfold traverseLet
  split
  · split_ifs
    · exact superTraverseLet_emitInstrs he _ _
    · dsimp only
      rw [he]
      exact he _ _ _
  · rfl

theorem checkCondition_emitInstrs (lastC : TypedCopyAttr) (s : St) :
    (checkCondition lastC s).emitInstrs = s.emitInstrs := by
  unfold checkCondition
  dsimp only
  split <;> split_ifs <;> rfl

theorem traverseArms_emitInstrs {trav : Trav}
    (he : ∀ e k s, (trav e k s).2.emitInstrs = s.emitInstrs) (A B : SExpr) (Tb Eb Cont : Nat)
    (CurrCont : Option Nat) (s : St) :
    (traverseArms trav A B Tb Eb Cont CurrCont s).emitInstrs = s.emitInstrs := by
  unfold traverseArms
  dsimp only
  show (trav B .TRV_Tail _).2.emitInstrs = _
  rw [he]
  show (((trav A .TRV_Tail _).2).beginBlock Eb).emitInstrs = _
  rw [St.emitInstrs_beginBlock, he]
  exact St.emitInstrs_beginBlock _ _

theorem beginJoin_emitInstrs (Cont : Nat) (s : St) :
    (beginJoin Cont s).2.emitInstrs = s.emitInstrs := by
  unfold beginJoin
  dsimp only
  split
  · split_ifs
    · exact St.emitInstrs_beginBlock _ _
    · exact St.emitInstrs_beginBlock _ _
  · exact St.emitInstrs_beginBlock _ _

theorem traverseBranches_emitInstrs {trav : Trav}
    (he : ∀ e k s, (trav e k s).2.emitInstrs = s.emitInstrs) (Nc : Option SExpr) (A B : SExpr)
    (s : St) : (traverseBranches trav Nc A B s).2.emitInstrs = s.emitInstrs := by
  unfold traverseBranches
  dsimp only
  split
  · dsimp only
    rw [traverseArms_emitInstrs he, St.newBranch, St.emitInstrs_finishBlock]
    rfl
  · rw [beginJoin_emitInstrs, traverseArms_emitInstrs he]
    show (St.newBranch _ _ _ _).emitInstrs = _
    rw [St.newBranch, St.emitInstrs_finishBlock]
    rfl

theorem traverseIfThenElse_emitInstrs {trav : Trav}
    (he : ∀ e k s, (trav e k s).2.emitInstrs = s.emitInstrs) (Orig : SExpr) (s : St) :
    (traverseIfThenElse trav Orig s).2.emitInstrs = s.emitInstrs := by
  unfold traverseIfThenElse
  split
  · dsimp only
    split
    · split_ifs <;> rw [he, checkCondition_emitInstrs, he]
    · split_ifs
      · unfold reduceIfThenElse
        split <;> (dsimp only; rw [he, he, checkCondition_emitInstrs, he])
      · rw [traverseBranches_emitInstrs he, checkCondition_emitInstrs, he]
  · rfl

theorem superTraverse_emitInstrs {trav : Trav} (R : TypeRules)
    (he : ∀ e k s, (trav e k s).2.emitInstrs = s.emitInstrs) (e : SExpr) (s : St) :
    (superTraverse R trav e s).2.emitInstrs = s.emitInstrs := by
  unfold superTraverse
  split
  · rfl
  · rfl
  · exact reduceVariable_emitInstrs _ _ _ _
  · dsimp only
    rw [reduceUnaryOp_emitInstrs, he]
  · dsimp only
    rw [reduceBinaryOp_emitInstrs, he, he]
  · dsimp only
    rw [reduceCall_emitInstrs, he]
  · exact traverseLet_emitInstrs he _ _
  · exact traverseIfThenElse_emitInstrs he _ _
  · exact traverseCode_emitInstrs he _ _
  · exact traverseCode_emitInstrs he _ _
  · dsimp only
    rw [reduceApply_emitInstrs, he, he]
  · dsimp only
    rw [reduceApply_emitInstrs, he]
  · dsimp only
    rw [reduceProject_emitInstrs, he]
  · dsimp only
    rw [reduceLoad_emitInstrs, he]
  · dsimp only
    rw [reduceAlloc_emitInstrs, he]
  · exact reduceIdentifier_emitInstrs _ _ _ _
  · exact traverseFunction_emitInstrs he _ _
  · exact traverseRecord_emitInstrs he _ _
  · exact traverseField_emitInstrs he _ _
  · exact traverseSlot_emitInstrs he _ _
  · exact he _ _ _
  · rfl
  · rfl
  · rfl

theorem traverseEnter_emitInstrs (k : TraversalKind) (s : St) :
    (traverseEnter k s).emitInstrs = s.emitInstrs := by
  unfold traverseEnter
  dsimp only
  split_ifs <;> rfl

theorem traverseExit_emitInstrs (cont : Option Nat) (plen : Nat) (k : TraversalKind)
    (r : Result) : (traverseExit cont plen k r).2.emitInstrs = r.2.emitInstrs := by
  obtain ⟨result, s⟩ := r
  have h := (traverseRestore_fields cont plen k s).2.2.2.2.2.2
  unfold traverseExit
  dsimp only
  split
  · exact h
  · split
    · split_ifs
      · simp only [St.createGoto, St.newGoto, St.emitInstrs_finishBlock,
          St.emitInstrs_addInstruction]
        exact h
      · simp only [St.emitInstrs_addInstruction]
        exact h
    · simp only [St.emitInstrs_addInstruction]
      exact h

/-- The driver restores the emission of instructions: after `traverse` it is enabled if
and only if it was before. -/
theorem traverse_emitInstrs (R : TypeRules) (n : Nat) (e : SExpr) (k : TraversalKind) (s : St) :
    (traverse R n e k s).2.emitInstrs = s.emitInstrs := by
  induction n generalizing e k s with
  | zero => rfl
  | succ n ih =>
    unfold traverse
    split_ifs
    · rfl
    · rw [traverseExit_emitInstrs, superTraverse_emitInstrs R ih, traverseEnter_emitInstrs]

/-! ### C10: the conditional without a continuation -/

/-- A condition that is no literal is no static condition. -/
theorem staticCondition_of_not_literal (lastC : TypedCopyAttr)
    (h : lastC.Exp.any SExpr.isLiteral = false) : staticCondition lastC = none := by
  unfold staticCondition
  split
  · rename_i sz vs Cb he
    rw [he] at h
    simp [SExpr.isLiteral] at h
  · rfl

/-- With a condition that is no static condition and emission enabled, the rule
`traverseIfThenElse` is the branch compiler applied to the reduced condition. -/
theorem traverseIfThenElse_branches (trav : Trav) (c A B : SExpr) (s : St)
    (hs : staticCondition (trav c .TRV_Arg s).1 = none)
    (he : (checkCondition (trav c .TRV_Arg s).1 (trav c .TRV_Arg s).2).emitInstrs = true) :
    traverseIfThenElse trav (.IfThenElse c A B) s =
      traverseBranches trav (condInstr (trav c .TRV_Arg s).1) A B
        (checkCondition (trav c .TRV_Arg s).1 (trav c .TRV_Arg s).2) := by
  unfold traverseIfThenElse
  dsimp only
  rw [hs]
  dsimp only
  rw [he]
  rfl

/-- In a sound run the join block is begun and nothing else is done to the state. -/
theorem beginJoin_state (Cont : Nat) (u : St) (hc : (beginJoin Cont u).2.sound) :
    (beginJoin Cont u).2 = u.beginBlock Cont := by
  unfold beginJoin at hc ⊢
  dsimp only at hc ⊢
  split at hc
  · split_ifs at hc ⊢
    · rfl
    · exact absurd hc (St.sound_assertFail _ _)
  · exact absurd hc (St.sound_assertFail _ _)

/-- The blocks after the branch and the allocation of the two blocks of the arms and of
the join block: the current block is terminated and three blocks are added. -/
theorem branchSetup_blocks (t : St) (term : Terminator) (b0 : Nat)
    (h : t.currentBB = some b0) :
    ((((t.finishBlock term).newBlock 0).2.newBlock 0).2.newBlock 1).2.blocks =
      t.blocks.modify (fun B => { B with terminators := term :: B.terminators }) b0 ++
        [⟨0, [], [], 0⟩, ⟨0, [], [], 0⟩, ⟨1, [], [], 0⟩] ∧
    ((((t.finishBlock term).newBlock 0).2.newBlock 0).2.newBlock 1).2.currentBB = none := by
  simp [St.newBlock, St.finishBlock, h]

/-- C10: a conditional whose condition does not reduce to a literal, traversed by
`traverseIfThenElse` with emission enabled and no continuation, from a state that obeys
the terminator discipline with a block open, in a clean run.  After the condition, in
the block `b0` then current, exactly three blocks are allocated, the blocks `L`, `L + 1`
and the join block `L + 2` with one phi parameter, and `b0` is terminated by the branch
on the reduced condition to `L` and `L + 1`; each arm is traversed in its block, in tail
position under the join block as continuation; then the join block is begun.  It is the
current block on return, the residual is its phi parameter, and the branch is still the
one terminator of `b0`. -/
theorem C10_conditional_without_continuation (R : TypeRules) (n : Nat) (c A B : SExpr) (s : St)
    (hw : s.view.WF) (hb : s.currentBB.isSome = true) (hemit : s.emitInstrs = true)
    (hcont : s.scope.Cont = none)
    (hlit : (traverse R n c .TRV_Arg s).1.Exp.any SExpr.isLiteral = false)
    (hclean : (traverseIfThenElse (traverse R n) (.IfThenElse c A B) s).2.clean) :
    let lastC := (traverse R n c .TRV_Arg s).1
    let s1 := checkCondition lastC (traverse R n c .TRV_Arg s).2
    let L := s1.blocks.length
    let u := ((((s1.newBlock 0).2.newBlock 0).2.newBranch (condInstr lastC) L (L + 1)).newBlock
      1).2
    let u1 := (traverse R n A .TRV_Tail ((u.beginBlock L).setContinuation (some (L + 2)))).2
    let u2 := (traverse R n B .TRV_Tail ((u1.beginBlock (L + 1)).setContinuation (some (L + 2)))).2
    let r := traverseIfThenElse (traverse R n) (.IfThenElse c A B) s
    (∃ b0 : Nat, s1.currentBB = some b0 ∧
      u.blocks = s1.blocks.modify
          (fun B => { B with terminators := .Branch (condInstr lastC) L (L + 1) :: B.terminators })
          b0 ++ [⟨0, [], [], 0⟩, ⟨0, [], [], 0⟩, ⟨1, [], [], 0⟩] ∧
      u.currentBB = none ∧
      r.2.blocks[b0]?.map (·.terminators) = some [.Branch (condInstr lastC) L (L + 1)]) ∧
    r = (TypedCopyAttr.null.setExp (some (St.phi (L + 2) 0)),
      (u2.setContinuation none).beginBlock (L + 2)) ∧
    r.2.currentBB = some (L + 2) ∧
    r.2.blocks[L + 2]?.map (·.arguments) = some 1 := by
  have ht := TravOK_traverse R n
  have hq : Quiet s (checkCondition (traverse R n c .TRV_Arg s).1
      (traverse R n c .TRV_Arg s).2) :=
    ((Quiet.refl s).trav ht c .TRV_Arg (by decide)).checkCondition _
  have he : (checkCondition (traverse R n c .TRV_Arg s).1
      (traverse R n c .TRV_Arg s).2).emitInstrs = true := by
    rw [checkCondition_emitInstrs, traverse_emitInstrs, hemit]
  have hk : (checkCondition (traverse R n c .TRV_Arg s).1
      (traverse R n c .TRV_Arg s).2).scope.Cont = none := by
    rw [checkCondition_scope, ht.cont, hcont]
  have heq := traverseIfThenElse_branches (traverse R n) c A B s
    (staticCondition_of_not_literal _ hlit) he
  intro lastC s1 L u u1 u2 r
  have hr : r = traverseBranches (traverse R n) (condInstr lastC) A B s1 := heq
  rw [show traverseIfThenElse (traverse R n) (.IfThenElse c A B) s = r from rfl] at hclean
  rw [hr] at hclean ⊢
  obtain ⟨w1, -, w3⟩ := hq.wf (traverseBranches_sound ht _ _ _ _ hclean.toSound) hw hb
  obtain ⟨b0, hb0⟩ := Option.isSome_iff_exists.mp w3
  have hlt := St.currentBB_lt s1 b0 w1 hb0
  obtain ⟨x1, x2, x3⟩ := traverseBranches_spec ht (condInstr lastC) A B s1 b0 w1 hb0 hclean.toSound
  rw [show s1.scope.Cont = none from hk] at x3
  obtain ⟨x3, x4, x5⟩ := x3
  have hu : u = ((((s1.finishBlock (.Branch (condInstr lastC) L (L + 1))).newBlock 0).2.newBlock
      0).2.newBlock 1).2 := by
    show ((((s1.newBlock 0).2.newBlock 0).2.finishBlock _).newBlock 1).2 = _
    rw [St.finishBlock_newBlock _ _ 0 b0 (by exact hb0) (by simp [St.newBlock]; omega),
      St.finishBlock_newBlock _ _ 0 b0 hb0 hlt]
  have hnf := traverseBranches_eq (traverse R n) (condInstr lastC) A B s1 b0 hb0 hlt
  rw [show s1.scope.Cont = none from hk] at hnf
  dsimp only at hnf
  rw [show s1.blocks.length = L from rfl, ← hu] at hnf
  have hst : (traverseBranches (traverse R n) (condInstr lastC) A B s1).2 =
      (u2.setContinuation none).beginBlock (L + 2) := by
    have := beginJoin_state (L + 2) (traverseArms (traverse R n) A B L (L + 1) (L + 2) none u)
      (by rw [← hnf]; exact hclean.toSound)
    rw [hnf]
    exact this
  refine ⟨⟨b0, hb0, ?_, ?_, ?_⟩, ?_, x3, ?_⟩
  · rw [hu]
    exact (branchSetup_blocks s1 _ b0 hb0).1
  · rw [hu]
    exact (branchSetup_blocks s1 _ b0 hb0).2
  · obtain ⟨B0, hB0, -, hB2⟩ := w1.cur b0 (by simpa [St.view] using hb0)
    have hfv := St.view_finishBlock s1 (.Branch (condInstr lastC) L (L + 1)) b0 hb0
    have hB1 : (s1.finishBlock (.Branch (condInstr lastC) L (L + 1))).view.blocks[b0]? =
        some { B0 with terminators := .Branch (condInstr lastC) L (L + 1) :: B0.terminators } := by
      rw [hfv]
      simp [List.getElem?_modify_eq, hB0]
    obtain ⟨B', hB', -, -, hterm⟩ := x2.block b0 _ hB1
    have hcn : (s1.finishBlock (.Branch (condInstr lastC) L (L + 1))).view.cur ≠ some b0 := by
      rw [hfv]; simp
    have h2 := hterm hcn
    simp only [St.view, List.getElem?_map] at hB'
    cases hfb : (traverseBranches (traverse R n) (condInstr lastC) A B s1).2.blocks[b0]? with
    | none => rw [hfb] at hB'; simp at hB'
    | some Bf =>
      rw [hfb] at hB'
      simp only [Option.map_some', Option.some.injEq] at hB'
      rw [← hB'] at h2
      simp only [BasicBlock.view] at h2
      simp [h2, hB2]
  · exact Prod.ext x4 hst
  · simp only [St.view, List.getElem?_map] at x5
    cases hfb : (traverseBranches (traverse R n) (condInstr lastC) A B s1).2.blocks[L + 2]? with
    | none => rw [show s1.blocks.length = L from rfl, hfb] at x5; simp at x5
    | some Bf =>
      rw [show s1.blocks.length = L from rfl, hfb] at x5
      simpa [BasicBlock.view] using x5

/-- C10 (witness): `if (n < 0) then (0 - n) else n`, with `n` a parameter, traversed in
the entry block of a fresh graph without a continuation: the blocks 2, 3 and 4 are
allocated, the join block 4 with one phi parameter is the current block on return, and
the residual is its phi parameter. -/
theorem C10_conditional_without_continuation_witness :
    (traverseIfThenElse (traverse widenRules 4)
      (.IfThenElse
        (.BinaryOp BaseType.void .BOP_Lt
          (.Variable BaseType.void .VK_Fun "n" 0 (.ScalarType BaseType.int32))
          (.Literal BaseType.int32 0))
        (.BinaryOp BaseType.void .BOP_Sub (.Literal BaseType.int32 0)
          (.Variable BaseType.void .VK_Fun "n" 0 (.ScalarType BaseType.int32)))
        (.Variable BaseType.void .VK_Fun "n" 0 (.ScalarType BaseType.int32)))
      ((enterCFG St.init).setContinuation none)).2.currentBB = some 4 ∧
    (traverseIfThenElse (traverse widenRules 4)
      (.IfThenElse
        (.BinaryOp BaseType.void .BOP_Lt
          (.Variable BaseType.void .VK_Fun "n" 0 (.ScalarType BaseType.int32))
          (.Literal BaseType.int32 0))
        (.BinaryOp BaseType.void .BOP_Sub (.Literal BaseType.int32 0)
          (.Variable BaseType.void .VK_Fun "n" 0 (.ScalarType BaseType.int32)))
        (.Variable BaseType.void .VK_Fun "n" 0 (.ScalarType BaseType.int32)))
      ((enterCFG St.init).setContinuation none)).2.blocks[4]?.map (·.arguments) = some 1 :=
  (C10_conditional_without_continuation widenRules 4
    (.BinaryOp BaseType.void .BOP_Lt
      (.Variable BaseType.void .VK_Fun "n" 0 (.ScalarType BaseType.int32))
      (.Literal BaseType.int32 0))
    (.BinaryOp BaseType.void .BOP_Sub (.Literal BaseType.int32 0)
      (.Variable BaseType.void .VK_Fun "n" 0 (.ScalarType BaseType.int32)))
    (.Variable BaseType.void .VK_Fun "n" 0 (.ScalarType BaseType.int32))
    ((enterCFG St.init).setContinuation none) enterCFG_init_WF (by decide) (by decide)
    (by decide) (by decide) ⟨by decide, by decide, by decide⟩).2.2

/-! ### C11: lets are eliminated by substitution -/

/-- C11: with emission enabled, `traverseLet` reduces the definition, binds the next
position of the scope to the reduced definition, traverses the body in tail position in
that scope and returns exactly the attribute of the body (leaving the scope it entered).
In particular the conversion of `let x = 3 in let y = 4 in x + y` eliminates both lets
and folds the sum: the graph consists of the entry block and the exit block, the entry
block holds no instruction, and the value it delivers, by its one terminator, is the
literal 7. -/
theorem C11_traverseLet_substitutes (trav : Trav) (name : String) (idx : Nat)
    (definition body : SExpr) (s : St) (hemit : s.emitInstrs = true) :
    (({ (trav definition .TRV_Decl s).2 with
        scope := (trav definition .TRV_Decl s).2.scope.enterScope
          ⟨.VK_Let, name, idx, some definition⟩ (trav definition .TRV_Decl s).1 } : St).scope.var
        (trav definition .TRV_Decl s).2.scope.size = some (trav definition .TRV_Decl s).1) ∧
    (traverseLet trav (.Let name idx definition body) s).1 =
      (trav body .TRV_Tail
        { (trav definition .TRV_Decl s).2 with
          scope := (trav definition .TRV_Decl s).2.scope.enterScope
            ⟨.VK_Let, name, idx, some definition⟩ (trav definition .TRV_Decl s).1 }).1 ∧
    (traverseLet trav (.Let name idx definition body) s).2 =
      { (trav body .TRV_Tail
          { (trav definition .TRV_Decl s).2 with
            scope := (trav definition .TRV_Decl s).2.scope.enterScope
              ⟨.VK_Let, name, idx, some definition⟩ (trav definition .TRV_Decl s).1 }).2 with
        scope := (trav body .TRV_Tail
          { (trav definition .TRV_Decl s).2 with
            scope := (trav definition .TRV_Decl s).2.scope.enterScope
              ⟨.VK_Let, name, idx, some definition⟩
              (trav definition .TRV_Decl s).1 }).2.scope.exitScope } ∧
    (convertSExprToCFG widenRules 5
      (.Let "x" 1 (.Literal BaseType.int32 3)
        (.Let "y" 2 (.Literal BaseType.int32 4)
          (.BinaryOp BaseType.void .BOP_Add
            (.Variable BaseType.void .VK_Let "x" 1 (.Literal BaseType.int32 3))
            (.Variable BaseType.void .VK_Let "y" 2 (.Literal BaseType.int32 4)))))
      St.init).blocks =
      [⟨0, [], [.Goto 1 [some (.Literal BaseType.int32 7)]], 1⟩,
       ⟨1, [], [.Return (some (St.phi 1 0))], 1⟩] := by
  refine ⟨?_, ?_, ?_, by decide⟩
  · simp [ScopeCPS.var, ScopeCPS.enterScope, ScopeCPS.size]
  · simp [traverseLet, hemit]
  · simp [traverseLet, hemit]

/-- C11 (witness): the let `let x = 3 in x` traversed in the entry block of a fresh
graph. -/
theorem C11_traverseLet_substitutes_witness :
    (traverseLet (traverse widenRules 3)
      (.Let "x" 1 (.Literal BaseType.int32 3)
        (.Variable BaseType.void .VK_Let "x" 1 (.Literal BaseType.int32 3)))
      (enterCFG St.init)).1 =
      (traverse widenRules 3 (.Variable BaseType.void .VK_Let "x" 1 (.Literal BaseType.int32 3))
        .TRV_Tail
        { (traverse widenRules 3 (.Literal BaseType.int32 3) .TRV_Decl (enterCFG St.init)).2 with
          scope := (traverse widenRules 3 (.Literal BaseType.int32 3) .TRV_Decl
              (enterCFG St.init)).2.scope.enterScope
            ⟨.VK_Let, "x", 1, some (.Literal BaseType.int32 3)⟩
            (traverse widenRules 3 (.Literal BaseType.int32 3) .TRV_Decl
              (enterCFG St.init)).1 }).1 :=
  (C11_traverseLet_substitutes (traverse widenRules 3) "x" 1 (.Literal BaseType.int32 3)
    (.Variable BaseType.void .VK_Let "x" 1 (.Literal BaseType.int32 3)) (enterCFG St.init)
    (by decide)).2.1

/-! ### C12: a tail position under a continuation ends in a jump -/

/-- Appending an instruction changes the terminators of no block. -/
theorem St.addInstruction_terminators (s : St) (e : Option SExpr) (b : Nat) :
    (s.addInstruction e).blocks[b]?.map (·.terminators) = s.blocks[b]?.map (·.terminators) := by
  unfold St.addInstruction
  split
  · split_ifs
    · rename_i i c _ _
      by_cases h : c = b
      · subst h
        simp only [List.getElem?_modify_eq, Option.map_eq_map, Option.map_map]
        rfl
      · simp only [List.getElem?_modify_ne _ _ h]
    · rfl
  · rfl

/-- Terminating the current block puts the terminator in front of its terminators. -/
theorem St.finishBlock_terminators (s : St) (t : Terminator) (b : Nat)
    (h : s.currentBB = some b) :
    (s.finishBlock t).currentBB = none ∧
    (s.finishBlock t).blocks[b]?.map (·.terminators) =
      s.blocks[b]?.map (fun B => t :: B.terminators) := by
  unfold St.finishBlock
  rw [h]
  refine ⟨rfl, ?_⟩
  simp only [List.getElem?_modify_eq, Option.map_eq_map, Option.map_map]
  rfl

/-- C12: the driver `traverse` at a node in tail position while the continuation `c` is
not null.  If a block `b` is still active after the node has been reduced by the rule of
its kind, then the driver appends the residual to `b`, terminates `b` by a jump to `c`
whose one argument is the residual, and returns a null residual: afterwards no block is
active and the jump is the newest terminator of `b`. -/
theorem C12_tail_jumps_to_continuation (R : TypeRules) (n : Nat) (e : SExpr) (s : St)
    (c b : Nat) (hc : s.currentContinuation = some c)
    (hb : (superTraverse R (traverse R n) e (traverseEnter .TRV_Tail s)).2.currentBB = some b) :
    traverse R (n + 1) e .TRV_Tail s =
      ((superTraverse R (traverse R n) e (traverseEnter .TRV_Tail s)).1.setExp none,
        ((traverseRestore (some c) s.pendingPathArgLen .TRV_Tail
          (superTraverse R (traverse R n) e (traverseEnter .TRV_Tail s)).2).addInstruction
            (superTraverse R (traverse R n) e (traverseEnter .TRV_Tail s)).1.Exp).createGoto c
          (superTraverse R (traverse R n) e (traverseEnter .TRV_Tail s)).1.Exp) ∧
    (traverse R (n + 1) e .TRV_Tail s).1.Exp = none ∧
    (traverse R (n + 1) e .TRV_Tail s).2.currentBB = none ∧
    (traverse R (n + 1) e .TRV_Tail s).2.blocks[b]?.map (·.terminators) =
      (superTraverse R (traverse R n) e (traverseEnter .TRV_Tail s)).2.blocks[b]?.map
        (fun B => Terminator.Goto c
          [(superTraverse R (traverse R n) e (traverseEnter .TRV_Tail s)).1.Exp] ::
            B.terminators) := by
  obtain ⟨-, f2, f3, -⟩ := traverseRestore_fields (some c) s.pendingPathArgLen .TRV_Tail
    (superTraverse R (traverse R n) e (traverseEnter .TRV_Tail s)).2
  have h1 : traverse R (n + 1) e .TRV_Tail s =
      ((superTraverse R (traverse R n) e (traverseEnter .TRV_Tail s)).1.setExp none,
        ((traverseRestore (some c) s.pendingPathArgLen .TRV_Tail
          (superTraverse R (traverse R n) e (traverseEnter .TRV_Tail s)).2).addInstruction
            (superTraverse R (traverse R n) e (traverseEnter .TRV_Tail s)).1.Exp).createGoto c
          (superTraverse R (traverse R n) e (traverseEnter .TRV_Tail s)).1.Exp) := by
    rw [traverse, if_neg (by decide), hc]
    unfold traverseExit
    dsimp only
    rw [f3, hb]
    rfl
  have hcur : ((traverseRestore (some c) s.pendingPathArgLen .TRV_Tail
      (superTraverse R (traverse R n) e (traverseEnter .TRV_Tail s)).2).addInstruction
        (superTraverse R (traverse R n) e (traverseEnter .TRV_Tail s)).1.Exp).currentBB =
      some b := by
    rw [St.currentBB_addInstruction, f3, hb]
  obtain ⟨g1, g2⟩ := St.finishBlock_terminators _
    (.Goto c [(superTraverse R (traverse R n) e (traverseEnter .TRV_Tail s)).1.Exp]) b hcur
  refine ⟨h1, ?_, ?_, ?_⟩
  · rw [h1]; rfl
  · rw [h1]; exact g1
  · rw [h1]
    show (St.finishBlock _ _).blocks[b]?.map _ = _
    rw [g2]
    have := St.addInstruction_terminators (traverseRestore (some c) s.pendingPathArgLen .TRV_Tail
      (superTraverse R (traverse R n) e (traverseEnter .TRV_Tail s)).2)
      (superTraverse R (traverse R n) e (traverseEnter .TRV_Tail s)).1.Exp b
    rw [f2] at this
    cases h : (St.addInstruction _ _).blocks[b]? <;>
      cases h' : (superTraverse R (traverse R n) e (traverseEnter .TRV_Tail s)).2.blocks[b]? <;>
      simp_all

/-- C12 (witness): the negation `-n` of a parameter in tail position in the entry block
of a fresh graph, whose continuation is the exit block 1: the negation is appended to the
entry block, which is then terminated by a jump to the block 1 that carries it, and the
driver returns a null residual. -/
theorem C12_tail_jumps_to_continuation_witness :
    (traverse widenRules 3
      (.UnaryOp BaseType.void .UOP_Negative
        (.Variable BaseType.void .VK_Fun "n" 0 (.ScalarType BaseType.int32)))
      .TRV_Tail (enterCFG St.init)).1.Exp = none ∧
    (traverse widenRules 3
      (.UnaryOp BaseType.void .UOP_Negative
        (.Variable BaseType.void .VK_Fun "n" 0 (.ScalarType BaseType.int32)))
      .TRV_Tail (enterCFG St.init)).2.currentBB = none ∧
    (traverse widenRules 3
      (.UnaryOp BaseType.void .UOP_Negative
        (.Variable BaseType.void .VK_Fun "n" 0 (.ScalarType BaseType.int32)))
      .TRV_Tail (enterCFG St.init)).2.blocks[0]?.map (·.terminators) =
      some [.Goto 1 [some (.UnaryOp BaseType.int32 .UOP_Negative
        (.Variable BaseType.int32 .VK_Fun "n" 0 (.ScalarType BaseType.int32)))]] :=
  (C12_tail_jumps_to_continuation widenRules 2
    (.UnaryOp BaseType.void .UOP_Negative
      (.Variable BaseType.void .VK_Fun "n" 0 (.ScalarType BaseType.int32)))
    (enterCFG St.init) 1 0 (by decide) (by decide)).2

/-- C12 (as stated, refuted): the difference `0 - n` in tail position in the entry block
of a fresh graph, whose continuation is the exit block 1.  When the rule of the node
returns, the entry block is active and holds no instruction; the driver then appends the
residual to it as an ordinary instruction and terminates it by the jump that carries the
residual.  The jump does not take the place of the append: the residual is appended and
is not returned. -/
theorem C12_residual_is_appended :
    (superTraverse widenRules (traverse widenRules 2)
      (.BinaryOp BaseType.void .BOP_Sub (.Literal BaseType.int32 0)
        (.Variable BaseType.void .VK_Fun "n" 0 (.ScalarType BaseType.int32)))
      (traverseEnter .TRV_Tail (enterCFG St.init))).2.currentBB = some 0 ∧
    (superTraverse widenRules (traverse widenRules 2)
      (.BinaryOp BaseType.void .BOP_Sub (.Literal BaseType.int32 0)
        (.Variable BaseType.void .VK_Fun "n" 0 (.ScalarType BaseType.int32)))
      (traverseEnter .TRV_Tail (enterCFG St.init))).2.blocks[0]?.map (·.instructions) =
      some [] ∧
    (traverse widenRules 3
      (.BinaryOp BaseType.void .BOP_Sub (.Literal BaseType.int32 0)
        (.Variable BaseType.void .VK_Fun "n" 0 (.ScalarType BaseType.int32)))
      .TRV_Tail (enterCFG St.init)).2.blocks[0]?.map (·.instructions) =
      some [.BinaryOp BaseType.int32 .BOP_Sub (.Literal BaseType.int32 0)
        (.Variable BaseType.int32 .VK_Fun "n" 0 (.ScalarType BaseType.int32))] ∧
    (traverse widenRules 3
      (.BinaryOp BaseType.void .BOP_Sub (.Literal BaseType.int32 0)
        (.Variable BaseType.void .VK_Fun "n" 0 (.ScalarType BaseType.int32)))
      .TRV_Tail (enterCFG St.init)).2.blocks[0]?.map (·.terminators) =
      some [.Goto 1 [some (.BinaryOp BaseType.int32 .BOP_Sub (.Literal BaseType.int32 0)
        (.Variable BaseType.int32 .VK_Fun "n" 0 (.ScalarType BaseType.int32)))]] ∧
    (traverse widenRules 3
      (.BinaryOp BaseType.void .BOP_Sub (.Literal BaseType.int32 0)
        (.Variable BaseType.void .VK_Fun "n" 0 (.ScalarType BaseType.int32)))
      .TRV_Tail (enterCFG St.init)).1.Exp = none := by
  decide

/-! ### C13: the driver saves and restores the continuation -/

/-- C13: for every node and every traversal kind the current continuation after
`traverse` is the one before the call, at every fuel.  A node of kind `TRV_Lazy` is
skipped: the result is null and the state is untouched.  For every other kind the rule
of the node runs from the state left by the first half of the driver, in which the
current continuation is the saved one when the kind is `TRV_Tail` and null otherwise,
and which differs from the state before the call in nothing but the continuation and
the saved length of the pending arguments. -/
theorem C13_continuation_restored (R : TypeRules) (n : Nat) (e : SExpr) (k : TraversalKind)
    (s : St) :
    (traverse R n e k s).2.currentContinuation = s.currentContinuation ∧
    traverse R (n + 1) e .TRV_Lazy s = (TypedCopyAttr.null, s) ∧
    (k ≠ .TRV_Lazy → traverse R (n + 1) e k s =
      traverseExit s.currentContinuation s.pendingPathArgLen k
        (superTraverse R (traverse R n) e (traverseEnter k s))) ∧
    (traverseEnter k s).currentContinuation =
      (if k = .TRV_Tail then s.currentContinuation else none) ∧
    traverseEnter k s =
      { s with pendingPathArgLen := s.pendingPathArgs.length,
               scope := s.scope.setCurrentContinuation
                 (if k = .TRV_Tail then s.currentContinuation else none) } := by
  refine ⟨traverse_currentContinuation R n e k s, ?_, ?_, traverseEnter_cont k s, ?_⟩
  · rw [traverse, if_pos rfl]
  · intro hk
    rw [traverse, if_neg hk]
  · unfold traverseEnter
    by_cases hk : k = .TRV_Tail
    · simp [hk, St.savePendingArgs, St.currentContinuation, ScopeCPS.setCurrentContinuation]
    · simp [hk, St.savePendingArgs, St.setContinuation]

/-! ### C20: the conditional under a continuation -/

/-- The branch compiler under a continuation: two blocks are allocated, the branch is
made, and the arms are traversed under that continuation. -/
theorem traverseBranches_some (trav : Trav) (Nc : Option SExpr) (A B : SExpr) (t : St) (c : Nat)
    (hk : t.scope.Cont = some c) :
    traverseBranches trav Nc A B t =
      (TypedCopyAttr.null,
        traverseArms trav A B t.blocks.length (t.blocks.length + 1) c (some c)
          (((t.newBlock 0).2.newBlock 0).2.newBranch Nc t.blocks.length
            (t.blocks.length + 1))) := by
  have e1 : (t.newBlock 0).1 = t.blocks.length := rfl
  have e2 : ((t.newBlock 0).2.newBlock 0).1 = t.blocks.length + 1 := by simp [St.newBlock]
  have e3 : (((t.newBlock 0).2.newBlock 0).2.newBranch Nc t.blocks.length
      (t.blocks.length + 1)).currentContinuation = some c := by
    show (St.finishBlock _ _).scope.Cont = _
    rw [St.finishBlock_scope]
    exact hk
  unfold traverseBranches
  dsimp only
  rw [e1, e2, e3]

/-- C20: a conditional whose condition does not reduce to a literal, traversed by
`traverseIfThenElse` with emission enabled while the continuation is the block `cc`.
After the condition exactly two blocks are allocated, `L` and `L + 1`, and no join
block; the branch is made, each arm is traversed in its block in tail position with `cc`
as continuation, and the rule returns a null residual with `cc` as the current
continuation of the scope. -/
theorem C20_conditional_under_continuation (R : TypeRules) (n : Nat) (c A B : SExpr) (s : St)
    (cc : Nat) (hemit : s.emitInstrs = true) (hcont : s.scope.Cont = some cc)
    (hlit : (traverse R n c .TRV_Arg s).1.Exp.any SExpr.isLiteral = false) :
    let lastC := (traverse R n c .TRV_Arg s).1
    let s1 := checkCondition lastC (traverse R n c .TRV_Arg s).2
    let L := s1.blocks.length
    let u := ((s1.newBlock 0).2.newBlock 0).2.newBranch (condInstr lastC) L (L + 1)
    let u1 := (traverse R n A .TRV_Tail ((u.beginBlock L).setContinuation (some cc))).2
    let u2 := (traverse R n B .TRV_Tail ((u1.beginBlock (L + 1)).setContinuation (some cc))).2
    let r := traverseIfThenElse (traverse R n) (.IfThenElse c A B) s
    u.blocks.length = L + 2 ∧
    r = (TypedCopyAttr.null, u2.setContinuation (some cc)) ∧
    r.1.Exp = none ∧
    r.2.scope.Cont = some cc := by
  have he : (checkCondition (traverse R n c .TRV_Arg s).1
      (traverse R n c .TRV_Arg s).2).emitInstrs = true := by
    rw [checkCondition_emitInstrs, traverse_emitInstrs, hemit]
  have hk : (checkCondition (traverse R n c .TRV_Arg s).1
      (traverse R n c .TRV_Arg s).2).scope.Cont = some cc := by
    rw [checkCondition_scope]
    exact (traverse_currentContinuation R n c .TRV_Arg s).trans hcont
  have heq := traverseIfThenElse_branches (traverse R n) c A B s
    (staticCondition_of_not_literal _ hlit) he
  intro lastC s1 L u u1 u2 r
  have hr : r = (TypedCopyAttr.null, u2.setContinuation (some cc)) := by
    show traverseIfThenElse (traverse R n) (.IfThenElse c A B) s = _
    rw [heq, traverseBranches_some _ _ _ _ _ cc hk]
    rfl
  refine ⟨?_, hr, ?_, ?_⟩
  · show (St.finishBlock _ _).blocks.length = _
    unfold St.finishBlock
    split <;> simp [St.newBlock, L]
  · rw [hr]; rfl
  · rw [hr]; rfl

/-- C20 (witness): `if (n < 0) then (0 - n) else n`, with `n` a parameter, traversed in
the entry block of a fresh graph, whose continuation is the exit block 1. -/
theorem C20_conditional_under_continuation_witness :
    (traverseIfThenElse (traverse widenRules 4)
      (.IfThenElse
        (.BinaryOp BaseType.void .BOP_Lt
          (.Variable BaseType.void .VK_Fun "n" 0 (.ScalarType BaseType.int32))
          (.Literal BaseType.int32 0))
        (.BinaryOp BaseType.void .BOP_Sub (.Literal BaseType.int32 0)
          (.Variable BaseType.void .VK_Fun "n" 0 (.ScalarType BaseType.int32)))
        (.Variable BaseType.void .VK_Fun "n" 0 (.ScalarType BaseType.int32)))
      (enterCFG St.init)).1.Exp = none ∧
    (traverseIfThenElse (traverse widenRules 4)
      (.IfThenElse
        (.BinaryOp BaseType.void .BOP_Lt
          (.Variable BaseType.void .VK_Fun "n" 0 (.ScalarType BaseType.int32))
          (.Literal BaseType.int32 0))
        (.BinaryOp BaseType.void .BOP_Sub (.Literal BaseType.int32 0)
          (.Variable BaseType.void .VK_Fun "n" 0 (.ScalarType BaseType.int32)))
        (.Variable BaseType.void .VK_Fun "n" 0 (.ScalarType BaseType.int32)))
      (enterCFG St.init)).2.scope.Cont = some 1 :=
  (C20_conditional_under_continuation widenRules 4
    (.BinaryOp BaseType.void .BOP_Lt
      (.Variable BaseType.void .VK_Fun "n" 0 (.ScalarType BaseType.int32))
      (.Literal BaseType.int32 0))
    (.BinaryOp BaseType.void .BOP_Sub (.Literal BaseType.int32 0)
      (.Variable BaseType.void .VK_Fun "n" 0 (.ScalarType BaseType.int32)))
    (.Variable BaseType.void .VK_Fun "n" 0 (.ScalarType BaseType.int32))
    (enterCFG St.init) 1 (by decide) (by decide) (by decide)).2.2


/-! ### C18: the translation of type tags -/

/-- C18 (as stated, refuted): a 32-bit wide `void` and an integer of size 0 have a size
other than 128 bits and a vector size of at most 4, yet `translateType` does not succeed
on them: its assertions tie the size 0 to `void` and the size 1 to `bool`.  And on a
128-bit `void` it fails an assertion before any error is reported. -/
theorem C18_translateType_asserts :
    translateType ⟨.BT_Void, .ST_32, 1⟩ =
      .error (Failure.assertion "type.Size == ohmu::til::BaseType::ST_0") ∧
    translateType ⟨.BT_Int, .ST_0, 1⟩ =
      .error (Failure.assertion "type.Base == ohmu::til::BaseType::BT_Void") ∧
    translateType ⟨.BT_Void, .ST_128, 1⟩ =
      .error (Failure.assertion "type.Size == ohmu::til::BaseType::ST_0") :=
  ⟨rfl, rfl, rfl⟩

/-- C18 (amended): `translateType` succeeds exactly on the base types that pass its
assertions (the size 0 for `void` and for nothing else, the size 1 for `bool` and for
nothing else), whose size is not 128 bits and whose vector size is at most 4.  It reports
an error for every 128-bit type other than `void` and `bool`, and for every vector size
greater than 4 of a type that passes the assertions and is not 128 bits wide.  On
success the kind follows the base kind (string and pointer both `ADDRESS`), the size is
`BYTE` for 8 bits or less, `SHORT`, `WORD`, `LONG` for 16, 32, 64 bits, and the vector
sizes 0 and 1 give `SCALAR`, the sizes 2, 3, 4 give `VEC2`, `VEC3`, `VEC4`. -/
theorem C18_translateType_succeeds_iff (type : BaseType) :
    ((∃ w, translateType type = .ok w) ↔
      (type.Size ≠ .ST_128 ∧ type.VectSize ≤ 4 ∧ (type.Base = .BT_Void ↔ type.Size = .ST_0) ∧
        (type.Base = .BT_Bool ↔ type.Size = .ST_1))) ∧
    (type.Size = .ST_128 → type.Base ≠ .BT_Void → type.Base ≠ .BT_Bool →
      translateType type = .error (Failure.reported "Back-end doesn't support 128-bit types.")) ∧
    (4 < type.VectSize → type.Size ≠ .ST_128 → (type.Base = .BT_Void ↔ type.Size = .ST_0) →
      (type.Base = .BT_Bool ↔ type.Size = .ST_1) →
      translateType type = .error (Failure.reported "Unsupported vector size.")) ∧
    (∀ w, translateType type = .ok w →
      w.kind = (match type.Base with
        | .BT_Void => .VOID | .BT_Bool => .BOOLEAN | .BT_Int => .INTEGER
        | .BT_UnsignedInt => .UNSIGNED | .BT_Float => .FLOAT
        | .BT_String => .ADDRESS | .BT_Pointer => .ADDRESS) ∧
      w.size = (match type.Size with
        | .ST_16 => .SHORT | .ST_32 => .WORD | .ST_64 => .LONG | _ => .BYTE) ∧
      w.count = (match type.VectSize with
        | 2 => .VEC2 | 3 => .VEC3 | 4 => .VEC4 | _ => .SCALAR)) := by
  obtain ⟨b, sz, v⟩ := type
  rcases v with _ | _ | _ | _ | _ | v <;> cases b <;> cases sz <;>
    simp [translateType, bind, Except.bind, pure, Except.pure, throw, throwThe,
      MonadExceptOf.throw]

/-- C18 (witness): a 32-bit integer scalar is translated. -/
theorem C18_translateType_succeeds_iff_witness :
    ∃ w, translateType ⟨.BT_Int, .ST_32, 1⟩ = .ok w :=
  (C18_translateType_succeeds_iff ⟨.BT_Int, .ST_32, 1⟩).1.mpr
    ⟨by decide, by decide, by decide, by decide⟩

/-! ### C19: the literal pool -/

/-- The first loop counts the distinct entries. -/
theorem uniqueSize_fold (L : List Nat) (k : Nat) :
    (List.range' 1 k).foldl
      (fun u i => if L.getD i 0 ≠ L.getD (i - 1) 0 then u + 1 else u) 1 =
      (distinctUpTo L k).length := by
  induction k with
  | zero => rfl
  | succ k ih =>
    rw [List.range'_1_concat, List.foldl_append, ih]
    simp only [List.foldl_cons, List.foldl_nil, Nat.add_sub_cancel_left, distinctUpTo]
    rw [Nat.add_comm 1 k]
    split_ifs <;> simp

/-- The number of distinct entries does not decrease along the array. -/
theorem distinctUpTo_length_mono (L : List Nat) (k : Nat) :
    (distinctUpTo L k).length ≤ (distinctUpTo L (k + 1)).length := by
  simp only [distinctUpTo]
  split_ifs <;> simp

/-- There is at least one distinct entry. -/
theorem distinctUpTo_length_pos (L : List Nat) (k : Nat) : 0 < (distinctUpTo L k).length := by
  induction k with
  | zero => simp [distinctUpTo]
  | succ k ih => exact lt_of_lt_of_le ih (distinctUpTo_length_mono L k)

/-- Writing just behind a filled prefix of an array. -/
theorem set_append_replicate (D : List Nat) (m x : Nat) (hm : 0 < m) :
    (D ++ List.replicate m 0).set D.length x = (D ++ [x]) ++ List.replicate (m - 1) 0 := by
  obtain ⟨m, rfl⟩ : ∃ m', m = m' + 1 := ⟨m - 1, by omega⟩
  induction D with
  | nil => simp [List.replicate_succ]
  | cons a D ih => simpa using ih

/-- The second loop fills the new array with the distinct entries, in order. -/
theorem fillSwap_fold (L : List Nat) (U k : Nat) (hk : (distinctUpTo L k).length ≤ U) :
    (List.range' 1 k).foldl
      (fun (r : List Nat × Nat) i =>
        if L.getD i 0 ≠ L.getD (i - 1) 0 then (r.1.set r.2 (L.getD i 0), r.2 + 1) else r)
      ((List.replicate U 0).set 0 (L.getD 0 0), 1) =
      (distinctUpTo L k ++ List.replicate (U - (distinctUpTo L k).length) 0,
        (distinctUpTo L k).length) := by
  induction k with
  | zero =>
    have hU : 0 < U := by simpa [distinctUpTo] using hk
    have := set_append_replicate [] U (L.getD 0 0) hU
    simpa [distinctUpTo] using this
  | succ k ih =>
    have hk' := le_trans (distinctUpTo_length_mono L k) hk
    rw [List.range'_1_concat, List.foldl_append, ih hk']
    simp only [List.foldl_cons, List.foldl_nil, Nat.add_sub_cancel_left]
    rw [Nat.add_comm 1 k]
    by_cases hne : L.getD (k + 1) 0 ≠ L.getD k 0
    · have hlen : (distinctUpTo L (k + 1)).length = (distinctUpTo L k).length + 1 := by
        rw [distinctUpTo, if_pos hne]
        simp
      rw [if_pos hne, set_append_replicate _ _ _ (by omega), distinctUpTo, if_pos hne]
      simp only [List.length_append, List.length_singleton]
      rw [Nat.sub_sub]
    · rw [if_neg hne, distinctUpTo, if_neg hne]

/-- The array left by `buildLiteralsArray` holds the distinct entries of the sorted
array. -/
theorem buildLiteralsArray_eq (collected : List Nat) (h : collected ≠ []) :
    buildLiteralsArray collected =
      distinctUpTo (sortLiterals collected) ((sortLiterals collected).length - 1) := by
  have hlen : collected.length ≠ 0 := fun h0 => h (List.length_eq_zero.mp h0)
  unfold buildLiteralsArray
  rw [if_neg hlen]
  dsimp only
  unfold fillSwap uniqueSize
  rw [uniqueSize_fold, fillSwap_fold _ _ _ (le_refl _)]
  simp

/-- The distinct entries up to `k` are the entries up to `k`. -/
theorem mem_distinctUpTo (L : List Nat) (k x : Nat) :
    x ∈ distinctUpTo L k ↔ ∃ i, i ≤ k ∧ L.getD i 0 = x := by
  induction k with
  | zero =>
    rw [distinctUpTo, List.mem_singleton]
    constructor
    · intro h; exact ⟨0, le_refl _, h.symm⟩
    · rintro ⟨i, hi, rfl⟩
      rw [Nat.le_zero.mp hi]
  | succ k ih =>
    rw [distinctUpTo]
    by_cases hne : L.getD (k + 1) 0 ≠ L.getD k 0
    · rw [if_pos hne, List.mem_append, ih, List.mem_singleton]
      constructor
      · rintro (⟨i, hi, rfl⟩ | rfl)
        · exact ⟨i, by omega, rfl⟩
        · exact ⟨k + 1, le_refl _, rfl⟩
      · rintro ⟨i, hi, rfl⟩
        rcases Nat.lt_or_ge i (k + 1) with h | h
        · exact Or.inl ⟨i, by omega, rfl⟩
        · right
          rw [show i = k + 1 by omega]
    · rw [if_neg hne, ih]
      rw [not_not] at hne
      constructor
      · rintro ⟨i, hi, rfl⟩
        exact ⟨i, by omega, rfl⟩
      · rintro ⟨i, hi, rfl⟩
        rcases Nat.lt_or_ge i (k + 1) with h | h
        · exact ⟨i, by omega, rfl⟩
        · exact ⟨k, le_refl _, by rw [show i = k + 1 by omega, hne]⟩

/-- In a sorted array the distinct entries up to `k` are strictly increasing, and none
exceeds the entry `k`. -/
theorem distinctUpTo_sorted (L : List Nat) (hs : L.Sorted (· ≤ ·)) (k : Nat)
    (hk : k < L.length) :
    (distinctUpTo L k).Sorted (· < ·) ∧ ∀ y ∈ distinctUpTo L k, y ≤ L.getD k 0 := by
  induction k with
  | zero =>
    rw [distinctUpTo]
    exact ⟨List.sorted_singleton _, fun y hy => by rw [List.mem_singleton.mp hy]⟩
  | succ k ih =>
    obtain ⟨h1, h2⟩ := ih (by omega)
    have hle : L.getD k 0 ≤ L.getD (k + 1) 0 := by
      rw [List.getD_eq_getElem _ _ (by omega : k < L.length), List.getD_eq_getElem _ _ hk]
      exact List.pairwise_iff_getElem.mp hs k (k + 1) (by omega) hk (by omega)
    rw [distinctUpTo]
    by_cases hne : L.getD (k + 1) 0 ≠ L.getD k 0
    · rw [if_pos hne]
      have hlt : L.getD k 0 < L.getD (k + 1) 0 := lt_of_le_of_ne hle (Ne.symm hne)
      refine ⟨?_, ?_⟩
      · refine List.pairwise_append.mpr ⟨h1, List.pairwise_singleton _ _, ?_⟩
        intro y hy z hz
        rw [List.mem_singleton.mp hz]
        exact lt_of_le_of_lt (h2 y hy) hlt
      · intro y hy
        rcases List.mem_append.mp hy with hy | hy
        · exact le_trans (h2 y hy) hle
        · rw [List.mem_singleton.mp hy]
    · rw [if_neg hne]
      exact ⟨h1, fun y hy => le_trans (h2 y hy) hle⟩

/-- C19: for every non-empty collected list of literal references, the pool left by
`buildLiteralsArray` is strictly increasing, so it is sorted and holds no two equal
entries; it has exactly the elements of the collected list; and its length is the number
of distinct collected references. -/
theorem C19_literal_pool (collected : List Nat) (h : collected ≠ []) :
    (buildLiteralsArray collected).Sorted (· < ·) ∧
    (buildLiteralsArray collected).Nodup ∧
    (∀ x, x ∈ buildLiteralsArray collected ↔ x ∈ collected) ∧
    (buildLiteralsArray collected).length = collected.toFinset.card := by
  have hlen : 0 < (sortLiterals collected).length := by
    rw [sortLiterals, List.length_insertionSort]
    exact List.length_pos.mpr h
  have hs : (sortLiterals collected).Sorted (· ≤ ·) := List.sorted_insertionSort _ _
  have hsorted := (distinctUpTo_sorted _ hs ((sortLiterals collected).length - 1)
    (by omega)).1
  have hmem : ∀ x, x ∈ buildLiteralsArray collected ↔ x ∈ collected := by
    intro x
    rw [buildLiteralsArray_eq collected h, mem_distinctUpTo,
      ← (List.perm_insertionSort (· ≤ ·) collected).mem_iff, List.mem_iff_getElem]
    unfold sortLiterals at hlen ⊢
    constructor
    · rintro ⟨i, hi, rfl⟩
      exact ⟨i, by omega, (List.getD_eq_getElem _ _ (by omega)).symm⟩
    · rintro ⟨i, hi, rfl⟩
      exact ⟨i, by omega, List.getD_eq_getElem _ _ hi⟩
  rw [buildLiteralsArray_eq collected h] at hmem ⊢
  have hnd := hsorted.nodup
  refine ⟨hsorted, hnd, hmem, ?_⟩
  rw [← List.toFinset_card_of_nodup hnd]
  congr 1
  ext x
  simp only [List.mem_toFinset]
  exact hmem x

/-- C19 (witness): six collected references, three of them distinct from the rest. -/
theorem C19_literal_pool_witness :
    (buildLiteralsArray [5, 3, 5, 1, 3, 9]).Sorted (· < ·) ∧
    (buildLiteralsArray [5, 3, 5, 1, 3, 9]).Nodup ∧
    (∀ x, x ∈ buildLiteralsArray [5, 3, 5, 1, 3, 9] ↔ x ∈ [5, 3, 5, 1, 3, 9]) ∧
    (buildLiteralsArray [5, 3, 5, 1, 3, 9]).length = ([5, 3, 5, 1, 3, 9] : List Nat).toFinset.card :=
  C19_literal_pool [5, 3, 5, 1, 3, 9] (by decide)


/-! ### C14: a cloned context shares no state with the original -/

/-- An operation on the object at `p` that replaces it leaves every other object as it
is. -/
theorem CtxStore.vars_set_ne (st : CtxStore) (p q : Nat) (c : VarContext) (h : p ≠ q) :
    CtxStore.vars (st.set p c) q = CtxStore.vars st q := by
  unfold CtxStore.vars
  rw [List.getElem?_set_ne h]

/-- The second half of `traverseNestedCode` leaves the scope of the state alone. -/
theorem newPendingBlock_scope (Nc body : Option SExpr) (s : St) :
    (newPendingBlock Nc body s).scope = s.scope := by
  have h : ∀ (is : List Nat) (Nb Vidx : Nat) (Ns : ScopeCPS) (t : St),
      (rebindPhis Nb Vidx is (Ns, t)).2.scope = t.scope := by
    intro is Nb Vidx
    induction is with
    | nil => intro Ns t; rfl
    | cons i is ih =>
      intro Ns t
      unfold rebindPhis
      split
      · exact ih _ _
      · split_ifs
        · exact ih _ _
        · dsimp only
          split <;> (rw [ih]; rfl)
        · dsimp only
          split <;> first | (rw [ih]; done) | (rw [ih]; rfl)
  unfold newPendingBlock addPendingBlock
  dsimp only
  rw [h]
  rfl

/-- An operation on the object at `p` that replaces it leaves every lookup in another
object as it is. -/
theorem CtxStore.get_set_ne (st : CtxStore) (p q : Nat) (c : VarContext) (h : p ≠ q) (i : Nat) :
    CtxStore.get (st.set p c) q i = CtxStore.get st q i := by
  unfold CtxStore.get
  rw [List.getElem?_set_ne h]

/-- C14: for every `VarContext` at `p`, the clone, a new object at `q`, holds the same
sequence of bindings, and so answers every lookup as the original does; the original is
untouched by the cloning.  In every later store, a push, a pop or an element assignment
through `operator[]` on either of the two leaves the bindings of the other, and so every
lookup in it, unchanged.  Likewise the rebinding of phi parameters that
`traverseNestedCode` does on the cloned scope leaves the scope of the evaluator
unchanged. -/
theorem C14_clone_is_independent (st st' : CtxStore) (p q : Nat)
    (hclone : st.clone p = some (q, st')) :
    q ≠ p ∧
    st'.vars q = st.vars p ∧ (∀ i, st'.get q i = st.get p i) ∧
    st'.vars p = st.vars p ∧
    (∀ (a b : Nat) (st1 st2 : CtxStore), (a = p ∧ b = q ∨ a = q ∧ b = p) →
      (∀ vd, st1.push a vd = some st2 → st2.vars b = st1.vars b ∧ ∀ i, st2.get b i = st1.get b i) ∧
      (st1.pop a = some st2 → st2.vars b = st1.vars b ∧ ∀ i, st2.get b i = st1.get b i) ∧
      (∀ j vd, st1.assign a j vd = some st2 →
        st2.vars b = st1.vars b ∧ ∀ i, st2.get b i = st1.get b i)) ∧
    (∀ (Nc body : Option SExpr) (s : St), (newPendingBlock Nc body s).scope = s.scope) := by
  unfold CtxStore.clone at hclone
  cases hp : st[p]? with
  | none => rw [hp] at hclone; cases hclone
  | some c =>
    rw [hp] at hclone
    simp only [Option.map_some', Option.some.injEq, Prod.mk.injEq] at hclone
    obtain ⟨rfl, rfl⟩ := hclone
    have hlt : p < st.length := lt_length_of_getElem? hp
    have hne : st.length ≠ p := by omega
    refine ⟨hne, ?_, ?_, ?_, ?_, newPendingBlock_scope⟩
    · simp [CtxStore.vars, hp, VarContext.copy]
    · intro i
      simp [CtxStore.get, hp, VarContext.copy, VarContext.get, VarContext.size]
    · simp [CtxStore.vars, hp, List.getElem?_append_left hlt]
    · intro a b st1 st2 hab
      have hab' : a ≠ b := by
        rcases hab with ⟨rfl, rfl⟩ | ⟨rfl, rfl⟩
        · exact Ne.symm hne
        · exact hne
      refine ⟨fun vd h => ?_, fun h => ?_, fun j vd h => ?_⟩
      · unfold CtxStore.push at h
        cases ha : st1[a]? with
        | none => rw [ha] at h; cases h
        | some ca =>
          rw [ha] at h
          cases h
          exact ⟨CtxStore.vars_set_ne _ _ _ _ hab', CtxStore.get_set_ne _ _ _ _ hab'⟩
      · unfold CtxStore.pop at h
        cases ha : st1[a]?.bind VarContext.pop with
        | none => rw [ha] at h; cases h
        | some ca =>
          rw [ha] at h
          cases h
          exact ⟨CtxStore.vars_set_ne _ _ _ _ hab', CtxStore.get_set_ne _ _ _ _ hab'⟩
      · unfold CtxStore.assign at h
        cases ha : st1[a]?.bind (fun c => c.assign j vd) with
        | none => rw [ha] at h; cases h
        | some ca =>
          rw [ha] at h
          cases h
          exact ⟨CtxStore.vars_set_ne _ _ _ _ hab', CtxStore.get_set_ne _ _ _ _ hab'⟩

/-- C14 (witness): a context with the bindings 10, 20 is cloned. -/
theorem C14_clone_is_independent_witness :
    CtxStore.vars [⟨[10, 20]⟩, ⟨[10, 20]⟩] 1 = CtxStore.vars [⟨[10, 20]⟩] 0 :=
  (C14_clone_is_independent [⟨[10, 20]⟩] [⟨[10, 20]⟩, ⟨[10, 20]⟩] 0 1 (by decide)).2.1


/-! ### C15 and C16: operands that are not of the required kind -/

/-- The report for an operand that is the poison marker: nothing is reported. -/
theorem reportUnlessUndefined_undefined (msg : String) (s : St) :
    reportUnlessUndefined (some .Undefined) msg s = s := rfl

/-- The report for an operand that is an expression other than the poison marker: the
message is reported, once. -/
theorem reportUnlessUndefined_other (e : SExpr) (msg : String) (s : St) (h : e ≠ .Undefined) :
    reportUnlessUndefined (some e) msg s = s.error msg := by
  unfold reportUnlessUndefined
  cases e <;> first | rfl | exact absurd rfl h

/-- The rule `reduceApply` on a function position whose type expression is no function:
the residual is the poison marker and the state is that of the report. -/
theorem reduceApply_not_function (trav : Trav) (kind : ApplyKind) (Fa Aa : TypedCopyAttr) (s : St)
    (h : Fa.TypeExpr.any SExpr.isFunction = false) :
    reduceApply trav kind Fa Aa s =
      (TypedCopyAttr.null.setExp (some .Undefined),
        reportUnlessUndefined Fa.Exp "Expression is not a function: " s) := by
  unfold reduceApply
  split
  · rename_i heq
    rw [heq] at h
    simp [SExpr.isFunction] at h
  · rfl

/-- The rule `reduceProject` on an operand whose type expression is no record. -/
theorem reduceProject_not_record (trav : Trav) (slotName : String) (Ra : TypedCopyAttr) (s : St)
    (h : Ra.TypeExpr.any SExpr.isRecord = false) :
    reduceProject trav slotName Ra s =
      (TypedCopyAttr.null.setExp (some .Undefined),
        reportUnlessUndefined Ra.Exp "Expression is not a record: " s) := by
  unfold reduceProject
  split
  · rename_i heq
    rw [heq] at h
    simp [SExpr.isRecord] at h
  · rfl

/-- The rule `reduceLoad` on an operand whose type expression is no field. -/
theorem reduceLoad_not_field (trav : Trav) (Fa : TypedCopyAttr) (s : St)
    (h : Fa.TypeExpr.any SExpr.isField = false) :
    reduceLoad trav Fa s =
      (TypedCopyAttr.null.setExp (some .Undefined),
        reportUnlessUndefined Fa.Exp "Expression is not a field: " s) := by
  unfold reduceLoad
  split
  · rename_i heq
    rw [heq] at h
    simp [SExpr.isField] at h
  · rfl

/-- The rule `reduceCall` on a callee whose type expression is no code. -/
theorem reduceCall_not_code (trav : Trav) (Ca : TypedCopyAttr) (s : St)
    (h : Ca.TypeExpr.any SExpr.isCode = false) :
    reduceCall trav Ca s =
      (TypedCopyAttr.null.setExp (some .Undefined),
        reportUnlessUndefined Ca.Exp "Expression is not a code block: " s) := by
  have hn : (match Ca.TypeExpr with
      | some Ct => !Ct.isCode
      | none => true) = true := by
    cases ht : Ca.TypeExpr with
    | none => rfl
    | some Ct =>
      rw [ht] at h
      simpa using h
  unfold reduceCall
  dsimp only
  rw [if_pos hn]
  unfold reportUnlessUndefined
  cases Ca.Exp <;> rfl

/-- For a function position with a residual, whose type expression is no function, and
for a callee with a residual, whose type expression is no code, the rules yield the
poison marker, fail no assertion and touch nothing of the state but the diagnostics, to
which they add at most one message: no instruction is built and the rule returns. -/
theorem reduceApply_reduceCall_return (trav : Trav) (kind : ApplyKind) (Op Aa : TypedCopyAttr)
    (e : SExpr) (s : St) (he : Op.Exp = some e) :
    (Op.TypeExpr.any SExpr.isFunction = false →
      (reduceApply trav kind Op Aa s).1.Exp = some .Undefined ∧
      ((reduceApply trav kind Op Aa s).2 = s ∨
        (reduceApply trav kind Op Aa s).2 = s.error "Expression is not a function: ")) ∧
    (Op.TypeExpr.any SExpr.isCode = false →
      (reduceCall trav Op s).1.Exp = some .Undefined ∧
      ((reduceCall trav Op s).2 = s ∨
        (reduceCall trav Op s).2 = s.error "Expression is not a code block: ")) := by
  refine ⟨fun h => ?_, fun h => ?_⟩
  · rw [reduceApply_not_function trav kind Op Aa s h, he]
    refine ⟨rfl, ?_⟩
    by_cases hu : e = .Undefined
    · subst hu; exact Or.inl rfl
    · exact Or.inr (reportUnlessUndefined_other e _ s hu)
  · rw [reduceCall_not_code trav Op s h, he]
    refine ⟨rfl, ?_⟩
    by_cases hu : e = .Undefined
    · subst hu; exact Or.inl rfl
    · exact Or.inr (reportUnlessUndefined_other e _ s hu)

/-- C15 (the code at the failing input): a function value and a record value reduced in
weak-head mode have a null residual.  Called, respectively applied, they are no code and
no function, and the rules test the null residual with `isa<Undefined>`: the assertion of
`isa` fails. -/
theorem C15_null_residual_fails_assertion :
    (reduceCall (traverse widenRules 3)
      (.mk none .BT_Equivalent
        (some (.Function .VK_Fun "f" 1 (.ScalarType BaseType.int32) (.ScalarType BaseType.int32))) 1 [])
      (enterCFG St.init)).2.failed = ["isa<> used on a null pointer"] ∧
    (reduceApply (traverse widenRules 3) .FAK_Apply
      (.mk none .BT_Equivalent (some (.Record .NoSlot)) 1 [])
      (TypedCopyAttr.ofExp (.Literal BaseType.int32 1))
      (enterCFG St.init)).2.failed = ["isa<> used on a null pointer"] := by
  decide

/-- C16 (as stated, refuted): a callee whose residual is the poison marker and whose type
expression is a code value.  The rule `reduceCall` tests for the poison marker only when
the type expression is no code: here it builds a call of the poison marker. -/
theorem C16_poison_of_code_type_is_called :
    (reduceCall (traverse widenRules 3)
      (.mk (some .Undefined) .BT_Type (some (.CodeDecl 0 (.ScalarType BaseType.int32))) 1 [])
      (enterCFG St.init)).1.Exp = some (.Call BaseType.int32 .Undefined) := by
  decide

/-- C16 (amended): for every operand whose type expression is not of the required kind
(a function for `reduceApply`, a record for `reduceProject`, a code value for
`reduceCall`, a field for `reduceLoad`), the rule yields the poison marker; if the
residual of the operand is already the poison marker, the state is left as it is, so no
diagnostic is reported; if the residual is any other expression, the state is left as it
is but for exactly one diagnostic, the message of the rule. -/
theorem C16_type_error_reported_once (trav : Trav) (kind : ApplyKind) (slotName : String)
    (Op Aa : TypedCopyAttr) (s : St) :
    (Op.TypeExpr.any SExpr.isFunction = false →
      (reduceApply trav kind Op Aa s).1.Exp = some .Undefined ∧
      (Op.Exp = some .Undefined → (reduceApply trav kind Op Aa s).2 = s) ∧
      (∀ e, Op.Exp = some e → e ≠ .Undefined →
        (reduceApply trav kind Op Aa s).2 = s.error "Expression is not a function: ")) ∧
    (Op.TypeExpr.any SExpr.isRecord = false →
      (reduceProject trav slotName Op s).1.Exp = some .Undefined ∧
      (Op.Exp = some .Undefined → (reduceProject trav slotName Op s).2 = s) ∧
      (∀ e, Op.Exp = some e → e ≠ .Undefined →
        (reduceProject trav slotName Op s).2 = s.error "Expression is not a record: ")) ∧
    (Op.TypeExpr.any SExpr.isCode = false →
      (reduceCall trav Op s).1.Exp = some .Undefined ∧
      (Op.Exp = some .Undefined → (reduceCall trav Op s).2 = s) ∧
      (∀ e, Op.Exp = some e → e ≠ .Undefined →
        (reduceCall trav Op s).2 = s.error "Expression is not a code block: ")) ∧
    (Op.TypeExpr.any SExpr.isField = false →
      (reduceLoad trav Op s).1.Exp = some .Undefined ∧
      (Op.Exp = some .Undefined → (reduceLoad trav Op s).2 = s) ∧
      (∀ e, Op.Exp = some e → e ≠ .Undefined →
        (reduceLoad trav Op s).2 = s.error "Expression is not a field: ")) := by
  refine ⟨fun h => ?_, fun h => ?_, fun h => ?_, fun h => ?_⟩
  · rw [reduceApply_not_function trav kind Op Aa s h]
    exact ⟨rfl, fun hu => by rw [hu]; rfl,
      fun e he hne => by rw [he]; exact reportUnlessUndefined_other e _ s hne⟩
  · rw [reduceProject_not_record trav slotName Op s h]
    exact ⟨rfl, fun hu => by rw [hu]; rfl,
      fun e he hne => by rw [he]; exact reportUnlessUndefined_other e _ s hne⟩
  · rw [reduceCall_not_code trav Op s h]
    exact ⟨rfl, fun hu => by rw [hu]; rfl,
      fun e he hne => by rw [he]; exact reportUnlessUndefined_other e _ s hne⟩
  · rw [reduceLoad_not_field trav Op s h]
    exact ⟨rfl, fun hu => by rw [hu]; rfl,
      fun e he hne => by rw [he]; exact reportUnlessUndefined_other e _ s hne⟩

/-- C16 (witness): the literal 3, which has no type expression here, is applied: one
diagnostic; the poison marker is applied: none. -/
theorem C16_type_error_reported_once_witness :
    (reduceApply (traverse widenRules 3) .FAK_Apply (TypedCopyAttr.ofExp (.Literal BaseType.int32 3))
      TypedCopyAttr.null St.init).2 = St.init.error "Expression is not a function: " ∧
    (reduceApply (traverse widenRules 3) .FAK_Apply (TypedCopyAttr.ofExp .Undefined)
      TypedCopyAttr.null St.init).2 = St.init :=
  ⟨((C16_type_error_reported_once (traverse widenRules 3) .FAK_Apply "x"
      (TypedCopyAttr.ofExp (.Literal BaseType.int32 3)) TypedCopyAttr.null St.init).1
      (by decide)).2.2 _ rfl (by decide),
   ((C16_type_error_reported_once (traverse widenRules 3) .FAK_Apply "x"
      (TypedCopyAttr.ofExp .Undefined) TypedCopyAttr.null St.init).1 (by decide)).2.1 rfl⟩


/-! ### C17: unresolved identifiers -/

/-- If no binder has the name of the identifier and no record of a self-function has a
slot of that name, the loop of `reduceIdentifier` finds nothing, reports nothing and
leaves the scope alone. -/
theorem identifierLoop_unresolved (R : TypeRules) (trav : Trav) (Idstr : String) (S : ScopeCPS)
    (hname : ∀ i Vd, S.varDecl i = some Vd → Vd.varName ≠ Idstr)
    (hslot : ∀ i Vd At bt k n Vidx fk fn fi fd body, S.varDecl i = some Vd → Vd.kind = .VK_SFun →
      S.var i = some At → At.Exp = some (.Variable bt k n Vidx (.Function fk fn fi fd body)) →
      body.findSlot Idstr = none)
    (n : Nat) (s : St) (hs : s.scope = S) :
    (identifierLoop R trav Idstr n s).1 = none ∧
    (identifierLoop R trav Idstr n s).2.diag = s.diag ∧
    (identifierLoop R trav Idstr n s).2.blocks = s.blocks := by
  induction n generalizing s with
  | zero => exact ⟨rfl, rfl, rfl⟩
  | succ i ih =>
    unfold identifierLoop
    split
    · exact ih s hs
    · rename_i Vd hVd
      rw [hs] at hVd
      rw [if_neg (hname _ Vd hVd)]
      split_ifs with hk
      · split
        · exact ih _ hs
        · rename_i At hAt
          rw [hs] at hAt
          split
          · rename_i bt k n Vidx fk fn fi fd body hExp
            rw [hslot _ Vd At bt k n Vidx fk fn fi fd body hVd hk hAt hExp]
            exact ih s hs
          · exact ih _ hs
          · exact ih s hs
      · exact ih s hs

/-- C17: for every identifier that is neither the name of a binder in scope nor the name
of a slot of the record of an enclosing self-function, `reduceIdentifier` reports
"Identifier not found" and nothing else, builds nothing, and its residual is the poison
marker. -/
theorem C17_unresolved_identifier (R : TypeRules) (trav : Trav) (Idstr : String) (s : St)
    (hname : ∀ i Vd, s.scope.varDecl i = some Vd → Vd.varName ≠ Idstr)
    (hslot : ∀ i Vd At bt k n Vidx fk fn fi fd body, s.scope.varDecl i = some Vd →
      Vd.kind = .VK_SFun → s.scope.var i = some At →
      At.Exp = some (.Variable bt k n Vidx (.Function fk fn fi fd body)) →
      body.findSlot Idstr = none) :
    (reduceIdentifier R trav (.Identifier Idstr) s).2.diag =
      s.diag ++ ["Identifier not found: "] ∧
    (reduceIdentifier R trav (.Identifier Idstr) s).1.Exp = some .Undefined ∧
    (reduceIdentifier R trav (.Identifier Idstr) s).2.blocks = s.blocks := by
  unfold reduceIdentifier
  generalize usub32 s.scope.size 1 = n
  dsimp only
  obtain ⟨h1, h2, h3⟩ := identifierLoop_unresolved R trav Idstr s.scope hname hslot n s rfl
  generalize identifierLoop R trav Idstr n s = r at h1 h2 h3
  obtain ⟨a, t⟩ := r
  dsimp only at h1 h2 h3
  subst h1
  refine ⟨?_, rfl, h3⟩
  show t.diag ++ _ = _
  rw [h2]

/-- C17 (witness): the identifier `y` in a scope whose one binder is a let of `x`. -/
theorem C17_unresolved_identifier_witness :
    (reduceIdentifier widenRules (traverse widenRules 3) (.Identifier "y")
      identifierDemoState).2.diag = ["Identifier not found: "] ∧
    (reduceIdentifier widenRules (traverse widenRules 3) (.Identifier "y")
      identifierDemoState).1.Exp = some .Undefined :=
  have h := C17_unresolved_identifier widenRules (traverse widenRules 3) "y" identifierDemoState
    (fun i Vd h => by
      match i, h with
      | 0, h => exact absurd h (by simp [identifierDemoState, ScopeCPS.varDecl,
          ScopeCPS.enterScope, St.init, ScopeCPS.ofNull])
      | 1, h =>
        simp only [identifierDemoState, ScopeCPS.varDecl, ScopeCPS.enterScope, St.init,
          ScopeCPS.ofNull] at h
        cases h
        decide
      | n + 2, h => exact absurd h (by simp [identifierDemoState, ScopeCPS.varDecl,
          ScopeCPS.enterScope, St.init, ScopeCPS.ofNull]))
    (fun i Vd At bt k n Vidx fk fn fi fd body h hk => by
      match i, h with
      | 0, h => exact absurd h (by simp [identifierDemoState, ScopeCPS.varDecl,
          ScopeCPS.enterScope, St.init, ScopeCPS.ofNull])
      | 1, h =>
        simp only [identifierDemoState, ScopeCPS.varDecl, ScopeCPS.enterScope, St.init,
          ScopeCPS.ofNull] at h
        cases h
        cases hk
      | n + 2, h => exact absurd h (by simp [identifierDemoState, ScopeCPS.varDecl,
          ScopeCPS.enterScope, St.init, ScopeCPS.ofNull]))
  ⟨h.1, h.2.1⟩


/-! ### Variable contexts: positions count from the innermost binder -/

/-- C22: a `VarContext` addresses its declarations by position counted from the innermost
binder: after `c.push(v)` the entry `c[0]` and `c.back()` are `v`, `c.size()` has grown by
one, and `c[i+1]` is the former `c[i]` for every `i` below the former size; `c.pop()` after
`c.push(v)` gives back the context as it was, so every lookup and the size are restored. -/
theorem C22_push_shifts_positions (c : VarContext) (v : Nat) :
    (c.push v).get 0 = some v ∧ (c.push v).back = some v ∧
    (c.push v).size = c.size + 1 ∧
    (∀ i, i < c.size → (c.push v).get (i + 1) = c.get i) ∧
    (c.push v).pop = some c ∧
    (∀ c', (c.push v).pop = some c' → c'.size = c.size ∧ ∀ i, c'.get i = c.get i) := by
  have hpop : (c.push v).pop = some c := by
    simp [VarContext.push, VarContext.pop]
  refine ⟨?_, ?_, ?_, ?_, hpop, ?_⟩
  · simp [VarContext.push, VarContext.get, VarContext.size]
  · simp [VarContext.push, VarContext.back]
  · simp [VarContext.push, VarContext.size]
  · intro i hi
    simp only [VarContext.size] at hi
    simp only [VarContext.push, VarContext.get, VarContext.size, List.length_append,
      List.length_singleton, Nat.add_lt_add_iff_right, hi, if_true]
    rw [List.getElem?_append_left (by omega)]
    congr 1
    omega
  · intro c' h
    rw [hpop] at h
    cases h
    exact ⟨rfl, fun _ => rfl⟩

/-- C22 at a concrete context: over the declarations 7 (outer) and 8 (inner), pushing 9
makes it position 0 and moves 8 and 7 to positions 1 and 2. -/
theorem C22_push_shifts_positions_witness :
    ((VarContext.mk [7, 8]).push 9).get 0 = some 9 ∧
    ((VarContext.mk [7, 8]).push 9).get 1 = some 8 ∧
    ((VarContext.mk [7, 8]).push 9).get 2 = some 7 ∧
    ((VarContext.mk [7, 8]).push 9).pop = some (VarContext.mk [7, 8]) :=
  ⟨(C22_push_shifts_positions ⟨[7, 8]⟩ 9).1, by decide, by decide,
    (C22_push_shifts_positions ⟨[7, 8]⟩ 9).2.2.2.2.1⟩

/-! ### C27: the reconciliation of operand types -/

/-- C27 (as stated, refuted): two operands of the same 8-bit integer type, which needs
promotion, are not accepted as they are: the first one is replaced by a cast. -/
theorem C27_equal_types_cast :
    (SExpr.Phi BaseType.int8 0 0).baseType = (SExpr.Phi BaseType.int8 0 1).baseType ∧
    checkAndExtendTypes widenRules (.Phi BaseType.int8 0 0) (.Phi BaseType.int8 0 1) =
      (true, .Cast BaseType.int8 .CAST_extendNum (.Phi BaseType.int8 0 0),
        .Phi BaseType.int8 0 1) := by
  refine ⟨?_, ?_⟩ <;> decide

/-- C27 (amended): for all operands `I0` and `I1`.  If `checkAndExtendTypes` returns true,
both operands have the same base type on return and at most one of them was replaced:
either both are left as they are, or the first is replaced by the cast of the original
first operand to the base type of the second, or, only when no conversion from the first
to the second exists, the second is replaced by the cast of the original second operand to
the base type of the first.  If it returns false, both operands are left as they are.
Operands with equal base types none of which needs promotion are accepted as they are. -/
theorem C27_checkAndExtendTypes_result (R : TypeRules) (I0 I1 : SExpr) :
    ((checkAndExtendTypes R I0 I1).1 = true →
      (checkAndExtendTypes R I0 I1).2.1.baseType = (checkAndExtendTypes R I0 I1).2.2.baseType ∧
      ((checkAndExtendTypes R I0 I1).2 = (I0, I1) ∨
        (R.typeConvertable I0.baseType I1.baseType ≠ .CAST_none ∧
          (checkAndExtendTypes R I0 I1).2 =
            (.Cast I1.baseType (R.typeConvertable I0.baseType I1.baseType) I0, I1)) ∨
        (R.typeConvertable I0.baseType I1.baseType = .CAST_none ∧
          R.typeConvertable I1.baseType I0.baseType ≠ .CAST_none ∧
          (checkAndExtendTypes R I0 I1).2 =
            (I0, .Cast I0.baseType (R.typeConvertable I1.baseType I0.baseType) I1)))) ∧
    ((checkAndExtendTypes R I0 I1).1 = false → (checkAndExtendTypes R I0 I1).2 = (I0, I1)) ∧
    (I0.baseType = I1.baseType → R.promoteInteger I0.baseType = false →
      R.promoteInteger I1.baseType = false → checkAndExtendTypes R I0 I1 = (true, I0, I1)) := by
  refine ⟨?_, ?_, ?_⟩
  · unfold checkAndExtendTypes
    dsimp only
    split_ifs with h1 h2 h3
    · intro _
      exact ⟨h1.1, Or.inl rfl⟩
    · intro _
      exact ⟨rfl, Or.inr (Or.inl ⟨h2, rfl⟩)⟩
    · intro _
      exact ⟨rfl, Or.inr (Or.inr ⟨not_not.mp h2, h3, rfl⟩)⟩
    · intro h
      exact absurd h (by decide)
  · unfold checkAndExtendTypes
    dsimp only
    split_ifs <;> first | (intro h; exact absurd h (by decide)) | (intro _; rfl)
  · intro h1 h2 h3
    unfold checkAndExtendTypes
    simp [h1, h2, h3]

/-- C27 (amended) at concrete operands: a 32-bit and a 64-bit integer are reconciled by a
cast of the first to the type of the second; two 32-bit integers are left as they are. -/
theorem C27_checkAndExtendTypes_result_witness :
    (checkAndExtendTypes widenRules (.Phi BaseType.int32 0 0) (.Phi BaseType.int64 0 1)).2.1.baseType
      = (checkAndExtendTypes widenRules (.Phi BaseType.int32 0 0)
          (.Phi BaseType.int64 0 1)).2.2.baseType ∧
    checkAndExtendTypes widenRules (.Phi BaseType.int32 0 0) (.Phi BaseType.int32 0 1) =
      (true, .Phi BaseType.int32 0 0, .Phi BaseType.int32 0 1) :=
  ⟨((C27_checkAndExtendTypes_result widenRules (.Phi BaseType.int32 0 0)
      (.Phi BaseType.int64 0 1)).1 (by decide)).1,
    (C27_checkAndExtendTypes_result widenRules (.Phi BaseType.int32 0 0)
      (.Phi BaseType.int32 0 1)).2.2 rfl (by decide) (by decide)⟩

/-! ### C30: the result type of a unary operation -/

/-- The residual of `reduceBinaryOp` on two instruction operands that are not both
literals after reconciliation: the operation over the reconciled operands, with the
operands of greater and greater-or-equal swapped, and its state. -/
theorem reduceBinaryOp_emitted (R : TypeRules) (op : TIL_BinaryOpcode) (a0 a1 : TypedCopyAttr)
    (s : St) (E0 E1 : SExpr) (h0 : a0.Exp = some E0) (h1 : a1.Exp = some E1)
    (hi0 : E0.isInstruction = true) (hi1 : E1.isInstruction = true)
    (hnl : ¬ ((checkAndExtendTypes R E0 E1).2.1.isLiteral = true ∧
      (checkAndExtendTypes R E0 E1).2.2.isLiteral = true)) :
    ∃ bt rest, (reduceBinaryOp R op a0 a1 s).1.Exp =
        some (match op with
          | .BOP_Gt => .BinaryOp bt .BOP_Lt (checkAndExtendTypes R E0 E1).2.2
              (checkAndExtendTypes R E0 E1).2.1
          | .BOP_Geq => .BinaryOp bt .BOP_Leq (checkAndExtendTypes R E0 E1).2.2
              (checkAndExtendTypes R E0 E1).2.1
          | _ => .BinaryOp bt op (checkAndExtendTypes R E0 E1).2.1
              (checkAndExtendTypes R E0 E1).2.2) ∧
      bt = (match op with
        | .BOP_Add | .BOP_Sub | .BOP_Mul | .BOP_Div | .BOP_Rem | .BOP_Shl | .BOP_Shr
        | .BOP_BitAnd | .BOP_BitXor | .BOP_BitOr => (checkAndExtendTypes R E0 E1).2.1.baseType
        | _ => BaseType.bool) ∧
      (reduceBinaryOp R op a0 a1 s).2.diag =
        (if (checkAndExtendTypes R E0 E1).1 = true then s.diag
          else s.diag ++ ["Arithmetic operation on incompatible types: "]) ++ rest := by
  unfold reduceBinaryOp
  rw [h0, h1]
  simp only [hi0, hi1, Bool.not_true, Bool.or_self, Bool.false_eq_true, if_false]
  rcases hc : checkAndExtendTypes R E0 E1 with ⟨ok, I0, I1⟩
  rw [hc] at hnl
  have hnl' : (I0.isLiteral && I1.isLiteral) = false := by
    cases h : I0.isLiteral <;> cases h' : I1.isLiteral <;> simp_all
  simp only [hnl', Bool.false_eq_true, if_false]
  cases ok <;> cases op <;>
    simp only [SExpr.setBaseType, Bool.not_true, Bool.not_false, Bool.false_eq_true, if_false,
      if_true, TypedCopyAttr.Exp] <;>
    (try split_ifs) <;>
    first
    | exact ⟨_, [], rfl, rfl, (List.append_nil _).symm⟩
    | exact ⟨_, _, rfl, rfl, rfl⟩

/-- When `checkAndExtendTypes` returns false it leaves both operands as they are. -/
theorem checkAndExtendTypes_of_false (R : TypeRules) (I0 I1 : SExpr)
    (h : (checkAndExtendTypes R I0 I1).1 = false) : (checkAndExtendTypes R I0 I1).2 = (I0, I1) := by
  unfold checkAndExtendTypes at h ⊢
  dsimp only at h ⊢
  split_ifs at h ⊢
  rfl

/-- C28: a binary operation on two instruction operands that are not both literals.  The
residual of `reduceBinaryOp` is a `BinaryOp` instruction, never an undefined value; and
when the base types cannot be reconciled, so that `checkAndExtendTypes` returns false, the
error "Arithmetic operation on incompatible types: " is reported and the `BinaryOp` is over
the two operands as they were (in swapped order, under less and less-or-equal, for greater
and greater-or-equal). -/
theorem C28_incompatible_types_still_emitted (R : TypeRules) (op : TIL_BinaryOpcode)
    (a0 a1 : TypedCopyAttr) (s : St) (E0 E1 : SExpr) (h0 : a0.Exp = some E0)
    (h1 : a1.Exp = some E1) (hi0 : E0.isInstruction = true) (hi1 : E1.isInstruction = true)
    (hnl : ¬ (E0.isLiteral = true ∧ E1.isLiteral = true)) :
    (reduceBinaryOp R op a0 a1 s).1.Exp ≠ some .Undefined ∧
    (∃ bt op' x y, (reduceBinaryOp R op a0 a1 s).1.Exp = some (.BinaryOp bt op' x y)) ∧
    ((checkAndExtendTypes R E0 E1).1 = false →
      (∃ bt, (reduceBinaryOp R op a0 a1 s).1.Exp =
        some (match op with
          | .BOP_Gt => .BinaryOp bt .BOP_Lt E1 E0
          | .BOP_Geq => .BinaryOp bt .BOP_Leq E1 E0
          | _ => .BinaryOp bt op E0 E1)) ∧
      ∃ rest, (reduceBinaryOp R op a0 a1 s).2.diag =
        s.diag ++ "Arithmetic operation on incompatible types: " :: rest) := by
  have hnl2 : ¬ ((checkAndExtendTypes R E0 E1).2.1.isLiteral = true ∧
      (checkAndExtendTypes R E0 E1).2.2.isLiteral = true) := fun h =>
    hnl ⟨(checkAndExtendTypes_isLiteral R E0 E1).1 h.1, (checkAndExtendTypes_isLiteral R E0 E1).2 h.2⟩
  obtain ⟨bt, rest, he, -, hd⟩ := reduceBinaryOp_emitted R op a0 a1 s E0 E1 h0 h1 hi0 hi1 hnl2
  refine ⟨?_, ?_, ?_⟩
  · rw [he]
    cases op <;> simp
  · rw [he]
    cases op <;> exact ⟨_, _, _, _, rfl⟩
  · intro hf
    have hu := checkAndExtendTypes_of_false R E0 E1 hf
    rw [hu] at he
    rw [hf] at hd
    refine ⟨⟨bt, he⟩, rest, ?_⟩
    rw [hd]
    simp

/-- C28 at concrete operands: a boolean plus a 32-bit integer, between which the widening
conversions know no cast, is reported and emitted as `Add` over the two operands. -/
theorem C28_incompatible_types_still_emitted_witness :
    (reduceBinaryOp widenRules .BOP_Add (TypedCopyAttr.ofExp (.Phi BaseType.bool 0 0))
      (TypedCopyAttr.ofExp (.Phi BaseType.int32 0 1)) St.init).1.Exp ≠ some .Undefined ∧
    ∃ bt, (reduceBinaryOp widenRules .BOP_Add (TypedCopyAttr.ofExp (.Phi BaseType.bool 0 0))
      (TypedCopyAttr.ofExp (.Phi BaseType.int32 0 1)) St.init).1.Exp =
      some (.BinaryOp bt .BOP_Add (.Phi BaseType.bool 0 0) (.Phi BaseType.int32 0 1)) :=
  ⟨(C28_incompatible_types_still_emitted widenRules .BOP_Add
      (TypedCopyAttr.ofExp (.Phi BaseType.bool 0 0))
      (TypedCopyAttr.ofExp (.Phi BaseType.int32 0 1)) St.init _ _ rfl rfl rfl rfl (by decide)).1,
    ((C28_incompatible_types_still_emitted widenRules .BOP_Add
      (TypedCopyAttr.ofExp (.Phi BaseType.bool 0 0))
      (TypedCopyAttr.ofExp (.Phi BaseType.int32 0 1)) St.init _ _ rfl rfl rfl rfl
      (by decide)).2.2 (by decide)).1⟩

/-- C29: a binary operation on two instruction operands that is emitted as an instruction
(the operands are not both literals after reconciliation).  The residual of
`reduceBinaryOp` is a `BinaryOp` instruction whose base type is boolean when the opcode is
a comparison or a logical operation, whatever the operand types, and is the base type of
the first operand as `checkAndExtendTypes` leaves it when the opcode is arithmetic, a
shift or bitwise. -/
theorem C29_binary_result_type (R : TypeRules) (op : TIL_BinaryOpcode)
    (a0 a1 : TypedCopyAttr) (s : St) (E0 E1 : SExpr) (h0 : a0.Exp = some E0)
    (h1 : a1.Exp = some E1) (hi0 : E0.isInstruction = true) (hi1 : E1.isInstruction = true)
    (hnl : ¬ ((checkAndExtendTypes R E0 E1).2.1.isLiteral = true ∧
      (checkAndExtendTypes R E0 E1).2.2.isLiteral = true)) :
    ∃ Re, (reduceBinaryOp R op a0 a1 s).1.Exp = some Re ∧ Re.isInstruction = true ∧
      (∃ op' x y, Re = .BinaryOp Re.baseType op' x y) ∧
      (op ∈ [TIL_BinaryOpcode.BOP_Eq, .BOP_Neq, .BOP_Lt, .BOP_Leq, .BOP_Gt, .BOP_Geq,
          .BOP_LogicAnd, .BOP_LogicOr] → Re.baseType = BaseType.bool) ∧
      (op ∈ [TIL_BinaryOpcode.BOP_Add, .BOP_Sub, .BOP_Mul, .BOP_Div, .BOP_Rem, .BOP_Shl,
          .BOP_Shr, .BOP_BitAnd, .BOP_BitXor, .BOP_BitOr] →
        Re.baseType = (checkAndExtendTypes R E0 E1).2.1.baseType) := by
  obtain ⟨bt, rest, he, hbt, -⟩ := reduceBinaryOp_emitted R op a0 a1 s E0 E1 h0 h1 hi0 hi1 hnl
  refine ⟨_, he, ?_, ?_, ?_, ?_⟩
  · cases op <;> rfl
  · cases op <;> exact ⟨_, _, _, rfl⟩
  · intro hm
    cases op <;> first | exact hbt | exact absurd hm (by decide)
  · intro hm
    cases op <;> first | exact hbt | exact absurd hm (by decide)

/-- C29 at concrete operands: the sum of a 32-bit and a 64-bit integer is a 64-bit integer,
the type of the first operand after its cast; their comparison is a boolean. -/
theorem C29_binary_result_type_witness :
    (∃ Re, (reduceBinaryOp widenRules .BOP_Add (TypedCopyAttr.ofExp (.Phi BaseType.int32 0 0))
      (TypedCopyAttr.ofExp (.Phi BaseType.int64 0 1)) St.init).1.Exp = some Re ∧
      Re.baseType = BaseType.int64) ∧
    (∃ Re, (reduceBinaryOp widenRules .BOP_Geq (TypedCopyAttr.ofExp (.Phi BaseType.int32 0 0))
      (TypedCopyAttr.ofExp (.Phi BaseType.int64 0 1)) St.init).1.Exp = some Re ∧
      Re.baseType = BaseType.bool) :=
  ⟨(C29_binary_result_type widenRules .BOP_Add (TypedCopyAttr.ofExp (.Phi BaseType.int32 0 0))
      (TypedCopyAttr.ofExp (.Phi BaseType.int64 0 1)) St.init _ _ rfl rfl rfl rfl
      (by decide)).imp (fun _ h => ⟨h.1, h.2.2.2.2 (by decide)⟩),
    (C29_binary_result_type widenRules .BOP_Geq (TypedCopyAttr.ofExp (.Phi BaseType.int32 0 0))
      (TypedCopyAttr.ofExp (.Phi BaseType.int64 0 1)) St.init _ _ rfl rfl rfl rfl
      (by decide)).imp (fun _ h => ⟨h.1, h.2.2.2.1 (by decide)⟩)⟩

/-! ### C21: a condition that is not a boolean -/

/-- A condition that is no instruction of boolean base type is reported, once. -/
theorem checkCondition_reports (lastC : TypedCopyAttr) (s : St)
    (hbad : ∀ e, lastC.Exp = some e → e.isInstruction = true → e.baseType.Base ≠ .BT_Bool) :
    (checkCondition lastC s).diag = s.diag ++ ["Branch condition is not a boolean: "] := by
  unfold checkCondition condInstr
  cases he : lastC.Exp with
  | none => rfl
  | some e =>
    cases hi : e.isInstruction with
    | false => simp [hi, St.error]
    | true =>
      have hb := hbad e he hi
      simp [hi, St.error, hb]

/-- C21 (as stated, refuted): `if 3 then 1 else 2`, traversed in the entry block of a fresh
graph.  The condition is reported, and the entry block is terminated by a branch whose
condition is the ill-typed residual itself, the 32-bit integer literal 3, not a poison
value. -/
theorem C21_branch_on_ill_typed_condition :
    (traverseIfThenElse (traverse widenRules 4)
      (.IfThenElse (.Literal BaseType.int32 3) (.Literal BaseType.int32 1)
        (.Literal BaseType.int32 2))
      (enterCFG St.init)).2.diag = ["Branch condition is not a boolean: "] ∧
    (traverseIfThenElse (traverse widenRules 4)
      (.IfThenElse (.Literal BaseType.int32 3) (.Literal BaseType.int32 1)
        (.Literal BaseType.int32 2))
      (enterCFG St.init)).2.blocks[0]?.map (·.terminators) =
      some [.Branch (some (.Literal BaseType.int32 3)) 2 3] := by
  refine ⟨?_, ?_⟩ <;> decide

/-- C21 (amended): a conditional whose reduced condition is not an instruction of boolean
base type, traversed by `traverseIfThenElse` with emission enabled.  The error "Branch
condition is not a boolean: " is reported, and the rule goes on as the branch compiler
with the result of `dyn_cast<Instruction>` on the reduced condition as the condition of
the branch: the ill-typed residual itself when it is an instruction, a null condition
when it is absent or no instruction, and in no case a poison value. -/
theorem C21_ill_typed_condition_kept (trav : Trav) (c A B : SExpr) (s : St)
    (hemit : (trav c .TRV_Arg s).2.emitInstrs = true)
    (hbad : ∀ e, (trav c .TRV_Arg s).1.Exp = some e → e.isInstruction = true →
      e.baseType.Base ≠ .BT_Bool) :
    (checkCondition (trav c .TRV_Arg s).1 (trav c .TRV_Arg s).2).diag =
      (trav c .TRV_Arg s).2.diag ++ ["Branch condition is not a boolean: "] ∧
    traverseIfThenElse trav (.IfThenElse c A B) s =
      traverseBranches trav (condInstr (trav c .TRV_Arg s).1) A B
        (checkCondition (trav c .TRV_Arg s).1 (trav c .TRV_Arg s).2) ∧
    (∀ e, (trav c .TRV_Arg s).1.Exp = some e → e.isInstruction = true →
      condInstr (trav c .TRV_Arg s).1 = some e) ∧
    ((∀ e, (trav c .TRV_Arg s).1.Exp = some e → e.isInstruction = false) →
      condInstr (trav c .TRV_Arg s).1 = none) ∧
    condInstr (trav c .TRV_Arg s).1 ≠ some .Undefined ∧
    ∀ (t : St) (b0 Tb Eb : Nat), t.currentBB = some b0 →
      (t.newBranch (condInstr (trav c .TRV_Arg s).1) Tb Eb).blocks[b0]?.map (·.terminators) =
        t.blocks[b0]?.map
          (fun X => .Branch (condInstr (trav c .TRV_Arg s).1) Tb Eb :: X.terminators) := by
  have hs : staticCondition (trav c .TRV_Arg s).1 = none := by
    unfold staticCondition
    split
    · rename_i sz vs Cb he
      exact absurd rfl (hbad _ he rfl)
    · rfl
  refine ⟨checkCondition_reports _ _ hbad, ?_, ?_, ?_, ?_, ?_⟩
  · exact traverseIfThenElse_branches trav c A B s hs
      (by rw [checkCondition_emitInstrs]; exact hemit)
  · intro e he hi
    unfold condInstr
    rw [he]
    simp [hi]
  · intro h
    unfold condInstr
    cases he : (trav c .TRV_Arg s).1.Exp with
    | none => rfl
    | some e => simp [h e he]
  · unfold condInstr
    cases he : (trav c .TRV_Arg s).1.Exp with
    | none => simp
    | some e =>
      cases hi : e.isInstruction with
      | false => simp [hi]
      | true =>
        intro h
        simp only [Option.some_bind, hi, if_true, Option.some.injEq] at h
        rw [h] at hi
        exact absurd hi (by decide)
  · intro t b0 Tb Eb hb
    exact (St.finishBlock_terminators t _ b0 hb).2

/-- C21 (amended) at `if 3 then 1 else 2` in the entry block of a fresh graph: the rule is
the branch compiler on the literal 3. -/
theorem C21_ill_typed_condition_kept_witness :
    traverseIfThenElse (traverse widenRules 4)
      (.IfThenElse (.Literal BaseType.int32 3) (.Literal BaseType.int32 1)
        (.Literal BaseType.int32 2)) (enterCFG St.init) =
      traverseBranches (traverse widenRules 4)
        (condInstr (traverse widenRules 4 (.Literal BaseType.int32 3) .TRV_Arg
          (enterCFG St.init)).1)
        (.Literal BaseType.int32 1) (.Literal BaseType.int32 2)
        (checkCondition
          (traverse widenRules 4 (.Literal BaseType.int32 3) .TRV_Arg (enterCFG St.init)).1
          (traverse widenRules 4 (.Literal BaseType.int32 3) .TRV_Arg (enterCFG St.init)).2) ∧
    condInstr (traverse widenRules 4 (.Literal BaseType.int32 3) .TRV_Arg
      (enterCFG St.init)).1 = some (.Literal BaseType.int32 3) :=
  ⟨(C21_ill_typed_condition_kept (traverse widenRules 4) (.Literal BaseType.int32 3)
      (.Literal BaseType.int32 1) (.Literal BaseType.int32 2) (enterCFG St.init) (by decide)
      (by decide)).2.1,
    (C21_ill_typed_condition_kept (traverse widenRules 4) (.Literal BaseType.int32 3)
      (.Literal BaseType.int32 1) (.Literal BaseType.int32 2) (enterCFG St.init) (by decide)
      (by decide)).2.2.1 _ (by decide) (by decide)⟩


/-! ### C25 and C26: projection and application on a typed operand -/

/-- The function `computeAttrType` leaves the relation of the attribute as it is. -/
theorem computeAttrType_Rel (trav : Trav) (At : TypedCopyAttr) (E : SExpr) (s : St) :
    (computeAttrType trav At E s).1.Rel = At.Rel := by
  unfold computeAttrType
  dsimp only
  split
  · split_ifs <;> cases At <;> rfl
  · cases At; rfl

/-- The function `computeAttrType` gives no residual to an attribute without one. -/
theorem computeAttrType_Exp_none (trav : Trav) (At : TypedCopyAttr) (E : SExpr) (s : St)
    (h : At.Exp = none) : (computeAttrType trav At E s).1.Exp = none := by
  unfold computeAttrType
  dsimp only
  have h2 : ∀ F : TypedCopyAttr, (At.moveType F).Exp = none := by
    intro F; cases At; cases F; exact h
  split
  · rename_i I hI
    rw [h2] at hI
    cases hI
  · exact h2 _

/-- The function `evaluateTypeExpr` leaves the relation of the attribute as it is. -/
theorem evaluateTypeExpr_Rel (trav : Trav) (At : TypedCopyAttr) (s : St) :
    (evaluateTypeExpr trav At s).1.Rel = At.Rel := by
  unfold evaluateTypeExpr
  split
  · rfl
  · split_ifs
    · rfl
    · exact computeAttrType_Rel _ _ _ _

/-- The function `evaluateTypeExpr` gives no residual to an attribute without one. -/
theorem evaluateTypeExpr_Exp_none (trav : Trav) (At : TypedCopyAttr) (s : St)
    (h : At.Exp = none) : (evaluateTypeExpr trav At s).1.Exp = none := by
  unfold evaluateTypeExpr
  split
  · exact h
  · split_ifs
    · exact h
    · exact computeAttrType_Exp_none _ _ _ _ h

/-- A type expression that is a value is not evaluated again. -/
theorem evaluateTypeExpr_value (trav : Trav) (At : TypedCopyAttr) (s : St) (T : SExpr)
    (ht : At.TypeExpr = some T) (hv : T.isValue = true) :
    evaluateTypeExpr trav At s = (At, s) := by
  unfold evaluateTypeExpr
  rw [ht]
  simp [hv]

/-- Setting the base type of a projection leaves it the projection of the same record by
the same slot name. -/
theorem setBaseTypeFromExpr_Project (s : St) (b : BaseType) (Re : SExpr) (n : String)
    (T : Option SExpr) :
    ∃ bt, (setBaseTypeFromExpr s (.Project b Re n) T).1 = .Project bt Re n := by
  unfold setBaseTypeFromExpr
  split <;> exact ⟨_, rfl⟩

/-- C25: the rule `reduceProject` on a base whose type expression is a record.  If the
record declares no slot of the requested name, it reports "Slot not found: " and yields
the undefined value, and nothing else changes.  Otherwise, with `Sdef` the definition of
the slot, the type expression of the result is the one that `evaluateTypeExpr` computes
from `Sdef` under the substitution of the base (`Sdef` itself when it is a value already),
the relation is the relation of the base, and the residual is a `Project` of the residual
of the base by the slot name when the base has a residual, and null when it has none. -/
theorem C25_reduceProject_on_record (trav : Trav) (slotName : String) (Ra : TypedCopyAttr)
    (s : St) (slots : SExpr) (ht : Ra.TypeExpr = some (.Record slots)) :
    ((SExpr.Record slots).findSlot slotName = none →
      reduceProject trav slotName Ra s =
        (TypedCopyAttr.null.setExp (some .Undefined), s.error "Slot not found: ") ∧
      (reduceProject trav slotName Ra s).1.Exp = some .Undefined ∧
      (reduceProject trav slotName Ra s).2.diag = s.diag ++ ["Slot not found: "]) ∧
    (∀ (fin : Bool) (Sdef : SExpr), (SExpr.Record slots).findSlot slotName = some (fin, Sdef) →
      (reduceProject trav slotName Ra s).1.TypeExpr =
        (evaluateTypeExpr trav
          (.mk none Ra.Rel (some Sdef) Ra.Subst.NullVars Ra.Subst.VarAttrs) s).1.TypeExpr ∧
      (Sdef.isValue = true → (reduceProject trav slotName Ra s).1.TypeExpr = some Sdef) ∧
      (reduceProject trav slotName Ra s).1.Rel = Ra.Rel ∧
      (∀ Re, Ra.Exp = some Re →
        ∃ bt, (reduceProject trav slotName Ra s).1.Exp = some (.Project bt Re slotName)) ∧
      (Ra.Exp = none → (reduceProject trav slotName Ra s).1.Exp = none)) := by
  refine ⟨?_, ?_⟩
  · intro hf
    have h : reduceProject trav slotName Ra s =
        (TypedCopyAttr.null.setExp (some .Undefined), s.error "Slot not found: ") := by
      unfold reduceProject
      rw [ht]
      dsimp only
      rw [hf]
    rw [h]
    exact ⟨rfl, rfl, rfl⟩
  · intro fin Sdef hf
    have h : reduceProject trav slotName Ra s =
        (match Ra.Exp with
          | some Re =>
            (((evaluateTypeExpr trav
                (.mk none Ra.Rel (some Sdef) Ra.Subst.NullVars Ra.Subst.VarAttrs) s).1).setExp
              (some (setBaseTypeFromExpr
                (evaluateTypeExpr trav
                  (.mk none Ra.Rel (some Sdef) Ra.Subst.NullVars Ra.Subst.VarAttrs) s).2
                (SExpr.Project BaseType.void Re slotName)
                (evaluateTypeExpr trav
                  (.mk none Ra.Rel (some Sdef) Ra.Subst.NullVars Ra.Subst.VarAttrs)
                  s).1.TypeExpr).1),
              (setBaseTypeFromExpr
                (evaluateTypeExpr trav
                  (.mk none Ra.Rel (some Sdef) Ra.Subst.NullVars Ra.Subst.VarAttrs) s).2
                (SExpr.Project BaseType.void Re slotName)
                (evaluateTypeExpr trav
                  (.mk none Ra.Rel (some Sdef) Ra.Subst.NullVars Ra.Subst.VarAttrs)
                  s).1.TypeExpr).2)
          | none => evaluateTypeExpr trav
              (.mk none Ra.Rel (some Sdef) Ra.Subst.NullVars Ra.Subst.VarAttrs) s) := by
      unfold reduceProject
      rw [ht]
      dsimp only
      rw [hf]
      rfl
    generalize hr : evaluateTypeExpr trav
      (.mk none Ra.Rel (some Sdef) Ra.Subst.NullVars Ra.Subst.VarAttrs) s = r at h
    have hrel : r.1.Rel = Ra.Rel := by
      rw [← hr, evaluateTypeExpr_Rel]; rfl
    have hexp : r.1.Exp = none := by
      rw [← hr]; exact evaluateTypeExpr_Exp_none _ _ _ rfl
    have hval : Sdef.isValue = true → r.1.TypeExpr = some Sdef := by
      intro hv
      rw [← hr, evaluateTypeExpr_value trav
        (.mk none Ra.Rel (some Sdef) Ra.Subst.NullVars Ra.Subst.VarAttrs) s Sdef rfl hv]
      rfl
    have hT : (reduceProject trav slotName Ra s).1.TypeExpr = r.1.TypeExpr := by
      rw [h]
      cases Ra.Exp with
      | none => rfl
      | some Re => cases hr1 : r.1; rfl
    refine ⟨hT, fun hv => hT.trans (hval hv), ?_, ?_, ?_⟩
    · rw [h]
      cases Ra.Exp with
      | none => exact hrel
      | some Re =>
        dsimp only
        rw [← hrel]
        cases hr1 : r.1; rfl
    · intro Re he
      rw [h, he]
      dsimp only
      obtain ⟨bt, hbt⟩ := setBaseTypeFromExpr_Project r.2 BaseType.void Re slotName r.1.TypeExpr
      exact ⟨bt, by rw [TypedCopyAttr.Exp_setExp, hbt]⟩
    · intro he
      rw [h, he]
      exact hexp

/-- C25 at a concrete base: an operand whose type is the record with the one slot `x`,
defined as the literal 1.  The projection of `x` has that literal as its type; the
projection of `y` is undefined. -/
theorem C25_reduceProject_on_record_witness :
    (reduceProject (traverse widenRules 1) "x"
      (.mk (some (.Phi BaseType.pointer 0 0)) .BT_Type
        (some (.Record (.Slot "x" true (.Literal BaseType.int32 1) .NoSlot))) 0 [])
      St.init).1.TypeExpr = some (.Literal BaseType.int32 1) ∧
    (reduceProject (traverse widenRules 1) "y"
      (.mk (some (.Phi BaseType.pointer 0 0)) .BT_Type
        (some (.Record (.Slot "x" true (.Literal BaseType.int32 1) .NoSlot))) 0 [])
      St.init).1.Exp = some .Undefined :=
  ⟨((C25_reduceProject_on_record (traverse widenRules 1) "x"
      (.mk (some (.Phi BaseType.pointer 0 0)) .BT_Type
        (some (.Record (.Slot "x" true (.Literal BaseType.int32 1) .NoSlot))) 0 [])
      St.init _ rfl).2 true _ (by decide)).2.1 rfl,
    ((C25_reduceProject_on_record (traverse widenRules 1) "y"
      (.mk (some (.Phi BaseType.pointer 0 0)) .BT_Type
        (some (.Record (.Slot "x" true (.Literal BaseType.int32 1) .NoSlot))) 0 [])
      St.init _ rfl).1 (by decide)).2.1⟩

/-- C26: the rule `reduceApply` on a callee whose type expression is a function with body
`body`.  The attribute whose type `evaluateTypeExpr` then computes has the relation of the
callee, the type expression `body`, and as substitution the substitution of the callee
extended by exactly one attribute `X`: the attribute of the callee itself, with its
residual, relation, type expression and substitution, for a self-application whose
argument has no residual, and the attribute of the argument in every other case.  When
`body` is a value already, that substitution is the substitution of the result. -/
theorem C26_reduceApply_substitution (trav : Trav) (kind : ApplyKind) (Fa Aa : TypedCopyAttr)
    (s : St) (fk : VariableKind) (n : String) (i : Nat) (d body : SExpr)
    (ht : Fa.TypeExpr = some (.Function fk n i d body)) :
    let X := if Aa.Exp = none ∧ kind = .FAK_SApply then Fa else Aa
    let Res0 : TypedCopyAttr :=
      .mk none Fa.Rel (some body) Fa.Subst.NullVars (Fa.Subst.VarAttrs ++ [X])
    Res0.Subst = Fa.Subst.push X ∧
    (Res0.Subst).numSubstVars = Fa.Subst.numSubstVars + 1 ∧
    reduceApply trav kind Fa Aa s =
      (match Fa.Exp with
        | some Fe =>
          ((evaluateTypeExpr trav Res0 s).1.setExp
            (some (setBaseTypeFromExpr (evaluateTypeExpr trav Res0 s).2
              (newApply Fe Aa.Exp kind) (evaluateTypeExpr trav Res0 s).1.TypeExpr).1),
            (setBaseTypeFromExpr (evaluateTypeExpr trav Res0 s).2
              (newApply Fe Aa.Exp kind) (evaluateTypeExpr trav Res0 s).1.TypeExpr).2)
        | none => evaluateTypeExpr trav Res0 s) ∧
    (body.isValue = true → (reduceApply trav kind Fa Aa s).1.Subst = Fa.Subst.push X) := by
  intro X Res0
  have hs : Res0.Subst = Fa.Subst.push X := rfl
  have h : reduceApply trav kind Fa Aa s =
      (match Fa.Exp with
        | some Fe =>
          ((evaluateTypeExpr trav Res0 s).1.setExp
            (some (setBaseTypeFromExpr (evaluateTypeExpr trav Res0 s).2
              (newApply Fe Aa.Exp kind) (evaluateTypeExpr trav Res0 s).1.TypeExpr).1),
            (setBaseTypeFromExpr (evaluateTypeExpr trav Res0 s).2
              (newApply Fe Aa.Exp kind) (evaluateTypeExpr trav Res0 s).1.TypeExpr).2)
        | none => evaluateTypeExpr trav Res0 s) := by
    unfold reduceApply
    rw [ht]
    dsimp only
    have hX : (if (Aa.Exp.isNone && decide (kind = .FAK_SApply)) = true then
          ((TypedCopyAttr.null.setTypeExpr (some body)).setRel Fa.Rel).setSubst
            Fa.Subst |>.pushSubst Fa
        else ((TypedCopyAttr.null.setTypeExpr (some body)).setRel Fa.Rel).setSubst
            Fa.Subst |>.pushSubst Aa) = Res0 := by
      show _ = TypedCopyAttr.mk none Fa.Rel (some body) Fa.Subst.NullVars
        (Fa.Subst.VarAttrs ++ [X])
      by_cases hc : Aa.Exp = none ∧ kind = .FAK_SApply
      · have hb : (Aa.Exp.isNone && decide (kind = .FAK_SApply)) = true := by
          simp [hc.1, hc.2]
        rw [if_pos hb]
        simp only [X, if_pos hc]
        rfl
      · have hb : ¬ (Aa.Exp.isNone && decide (kind = .FAK_SApply)) = true := by
          intro hb
          simp only [Bool.and_eq_true, Option.isNone_iff_eq_none, decide_eq_true_eq] at hb
          exact hc hb
        rw [if_neg hb]
        simp only [X, if_neg hc]
        rfl
    rw [hX]
  refine ⟨hs, ?_, h, ?_⟩
  · simp [Res0, TypedCopyAttr.Subst, Substitution.numSubstVars]
  · intro hv
    rw [h, evaluateTypeExpr_value trav Res0 s body rfl hv]
    cases Fa.Exp with
    | none => exact hs
    | some Fe => exact hs

/-- C26 at a concrete self-application without argument: the substitution of the result is
the empty substitution of the callee extended by the attribute of the callee itself. -/
theorem C26_reduceApply_substitution_witness :
    (reduceApply (traverse widenRules 1) .FAK_SApply
      (.mk (some (.Phi BaseType.pointer 0 0)) .BT_Type
        (some (.Function .VK_SFun "self" 1 (.ScalarType BaseType.void) (.Record .NoSlot))) 0 [])
      TypedCopyAttr.null St.init).1.Subst =
    Substitution.push ⟨0, []⟩
      (.mk (some (.Phi BaseType.pointer 0 0)) .BT_Type
        (some (.Function .VK_SFun "self" 1 (.ScalarType BaseType.void) (.Record .NoSlot))) 0 []) :=
  (C26_reduceApply_substitution (traverse widenRules 1) .FAK_SApply
    (.mk (some (.Phi BaseType.pointer 0 0)) .BT_Type
      (some (.Function .VK_SFun "self" 1 (.ScalarType BaseType.void) (.Record .NoSlot))) 0 [])
    TypedCopyAttr.null St.init .VK_SFun "self" 1 (.ScalarType BaseType.void) (.Record .NoSlot)
    rfl).2.2.2 rfl


/-! ### C23 and C24: the resolution of identifiers -/

/-- One step of the loop of `reduceIdentifier`: a position whose binder neither has the
name of the identifier nor is a self-function binder whose record declares a slot of that
name is passed over. -/
theorem identifierLoop_step (R : TypeRules) (trav : Trav) (Idstr : String) (s : St) (i : Nat)
    (hname : ∀ Vd, s.scope.varDecl (i + 1) = some Vd → Vd.varName ≠ Idstr)
    (hslot : ∀ Vd At bt kd n Vidx fk fn fi fd body, s.scope.varDecl (i + 1) = some Vd →
      Vd.kind = .VK_SFun → s.scope.var (i + 1) = some At →
      At.Exp = some (.Variable bt kd n Vidx (.Function fk fn fi fd body)) →
      body.findSlot Idstr = none)
    (hreg : ∀ Vd, s.scope.varDecl (i + 1) = some Vd → Vd.kind = .VK_SFun →
      ∃ At, s.scope.var (i + 1) = some At ∧
        ∀ bt kd n Vidx d, At.Exp = some (.Variable bt kd n Vidx d) → d.isFunction = true) :
    identifierLoop R trav Idstr (i + 1) s = identifierLoop R trav Idstr i s := by
  generalize hr : identifierLoop R trav Idstr i s = r
  unfold identifierLoop
  split
  · exact hr
  · rename_i Vd hVd
    rw [if_neg (hname Vd hVd)]
    split_ifs with hk
    · obtain ⟨At0, hAt0, hfun⟩ := hreg Vd hVd hk
      split
      · rename_i hAt
        rw [hAt0] at hAt
        cases hAt
      · rename_i At hAt
        split
        · rename_i bt kd n Vidx fk fn fi fd body hExp
          rw [hslot Vd At bt kd n Vidx fk fn fi fd body hVd hk hAt hExp]
          exact hr
        · rename_i bt kd n Vidx d hno hExp
          rw [hAt0] at hAt
          cases hAt
          have hd := hfun bt kd n Vidx d hExp
          cases d <;> first | exact (hno _ _ _ _ _ rfl).elim | exact absurd hd (by simp [SExpr.isFunction])
        · exact hr
    · exact hr

/-- The loop of `reduceIdentifier` passes over a run of positions none of whose binders
has the name of the identifier or is a self-function binder whose record declares a slot
of that name. -/
theorem identifierLoop_skip (R : TypeRules) (trav : Trav) (Idstr : String) (s : St) (j k : Nat)
    (hname : ∀ i Vd, j < i → i ≤ j + k → s.scope.varDecl i = some Vd → Vd.varName ≠ Idstr)
    (hslot : ∀ i Vd At bt kd n Vidx fk fn fi fd body, j < i → i ≤ j + k →
      s.scope.varDecl i = some Vd → Vd.kind = .VK_SFun → s.scope.var i = some At →
      At.Exp = some (.Variable bt kd n Vidx (.Function fk fn fi fd body)) →
      body.findSlot Idstr = none)
    (hreg : ∀ i Vd, j < i → i ≤ j + k → s.scope.varDecl i = some Vd → Vd.kind = .VK_SFun →
      ∃ At, s.scope.var i = some At ∧
        ∀ bt kd n Vidx d, At.Exp = some (.Variable bt kd n Vidx d) → d.isFunction = true) :
    identifierLoop R trav Idstr (j + k) s = identifierLoop R trav Idstr j s := by
  induction k with
  | zero => rfl
  | succ k ih =>
    have hstep := identifierLoop_step R trav Idstr s (j + k)
      (fun Vd h => hname (j + k + 1) Vd (by omega) (by omega) h)
      (fun Vd At bt kd n Vidx fk fn fi fd body h =>
        hslot (j + k + 1) Vd At bt kd n Vidx fk fn fi fd body (by omega) (by omega) h)
      (fun Vd h => hreg (j + k + 1) Vd (by omega) (by omega) h)
    rw [show j + (k + 1) = j + k + 1 from rfl, hstep]
    exact ih (fun i Vd h1 h2 => hname i Vd h1 (by omega))
      (fun i Vd At bt kd n Vidx fk fn fi fd body h1 h2 =>
        hslot i Vd At bt kd n Vidx fk fn fi fd body h1 (by omega))
      (fun i Vd h1 h2 => hreg i Vd h1 (by omega))

/-- C23: the rule `reduceIdentifier` searches the positions of the scope from the innermost,
`size() - 1`, outward to position 1.  Let `j` be a position in that range whose binder has
the name of the identifier, and let no binder at a position strictly inside `j` have that
name or be a self-function binder whose record declares a slot of that name.  Then the
result is `reduceVarSubstitution(j)`: binders of the same name further out are shadowed,
and whether the binder at `j` is itself a self-function binder with such a slot makes no
difference.  (Inside `j`, the self-function binders are taken to hold an attribute whose
variable, if it is one, is defined as a function, as the casts of the rule assert.) -/
theorem C23_innermost_name_wins (R : TypeRules) (trav : Trav) (Idstr : String) (s : St)
    (j : Nat) (Vd : VarDecl) (hj : 0 < j) (hjN : j ≤ usub32 s.scope.size 1)
    (hVd : s.scope.varDecl j = some Vd) (hn : Vd.varName = Idstr)
    (hname : ∀ i Vd', j < i → i ≤ usub32 s.scope.size 1 → s.scope.varDecl i = some Vd' →
      Vd'.varName ≠ Idstr)
    (hslot : ∀ i Vd' At bt kd n Vidx fk fn fi fd body, j < i → i ≤ usub32 s.scope.size 1 →
      s.scope.varDecl i = some Vd' → Vd'.kind = .VK_SFun → s.scope.var i = some At →
      At.Exp = some (.Variable bt kd n Vidx (.Function fk fn fi fd body)) →
      body.findSlot Idstr = none)
    (hreg : ∀ i Vd', j < i → i ≤ usub32 s.scope.size 1 → s.scope.varDecl i = some Vd' →
      Vd'.kind = .VK_SFun →
      ∃ At, s.scope.var i = some At ∧
        ∀ bt kd n Vidx d, At.Exp = some (.Variable bt kd n Vidx d) → d.isFunction = true) :
    reduceIdentifier R trav (.Identifier Idstr) s = reduceVarSubstitution R trav j s := by
  unfold reduceIdentifier
  generalize usub32 s.scope.size 1 = N at hjN hname hslot hreg ⊢
  dsimp only
  obtain ⟨k, rfl⟩ := Nat.exists_eq_add_of_le hjN
  rw [identifierLoop_skip R trav Idstr s j k hname hslot hreg]
  obtain ⟨j', rfl⟩ := Nat.exists_eq_succ_of_ne_zero (Nat.pos_iff_ne_zero.mp hj)
  unfold identifierLoop
  rw [hVd]
  dsimp only
  rw [if_pos hn]
  rfl

/-- C23 at the scope of `shadowDemoState`, `x = 3`, `x = 4`, `y = 5` from the outside in:
the identifier `x` is the inner `x`, at position 2, and reduces to the literal 4. -/
theorem C23_innermost_name_wins_witness :
    reduceIdentifier widenRules (traverse widenRules 3) (.Identifier "x") shadowDemoState =
      reduceVarSubstitution widenRules (traverse widenRules 3) 2 shadowDemoState ∧
    (reduceVarSubstitution widenRules (traverse widenRules 3) 2 shadowDemoState).1.Exp =
      some (.Literal BaseType.int32 4) :=
  have hN : usub32 shadowDemoState.scope.size 1 = 3 := by decide
  ⟨C23_innermost_name_wins widenRules (traverse widenRules 3) "x" shadowDemoState 2
    ⟨.VK_Let, "x", 2, none⟩ (by decide) (by decide) rfl rfl
    (fun i Vd' h1 h2 h => by
      rw [hN] at h2
      have hi : i = 3 := by omega
      subst hi
      have hv : shadowDemoState.scope.varDecl 3 = some ⟨.VK_Let, "y", 3, none⟩ := rfl
      rw [hv] at h
      cases h
      decide)
    (fun i Vd' At bt kd n Vidx fk fn fi fd body h1 h2 h hk => by
      rw [hN] at h2
      have hi : i = 3 := by omega
      subst hi
      have hv : shadowDemoState.scope.varDecl 3 = some ⟨.VK_Let, "y", 3, none⟩ := rfl
      rw [hv] at h
      cases h
      cases hk)
    (fun i Vd' h1 h2 h hk => by
      rw [hN] at h2
      have hi : i = 3 := by omega
      subst hi
      have hv : shadowDemoState.scope.varDecl 3 = some ⟨.VK_Let, "y", 3, none⟩ := rfl
      rw [hv] at h
      cases h
      cases hk),
    by decide⟩


/-- C24: an identifier that `reduceIdentifier` resolves to a slot of the record of an
enclosing self-function: the binder at position `j` is a self-function binder of another
name whose self-variable `Sv` is defined as a function with a record body that declares
the slot, with definition `Sdef`, and nothing strictly inside `j` resolves the identifier.
If the slot is final and `Sdef` is trivial, the residual and the type expression are both
`Sdef`, the relation is `BT_Equivalent`, and the state is as it was, so that no
instruction is created.  For every other slot the residual is the projection of the slot
name from the self-application of `Sv`, the type expression is `Sdef`, the relation is
`BT_Type`, and the substitution binds `Sv` at the position of its declaration. -/
theorem C24_slot_of_self_function (R : TypeRules) (trav : Trav) (Idstr : String) (s : St)
    (j : Nat) (Vd : VarDecl) (At : TypedCopyAttr) (bt : BaseType) (kd : VariableKind)
    (n : String) (Vidx : Nat) (fk : VariableKind) (fn : String) (fi : Nat) (fd body : SExpr) (fin : Bool)
    (Sdef : SExpr) (hj : 0 < j) (hjN : j ≤ usub32 s.scope.size 1)
    (hVd : s.scope.varDecl j = some Vd) (hn : Vd.varName ≠ Idstr) (hk : Vd.kind = .VK_SFun)
    (hAt : s.scope.var j = some At)
    (hExp : At.Exp = some (.Variable bt kd n Vidx (.Function fk fn fi fd body)))
    (hfind : body.findSlot Idstr = some (fin, Sdef))
    (hname : ∀ i Vd', j < i → i ≤ usub32 s.scope.size 1 → s.scope.varDecl i = some Vd' →
      Vd'.varName ≠ Idstr)
    (hslot : ∀ i Vd' At' bt' kd' n' Vidx' fk' fn' fi' fd' body', j < i →
      i ≤ usub32 s.scope.size 1 → s.scope.varDecl i = some Vd' → Vd'.kind = .VK_SFun →
      s.scope.var i = some At' →
      At'.Exp = some (.Variable bt' kd' n' Vidx' (.Function fk' fn' fi' fd' body')) →
      body'.findSlot Idstr = none)
    (hreg : ∀ i Vd', j < i → i ≤ usub32 s.scope.size 1 → s.scope.varDecl i = some Vd' →
      Vd'.kind = .VK_SFun →
      ∃ At', s.scope.var i = some At' ∧
        ∀ bt' kd' n' Vidx' d, At'.Exp = some (.Variable bt' kd' n' Vidx' d) →
          d.isFunction = true) :
    ((fin = true ∧ Sdef.isTrivial = true) →
      reduceIdentifier R trav (.Identifier Idstr) s =
        (.mk (some Sdef) .BT_Equivalent (some Sdef) 0 [], s)) ∧
    (¬ (fin = true ∧ Sdef.isTrivial = true) →
      (∃ bt', (reduceIdentifier R trav (.Identifier Idstr) s).1.Exp =
        some (.Project bt'
          (.ApplyNoArg BaseType.pointer .FAK_SApply
            (.Variable bt kd n Vidx (.Function fk fn fi fd body))) Idstr)) ∧
      (reduceIdentifier R trav (.Identifier Idstr) s).1.TypeExpr = some Sdef ∧
      (reduceIdentifier R trav (.Identifier Idstr) s).1.Rel = .BT_Type ∧
      (reduceIdentifier R trav (.Identifier Idstr) s).1.Subst =
        ⟨Vidx, [TypedCopyAttr.ofExp (.Variable bt kd n Vidx (.Function fk fn fi fd body))]⟩ ∧
      (reduceIdentifier R trav (.Identifier Idstr) s).2.diag = s.diag ∧
      (reduceIdentifier R trav (.Identifier Idstr) s).2.blocks = s.blocks) := by
  have key : reduceIdentifier R trav (.Identifier Idstr) s =
      identifierResult (.Identifier Idstr)
        (if (fin && Sdef.isTrivial) = true then
          (some (.mk (some Sdef) .BT_Equivalent (some Sdef) 0 []), s)
        else
          (some (.mk
            (some (setBaseTypeFromExpr s
              (SExpr.Project BaseType.void
                ((newApply (.Variable bt kd n Vidx (.Function fk fn fi fd body)) none
                  .FAK_SApply).setBaseType BaseType.pointer) Idstr) (some Sdef)).1)
            .BT_Type (some Sdef) Vidx
            [TypedCopyAttr.ofExp (.Variable bt kd n Vidx (.Function fk fn fi fd body))]),
            if Vidx = 0 then
              (setBaseTypeFromExpr s
                (SExpr.Project BaseType.void
                  ((newApply (.Variable bt kd n Vidx (.Function fk fn fi fd body)) none
                    .FAK_SApply).setBaseType BaseType.pointer) Idstr)
                (some Sdef)).2.assertFail "Variable index is not set."
            else
              (setBaseTypeFromExpr s
                (SExpr.Project BaseType.void
                  ((newApply (.Variable bt kd n Vidx (.Function fk fn fi fd body)) none
                    .FAK_SApply).setBaseType BaseType.pointer) Idstr) (some Sdef)).2)) := by
    unfold reduceIdentifier
    generalize usub32 s.scope.size 1 = N at hjN hname hslot hreg ⊢
    dsimp only
    obtain ⟨k, rfl⟩ := Nat.exists_eq_add_of_le hjN
    rw [identifierLoop_skip R trav Idstr s j k hname hslot hreg]
    obtain ⟨j', rfl⟩ := Nat.exists_eq_succ_of_ne_zero (Nat.pos_iff_ne_zero.mp hj)
    unfold identifierLoop
    rw [hVd]
    dsimp only
    rw [if_neg hn, if_pos hk, hAt]
    dsimp only
    rw [hExp]
    dsimp only
    rw [hfind]
  rw [key]
  refine ⟨?_, ?_⟩
  · rintro ⟨h1, h2⟩
    rw [if_pos (by simp [h1, h2])]
    rfl
  · intro hne
    have hb : ¬ (fin && Sdef.isTrivial) = true := by
      intro hb
      simp only [Bool.and_eq_true] at hb
      exact hne hb
    rw [if_neg hb]
    obtain ⟨bt', hbt'⟩ := setBaseTypeFromExpr_Project s BaseType.void
      ((newApply (.Variable bt kd n Vidx (.Function fk fn fi fd body)) none
        .FAK_SApply).setBaseType BaseType.pointer) Idstr (some Sdef)
    refine ⟨⟨bt', ?_⟩, rfl, rfl, rfl, ?_, ?_⟩
    · show some _ = some _
      rw [hbt']
      rfl
    · show (ite _ _ _ : St).diag = _
      unfold setBaseTypeFromExpr
      split_ifs <;> split <;> rfl
    · show (ite _ _ _ : St).blocks = _
      unfold setBaseTypeFromExpr
      split_ifs <;> split <;> rfl

/-- C24 at the scope of `selfDemoState`, whose self-function has the final slot `a`,
defined as the literal 7, and the slot `b`, not final: the identifier `a` is the literal
7 itself, the identifier `b` a projection from the self-application. -/
theorem C24_slot_of_self_function_witness :
    reduceIdentifier widenRules (traverse widenRules 3) (.Identifier "a") selfDemoState =
      (.mk (some (.Literal BaseType.int32 7)) .BT_Equivalent
        (some (.Literal BaseType.int32 7)) 0 [], selfDemoState) ∧
    ∃ bt', (reduceIdentifier widenRules (traverse widenRules 3) (.Identifier "b")
      selfDemoState).1.Exp =
      some (.Project bt' (.ApplyNoArg BaseType.pointer .FAK_SApply selfDemoVar) "b") :=
  have hN : usub32 selfDemoState.scope.size 1 = 1 := by decide
  ⟨(C24_slot_of_self_function widenRules (traverse widenRules 3) "a" selfDemoState 1
      ⟨.VK_SFun, "self", 1, none⟩ (TypedCopyAttr.ofExp selfDemoVar) _ _ _ _ _ _ _ _ _ true
      (.Literal BaseType.int32 7) (by decide) (by decide) rfl (by decide) rfl rfl rfl rfl
      (fun i Vd' h1 h2 => by rw [hN] at h2; omega)
      (fun i Vd' At' bt' kd' n' Vidx' fk' fn' fi' fd' body' h1 h2 => by rw [hN] at h2; omega)
      (fun i Vd' h1 h2 => by rw [hN] at h2; omega)).1 ⟨rfl, rfl⟩,
    ((C24_slot_of_self_function widenRules (traverse widenRules 3) "b" selfDemoState 1
      ⟨.VK_SFun, "self", 1, none⟩ (TypedCopyAttr.ofExp selfDemoVar) _ _ _ _ _ _ _ _ _ false
      (.Literal BaseType.int32 8) (by decide) (by decide) rfl (by decide) rfl rfl rfl rfl
      (fun i Vd' h1 h2 => by rw [hN] at h2; omega)
      (fun i Vd' At' bt' kd' n' Vidx' fk' fn' fi' fd' body' h1 h2 => by rw [hN] at h2; omega)
      (fun i Vd' h1 h2 => by rw [hN] at h2; omega)).2 (by decide)).1⟩


/-! ### C34: the element type that a type expression gives to an instruction -/

/-- C34: the function `setBaseTypeFromExpr(I, Typ)`.  A function, code, field or record
type gives the instruction the pointer tag `getBaseType<void*>()`; a scalar type gives its
own base type; a literal gives the base type of the literal; in these cases nothing else
happens.  A null type expression leaves the instruction as it is.  Every other type
expression fails the assertion "Type expression must be a value." and leaves the
instruction as it is.  On an instruction, the tag set is the base type read back. -/
theorem C34_setBaseTypeFromExpr_tag (s : St) (I : SExpr) :
    (∀ T : SExpr, T.isFunction = true ∨ T.isCode = true ∨ T.isField = true ∨
        T.isRecord = true →
      setBaseTypeFromExpr s I (some T) = (I.setBaseType BaseType.pointer, s)) ∧
    (∀ bt, setBaseTypeFromExpr s I (some (.ScalarType bt)) = (I.setBaseType bt, s)) ∧
    (∀ bt v, setBaseTypeFromExpr s I (some (.Literal bt v)) = (I.setBaseType bt, s)) ∧
    setBaseTypeFromExpr s I none = (I, s) ∧
    (∀ T : SExpr, T.isFunction = false → T.isCode = false → T.isField = false →
      T.isRecord = false → (∀ bt, T ≠ .ScalarType bt) → (∀ bt v, T ≠ .Literal bt v) →
      setBaseTypeFromExpr s I (some T) =
        (I, s.assertFail "Type expression must be a value.")) ∧
    (I.isInstruction = true → ∀ bt, (I.setBaseType bt).baseType = bt ∧
      (I.setBaseType bt).isInstruction = true) := by
  refine ⟨?_, fun _ => rfl, fun _ _ => rfl, rfl, ?_, ?_⟩
  · intro T hT
    cases T <;> first | rfl | simp [SExpr.isFunction, SExpr.isCode, SExpr.isField,
      SExpr.isRecord] at hT
  · intro T h1 h2 h3 h4 h5 h6
    cases T <;> first
      | rfl
      | simp_all [SExpr.isFunction, SExpr.isCode, SExpr.isField, SExpr.isRecord]
  · intro hI bt
    cases I <;> first | exact ⟨rfl, rfl⟩ | simp [SExpr.isInstruction] at hI

/-- C34 at a concrete instruction: a call whose type is a record gets the pointer tag, and
a call whose type is the scalar type `int32` gets `int32`. -/
theorem C34_setBaseTypeFromExpr_tag_witness :
    setBaseTypeFromExpr St.init (.Call BaseType.void (.Phi BaseType.pointer 0 0))
      (some (.Record .NoSlot)) = (.Call BaseType.pointer (.Phi BaseType.pointer 0 0), St.init) ∧
    setBaseTypeFromExpr St.init (.Call BaseType.void (.Phi BaseType.pointer 0 0))
      (some (.ScalarType BaseType.int32)) =
      (.Call BaseType.int32 (.Phi BaseType.pointer 0 0), St.init) :=
  ⟨(C34_setBaseTypeFromExpr_tag St.init (.Call BaseType.void (.Phi BaseType.pointer 0 0))).1
      (.Record .NoSlot) (Or.inr (Or.inr (Or.inr rfl))),
    (C34_setBaseTypeFromExpr_tag St.init
      (.Call BaseType.void (.Phi BaseType.pointer 0 0))).2.1 BaseType.int32⟩

/-! ### C33: forcing a type expression -/

/-- Appending no failed assertion leaves the state as it is. -/
theorem St.failed_append_nil (s : St) : ({ s with failed := s.failed ++ [] } : St) = s := by
  cases s
  simp

/-- The function `setBaseTypeFromExpr` changes nothing of the state but the log of failed
assertions. -/
theorem setBaseTypeFromExpr_state (s : St) (I : SExpr) (T : Option SExpr) :
    ∃ fl, (setBaseTypeFromExpr s I T).2 = { s with failed := s.failed ++ fl } := by
  unfold setBaseTypeFromExpr
  split <;> first | exact ⟨[], (St.failed_append_nil s).symm⟩ | exact ⟨[_], rfl⟩

/-- C33: forcing a type expression.  The function `computeAttrType(At, E)` traverses `E`
from the state `s0` in which the evaluation mode is weak-head and emission is disabled, so
that there an `addInstruction` appends nothing; what it returns is the state left by that
traversal with the emit flag and the evaluation mode set back to their values before the
call, and at most the failed assertion of `setBaseTypeFromExpr` added.  The function
`evaluateTypeExpr(At)` leaves the scope, the emit flag and the evaluation mode as they
were before the call, and returns the attribute and the state as they are when the type
expression is a value already. -/
theorem C33_type_forcing_frame (trav : Trav) (At : TypedCopyAttr) (E : SExpr) (s : St) :
    (((s.switchEvalMode .TEval_WeakHead).2.disableEmit).2.emitInstrs = false ∧
      ((s.switchEvalMode .TEval_WeakHead).2.disableEmit).2.EvalMode = .TEval_WeakHead ∧
      ((s.switchEvalMode .TEval_WeakHead).2.disableEmit).2.blocks = s.blocks ∧
      ∀ e, ((s.switchEvalMode .TEval_WeakHead).2.disableEmit).2.addInstruction e =
        ((s.switchEvalMode .TEval_WeakHead).2.disableEmit).2) ∧
    (∃ fl, (computeAttrType trav At E s).2 =
      { (trav E .TRV_Decl ((s.switchEvalMode .TEval_WeakHead).2.disableEmit).2).2 with
        emitInstrs := s.emitInstrs, EvalMode := s.EvalMode,
        failed := (trav E .TRV_Decl
          ((s.switchEvalMode .TEval_WeakHead).2.disableEmit).2).2.failed ++ fl }) ∧
    (computeAttrType trav At E s).2.emitInstrs = s.emitInstrs ∧
    (computeAttrType trav At E s).2.EvalMode = s.EvalMode ∧
    (evaluateTypeExpr trav At s).2.scope = s.scope ∧
    (evaluateTypeExpr trav At s).2.emitInstrs = s.emitInstrs ∧
    (evaluateTypeExpr trav At s).2.EvalMode = s.EvalMode ∧
    (∀ T, At.TypeExpr = some T → T.isValue = true → evaluateTypeExpr trav At s = (At, s)) := by
  have hc : ∀ (At : TypedCopyAttr) (E : SExpr) (s : St), ∃ fl, (computeAttrType trav At E s).2 =
      { (trav E .TRV_Decl ((s.switchEvalMode .TEval_WeakHead).2.disableEmit).2).2 with
        emitInstrs := s.emitInstrs, EvalMode := s.EvalMode,
        failed := (trav E .TRV_Decl
          ((s.switchEvalMode .TEval_WeakHead).2.disableEmit).2).2.failed ++ fl } := by
    intro At E s
    unfold computeAttrType
    dsimp only
    split
    · split_ifs
      · obtain ⟨fl, h⟩ := setBaseTypeFromExpr_state
          (((trav E .TRV_Decl ((s.switchEvalMode .TEval_WeakHead).2.disableEmit).2).2.restoreEmit
            (s.switchEvalMode .TEval_WeakHead).2.disableEmit.1).restoreEvalMode
            (s.switchEvalMode .TEval_WeakHead).1) _
          (At.moveType (trav E .TRV_Decl
            ((s.switchEvalMode .TEval_WeakHead).2.disableEmit).2).1).TypeExpr
        exact ⟨fl, h⟩
      · exact ⟨[], (St.failed_append_nil _).symm⟩
    · exact ⟨[], (St.failed_append_nil _).symm⟩
  have he : ∀ (At : TypedCopyAttr) (E : SExpr) (s : St),
      (computeAttrType trav At E s).2.emitInstrs = s.emitInstrs ∧
      (computeAttrType trav At E s).2.EvalMode = s.EvalMode := by
    intro At E s
    obtain ⟨fl, h⟩ := hc At E s
    rw [h]
    exact ⟨rfl, rfl⟩
  refine ⟨⟨rfl, rfl, rfl, ?_⟩, hc At E s, (he At E s).1, (he At E s).2, ?_, ?_, ?_, ?_⟩
  · intro e
    unfold St.addInstruction
    split
    · simp [St.disableEmit]
    · rfl
  · unfold evaluateTypeExpr
    split
    · rfl
    · split_ifs <;> rfl
  · unfold evaluateTypeExpr
    split
    · rfl
    · split_ifs
      · rfl
      · exact (he _ _ _).1
  · unfold evaluateTypeExpr
    split
    · rfl
    · split_ifs
      · rfl
      · exact (he _ _ _).2
  · intro T hT hv
    unfold evaluateTypeExpr
    rw [hT]
    simp [hv]

/-! ### C36: a nested call with the wrong number of arguments -/

/-- C36: the first call to a pending block (its continuation is unset) made under the
non-null continuation `c` with a number of arguments different from the phi arity of its
block.  The rule `reduceNestedCall` reports "Invalid number of arguments to function
call.", yields the undefined value and emits no goto, the blocks and the current block
being as before; yet the continuation of the pending block is fixed to `c` and the pending
block is at the end of the queue. -/
theorem C36_arity_rejection_not_atomic (Ca Res : TypedCopyAttr) (C : SExpr) (i c : Nat)
    (Pb : PendingBlock) (s : St)
    (hf : s.findCode C = some i) (hp : s.PendingBlks[i]? = some Pb) (hc : Pb.Cont = none)
    (hk : s.currentContinuation = some c)
    (hn : Ca.Subst.numSubstVars ≠ s.blocks[Pb.Block]?.elim 0 (·.arguments)) :
    (reduceNestedCall Ca Res C s).1 = true ∧
    (reduceNestedCall Ca Res C s).2.1.Exp = some .Undefined ∧
    (reduceNestedCall Ca Res C s).2.2.diag =
      s.diag ++ ["Invalid number of arguments to function call."] ∧
    (reduceNestedCall Ca Res C s).2.2.blocks = s.blocks ∧
    (reduceNestedCall Ca Res C s).2.2.currentBB = s.currentBB ∧
    (reduceNestedCall Ca Res C s).2.2.PendingBlks[i]? = some { Pb with Cont := some c } ∧
    (reduceNestedCall Ca Res C s).2.2.PendingBlks = s.PendingBlks.set i { Pb with Cont := some c } ∧
    (reduceNestedCall Ca Res C s).2.2.PendingBlockQueue = s.PendingBlockQueue ++ [i] := by
  have h : reduceNestedCall Ca Res C s =
      (true, Res.setExp (some .Undefined),
        ({ s with PendingBlks := s.PendingBlks.set i { Pb with Cont := some c },
                  PendingBlockQueue := s.PendingBlockQueue ++ [i] } : St).error
          "Invalid number of arguments to function call.") := by
    unfold reduceNestedCall
    rw [hf]
    dsimp only
    rw [hp]
    dsimp only
    rw [hc]
    dsimp only
    rw [hk]
    dsimp only
    unfold nestedCallGoto
    rw [if_pos hn]
  rw [h]
  refine ⟨rfl, TypedCopyAttr.Exp_setExp _ _, rfl, rfl, rfl, ?_, rfl, rfl⟩
  show (s.PendingBlks.set i _)[i]? = _
  have hi : i < s.PendingBlks.length := by
    by_contra hge
    rw [List.getElem?_eq_none (by omega)] at hp
    cases hp
  rw [List.getElem?_set_self hi]

/-- C36 at the pending block of `argDemoState`, which has two phi parameters, called with
one argument under the exit block as continuation. -/
theorem C36_arity_rejection_not_atomic_witness :
    (reduceNestedCall
      (.mk none .BT_Type (some (.CodeDecl 0 (.ScalarType BaseType.int32))) 1
        [TypedCopyAttr.ofExp (.Literal BaseType.int32 7)])
      TypedCopyAttr.null (.CodeDecl 0 (.ScalarType BaseType.int32)) argDemoState).2.2.diag =
      ["Invalid number of arguments to function call."] ∧
    (reduceNestedCall
      (.mk none .BT_Type (some (.CodeDecl 0 (.ScalarType BaseType.int32))) 1
        [TypedCopyAttr.ofExp (.Literal BaseType.int32 7)])
      TypedCopyAttr.null (.CodeDecl 0 (.ScalarType BaseType.int32))
      argDemoState).2.2.PendingBlockQueue = [0] :=
  have h := C36_arity_rejection_not_atomic
    (.mk none .BT_Type (some (.CodeDecl 0 (.ScalarType BaseType.int32))) 1
      [TypedCopyAttr.ofExp (.Literal BaseType.int32 7)])
    TypedCopyAttr.null (.CodeDecl 0 (.ScalarType BaseType.int32)) 0 1
    ⟨some (.Literal BaseType.int32 1), 2, none, ScopeCPS.ofNull 1⟩ argDemoState
    rfl rfl rfl rfl (by decide)
  ⟨h.2.2.1, h.2.2.2.2.2.2.2⟩


/-! ### C31: the pending block of a nested function -/

/-- Overwriting the attribute of a bound position: the position then holds the new
attribute. -/
theorem ScopeCPS.var_setVar_self (S : ScopeCPS) (p : Nat) (A0 At : TypedCopyAttr)
    (h : S.var p = some A0) : (S.setVar p At).var p = some At := by
  unfold ScopeCPS.var at h
  unfold ScopeCPS.setVar ScopeCPS.var
  split_ifs at h with h1
  rw [if_neg h1]
  dsimp only
  rw [if_neg h1]
  have hlt : p - S.NullVars < S.VarAttrs.length := by
    by_contra hge
    rw [List.getElem?_eq_none (by omega)] at h
    cases h
  exact List.getElem?_set_self hlt

/-- Overwriting the attribute of a position leaves the other positions as they are. -/
theorem ScopeCPS.var_setVar_ne (S : ScopeCPS) (p q : Nat) (At : TypedCopyAttr) (h : q ≠ p) :
    (S.setVar p At).var q = S.var q := by
  unfold ScopeCPS.setVar
  split_ifs with h1
  · rfl
  · unfold ScopeCPS.var
    dsimp only
    split_ifs with h2
    · rfl
    · exact List.getElem?_set_ne (by omega)

/-- Overwriting the attribute of a position changes nothing else of the scope. -/
theorem ScopeCPS.setVar_frame (S : ScopeCPS) (p : Nat) (At : TypedCopyAttr) :
    (S.setVar p At).NullVars = S.NullVars ∧ (S.setVar p At).VarDecls = S.VarDecls ∧
    (S.setVar p At).Cont = S.Cont ∧ (S.setVar p At).VarAttrs.length = S.VarAttrs.length := by
  unfold ScopeCPS.setVar
  split_ifs
  · exact ⟨rfl, rfl, rfl, rfl⟩
  · exact ⟨rfl, rfl, rfl, List.length_set _ _ _⟩

/-- One round of the loop `rebindPhis`: the position `Vidx + i` is bound to the phi
parameter `i` of the block if its declaration is known and is no self-function binder,
and nothing else changes but the log of failed assertions. -/
theorem rebindPhis_cons (Nb Vidx i : Nat) (is : List Nat) (Ns : ScopeCPS) (s : St) :
    ∃ (Ns1 : ScopeCPS) (fl : List String),
      rebindPhis Nb Vidx (i :: is) (Ns, s) =
        rebindPhis Nb Vidx is (Ns1, { s with failed := s.failed ++ fl }) ∧
      Ns1.NullVars = Ns.NullVars ∧ Ns1.VarDecls = Ns.VarDecls ∧ Ns1.Cont = Ns.Cont ∧
      Ns1.VarAttrs.length = Ns.VarAttrs.length ∧
      (∀ p, p ≠ Vidx + i → Ns1.var p = Ns.var p) ∧
      Ns1.var (Vidx + i) =
        if (Ns.varDecl (Vidx + i)).any (fun Vd => Vd.kind != .VK_SFun) = true then
          (Ns.var (Vidx + i)).map (fun At =>
            ((At.setExp (some (St.phi Nb i))).setRel .BT_Equivalent).setTypeExpr
              (some (St.phi Nb i)))
        else Ns.var (Vidx + i) := by
  rw [rebindPhis]
  cases hd : Ns.varDecl (Vidx + i) with
  | none =>
    exact ⟨Ns, [], by rw [St.failed_append_nil], rfl, rfl, rfl, rfl, fun _ _ => rfl, by simp⟩
  | some Vd =>
    dsimp only
    by_cases hk : Vd.kind = .VK_SFun
    · rw [if_pos hk]
      exact ⟨Ns, [], by rw [St.failed_append_nil], rfl, rfl, rfl, rfl, fun _ _ => rfl,
        by simp [hk]⟩
    · rw [if_neg hk]
      have hany : (some Vd).any (fun Vd => Vd.kind != .VK_SFun) = true := by
        simp [hk]
      rw [if_pos hany]
      cases hv : Ns.var (Vidx + i) with
      | none =>
        dsimp only
        by_cases hl : Vd.kind = .VK_Let
        · rw [if_pos hl]
          exact ⟨Ns, ["Vd->kind() != VarDecl::VK_Let", "Array out of bounds."],
            by simp [St.assertFail], rfl, rfl, rfl, rfl, fun _ _ => rfl, hv⟩
        · rw [if_neg hl]
          exact ⟨Ns, [_], rfl, rfl, rfl, rfl, rfl, fun _ _ => rfl, hv⟩
      | some At =>
        dsimp only
        obtain ⟨f1, f2, f3, f4⟩ := Ns.setVar_frame (Vidx + i)
          (((At.setExp (some (St.phi Nb i))).setRel .BT_Equivalent).setTypeExpr
            (some (St.phi Nb i)))
        by_cases hl : Vd.kind = .VK_Let
        · rw [if_pos hl]
          exact ⟨_, [_], rfl, f1, f2, f3, f4,
            fun p hp => ScopeCPS.var_setVar_ne _ _ _ _ hp,
            ScopeCPS.var_setVar_self _ _ _ _ hv⟩
        · rw [if_neg hl]
          exact ⟨_, [], by rw [St.failed_append_nil], f1, f2, f3, f4,
            fun p hp => ScopeCPS.var_setVar_ne _ _ _ _ hp,
            ScopeCPS.var_setVar_self _ _ _ _ hv⟩

/-- The loop `rebindPhis` over distinct offsets: every position `Vidx + i` of the list
whose declaration is known and is no self-function binder is bound to the phi parameter
`i`; every other position, the declarations and the continuation of the scope are as
before, and of the state only the log of failed assertions may grow. -/
theorem rebindPhis_spec (Nb Vidx : Nat) (is : List Nat) (Ns : ScopeCPS) (s : St) :
    (∃ fl, (rebindPhis Nb Vidx is (Ns, s)).2 = { s with failed := s.failed ++ fl }) ∧
    (rebindPhis Nb Vidx is (Ns, s)).1.NullVars = Ns.NullVars ∧
    (rebindPhis Nb Vidx is (Ns, s)).1.VarDecls = Ns.VarDecls ∧
    (rebindPhis Nb Vidx is (Ns, s)).1.Cont = Ns.Cont ∧
    (rebindPhis Nb Vidx is (Ns, s)).1.VarAttrs.length = Ns.VarAttrs.length ∧
    (∀ p, (∀ i ∈ is, p ≠ Vidx + i) → (rebindPhis Nb Vidx is (Ns, s)).1.var p = Ns.var p) ∧
    (is.Nodup → ∀ i ∈ is, (rebindPhis Nb Vidx is (Ns, s)).1.var (Vidx + i) =
      if (Ns.varDecl (Vidx + i)).any (fun Vd => Vd.kind != .VK_SFun) = true then
        (Ns.var (Vidx + i)).map (fun At =>
          ((At.setExp (some (St.phi Nb i))).setRel .BT_Equivalent).setTypeExpr
            (some (St.phi Nb i)))
      else Ns.var (Vidx + i)) := by
  induction is generalizing Ns s with
  | nil =>
    exact ⟨⟨[], (St.failed_append_nil s).symm⟩, rfl, rfl, rfl, rfl, fun _ _ => rfl,
      fun _ i hi => absurd hi (List.not_mem_nil _)⟩
  | cons i is ih =>
    obtain ⟨Ns1, fl, heq, g1, g2, g3, g4, g5, g6⟩ := rebindPhis_cons Nb Vidx i is Ns s
    obtain ⟨⟨fl2, e0⟩, e1, e2, e3, e4, e5, e6⟩ := ih Ns1 { s with failed := s.failed ++ fl }
    rw [heq]
    have hdecl : ∀ p, Ns1.varDecl p = Ns.varDecl p := fun p => by
      unfold ScopeCPS.varDecl; rw [g2]
    refine ⟨⟨fl ++ fl2, ?_⟩, e1.trans g1, e2.trans g2, e3.trans g3, e4.trans g4, ?_, ?_⟩
    · rw [e0]
      simp [List.append_assoc]
    · intro p hp
      rw [e5 p (fun j hj => hp j (List.mem_cons_of_mem _ hj))]
      exact g5 p (hp i (List.mem_cons_self _ _))
    · intro hnd j hj
      obtain ⟨hni, hnd'⟩ := List.nodup_cons.mp hnd
      rcases List.mem_cons.mp hj with rfl | hj'
      · rw [e5 (Vidx + j) (fun k hk he => hni (by
          have : j = k := by omega
          rw [this]; exact hk))]
        exact g6
      · have hne : j ≠ i := fun he => hni (he ▸ hj')
        rw [e6 hnd' j hj', hdecl, g5 (Vidx + j) (by omega)]

/-- C31 (as stated, refuted): a nested function met inside the body of a self-function.
Its arity is 1 and its block has one phi parameter, but the one innermost position, the
position 1, is a self-function binder: in the scope of the pending block it still holds
the self-variable, not the phi parameter. -/
theorem C31_self_variable_not_rebound :
    usub32 selfNestedState.deBruinIndex selfNestedState.deBruinIndexOfEnclosingNestedFunction
      = 1 ∧
    usub32 selfNestedState.scope.size 1 = 1 ∧
    (traverseNestedCode (traverse widenRules 3)
      (.Code 0 (.ScalarType BaseType.int32) (.Literal BaseType.int32 1))
      selfNestedState).2.blocks[2]? = some ⟨1, [], [], 0⟩ ∧
    (traverseNestedCode (traverse widenRules 3)
      (.Code 0 (.ScalarType BaseType.int32) (.Literal BaseType.int32 1))
      selfNestedState).2.PendingBlks.map (fun P => (P.Block, P.Scope.var 1)) =
      [(2, some (TypedCopyAttr.ofExp selfDemoVar))] := by
  refine ⟨by decide, by decide, by decide, rfl⟩

/-- C31 (amended): a nested function met for the first time, with `s1` the state after its
return type and its code value were reduced, `N` the number of binder positions introduced
since the enclosing nested function and `Vidx = size - N`.  The rule `traverseNestedCode`
allocates one block, with exactly `N` phi parameters, and adds one pending block for it:
its body is the body of the original, unreduced, its continuation is unset, and it is
indexed by the reduced code value; the queue and the live scope are as before.  The scope
`Ns` of the pending block has the declarations, the size and the continuation of the live
scope; every position outside `Vidx .. Vidx + N - 1` holds what the live scope holds; and
a position `Vidx + i`, `i < N`, holds the attribute of the live scope with the phi
parameter `i` as residual and as type expression and the relation `BT_Equivalent` if its
declaration is known and is no self-function binder, and what the live scope holds
otherwise. -/
theorem C31_nested_code_pending_block (trav : Trav) (Orig : SExpr) (s : St) :
    let r0 := trav (Orig.returnType.getD .Undefined) .TRV_Type s
    let rc := reduceCode r0.1.Exp none r0.2
    let s1 := rc.2
    let N := usub32 s1.deBruinIndex s1.deBruinIndexOfEnclosingNestedFunction
    let Vidx := usub32 s1.scope.size N
    let t := (traverseNestedCode trav Orig s).2
    (traverseNestedCode trav Orig s).1 = rc.1 ∧
    t.blocks = s1.blocks ++ [⟨N, [], [], 0⟩] ∧
    t.PendingBlockQueue = s1.PendingBlockQueue ∧
    t.scope = s1.scope ∧
    t.CodeMap = s1.CodeMap ++ [((rc.1.Exp.getD .Undefined).addr, s1.PendingBlks.length)] ∧
    ∃ Ns : ScopeCPS,
      t.PendingBlks = s1.PendingBlks ++ [⟨Orig.codeBody, s1.blocks.length, none, Ns⟩] ∧
      (∀ p, Ns.varDecl p = s1.scope.varDecl p) ∧ Ns.size = s1.scope.size ∧
      Ns.Cont = s1.scope.Cont ∧
      (∀ p, p < Vidx ∨ Vidx + N ≤ p → Ns.var p = s1.scope.var p) ∧
      (∀ i, i < N →
        (∀ Vd At, s1.scope.varDecl (Vidx + i) = some Vd → Vd.kind ≠ .VK_SFun →
          s1.scope.var (Vidx + i) = some At →
          Ns.var (Vidx + i) = some (.mk (some (St.phi s1.blocks.length i)) .BT_Equivalent
            (some (St.phi s1.blocks.length i)) At.Subst.NullVars At.Subst.VarAttrs)) ∧
        ((s1.scope.varDecl (Vidx + i) = none ∨
            ∃ Vd, s1.scope.varDecl (Vidx + i) = some Vd ∧ Vd.kind = .VK_SFun) →
          Ns.var (Vidx + i) = s1.scope.var (Vidx + i))) := by
  intro r0 rc s1 N Vidx t
  obtain ⟨⟨fl, e0⟩, e1, e2, e3, e4, e5, e6⟩ := rebindPhis_spec (s1.newBlock N).1 Vidx
    (List.range N) (s1.newBlock N).2.scope.clone (s1.newBlock N).2
  have ht : t = addPendingBlock rc.1.Exp Orig.codeBody (s1.newBlock N).1
      (rebindPhis (s1.newBlock N).1 Vidx (List.range N)
        ((s1.newBlock N).2.scope.clone, (s1.newBlock N).2)).1
      (rebindPhis (s1.newBlock N).1 Vidx (List.range N)
        ((s1.newBlock N).2.scope.clone, (s1.newBlock N).2)).2 := rfl
  refine ⟨rfl, ?_, ?_, ?_, ?_, _, ?_, ?_, ?_, e3, ?_, ?_⟩
  · rw [ht]; unfold addPendingBlock; rw [e0]; rfl
  · rw [ht]; unfold addPendingBlock; rw [e0]; rfl
  · rw [ht]; unfold addPendingBlock; rw [e0]; rfl
  · rw [ht]; unfold addPendingBlock; rw [e0]; rfl
  · rw [ht]; unfold addPendingBlock; rw [e0]; rfl
  · intro p
    unfold ScopeCPS.varDecl
    rw [e2]
    rfl
  · unfold ScopeCPS.size
    rw [e1, e4]
    rfl
  · intro p hp
    exact e5 p (fun i hi => by
      have := List.mem_range.mp hi
      omega)
  · intro i hi
    have h6 := e6 (List.nodup_range N) i (List.mem_range.mpr hi)
    refine ⟨fun Vd At hd hk hv => ?_, fun hd => ?_⟩
    · rw [h6]
      have hd' : (s1.newBlock N).2.scope.clone.varDecl (Vidx + i) = some Vd := hd
      have hv' : (s1.newBlock N).2.scope.clone.var (Vidx + i) = some At := hv
      rw [hd', hv']
      have hany : (some Vd).any (fun Vd => Vd.kind != .VK_SFun) = true := by simp [hk]
      rw [if_pos hany]
      cases At
      rfl
    · rw [h6]
      have hany : ((s1.newBlock N).2.scope.clone.varDecl (Vidx + i)).any
          (fun Vd => Vd.kind != .VK_SFun) = false := by
        rcases hd with hd | ⟨Vd, hd, hk⟩
        · have hd' : (s1.newBlock N).2.scope.clone.varDecl (Vidx + i) = none := hd
          rw [hd']
          rfl
        · have hd' : (s1.newBlock N).2.scope.clone.varDecl (Vidx + i) = some Vd := hd
          rw [hd']
          simp [hk]
      rw [hany]
      rfl

/-- C31 (amended) at a nested function met inside the body of a function of one
parameter: its block, the block 2, has one phi parameter, and in the scope of the pending
block the position 1 of the parameter holds that phi parameter. -/
theorem C31_nested_code_pending_block_witness :
    (traverseNestedCode (traverse widenRules 3)
      (.Code 0 (.ScalarType BaseType.int32) (.Literal BaseType.int32 1))
      paramNestedState).2.blocks[2]? = some ⟨1, [], [], 0⟩ ∧
    ∃ Ns : ScopeCPS,
      (traverseNestedCode (traverse widenRules 3)
        (.Code 0 (.ScalarType BaseType.int32) (.Literal BaseType.int32 1))
        paramNestedState).2.PendingBlks =
        [⟨some (.Literal BaseType.int32 1), 2, none, Ns⟩] ∧
      Ns.var 1 = some (.mk (some (St.phi 2 0)) .BT_Equivalent (some (St.phi 2 0)) 0 []) :=
  have h := C31_nested_code_pending_block (traverse widenRules 3)
    (.Code 0 (.ScalarType BaseType.int32) (.Literal BaseType.int32 1)) paramNestedState
  ⟨by rw [h.2.1]; rfl,
    h.2.2.2.2.2.imp (fun _ hN => ⟨hN.1, (hN.2.2.2.2.2 0 (by decide)).1
      ⟨.VK_Fun, "n", 1, none⟩ _ rfl (by decide) rfl⟩)⟩


/-! ### The pending blocks along a traversal -/

/-- Nothing changed. -/
theorem PMono.pm_refl (a : List PendingBlock × List Nat × List (Nat × Nat)) : PMono a a :=
  ⟨fun _ h => h, fun _ P h => ⟨P, h, rfl, rfl, Or.inl rfl⟩,
    fun _ _ h h' => (by rw [h] at h'; cases h'), List.prefix_refl _⟩

/-- Changes of the pending blocks compose. -/
theorem PMono.pm_trans {a b c : List PendingBlock × List Nat × List (Nat × Nat)}
    (h1 : PMono a b) (h2 : PMono b c) : PMono a c := by
  refine ⟨fun i hi => h2.queue i (h1.queue i hi), ?_, ?_, h1.codeMap.trans h2.codeMap⟩
  · intro i P hP
    obtain ⟨P1, hP1, b1, x1, c1⟩ := h1.pend i P hP
    obtain ⟨P2, hP2, b2, x2, c2⟩ := h2.pend i P1 hP1
    refine ⟨P2, hP2, b2.trans b1, x2.trans x1, ?_⟩
    rcases c1 with c1 | ⟨c1, c1', c1''⟩
    · rcases c2 with c2 | ⟨c2, c2', c2''⟩
      · exact Or.inl (c2.trans c1)
      · exact Or.inr ⟨c1 ▸ c2, c2', c2''⟩
    · rcases c2 with c2 | ⟨c2, c2', c2''⟩
      · exact Or.inr ⟨c1, c2 ▸ c1', h2.queue i c1''⟩
      · rw [c2] at c1'
        cases c1'
  · intro i P2 hP2 hs
    cases ht : b.1[i]? with
    | none => exact h2.fresh i P2 hP2 ht
    | some P1 =>
      obtain ⟨P2', hP2', -, -, c2⟩ := h2.pend i P1 ht
      rw [hP2] at hP2'
      cases hP2'
      rcases h1.fresh i P1 ht hs with c1 | c1
      · rcases c2 with c2 | ⟨-, -, c2''⟩
        · exact Or.inl (c2.trans c1)
        · exact Or.inr c2''
      · exact Or.inr (h2.queue i c1)

theorem St.pending_beginBlock (s : St) (b : Nat) : (s.beginBlock b).pending = s.pending := by
  unfold St.beginBlock
  split <;> rfl

theorem St.pending_finishBlock (s : St) (t : Terminator) :
    (s.finishBlock t).pending = s.pending := by
  unfold St.finishBlock
  split <;> rfl

theorem St.pending_addInstruction (s : St) (e : Option SExpr) :
    (s.addInstruction e).pending = s.pending := by
  unfold St.addInstruction
  split
  · split_ifs <;> rfl
  · rfl

theorem setBaseTypeFromExpr_pending (s : St) (I : SExpr) (Typ : Option SExpr) :
    (setBaseTypeFromExpr s I Typ).2.pending = s.pending := by
  unfold setBaseTypeFromExpr
  split <;> rfl

theorem computeAttrType_pmono {trav : Trav} (he : TravMono trav) (At : TypedCopyAttr)
    (E : SExpr) (s : St) {a : List PendingBlock × List Nat × List (Nat × Nat)}
    (h : PMono a s.pending) : PMono a (computeAttrType trav At E s).2.pending := by
  have h0 : PMono a (trav E .TRV_Decl
      ((s.switchEvalMode .TEval_WeakHead).2.disableEmit).2).2.pending := he _ _ _ _ h
  unfold computeAttrType
  dsimp only
  split
  · split_ifs
    · rw [setBaseTypeFromExpr_pending]
      exact h0
    · exact h0
  · exact h0

theorem evaluateTypeExpr_pmono {trav : Trav} (he : TravMono trav) (At : TypedCopyAttr)
    (s : St) {a : List PendingBlock × List Nat × List (Nat × Nat)}
    (h : PMono a s.pending) : PMono a (evaluateTypeExpr trav At s).2.pending := by
  unfold evaluateTypeExpr
  split
  · exact h
  · split_ifs
    · exact h
    · dsimp only [St.switchScope]
      exact computeAttrType_pmono he _ _ _ h

theorem promoteVariable_pmono {trav : Trav} (he : TravMono trav) (V : SExpr) (s : St)
    {a : List PendingBlock × List Nat × List (Nat × Nat)}
    (h : PMono a s.pending) : PMono a (promoteVariable trav V s).2.pending := by
  unfold promoteVariable
  split
  · dsimp only [St.switchScope]
    exact computeAttrType_pmono he _ _ _ h
  · exact h

theorem reduceVarSubstitution_pmono {trav : Trav} (R : TypeRules) (he : TravMono trav)
    (Vidx : Nat) (s : St) {a : List PendingBlock × List Nat × List (Nat × Nat)}
    (h : PMono a s.pending) : PMono a (reduceVarSubstitution R trav Vidx s).2.pending := by
  unfold reduceVarSubstitution
  split
  · exact h
  · split_ifs
    · exact h
    · split
      · exact h
      · exact promoteVariable_pmono he _ _ h
      · split_ifs
        · exact h
        · exact h

theorem reduceVariable_pmono {trav : Trav} (R : TypeRules) (he : TravMono trav)
    (Orig : SExpr) (s : St) {a : List PendingBlock × List Nat × List (Nat × Nat)}
    (h : PMono a s.pending) : PMono a (reduceVariable R trav Orig s).2.pending := by
  unfold reduceVariable
  split
  · split_ifs
    · exact promoteVariable_pmono he _ _ h
    · exact reduceVarSubstitution_pmono R he _ _ h
  · exact h

theorem reduceUnaryOp_pending (R : TypeRules) (op : TIL_UnaryOpcode) (a0 : TypedCopyAttr)
    (s : St) : (reduceUnaryOp R op a0 s).2.pending = s.pending := by
  unfold reduceUnaryOp
  split
  · rfl
  · split_ifs
    all_goals first
      | rfl
      | (cases op <;> rfl)

theorem reduceBinaryOp_pending (R : TypeRules) (op : TIL_BinaryOpcode)
    (a0 a1 : TypedCopyAttr) (s : St) :
    (reduceBinaryOp R op a0 a1 s).2.pending = s.pending := by
  unfold reduceBinaryOp
  cases a0.Exp <;> cases a1.Exp <;> dsimp only [St.error, St.assertFail]
  all_goals (try split_ifs)
  all_goals first
    | rfl
    | (cases op <;> rfl)

theorem nestedCallGoto_pending_eq (Ca Res : TypedCopyAttr) (Pb : PendingBlock) (s : St) :
    (nestedCallGoto Ca Res Pb s).2.2.pending = s.pending := by
  unfold nestedCallGoto
  split_ifs
  · rfl
  · dsimp only [St.newGoto]
    rw [St.pending_finishBlock]
    rfl
  · dsimp only [St.newGoto]
    rw [St.pending_finishBlock]

/-- Fixing the continuation of a pending block that has none, and putting the pending
block on the queue. -/
theorem PMono.pm_fixCont (PendingBlks : List PendingBlock) (queue : List Nat)
    (CodeMap : List (Nat × Nat)) (i c : Nat) (Pb : PendingBlock)
    (hp : PendingBlks[i]? = some Pb) (hc : Pb.Cont = none) :
    PMono (PendingBlks, queue, CodeMap)
      (PendingBlks.set i { Pb with Cont := some c }, queue ++ [i], CodeMap) := by
  have hi : i < PendingBlks.length := by
    by_contra hge
    rw [List.getElem?_eq_none (by omega)] at hp
    cases hp
  refine ⟨fun j hj => List.mem_append_left _ hj, ?_, ?_, List.prefix_refl _⟩
  · intro j P hP
    by_cases hji : j = i
    · subst hji
      have hP' : PendingBlks[j]? = some P := hP
      rw [hp] at hP'
      cases hP'
      exact ⟨_, List.getElem?_set_self hi, rfl, rfl,
        Or.inr ⟨hc, rfl, List.mem_append_right _ (List.mem_singleton_self _)⟩⟩
    · refine ⟨P, ?_, rfl, rfl, Or.inl rfl⟩
      show (PendingBlks.set i _)[j]? = some P
      rw [List.getElem?_set_ne (fun h => hji h.symm)]
      exact hP
  · intro j P' hP' hn
    have hj : j < (PendingBlks.set i { Pb with Cont := some c }).length := by
      by_contra hge
      have : (PendingBlks.set i { Pb with Cont := some c })[j]? = none :=
        List.getElem?_eq_none (by omega)
      rw [show (PendingBlks.set i { Pb with Cont := some c }, queue ++ [i], CodeMap).1[j]? =
        (PendingBlks.set i { Pb with Cont := some c })[j]? from rfl, this] at hP'
      cases hP'
    rw [List.length_set] at hj
    have hn' : PendingBlks[j]? = none := hn
    rw [List.getElem?_eq_getElem hj] at hn'
    cases hn'

/-- Adding a pending block without continuation and an entry of the index. -/
theorem PMono.pm_addPending (PendingBlks : List PendingBlock) (queue : List Nat)
    (CodeMap : List (Nat × Nat)) (Pb : PendingBlock) (x : Nat × Nat) (hc : Pb.Cont = none) :
    PMono (PendingBlks, queue, CodeMap) (PendingBlks ++ [Pb], queue, CodeMap ++ [x]) := by
  refine ⟨fun j hj => hj, ?_, ?_, List.prefix_append _ _⟩
  · intro j P hP
    have hP' : PendingBlks[j]? = some P := hP
    have hj : j < PendingBlks.length := by
      by_contra hge
      rw [List.getElem?_eq_none (by omega)] at hP'
      cases hP'
    refine ⟨P, ?_, rfl, rfl, Or.inl rfl⟩
    show (PendingBlks ++ [Pb])[j]? = some P
    rw [List.getElem?_append_left hj]
    exact hP'
  · intro j P' hP' hn
    have hn' : PendingBlks[j]? = none := hn
    have hge : PendingBlks.length ≤ j := by
      by_contra hlt
      rw [List.getElem?_eq_getElem (by omega)] at hn'
      cases hn'
    have hP'' : (PendingBlks ++ [Pb])[j]? = some P' := hP'
    rw [List.getElem?_append_right hge] at hP''
    cases hk : j - PendingBlks.length with
    | zero =>
      rw [hk] at hP''
      cases hP''
      exact Or.inl hc
    | succ k =>
      rw [hk] at hP''
      cases hP''

theorem reduceNestedCall_pmono (Ca Res : TypedCopyAttr) (C : SExpr) (s : St)
    {a : List PendingBlock × List Nat × List (Nat × Nat)} (h : PMono a s.pending) :
    PMono a (reduceNestedCall Ca Res C s).2.2.pending := by
  unfold reduceNestedCall
  cases hf : s.findCode C with
  | none => exact h
  | some i =>
    dsimp only
    cases hp : s.PendingBlks[i]? with
    | none => exact h
    | some Pb =>
      dsimp only
      cases hc : Pb.Cont with
      | none =>
        dsimp only
        cases hk : s.currentContinuation with
        | none => exact h
        | some c =>
          dsimp only
          rw [nestedCallGoto_pending_eq]
          exact h.pm_trans
            (PMono.pm_fixCont s.PendingBlks s.PendingBlockQueue s.CodeMap i c Pb hp hc)
      | some c =>
        dsimp only
        split_ifs
        · exact h
        · rw [nestedCallGoto_pending_eq]
          exact h

theorem reduceCall_pmono {trav : Trav} (he : TravMono trav) (Ca : TypedCopyAttr) (s : St)
    {a : List PendingBlock × List Nat × List (Nat × Nat)} (h : PMono a s.pending) :
    PMono a (reduceCall trav Ca s).2.pending := by
  have h1 := reduceNestedCall_pmono Ca TypedCopyAttr.null (Ca.TypeExpr.getD .Undefined) s h
  unfold reduceCall
  dsimp only
  split_ifs
  · split
    · exact h
    · split_ifs
      · exact h
      · exact h
  · exact h1
  · split
    · rw [setBaseTypeFromExpr_pending]
      exact evaluateTypeExpr_pmono he _ _ h1
    · exact evaluateTypeExpr_pmono he _ _ h1

theorem reduceCode_pending (e0 e1 : Option SExpr) (s : St) :
    (reduceCode e0 e1 s).2.pending = s.pending := rfl

theorem rebindPhis_pending (Nb Vidx : Nat) (is : List Nat) (Ns : ScopeCPS) (s : St) :
    (rebindPhis Nb Vidx is (Ns, s)).2.pending = s.pending := by
  obtain ⟨⟨fl, e⟩, -⟩ := rebindPhis_spec Nb Vidx is Ns s
  rw [e]
  rfl

theorem newPendingBlock_pmono (Nc body : Option SExpr) (s : St)
    {a : List PendingBlock × List Nat × List (Nat × Nat)} (h : PMono a s.pending) :
    PMono a (newPendingBlock Nc body s).pending := by
  unfold newPendingBlock addPendingBlock
  dsimp only
  obtain ⟨⟨fl, e⟩, -⟩ := rebindPhis_spec
    (s.newBlock (usub32 s.deBruinIndex s.deBruinIndexOfEnclosingNestedFunction)).1
    (usub32 s.scope.size (usub32 s.deBruinIndex s.deBruinIndexOfEnclosingNestedFunction))
    (List.range (usub32 s.deBruinIndex s.deBruinIndexOfEnclosingNestedFunction))
    (s.newBlock (usub32 s.deBruinIndex s.deBruinIndexOfEnclosingNestedFunction)).2.scope.clone
    (s.newBlock (usub32 s.deBruinIndex s.deBruinIndexOfEnclosingNestedFunction)).2
  rw [e]
  exact h.pm_trans (PMono.pm_addPending s.PendingBlks s.PendingBlockQueue s.CodeMap _ _ rfl)

theorem traverseCode_pmono {trav : Trav} (he : TravMono trav) (Orig : SExpr) (s : St)
    {a : List PendingBlock × List Nat × List (Nat × Nat)} (h : PMono a s.pending) :
    PMono a (traverseCode trav Orig s).2.pending := by
  unfold traverseCode traverseNestedCode
  split_ifs
  · exact h
  · dsimp only
    apply newPendingBlock_pmono
    rw [reduceCode_pending]
    exact he _ _ _ _ h
  · dsimp only
    split
    · rw [reduceCode_pending]
      exact he _ _ _ _ h
    · rw [reduceCode_pending]
      exact he _ _ _ _ h

theorem traverseVarDecl_pmono {trav : Trav} (he : TravMono trav) (kind : VariableKind)
    (d : SExpr) (s : St) {a : List PendingBlock × List Nat × List (Nat × Nat)}
    (h : PMono a s.pending) : PMono a (traverseVarDecl trav kind d s).2.pending := by
  unfold traverseVarDecl
  split
  · exact he _ _ _ _ h
  · exact h
  · exact he _ _ _ _ h

theorem superTraverseLet_pmono {trav : Trav} (he : TravMono trav) (Orig : SExpr) (s : St)
    {a : List PendingBlock × List Nat × List (Nat × Nat)} (h : PMono a s.pending) :
    PMono a (superTraverseLet trav Orig s).2.pending := by
  unfold superTraverseLet
  split
  · dsimp only
    show PMono a (trav _ .TRV_Tail _).2.pending
    apply he
    exact traverseVarDecl_pmono he _ _ _ h
  · exact h

theorem reportUnlessUndefined_pending (E : Option SExpr) (msg : String) (s : St) :
    (reportUnlessUndefined E msg s).pending = s.pending := by
  unfold reportUnlessUndefined
  split
  · rfl
  · split_ifs <;> rfl

theorem reduceApply_pmono {trav : Trav} (he : TravMono trav) (kind : ApplyKind)
    (Fa Aa : TypedCopyAttr) (s : St) {a : List PendingBlock × List Nat × List (Nat × Nat)}
    (h : PMono a s.pending) : PMono a (reduceApply trav kind Fa Aa s).2.pending := by
  unfold reduceApply
  dsimp only
  repeat' split
  all_goals first
    | (rw [setBaseTypeFromExpr_pending]; exact evaluateTypeExpr_pmono he _ _ h)
    | exact evaluateTypeExpr_pmono he _ _ h
    | (rw [reportUnlessUndefined_pending]; exact h)

theorem reduceProject_pmono {trav : Trav} (he : TravMono trav) (slotName : String)
    (Ra : TypedCopyAttr) (s : St) {a : List PendingBlock × List Nat × List (Nat × Nat)}
    (h : PMono a s.pending) : PMono a (reduceProject trav slotName Ra s).2.pending := by
  unfold reduceProject
  dsimp only
  repeat' split
  all_goals first
    | exact h
    | (rw [setBaseTypeFromExpr_pending]; exact evaluateTypeExpr_pmono he _ _ h)
    | exact evaluateTypeExpr_pmono he _ _ h
    | (rw [reportUnlessUndefined_pending]; exact h)

theorem reduceLoad_pmono {trav : Trav} (he : TravMono trav) (Fa : TypedCopyAttr) (s : St)
    {a : List PendingBlock × List Nat × List (Nat × Nat)} (h : PMono a s.pending) :
    PMono a (reduceLoad trav Fa s).2.pending := by
  unfold reduceLoad
  dsimp only
  repeat' split
  all_goals first
    | (rw [setBaseTypeFromExpr_pending]; exact evaluateTypeExpr_pmono he _ _ h)
    | exact evaluateTypeExpr_pmono he _ _ h
    | (rw [reportUnlessUndefined_pending]; exact h)

theorem reduceAlloc_pending (allocKind : AllocKind) (a0 : TypedCopyAttr) (s : St) :
    (reduceAlloc allocKind a0 s).2.pending = s.pending := by
  unfold reduceAlloc
  split
  · rfl
  · split_ifs <;> rfl

theorem identifierLoop_pmono {trav : Trav} (R : TypeRules) (he : TravMono trav)
    (Idstr : String) (i : Nat) (s : St) {a : List PendingBlock × List Nat × List (Nat × Nat)}
    (h : PMono a s.pending) : PMono a (identifierLoop R trav Idstr i s).2.pending := by
  induction i generalizing s with
  | zero => exact h
  | succ i ih =>
    unfold identifierLoop
    split
    · exact ih _ h
    · split_ifs
      · exact reduceVarSubstitution_pmono R he _ _ h
      · split
        · exact ih _ h
        · split
          · split
            · exact ih _ h
            · split_ifs
              · exact h
              · show PMono a (setBaseTypeFromExpr _ _ _).2.pending
                rw [setBaseTypeFromExpr_pending]
                exact h
              · show PMono a (setBaseTypeFromExpr _ _ _).2.pending
                rw [setBaseTypeFromExpr_pending]
                exact h
          · exact ih _ h
          · exact ih _ h
      · exact ih _ h

theorem reduceIdentifier_pmono {trav : Trav} (R : TypeRules) (he : TravMono trav)
    (Orig : SExpr) (s : St) {a : List PendingBlock × List Nat × List (Nat × Nat)}
    (h : PMono a s.pending) : PMono a (reduceIdentifier R trav Orig s).2.pending := by
  unfold reduceIdentifier
  split
  · rename_i Idstr
    have hl := identifierLoop_pmono R he Idstr (usub32 s.scope.size 1) s h
    generalize identifierLoop R trav Idstr (usub32 s.scope.size 1) s = r at hl ⊢
    obtain ⟨o, u⟩ := r
    unfold identifierResult superReduceIdentifier
    cases o with
    | some Res => exact hl
    | none => exact hl
  · exact h

theorem traverseFunction_pmono {trav : Trav} (he : TravMono trav) (Orig : SExpr) (s : St)
    {a : List PendingBlock × List Nat × List (Nat × Nat)} (h : PMono a s.pending) :
    PMono a (traverseFunction trav Orig s).2.pending := by
  unfold traverseFunction
  split_ifs
  · exact h
  · unfold superTraverseFunction
    split
    · dsimp only [reduceFunction, superReduceFunction]
      show PMono a (trav _ .TRV_Decl _).2.pending
      apply he
      exact traverseVarDecl_pmono he _ _ _ h
    · exact h

theorem traverseSlot_pmono {trav : Trav} (he : TravMono trav) (Orig : SExpr) (s : St)
    {a : List PendingBlock × List Nat × List (Nat × Nat)} (h : PMono a s.pending) :
    PMono a (traverseSlot trav Orig s).2.pending := by
  unfold traverseSlot
  split
  · exact he _ _ _ _ h
  · exact h

theorem traverseSlots_pmono {trav : Trav} (he : TravMono trav) (e : SExpr) (s : St)
    {a : List PendingBlock × List Nat × List (Nat × Nat)} (h : PMono a s.pending) :
    PMono a (traverseSlots trav e s).2.pending := by
  induction e generalizing s with
  | Slot n fin d next _ ih =>
    unfold traverseSlots
    exact ih _ (he _ _ _ _ h)
  | _ =>
    unfold traverseSlots
    exact h

theorem traverseRecord_pmono {trav : Trav} (he : TravMono trav) (Orig : SExpr) (s : St)
    {a : List PendingBlock × List Nat × List (Nat × Nat)} (h : PMono a s.pending) :
    PMono a (traverseRecord trav Orig s).2.pending := by
  unfold traverseRecord
  split_ifs
  · exact h
  · unfold superTraverseRecord
    split
    · exact traverseSlots_pmono he _ _ h
    · exact h

theorem traverseField_pmono {trav : Trav} (he : TravMono trav) (Orig : SExpr) (s : St)
    {a : List PendingBlock × List Nat × List (Nat × Nat)} (h : PMono a s.pending) :
    PMono a (traverseField trav Orig s).2.pending := by
  unfold traverseField
  split_ifs
  · exact h
  · unfold superTraverseField
    split
    · exact he _ _ _ _ (he _ _ _ _ h)
    · exact h

theorem traverseLet_pmono {trav : Trav} (he : TravMono trav) (Orig : SExpr) (s : St)
    {a : List PendingBlock × List Nat × List (Nat × Nat)} (h : PMono a s.pending) :
    PMono a (traverseLet trav Orig s).2.pending := by
  unfold traverseLet
  split
  · split_ifs
    · exact superTraverseLet_pmono he _ _ h
    · dsimp only
      exact he _ _ _ _ (he _ _ _ _ h)
  · exact h

theorem checkCondition_pending (lastC : TypedCopyAttr) (s : St) :
    (checkCondition lastC s).pending = s.pending := by
  unfold checkCondition
  dsimp only
  split <;> split_ifs <;> rfl

theorem traverseArms_pmono {trav : Trav} (he : TravMono trav) (A B : SExpr)
    (Tb Eb Cont : Nat) (CurrCont : Option Nat) (s : St)
    {a : List PendingBlock × List Nat × List (Nat × Nat)} (h : PMono a s.pending) :
    PMono a (traverseArms trav A B Tb Eb Cont CurrCont s).pending := by
  unfold traverseArms
  dsimp only
  show PMono a (trav B .TRV_Tail _).2.pending
  apply he
  show PMono a ((trav A .TRV_Tail _).2.beginBlock Eb).pending
  rw [St.pending_beginBlock]
  apply he
  show PMono a (s.beginBlock Tb).pending
  rw [St.pending_beginBlock]
  exact h

theorem beginJoin_pending (Cont : Nat) (s : St) :
    (beginJoin Cont s).2.pending = s.pending := by
  unfold beginJoin
  dsimp only
  split
  · split_ifs
    · exact St.pending_beginBlock _ _
    · exact St.pending_beginBlock _ _
  · exact St.pending_beginBlock _ _

theorem traverseBranches_pmono {trav : Trav} (he : TravMono trav) (Nc : Option SExpr)
    (A B : SExpr) (s : St) {a : List PendingBlock × List Nat × List (Nat × Nat)}
    (h : PMono a s.pending) : PMono a (traverseBranches trav Nc A B s).2.pending := by
  have h1 : PMono a (((s.newBlock 0).2.newBlock 0).2.newBranch Nc (s.newBlock 0).1
      ((s.newBlock 0).2.newBlock 0).1).pending := by
    rw [St.newBranch, St.pending_finishBlock]
    exact h
  unfold traverseBranches
  dsimp only
  split
  · exact traverseArms_pmono he _ _ _ _ _ _ _ h1
  · rw [beginJoin_pending]
    exact traverseArms_pmono he _ _ _ _ _ _ _ h1

theorem traverseIfThenElse_pmono {trav : Trav} (he : TravMono trav) (Orig : SExpr) (s : St)
    {a : List PendingBlock × List Nat × List (Nat × Nat)} (h : PMono a s.pending) :
    PMono a (traverseIfThenElse trav Orig s).2.pending := by
  unfold traverseIfThenElse
  split
  · rename_i c A B
    have h1 : PMono a (checkCondition (trav c .TRV_Arg s).1 (trav c .TRV_Arg s).2).pending := by
      rw [checkCondition_pending]
      exact he _ _ _ _ h
    dsimp only
    split
    · split_ifs
      · exact he _ _ _ _ h1
      · exact he _ _ _ _ h1
    · split_ifs
      · unfold reduceIfThenElse
        split
        · exact he _ _ _ _ (he _ _ _ _ h1)
        · exact he _ _ _ _ (he _ _ _ _ h1)
      · exact traverseBranches_pmono he _ _ _ _ h1
  · exact h

theorem superTraverse_pmono {trav : Trav} (R : TypeRules) (he : TravMono trav) (e : SExpr)
    (s : St) {a : List PendingBlock × List Nat × List (Nat × Nat)} (h : PMono a s.pending) :
    PMono a (superTraverse R trav e s).2.pending := by
  unfold superTraverse
  split
  · exact h
  · exact h
  · exact reduceVariable_pmono R he _ _ h
  · dsimp only
    rw [reduceUnaryOp_pending]
    exact he _ _ _ _ h
  · dsimp only
    rw [reduceBinaryOp_pending]
    exact he _ _ _ _ (he _ _ _ _ h)
  · dsimp only
    exact reduceCall_pmono he _ _ (he _ _ _ _ h)
  · exact traverseLet_pmono he _ _ h
  · exact traverseIfThenElse_pmono he _ _ h
  · exact traverseCode_pmono he _ _ h
  · exact traverseCode_pmono he _ _ h
  · dsimp only
    exact reduceApply_pmono he _ _ _ _ (he _ _ _ _ (he _ _ _ _ h))
  · dsimp only
    exact reduceApply_pmono he _ _ _ _ (he _ _ _ _ h)
  · dsimp only
    exact reduceProject_pmono he _ _ _ (he _ _ _ _ h)
  · dsimp only
    exact reduceLoad_pmono he _ _ (he _ _ _ _ h)
  · dsimp only
    rw [reduceAlloc_pending]
    exact he _ _ _ _ h
  · exact reduceIdentifier_pmono R he _ _ h
  · exact traverseFunction_pmono he _ _ h
  · exact traverseRecord_pmono he _ _ h
  · exact traverseField_pmono he _ _ h
  · exact traverseSlot_pmono he _ _ h
  · exact he _ _ _ _ h
  · exact h
  · exact h
  · exact h

theorem traverseEnter_pending (k : TraversalKind) (s : St) :
    (traverseEnter k s).pending = s.pending := by
  unfold traverseEnter
  dsimp only
  split_ifs <;> rfl

theorem traverseRestore_pending (cont : Option Nat) (plen : Nat) (k : TraversalKind) (s : St) :
    (traverseRestore cont plen k s).pending = s.pending := by
  unfold traverseRestore
  dsimp only
  split_ifs <;> rfl

theorem traverseExit_pending (cont : Option Nat) (plen : Nat) (k : TraversalKind)
    (r : Result) : (traverseExit cont plen k r).2.pending = r.2.pending := by
  obtain ⟨result, s⟩ := r
  have h := traverseRestore_pending cont plen k s
  unfold traverseExit
  dsimp only
  split
  · exact h
  · split
    · split_ifs
      · simp only [St.createGoto, St.newGoto, St.pending_finishBlock,
          St.pending_addInstruction]
        exact h
      · simp only [St.pending_addInstruction]
        exact h
    · simp only [St.pending_addInstruction]
      exact h

/-- The driver changes the pending blocks in the way of `PMono`. -/
theorem traverse_pmono (R : TypeRules) (n : Nat) : TravMono (traverse R n) := by
  induction n with
  | zero => exact fun e k s a h => h
  | succ n ih =>
    intro e k s a h
    unfold traverse
    split_ifs
    · exact h
    · rw [traverseExit_pending]
      apply superTraverse_pmono R ih
      rw [traverseEnter_pending]
      exact h

/-- The driver changes the pending blocks in the way of `Mono`. -/
theorem traverse_mono (R : TypeRules) (n : Nat) (e : SExpr) (k : TraversalKind) (s : St) :
    Mono s (traverse R n e k s).2 :=
  traverse_pmono R n e k s _ (PMono.pm_refl _)


/-! ### C32 and C35: the end of the pending blocks -/

/-- With an empty queue the loop of `processPendingBlocks` does nothing. -/
theorem drainPendingBlocks_nil (R : TypeRules) (n : Nat) (s : St)
    (hq : s.PendingBlockQueue = []) : drainPendingBlocks R n s = (true, s) := by
  cases n <;> unfold drainPendingBlocks <;> split
  · rfl
  · rename_i h; rw [hq] at h; cases h
  · rfl
  · rename_i h; rw [hq] at h; cases h

/-- One round of the loop of `processPendingBlocks`. -/
theorem drainPendingBlocks_cons (R : TypeRules) (n : Nat) (s : St) (i : Nat) (q : List Nat)
    (Pb : PendingBlock) (body : SExpr) (hq : s.PendingBlockQueue = i :: q)
    (hp : s.PendingBlks[i]? = some Pb) (hb : Pb.Exp = some body) :
    drainPendingBlocks R (n + 1) s =
      drainPendingBlocks R n
        ((traverse R n body .TRV_Tail
          ((({ s with PendingBlockQueue := q } : St).beginBlock Pb.Block).switchScope
            (Pb.Scope.setCurrentContinuation Pb.Cont)).2).2.restoreScope s.scope) := by
  rw [drainPendingBlocks]
  split
  · rename_i h; rw [hq] at h; cases h
  · rename_i i0 q0 h
    rw [hq] at h
    cases h
    dsimp only
    rw [hp]
    dsimp only
    rw [hb]
    dsimp only [St.switchScope]
    rw [St.scope_beginBlock]

/-- The function `processPendingBlocks` is its loop followed, if the loop drained the
queue, by the clearing of the list of pending blocks. -/
theorem processPendingBlocks_eq_drain (R : TypeRules) (n : Nat) (s : St) :
    processPendingBlocks R n s =
      if (drainPendingBlocks R n s).1 = true then
        { (drainPendingBlocks R n s).2 with PendingBlks := [] }
      else (drainPendingBlocks R n s).2 := by
  induction n generalizing s with
  | zero =>
    unfold processPendingBlocks drainPendingBlocks
    split <;> rfl
  | succ n ih =>
    unfold processPendingBlocks drainPendingBlocks
    split
    · rfl
    · dsimp only
      split
      · rfl
      · exact ih _

/-- The loop of `processPendingBlocks` clears no log. -/
theorem drainPendingBlocks_sound (R : TypeRules) (n : Nat) (s : St)
    (hc : (drainPendingBlocks R n s).2.sound) : s.sound := by
  have h := processPendingBlocks_eq_drain R n s
  apply processPendingBlocks_sound R n s
  rw [h]
  split_ifs
  · exact hc
  · exact hc

/-- A traversal that extends the view keeps the fact that every pending block with a
continuation waits in the queue or has had its entry block begun. -/
theorem St.Done.step {s t : St} (hd : s.Done) (hm : Mono s t) (he : s.view.Ext t.view) :
    t.Done := by
  intro i P' hP' hc
  cases hs : s.PendingBlks[i]? with
  | none =>
    rcases hm.fresh i P' hP' hs with h | h
    · rw [h] at hc
      cases hc
    · exact Or.inl h
  | some P =>
    obtain ⟨P2, hP2, hb, -, hcont⟩ := hm.pend i P hs
    have hP2' : t.PendingBlks[i]? = some P2 := hP2
    rw [hP'] at hP2'
    cases hP2'
    rcases hcont with h | ⟨-, -, h⟩
    · rcases hd i P hs (h ▸ hc) with h1 | ⟨B, hB, h1⟩
      · exact Or.inl (hm.queue i h1)
      · have hv : s.view.blocks[P.Block]? = some B.view := by simp [St.view, hB]
        obtain ⟨B', hB', hbeg, -, -⟩ := he.block _ _ hv
        have hB'' : (t.blocks[P'.Block]?).map BasicBlock.view = some B' := by
          rw [hb]
          simpa [St.view] using hB'
        cases htb : t.blocks[P'.Block]? with
        | none => rw [htb] at hB''; cases hB''
        | some Bt =>
          rw [htb] at hB''
          refine Or.inr ⟨Bt, rfl, ?_⟩
          have : Bt.view = B' := by simpa using hB''
          have hbv : Bt.begun = B'.begun := by rw [← this]; rfl
          rw [hbv, hbeg]
          exact h1
    · exact Or.inl h

/-- Taking the first pending block off the queue and beginning its entry block keeps the
fact that every pending block with a continuation waits in the queue or has had its entry
block begun. -/
theorem St.Done.begin {s : St} (hd : s.Done) (hw : s.view.WF) (hcur : s.currentBB = none)
    (i : Nat) (q : List Nat) (hq : s.PendingBlockQueue = i :: q) (Pb : PendingBlock)
    (hp : s.PendingBlks[i]? = some Pb) :
    (({ s with PendingBlockQueue := q } : St).beginBlock Pb.Block).Done := by
  have hst : ({ s with PendingBlockQueue := q } : St).beginBlock Pb.Block =
      { s with PendingBlockQueue := q, currentBB := some Pb.Block,
               blocks := s.blocks.modify (fun B => { B with begun := B.begun + 1 }) Pb.Block } := by
    unfold St.beginBlock
    rw [show ({ s with PendingBlockQueue := q } : St).currentBB = s.currentBB from rfl, hcur]
  rw [hst]
  have hPv : s.view.pend[i]? = some (Pb.Block, Pb.Cont) := by simp [St.view, hp]
  obtain ⟨Bv, hBv, h0⟩ := hw.pend_fresh i _ hPv (Or.inr (by
    show i ∈ s.PendingBlockQueue
    rw [hq]; exact List.mem_cons_self _ _))
  intro j P hP hc
  have hP' : s.PendingBlks[j]? = some P := hP
  by_cases hji : j = i
  · subst hji
    rw [hp] at hP'
    cases hP'
    have hB : (s.blocks[Pb.Block]?).map BasicBlock.view = some Bv := by
      simpa [St.view] using hBv
    cases hsb : s.blocks[Pb.Block]? with
    | none => rw [hsb] at hB; cases hB
    | some B =>
      rw [hsb] at hB
      have hbv : B.view = Bv := by simpa using hB
      refine Or.inr ⟨{ B with begun := B.begun + 1 }, ?_, ?_⟩
      · show (s.blocks.modify _ Pb.Block)[Pb.Block]? = _
        rw [List.getElem?_modify_eq, hsb]
        rfl
      · have : B.begun = Bv.begun := by rw [← hbv]; rfl
        show B.begun + 1 = 1
        rw [this, h0]
  · rcases hd j P hP' hc with h1 | ⟨B, hB, h1⟩
    · left
      show j ∈ q
      rw [hq] at h1
      rcases List.mem_cons.mp h1 with h | h
      · exact absurd h hji
      · exact h
    · right
      have hPjv : s.view.pend[j]? = some (P.Block, P.Cont) := by simp [St.view, hP']
      have hne : Pb.Block ≠ P.Block := fun e =>
        hji (hw.pend_inj j i _ _ hPjv hPv e.symm)
      refine ⟨B, ?_, h1⟩
      show (s.blocks.modify _ Pb.Block)[P.Block]? = _
      rw [List.getElem?_modify_ne _ _ hne]
      exact hB

/-- The loop of `processPendingBlocks` from a disciplined state in which no block is open
and every pending block with a continuation waits in the queue or is begun: in a sound run
the loop drains the queue, and the final state is such a state again. -/
theorem drainPendingBlocks_spec (R : TypeRules) (n : Nat) (s : St) (hw : s.view.WF)
    (hcur : s.currentBB = none) (hd : s.Done) (hc : (drainPendingBlocks R n s).2.sound) :
    (drainPendingBlocks R n s).1 = true ∧ (drainPendingBlocks R n s).2.view.WF ∧
    (drainPendingBlocks R n s).2.currentBB = none ∧ (drainPendingBlocks R n s).2.Done ∧
    (drainPendingBlocks R n s).2.PendingBlockQueue = [] := by
  induction n generalizing s with
  | zero =>
    cases hq : s.PendingBlockQueue with
    | nil =>
      rw [drainPendingBlocks_nil R 0 s hq]
      exact ⟨rfl, hw, hcur, hd, hq⟩
    | cons i q =>
      unfold drainPendingBlocks at hc
      split at hc
      · rename_i h; rw [hq] at h; cases h
      · exact absurd hc.2 (by simp)
  | succ n ih =>
    cases hq : s.PendingBlockQueue with
    | nil =>
      rw [drainPendingBlocks_nil R (n + 1) s hq]
      exact ⟨rfl, hw, hcur, hd, hq⟩
    | cons i q =>
      cases hp : s.PendingBlks[i]? with
      | none =>
        exfalso
        rw [drainPendingBlocks] at hc
        split at hc
        · rename_i h; rw [hq] at h; cases h
        · rename_i i0 q0 h
          rw [hq] at h
          cases h
          dsimp only at hc
          rw [hp] at hc
          exact absurd hc (St.sound_assertFail _ _)
      | some Pb =>
        cases hb : Pb.Exp with
        | none =>
          exfalso
          rw [drainPendingBlocks] at hc
          split at hc
          · rename_i h; rw [hq] at h; cases h
          · rename_i i0 q0 h
            rw [hq] at h
            cases h
            dsimp only at hc
            rw [hp] at hc
            dsimp only at hc
            rw [hb] at hc
            have := drainPendingBlocks_sound R n _ hc
            simp only [St.sound_restoreScope, St.sound_assertFail] at this
        | some body =>
          rw [drainPendingBlocks_cons R n s i q Pb body hq hp hb] at hc ⊢
          have hc3 := drainPendingBlocks_sound R n _ hc
          simp only [St.sound_restoreScope] at hc3
          have hP : s.view.pend[i]? = some (Pb.Block, Pb.Cont) := by
            simp [St.view, hp]
          obtain ⟨b1, b2⟩ := hw.beginPending hcur i q hq (Pb.Block, Pb.Cont) hP
          have hv : (({ s with PendingBlockQueue := q } : St).beginBlock Pb.Block).view =
              { s.view with queue := q, cur := some Pb.Block,
                            blocks := s.view.blocks.modify
                              (fun B => { B with begun := B.begun + 1 }) Pb.Block } :=
            St.view_beginBlock _ _ hcur
          obtain ⟨w1, w2, w3⟩ := (TravOK_traverse R n).wf body .TRV_Tail _ hc3
            (by rw [St.view_switchScope, hv]; exact b1)
            (by
              show (({ s with PendingBlockQueue := q } : St).beginBlock Pb.Block).currentBB.isSome
                = true
              simp [St.beginBlock, hcur])
          rw [if_pos ⟨rfl, b2⟩] at w3
          have hd1 := hd.begin hw hcur i q hq Pb hp
          have hd2 : ((({ s with PendingBlockQueue := q } : St).beginBlock Pb.Block).switchScope
              (Pb.Scope.setCurrentContinuation Pb.Cont)).2.Done := hd1
          have hd3 := hd2.step (traverse_mono R n body .TRV_Tail _) w2
          exact ih _ (by rw [St.view_restoreScope]; exact w1) w3 hd3 hc



/-- What a call of `reduceNestedCall` does to a pending block `j` without continuation:
either the call is to `j` under a non-null continuation `c`, the continuation of `j` is
fixed to `c` and `j` is put at the end of the queue; or it is no such call, and the
pending block is as before and is not put on the queue. -/
theorem reduceNestedCall_first_call (Ca Res : TypedCopyAttr) (C : SExpr) (u : St) (j : Nat)
    (P : PendingBlock) (hP : u.PendingBlks[j]? = some P) (hc : P.Cont = none) :
    (∃ c, u.findCode C = some j ∧ u.currentContinuation = some c ∧
      (reduceNestedCall Ca Res C u).2.2.PendingBlks[j]? = some { P with Cont := some c } ∧
      (reduceNestedCall Ca Res C u).2.2.PendingBlockQueue = u.PendingBlockQueue ++ [j]) ∨
    (¬ (u.findCode C = some j ∧ u.currentContinuation.isSome = true) ∧
      (reduceNestedCall Ca Res C u).2.2.PendingBlks[j]? = some P ∧
      (j ∈ (reduceNestedCall Ca Res C u).2.2.PendingBlockQueue → j ∈ u.PendingBlockQueue)) := by
  obtain ⟨x, hx⟩ : ∃ x, u.findCode C = x := ⟨_, rfl⟩
  obtain ⟨k, hk⟩ : ∃ k, u.currentContinuation = k := ⟨_, rfl⟩
  unfold reduceNestedCall
  rw [hx, hk]
  cases x with
  | none => exact Or.inr ⟨fun h => (by cases h.1), hP, id⟩
  | some i =>
    dsimp only
    cases hp : u.PendingBlks[i]? with
    | none =>
      refine Or.inr ⟨fun h => ?_, hP, id⟩
      have hij : i = j := Option.some.inj h.1
      rw [hij, hP] at hp
      cases hp
    | some Pb =>
      dsimp only
      cases hcb : Pb.Cont with
      | none =>
        dsimp only
        cases k with
        | none => exact Or.inr ⟨fun h => (by cases h.2), hP, id⟩
        | some c =>
          dsimp only
          obtain ⟨g1, g2, -⟩ := nestedCallGoto_pending Ca Res Pb
            { u with PendingBlks := u.PendingBlks.set i { Pb with Cont := some c },
                     PendingBlockQueue := u.PendingBlockQueue ++ [i] }
          rw [g1, g2]
          by_cases hij : i = j
          · subst hij
            rw [hP] at hp
            cases hp
            have hi : i < u.PendingBlks.length := by
              by_contra hge
              rw [List.getElem?_eq_none (by omega)] at hP
              cases hP
            exact Or.inl ⟨c, rfl, rfl, List.getElem?_set_self hi, rfl⟩
          · refine Or.inr ⟨fun h => hij (Option.some.inj h.1), ?_, fun h => ?_⟩
            · show (u.PendingBlks.set i _)[j]? = some P
              rw [List.getElem?_set_ne hij]
              exact hP
            · rcases List.mem_append.mp h with h | h
              · exact h
              · exact absurd (List.mem_singleton.mp h).symm hij
      | some c' =>
        dsimp only
        have hij : i ≠ j := by
          intro hij
          rw [hij, hP] at hp
          cases hp
          rw [hc] at hcb
          cases hcb
        split_ifs
        · exact Or.inr ⟨fun h => hij (Option.some.inj h.1), hP, id⟩
        · obtain ⟨g1, g2, -⟩ := nestedCallGoto_pending Ca Res Pb u
          rw [g1, g2]
          exact Or.inr ⟨fun h => hij (Option.some.inj h.1), hP, id⟩


/-! ### C35: the life of a pending block -/

/-- C35: the life of a pending block.  In a conversion from a fresh evaluator that fails no
assertion and does not run out of fuel, `processPendingBlocks` is its loop followed by the
clearing of the list of pending blocks, the loop drains the queue, and for every pending
block the entry block is begun at most once, it is begun exactly when the continuation of
the pending block was fixed, it has as many terminators as it was begun, and a pending
block whose continuation is unset keeps its allocated block, never begun and without
terminator.  The continuation of a pending block without continuation is fixed by
`reduceNestedCall` exactly when the call is to that block under a non-null continuation,
and it is put on the queue then and only then. -/
theorem C35_pending_block_begun_iff_called (R : TypeRules) (fuel : Nat) (e : SExpr)
    (hc : (drainPendingBlocks R fuel
      (traverse R fuel e .TRV_Tail (enterCFG St.init)).2).2.sound) :
    convertSExprToCFG R fuel e St.init =
      { (drainPendingBlocks R fuel (traverse R fuel e .TRV_Tail (enterCFG St.init)).2).2 with
        PendingBlks := [] } ∧
    (drainPendingBlocks R fuel (traverse R fuel e .TRV_Tail (enterCFG St.init)).2).1 = true ∧
    (drainPendingBlocks R fuel
      (traverse R fuel e .TRV_Tail (enterCFG St.init)).2).2.PendingBlockQueue = [] ∧
    (∀ (i : Nat) (P : PendingBlock),
      (drainPendingBlocks R fuel
        (traverse R fuel e .TRV_Tail (enterCFG St.init)).2).2.PendingBlks[i]? = some P →
      ∃ B : BasicBlock,
        (drainPendingBlocks R fuel
          (traverse R fuel e .TRV_Tail (enterCFG St.init)).2).2.blocks[P.Block]? = some B ∧
        B.begun ≤ 1 ∧ (B.begun = 1 ↔ P.Cont.isSome = true) ∧
        B.terminators.length = B.begun ∧
        (P.Cont = none → B.begun = 0 ∧ B.terminators = [])) ∧
    (∀ (Ca Res : TypedCopyAttr) (C : SExpr) (u : St) (j : Nat) (P : PendingBlock),
      u.PendingBlks[j]? = some P → P.Cont = none →
      (∃ c, u.findCode C = some j ∧ u.currentContinuation = some c ∧
        (reduceNestedCall Ca Res C u).2.2.PendingBlks[j]? = some { P with Cont := some c } ∧
        (reduceNestedCall Ca Res C u).2.2.PendingBlockQueue = u.PendingBlockQueue ++ [j]) ∨
      (¬ (u.findCode C = some j ∧ u.currentContinuation.isSome = true) ∧
        (reduceNestedCall Ca Res C u).2.2.PendingBlks[j]? = some P ∧
        (j ∈ (reduceNestedCall Ca Res C u).2.2.PendingBlockQueue →
          j ∈ u.PendingBlockQueue))) := by
  have h1 := drainPendingBlocks_sound R fuel _ hc
  obtain ⟨w1, w2, w3⟩ := (TravOK_traverse R fuel).wf e .TRV_Tail (enterCFG St.init) h1
    enterCFG_init_WF (by decide)
  rw [if_pos ⟨rfl, by decide⟩] at w3
  have hd0 : (enterCFG St.init).Done := fun i P hP => by
    have : (enterCFG St.init).PendingBlks = [] := rfl
    rw [this] at hP
    simp at hP
  have hd1 := hd0.step (traverse_mono R fuel e .TRV_Tail _) w2
  obtain ⟨d1, d2, d3, d4, d5⟩ := drainPendingBlocks_spec R fuel _ w1 w3 hd1 hc
  refine ⟨?_, d1, d5, ?_, fun Ca Res C u j P hP hcn =>
    reduceNestedCall_first_call Ca Res C u j P hP hcn⟩
  · unfold convertSExprToCFG
    dsimp only
    rw [processPendingBlocks_eq_drain, if_pos d1]
  · generalize drainPendingBlocks R fuel
      (traverse R fuel e .TRV_Tail (enterCFG St.init)).2 = r at d1 d2 d3 d4 d5
    intro i P hP
    have hPv : r.2.view.pend[i]? = some (P.Block, P.Cont) := by simp [St.view, hP]
    have hlt := d2.pend_lt i _ hPv
    have hlt' : P.Block < r.2.blocks.length := by simpa [St.view] using hlt
    have hB : r.2.blocks[P.Block]? = some (r.2.blocks[P.Block]) :=
      List.getElem?_eq_getElem hlt'
    have hBv : r.2.view.blocks[P.Block]? = some (r.2.blocks[P.Block]).view := by
      simp [St.view, hB]
    obtain ⟨o1, o2⟩ := d2.once _ _ hBv
    change (r.2.blocks[P.Block]).begun ≤ 1 at o1
    change (r.2.blocks[P.Block]).terminators.length ≤ (r.2.blocks[P.Block]).begun at o2
    have hopen : (r.2.blocks[P.Block]).begun = 1 → (r.2.blocks[P.Block]).terminators ≠ [] :=
      fun hb ht => by
        have := d2.open_cur _ _ hBv hb ht
        rw [show r.2.view.cur = r.2.currentBB from rfl, d3] at this
        cases this
    have hiff : (r.2.blocks[P.Block]).begun = 1 ↔ P.Cont.isSome = true := by
      constructor
      · intro hb
        cases hPc : P.Cont with
        | some c => rfl
        | none =>
          obtain ⟨B', hB', h0⟩ := d2.pend_fresh i _ hPv (Or.inl hPc)
          rw [hBv] at hB'
          cases hB'
          change (r.2.blocks[P.Block]).begun = 0 at h0
          omega
      · intro hs
        rcases d4 i P hP hs with h | ⟨B, hB2, hb⟩
        · rw [d5] at h
          cases h
        · rw [hB] at hB2
          cases hB2
          exact hb
    have hlen : (r.2.blocks[P.Block]).terminators.length = (r.2.blocks[P.Block]).begun := by
      rcases Nat.le_one_iff_eq_zero_or_eq_one.mp o1 with h0 | h1'
      · omega
      · have := List.length_pos.mpr (hopen h1')
        omega
    refine ⟨_, hB, o1, hiff, hlen, fun hn => ?_⟩
    have h0 : (r.2.blocks[P.Block]).begun = 0 := by
      rcases Nat.le_one_iff_eq_zero_or_eq_one.mp o1 with h0 | h1'
      · exact h0
      · have := hiff.mp h1'
        rw [hn] at this
        cases this
    exact ⟨h0, List.length_eq_zero.mp (by omega)⟩

/-- C35 (witness): in the conversion of `(fun (n : int32) => code(int32) { n })(3)()` the
nested function has one parameter and is called in tail position with the argument 3.
The run is sound; the block of the nested function has one phi parameter, the entry block
jumps to it with the literal 3, and every block is begun once and terminated once. -/
theorem C35_pending_block_begun_iff_called_witness :
    (drainPendingBlocks widenRules 5
      (traverse widenRules 5 nestedParamCall .TRV_Tail (enterCFG St.init)).2).2.PendingBlks.map
        (fun P => (P.Block, P.Cont)) = [(2, some 1)] ∧
    (convertSExprToCFG widenRules 5 nestedParamCall St.init).blocks.map
      (fun B => (B.arguments, B.begun, B.terminators)) =
      [(0, 1, [.Goto 2 [some (.Literal BaseType.int32 3)]]),
        (1, 1, [.Return (some (St.phi 1 0))]),
        (1, 1, [.Goto 1 [some (St.phi 2 0)]])] ∧
    (convertSExprToCFG widenRules 5 nestedParamCall St.init).PendingBlks = [] ∧
    (drainPendingBlocks widenRules 5
      (traverse widenRules 5 nestedParamCall .TRV_Tail (enterCFG St.init)).2).1 = true :=
  ⟨by decide, by decide,
    by
      rw [(C35_pending_block_begun_iff_called widenRules 5 nestedParamCall
        ⟨by decide, by decide⟩).1],
    (C35_pending_block_begun_iff_called widenRules 5 nestedParamCall
      ⟨by decide, by decide⟩).2.1⟩


/-! ### C32: the state after the pending blocks are processed -/

/-- The loop of `processPendingBlocks`, whatever its outcome: the scope in force is
restored, and the pending index keeps every entry it had. -/
theorem drainPendingBlocks_frame (R : TypeRules) (n : Nat) (s : St) :
    (drainPendingBlocks R n s).2.scope = s.scope ∧
    s.CodeMap <+: (drainPendingBlocks R n s).2.CodeMap := by
  induction n generalizing s with
  | zero =>
    unfold drainPendingBlocks
    split
    · exact ⟨rfl, List.prefix_refl _⟩
    · exact ⟨rfl, List.prefix_refl _⟩
  | succ n ih =>
    cases hq : s.PendingBlockQueue with
    | nil =>
      rw [drainPendingBlocks_nil R (n + 1) s hq]
      exact ⟨rfl, List.prefix_refl _⟩
    | cons i q =>
      have hcm : ∀ b : Nat,
          (({ s with PendingBlockQueue := q } : St).beginBlock b).CodeMap = s.CodeMap := by
        intro b
        unfold St.beginBlock
        split <;> rfl
      cases hp : s.PendingBlks[i]? with
      | none =>
        rw [drainPendingBlocks]
        split
        · rename_i h; rw [hq] at h; cases h
        · rename_i i0 q0 h
          rw [hq] at h
          cases h
          dsimp only
          rw [hp]
          exact ⟨rfl, List.prefix_refl _⟩
      | some Pb =>
        cases hb : Pb.Exp with
        | none =>
          rw [drainPendingBlocks]
          split
          · rename_i h; rw [hq] at h; cases h
          · rename_i i0 q0 h
            rw [hq] at h
            cases h
            dsimp only
            rw [hp]
            dsimp only
            rw [hb]
            obtain ⟨h1, h2⟩ := ih
              ((((({ s with PendingBlockQueue := q } : St).beginBlock Pb.Block).switchScope
                (Pb.Scope.setCurrentContinuation Pb.Cont)).2.assertFail "null body").restoreScope
                (({ s with PendingBlockQueue := q } : St).beginBlock Pb.Block).scope)
            refine ⟨h1.trans (St.scope_beginBlock _ _), List.IsPrefix.trans ?_ h2⟩
            show s.CodeMap <+:
              (({ s with PendingBlockQueue := q } : St).beginBlock Pb.Block).CodeMap
            rw [hcm]
        | some body =>
          rw [drainPendingBlocks_cons R n s i q Pb body hq hp hb]
          obtain ⟨h1, h2⟩ := ih
            ((traverse R n body .TRV_Tail
              ((({ s with PendingBlockQueue := q } : St).beginBlock Pb.Block).switchScope
                (Pb.Scope.setCurrentContinuation Pb.Cont)).2).2.restoreScope s.scope)
          refine ⟨h1, List.IsPrefix.trans ?_ h2⟩
          have hm := (traverse_mono R n body .TRV_Tail
            ((({ s with PendingBlockQueue := q } : St).beginBlock Pb.Block).switchScope
              (Pb.Scope.setCurrentContinuation Pb.Cont)).2).codeMap
          change (({ s with PendingBlockQueue := q } : St).beginBlock Pb.Block).CodeMap <+: _ at hm
          rw [hcm] at hm
          exact hm

/-- In a sound run the loop of `processPendingBlocks` drains the queue. -/
theorem drainPendingBlocks_drained (R : TypeRules) (n : Nat) (s : St)
    (hc : (drainPendingBlocks R n s).2.sound) :
    (drainPendingBlocks R n s).1 = true ∧
    (drainPendingBlocks R n s).2.PendingBlockQueue = [] := by
  induction n generalizing s with
  | zero =>
    unfold drainPendingBlocks at hc ⊢
    split
    · rename_i h
      exact ⟨rfl, h⟩
    · rename_i h
      rw [h] at hc
      exact absurd hc.2 (by simp)
  | succ n ih =>
    unfold drainPendingBlocks at hc ⊢
    split
    · rename_i h
      exact ⟨rfl, h⟩
    · rename_i i q h
      rw [h] at hc
      dsimp only at hc ⊢
      split
      · rename_i hp
        rw [hp] at hc
        exact absurd hc (St.sound_assertFail _ _)
      · rename_i Pb hp
        rw [hp] at hc
        exact ih _ hc

/-- C32 (as stated, refuted): the pending index is not discarded.  After the pending
blocks of `nestedCalled` are processed, the queue and the list of pending blocks are
empty, but the pending index still holds the entry of the nested function, which refers
to the pending block 0 of the finished graph, and the lookup of the code value still
yields it. -/
theorem C32_pending_index_not_discarded :
    (processPendingBlocks widenRules 3 nestedCalled.2).failed = [] ∧
    (processPendingBlocks widenRules 3 nestedCalled.2).fuelOut = false ∧
    nestedCalled.2.PendingBlks.length = 1 ∧
    (processPendingBlocks widenRules 3 nestedCalled.2).PendingBlockQueue = [] ∧
    (processPendingBlocks widenRules 3 nestedCalled.2).PendingBlks.length = 0 ∧
    (processPendingBlocks widenRules 3 nestedCalled.2).CodeMap = [(0, 0)] ∧
    (processPendingBlocks widenRules 3 nestedCalled.2).findCode
      (.CodeDecl 0 (.ScalarType BaseType.int32)) = some 0 := by
  decide

/-- C32 (amended): when `processPendingBlocks` returns, no assertion having failed and
the fuel not having run out, the pending queue is empty, the list of pending blocks is
empty, and the scope in force is the one that was in force before the call; the pending
index is not discarded: it keeps every entry it had before the call. -/
theorem C32_processPendingBlocks_final_state (R : TypeRules) (n : Nat) (s : St)
    (hc : (processPendingBlocks R n s).sound) :
    (processPendingBlocks R n s).PendingBlockQueue = [] ∧
    (processPendingBlocks R n s).PendingBlks = [] ∧
    (processPendingBlocks R n s).scope = s.scope ∧
    s.CodeMap <+: (processPendingBlocks R n s).CodeMap := by
  have hd : (drainPendingBlocks R n s).2.sound := by
    rw [processPendingBlocks_eq_drain] at hc
    split_ifs at hc
    · exact hc
    · exact hc
  obtain ⟨h1, h2⟩ := drainPendingBlocks_drained R n s hd
  obtain ⟨h3, h4⟩ := drainPendingBlocks_frame R n s
  rw [processPendingBlocks_eq_drain, if_pos h1]
  exact ⟨h2, rfl, h3, h4⟩

/-- C32 (witness): the pending blocks of `nestedCalled` are processed in a sound run. -/
theorem C32_processPendingBlocks_final_state_witness :
    (processPendingBlocks widenRules 3 nestedCalled.2).sound ∧
    (processPendingBlocks widenRules 3 nestedCalled.2).PendingBlockQueue = [] ∧
    (processPendingBlocks widenRules 3 nestedCalled.2).PendingBlks = [] ∧
    (processPendingBlocks widenRules 3 nestedCalled.2).scope = nestedCalled.2.scope ∧
    nestedCalled.2.CodeMap <+: (processPendingBlocks widenRules 3 nestedCalled.2).CodeMap :=
  ⟨⟨by decide, by decide⟩,
    C32_processPendingBlocks_final_state widenRules 3 nestedCalled.2 ⟨by decide, by decide⟩⟩


/-! ### C40: the sidecar array -/

/-- The last loop of `buildBlockSidecarArray` keeps the block and the entry block of
every sidecar. -/
theorem neighborRanges_keys (prev : Nat) (l : List BlockSidecar) :
    (neighborRanges prev l).map (fun s => (s.basicBlock, s.entryBlockID)) =
      l.map (fun s => (s.basicBlock, s.entryBlockID)) := by
  induction l generalizing prev with
  | nil => rfl
  | cons s rest ih =>
    unfold neighborRanges
    simp only [List.map_cons]
    rw [ih]

/-- For a module of one graph, whose blocks are fewer than `2 ^ 32`, the function array
is the range of that graph, no block list is read out of range, and the sidecar at the
index `g` refers to the block `g` of the graph and records the entry block 0. -/
theorem buildBlockSidecarArray_single (cfg : List TilBlock) (h : cfg.length < 2 ^ 32) :
    buildFunctionArray [cfg] = [⟨0, cfg.length⟩] ∧
    (buildBlockSidecarArray [cfg] (buildFunctionArray [cfg])).outOfRange = [] ∧
    (buildBlockSidecarArray [cfg] (buildFunctionArray [cfg])).sidecars.map
        (fun s => (s.basicBlock, s.entryBlockID)) =
      (List.range cfg.length).map (fun (g : Nat) => (((0 : Nat), (g : Int)), (0 : Nat))) := by
  have hf : buildFunctionArray [cfg] = [⟨0, cfg.length⟩] := by
    show [(⟨0, uint cfg.length⟩ : Range)] = _
    unfold uint
    rw [Nat.mod_eq_of_lt h]
  refine ⟨hf, ?_⟩
  rw [hf]
  have hfill : fillAll 0 [cfg] [⟨0, cfg.length⟩]
      ⟨List.replicate cfg.length BlockSidecar.fresh, []⟩ =
      fillSidecars 0 cfg 0 ⟨List.replicate cfg.length BlockSidecar.fresh, []⟩ := rfl
  have hin : ∀ g ∈ List.range cfg.length,
      (blockAt cfg ((g : Int) - ((0 : Nat) : Int))).isNone = false := by
    intro g hg
    have hg' : g < cfg.length := List.mem_range.mp hg
    simp [blockAt, hg']
  have hout : (fillSidecars 0 cfg 0
      ⟨List.replicate cfg.length BlockSidecar.fresh, []⟩).outOfRange = [] := by
    simp only [fillSidecars, List.length_replicate, List.nil_append, List.map_eq_nil_iff,
      List.filter_eq_nil_iff]
    intro g hg
    rw [hin g hg]
    simp
  have hkeys : (fillSidecars 0 cfg 0
      ⟨List.replicate cfg.length BlockSidecar.fresh, []⟩).sidecars.map
        (fun s => (s.basicBlock, s.entryBlockID)) =
      (List.range cfg.length).map (fun (g : Nat) => (((0 : Nat), (g : Int)), (0 : Nat))) := by
    apply List.ext_getElem?
    intro g
    simp only [fillSidecars, List.getElem?_map, List.getElem?_enum]
    by_cases hg : g < cfg.length
    · rw [List.getElem?_replicate, if_pos hg, List.getElem?_range hg]
      simp only [Option.map_some']
      have : (blockAt cfg ((g : Int) - ((0 : Nat) : Int))).isNone = false :=
        hin g (List.mem_range.mpr hg)
      unfold fillSidecar
      cases hb : blockAt cfg ((g : Int) - ((0 : Nat) : Int)) with
      | none => rw [hb] at this; cases this
      | some b => simp
    · rw [List.getElem?_replicate, if_neg hg,
        List.getElem?_eq_none (by simpa using hg)]
      rfl
  unfold buildBlockSidecarArray
  simp only [List.getLast?_singleton, Option.map_some', Option.getD_some]
  rw [hfill]
  cases hs : (fillSidecars 0 cfg 0
      ⟨List.replicate cfg.length BlockSidecar.fresh, []⟩).sidecars with
  | nil =>
    rw [hs] at hkeys
    exact ⟨hout, by rw [hs]; exact hkeys⟩
  | cons s0 rest =>
    rw [hs] at hkeys
    refine ⟨hout, ?_⟩
    simp only [List.map_cons, neighborRanges_keys]
    exact hkeys

/-- C40 (the code at the failing input): a module of two graphs of one block each.  The
function array is right, with the ranges 0 .. 1 and 1 .. 2; but the inner loop of
`buildBlockSidecarArray` runs over the whole sidecar array for every graph, so the block
list of the graph 0 is read at the index 1 and that of the graph 1 at the index -1, both
out of range, and the sidecar 0, which lies in the range of the function 0, is left
referring to the graph 1 at the index -1 with the entry block 1. -/
theorem C40_sidecars_of_two_graphs :
    buildFunctionArray [[returnBlock], [returnBlock]] = [⟨0, 1⟩, ⟨1, 2⟩] ∧
    (buildBlockSidecarArray [[returnBlock], [returnBlock]]
      (buildFunctionArray [[returnBlock], [returnBlock]])).outOfRange = [(0, 1), (1, -1)] ∧
    (buildBlockSidecarArray [[returnBlock], [returnBlock]]
      (buildFunctionArray [[returnBlock], [returnBlock]])).sidecars.map
        (fun s => (s.basicBlock, s.entryBlockID)) = [((1, -1), 1), ((1, 0), 1)] := by
  decide

/-! ### C39: the store of a literal into the constant data -/

/-- The store of a literal of 8 bits at `addr`: the byte of the value is stored at
`addr`, and the byte that follows it in the literal is stored at `addr + 1`. -/
theorem storeLiteral_ST_8 (next : Nat) (literal : SExpr) (addr : Nat) (d : ConstData)
    (h : literal.baseType.Size = .ST_8) :
    storeLiteral next literal addr d =
      (((d.storeByte addr (literal.literalValue % 256).toNat).storeByte addr
        (literal.literalValue % 256).toNat).storeByte (addr + 1) next) := by
  unfold storeLiteral
  rw [h]
  rfl

/-- The store of a literal of 16, 32 or 64 bits: the bytes of its value at its own size
are stored from `addr` on, and nothing else. -/
theorem storeLiteral_wider (next : Nat) (literal : SExpr) (addr : Nat) (d : ConstData) :
    (literal.baseType.Size = .ST_16 →
      storeLiteral next literal addr d = d.store addr (bytesOf 2 literal.literalValue)) ∧
    (literal.baseType.Size = .ST_32 →
      storeLiteral next literal addr d = d.store addr (bytesOf 4 literal.literalValue)) ∧
    (literal.baseType.Size = .ST_64 →
      storeLiteral next literal addr d = d.store addr (bytesOf 8 literal.literalValue)) := by
  refine ⟨fun h => ?_, fun h => ?_, fun h => ?_⟩ <;>
  · unfold storeLiteral
    rw [h]

/-- C39 (the code at the failing input): a pool that holds one literal of 8 bits, of
value 7.  Its entry is the range 0 .. 1 and the buffer has one byte; the store writes the
byte 7 at the offset 0 and, the case `ST_8` falling into the case `ST_16`, a second byte
at the offset 1, past the end of the buffer.  In a pool where a literal of 32 bits
follows, the second byte lands at the offset 1 of the buffer, outside the entry 0 .. 1 of
the literal. -/
theorem C39_byte_literal_stores_two_bytes :
    buildConstData 255 [.Literal BaseType.int8 7] =
      .ok ([⟨⟨0, 1⟩, 1⟩], ⟨[7], [(1, 255)]⟩) ∧
    buildConstData 255 [.Literal BaseType.int8 7, .Literal BaseType.int32 5] =
      .ok ([⟨⟨0, 1⟩, 1⟩, ⟨⟨4, 8⟩, 4⟩], ⟨[7, 255, 0, 0, 5, 0, 0, 0], []⟩) :=
  ⟨rfl, rfl⟩


/-! ### C38: the cursor of the literal array -/

/-- An instruction that `countBlockLiterals` accepts is accepted by
`buildBlockLiteralsArray`, which stores as many literals as the former counts. -/
theorem buildInstrLiterals_of_count (instr : SExpr) (c : Nat) (literal : List SExpr)
    (h : countInstrLiterals instr = .ok c) :
    ∃ out, buildInstrLiterals literal instr = .ok (literal ++ out) ∧ out.length = c := by
  cases instr <;> cases h
  · rename_i bt op e
    by_cases he : e.isLiteral = true
    · exact ⟨[e], by simp [buildInstrLiterals, he, pure, Except.pure], by simp [he]⟩
    · exact ⟨[], by simp [buildInstrLiterals, he, pure, Except.pure], by simp [he]⟩
  · rename_i bt op e0 e1
    by_cases h0 : e0.isLiteral = true <;> by_cases h1 : e1.isLiteral = true
    · exact ⟨[e0, e1], by simp [buildInstrLiterals, h0, h1, pure, Except.pure], by simp [h0, h1]⟩
    · exact ⟨[e0], by simp [buildInstrLiterals, h0, h1, pure, Except.pure], by simp [h0, h1]⟩
    · exact ⟨[e1], by simp [buildInstrLiterals, h0, h1, pure, Except.pure], by simp [h0, h1]⟩
    · exact ⟨[], by simp [buildInstrLiterals, h0, h1, pure, Except.pure], by simp [h0, h1]⟩
  · exact ⟨[], by simp [buildInstrLiterals, pure, Except.pure], rfl⟩

/-- The loops over the instructions agree. -/
theorem buildInstrsLiterals_of_count (instrs : List SExpr) (n c : Nat) (literal : List SExpr)
    (h : countInstrsLiterals instrs n = .ok c) :
    ∃ out, buildInstrsLiterals instrs literal = .ok (literal ++ out) ∧ n + out.length = c := by
  induction instrs generalizing n literal with
  | nil =>
    cases h
    exact ⟨[], by simp [buildInstrsLiterals, pure, Except.pure], rfl⟩
  | cons instr rest ih =>
    rw [countInstrsLiterals] at h
    cases hci : countInstrLiterals instr with
    | error e =>
      rw [hci] at h
      cases h
    | ok ci =>
      rw [hci] at h
      obtain ⟨o1, h1, l1⟩ := buildInstrLiterals_of_count instr ci literal hci
      obtain ⟨o2, h2, l2⟩ := ih (n + ci) (literal ++ o1) h
      refine ⟨o1 ++ o2, ?_, ?_⟩
      · rw [buildInstrsLiterals, h1]
        show buildInstrsLiterals rest (literal ++ o1) = _
        rw [h2, List.append_assoc]
      · rw [List.length_append]
        omega

/-- A block on which `countBlockLiterals` succeeds: `buildBlockLiteralsArray` succeeds on
it from every cursor, and advances the cursor by the count. -/
theorem buildBlockLiteralsArray_of_count (basicBlock : TilBlock) (c : Nat)
    (literal : List SExpr) (h : countBlockLiterals basicBlock = .ok c) :
    ∃ out, buildBlockLiteralsArray basicBlock literal = .ok (literal ++ out) ∧
      out.length = c := by
  rw [countBlockLiterals] at h
  cases hci : countInstrsLiterals basicBlock.instructions 0 with
  | error e =>
    rw [hci] at h
    cases h
  | ok ci =>
    rw [hci] at h
    obtain ⟨o1, h1, l1⟩ := buildInstrsLiterals_of_count _ 0 ci literal hci
    rw [buildBlockLiteralsArray, h1]
    cases ht : basicBlock.terminator with
    | none =>
      rw [ht] at h
      cases h
    | some t =>
      rw [ht] at h
      cases t with
      | Goto target args =>
        cases h
        exact ⟨o1, rfl, by omega⟩
      | Branch cond t e =>
        cases cond with
        | none => cases h
        | some x =>
          by_cases hx : x.isLiteral = true
          · have : c = ci + 1 := by
              have h' : (Except.ok (if x.isLiteral = true then ci + 1 else ci) :
                Except Failure Nat) = .ok c := h
              rw [if_pos hx] at h'
              cases h'
              rfl
            refine ⟨o1 ++ [x], ?_, by rw [List.length_append]; simp; omega⟩
            show (Except.ok (if x.isLiteral = true then literal ++ o1 ++ [x] else literal ++ o1) :
              Except Failure (List SExpr)) = _
            rw [if_pos hx, List.append_assoc]
          · have : c = ci := by
              have h' : (Except.ok (if x.isLiteral = true then ci + 1 else ci) :
                Except Failure Nat) = .ok c := h
              rw [if_neg hx] at h'
              cases h'
              rfl
            refine ⟨o1, ?_, by omega⟩
            show (Except.ok (if x.isLiteral = true then literal ++ o1 ++ [x] else literal ++ o1) :
              Except Failure (List SExpr)) = _
            rw [if_neg hx]
      | Return value =>
        cases value with
        | none => cases h
        | some x =>
          by_cases hx : x.isLiteral = true
          · have : c = ci + 1 := by
              have h' : (Except.ok (if x.isLiteral = true then ci + 1 else ci) :
                Except Failure Nat) = .ok c := h
              rw [if_pos hx] at h'
              cases h'
              rfl
            refine ⟨o1 ++ [x], ?_, by rw [List.length_append]; simp; omega⟩
            show (Except.ok (if x.isLiteral = true then literal ++ o1 ++ [x] else literal ++ o1) :
              Except Failure (List SExpr)) = _
            rw [if_pos hx, List.append_assoc]
          · have : c = ci := by
              have h' : (Except.ok (if x.isLiteral = true then ci + 1 else ci) :
                Except Failure Nat) = .ok c := h
              rw [if_neg hx] at h'
              cases h'
              rfl
            refine ⟨o1, ?_, by omega⟩
            show (Except.ok (if x.isLiteral = true then literal ++ o1 ++ [x] else literal ++ o1) :
              Except Failure (List SExpr)) = _
            rw [if_neg hx]

/-- The last bound left by the accumulating loop: the sum of the bounds, modulo
`2 ^ 32`. -/
theorem prefixSum_last (prev : Nat) (rs : List Range) (hp : prev < 2 ^ 32) :
    (((prefixSum prev rs).getLast?).map (fun r => r.bound)).getD prev =
      (prev + (rs.map (fun r => r.bound)).sum) % 2 ^ 32 := by
  induction rs generalizing prev with
  | nil =>
    show prev = (prev + 0) % 2 ^ 32
    rw [Nat.add_zero, Nat.mod_eq_of_lt hp]
  | cons x xs ih =>
    have hu : uint (x.bound + prev) < 2 ^ 32 := Nat.mod_lt _ (by decide)
    have h := ih (uint (x.bound + prev)) hu
    rw [prefixSum, List.getLast?_cons]
    cases hl : (prefixSum (uint (x.bound + prev)) xs).getLast? with
    | none =>
      rw [hl] at h
      simp only [Option.map_none', Option.getD_none, Option.map_some', Option.getD_some] at h ⊢
      rw [h, List.map_cons, List.sum_cons]
      unfold uint
      omega
    | some r =>
      rw [hl] at h
      simp only [Option.map_none', Option.getD_none, Option.map_some', Option.getD_some] at h ⊢
      rw [h, List.map_cons, List.sum_cons]
      unfold uint
      omega

/-- The first loop of `countLiterals` succeeds exactly when `countBlockLiterals` succeeds
on every block, and stores the counts as `uint`. -/
theorem countAll_ok (blocks : List TilBlock) (ranges : List Range)
    (h : countAll blocks = .ok ranges) :
    ranges = blocks.map (fun b => (⟨0, uint (literalCount b)⟩ : Range)) ∧
    ∀ b ∈ blocks, countBlockLiterals b = .ok (literalCount b) := by
  induction blocks generalizing ranges with
  | nil =>
    cases h
    exact ⟨rfl, fun b hb => by cases hb⟩
  | cons b rest ih =>
    rw [countAll] at h
    cases hb : countBlockLiterals b with
    | error e =>
      rw [hb] at h
      cases h
    | ok c =>
      rw [hb] at h
      cases hr : countAll rest with
      | error e =>
        have h' : (countAll rest >>= fun ranges => pure ((⟨0, uint c⟩ : Range) :: ranges)) =
          .ok ranges := h
        rw [hr] at h'
        cases h'
      | ok rs =>
        have h' : (countAll rest >>= fun ranges => pure ((⟨0, uint c⟩ : Range) :: ranges)) =
          .ok ranges := h
        rw [hr] at h'
        cases h'
        obtain ⟨i1, i2⟩ := ih rs hr
        have hlc : literalCount b = c := by
          unfold literalCount
          rw [hb]
        refine ⟨?_, ?_⟩
        · rw [List.map_cons, hlc, ← i1]
        · intro b' hb'
          rcases List.mem_cons.mp hb' with e | e
          · rw [e, hlc]
            exact hb
          · exact i2 b' e

/-- The loop over the blocks in `buildLiteralsArray`: where `countBlockLiterals` succeeds
on every block, the cursor advances by the sum of the counts. -/
theorem buildAll_of_count (blocks : List TilBlock) (p : List SExpr)
    (h : ∀ b ∈ blocks, countBlockLiterals b = .ok (literalCount b)) :
    ∃ out, buildAll blocks p = .ok (p ++ out) ∧ out.length = totalLiterals blocks := by
  induction blocks generalizing p with
  | nil => exact ⟨[], by simp [buildAll, pure, Except.pure], rfl⟩
  | cons b rest ih =>
    obtain ⟨o1, h1, l1⟩ := buildBlockLiteralsArray_of_count b _ p
      (h b (List.mem_cons_self _ _))
    obtain ⟨o2, h2, l2⟩ := ih (p ++ o1) (fun b' hb' => h b' (List.mem_cons_of_mem _ hb'))
    refine ⟨o1 ++ o2, ?_, ?_⟩
    · rw [buildAll, h1]
      show buildAll rest (p ++ o1) = _
      rw [h2, List.append_assoc]
    · rw [List.length_append, l1, l2]
      simp [totalLiterals]

/-- The size of the literal array that `countLiterals` leaves in the last sidecar: the sum
of the counts, as long as it is below `2 ^ 32`. -/
theorem countLiterals_last (blocks : List TilBlock) (ranges : List Range)
    (h : countLiterals blocks = .ok ranges) (hfit : totalLiterals blocks < 2 ^ 32) :
    ((ranges.getLast?).map (fun r => r.bound)).getD 0 = totalLiterals blocks ∧
    ∀ b ∈ blocks, countBlockLiterals b = .ok (literalCount b) := by
  rw [countLiterals] at h
  cases hr : countAll blocks with
  | error e =>
    rw [hr] at h
    cases h
  | ok rs =>
    rw [hr] at h
    obtain ⟨i1, i2⟩ := countAll_ok blocks rs hr
    refine ⟨?_, i2⟩
    have hsum : ∀ bs : List TilBlock, totalLiterals bs < 2 ^ 32 →
        ((bs.map (fun b => (⟨0, uint (literalCount b)⟩ : Range))).map (fun r => r.bound)).sum =
          totalLiterals bs := by
      intro bs
      induction bs with
      | nil => intro _; rfl
      | cons b rest ih =>
        intro hlt
        have e : totalLiterals (b :: rest) = literalCount b + totalLiterals rest := by
          simp [totalLiterals]
        rw [e] at hlt ⊢
        rw [List.map_cons, List.map_cons, List.sum_cons, ih (by omega)]
        show uint (literalCount b) + _ = _
        unfold uint
        rw [Nat.mod_eq_of_lt (by omega)]
    cases blocks with
    | nil =>
      cases i1
      cases h
      rfl
    | cons b rest =>
      rw [List.map_cons] at i1
      subst i1
      have h' : (Except.ok ((⟨0, uint (literalCount b)⟩ : Range) ::
          prefixSum (uint (literalCount b))
            (rest.map (fun b => (⟨0, uint (literalCount b)⟩ : Range)))) :
          Except Failure (List Range)) = .ok ranges := h
      cases h'
      have e : totalLiterals (b :: rest) = literalCount b + totalLiterals rest := by
        simp [totalLiterals]
      rw [e] at hfit ⊢
      have hb : uint (literalCount b) = literalCount b := by
        unfold uint
        rw [Nat.mod_eq_of_lt (by omega)]
      have hl := prefixSum_last (uint (literalCount b))
        (rest.map (fun b => (⟨0, uint (literalCount b)⟩ : Range)))
        (Nat.mod_lt _ (by decide))
      rw [hsum rest (by omega), hb, Nat.mod_eq_of_lt hfit] at hl
      rw [List.getLast?_cons, hb]
      cases hg : (prefixSum (literalCount b)
          (rest.map (fun b => (⟨0, uint (literalCount b)⟩ : Range)))).getLast? with
      | none =>
        rw [hg] at hl
        exact hl
      | some r =>
        rw [hg] at hl
        exact hl

/-- The count of a block of `n` negations of a literal. -/
theorem countInstrsLiterals_replicate (n k : Nat) :
    countInstrsLiterals
      (List.replicate n (.UnaryOp BaseType.int32 .UOP_Negative (.Literal BaseType.int32 1))) k =
      .ok (k + n) := by
  induction n generalizing k with
  | zero => rfl
  | succ n ih =>
    rw [List.replicate_succ, countInstrsLiterals]
    show countInstrsLiterals _ (k + 1) = _
    rw [ih]
    congr 1
    omega

/-- The literals that are collected from a block of `n` negations of a literal. -/
theorem buildInstrsLiterals_replicate (n : Nat) (p : List SExpr) :
    buildInstrsLiterals
      (List.replicate n (.UnaryOp BaseType.int32 .UOP_Negative (.Literal BaseType.int32 1))) p =
      .ok (p ++ List.replicate n (.Literal BaseType.int32 1)) := by
  induction n generalizing p with
  | zero => exact congrArg Except.ok (List.append_nil p).symm
  | succ n ih =>
    rw [List.replicate_succ, buildInstrsLiterals]
    show buildInstrsLiterals _ (p ++ [.Literal BaseType.int32 1]) = _
    rw [ih, List.append_assoc]
    rfl

/-- The function `countLiterals` and the collection of the literals on the single block
`manyLiterals n`. -/
theorem collectLiterals_manyLiterals (n : Nat) (h0 : n % 2 ^ 32 ≠ 0) (hn : n ≠ n % 2 ^ 32) :
    countBlockLiterals (manyLiterals n) = .ok n ∧
    countLiterals [manyLiterals n] = .ok [⟨0, n % 2 ^ 32⟩] ∧
    collectLiterals [manyLiterals n] [⟨0, n % 2 ^ 32⟩] =
      .error (Failure.assertion "p == this->literals.end() && \"We didn't find them all.\"") := by
  have hc : countBlockLiterals (manyLiterals n) = .ok n := by
    rw [countBlockLiterals]
    show (countInstrsLiterals (List.replicate n _) 0 >>= _) = _
    rw [countInstrsLiterals_replicate]
    show Except.ok (0 + n) = _
    rw [Nat.zero_add]
  have hb : buildAll [manyLiterals n] [] =
      .ok (List.replicate n (.Literal BaseType.int32 1)) := by
    rw [buildAll, buildBlockLiteralsArray]
    show ((buildInstrsLiterals (List.replicate n _) [] >>= _) >>= _) = _
    rw [buildInstrsLiterals_replicate]
    rfl
  refine ⟨hc, ?_, ?_⟩
  · rw [countLiterals, countAll, hc]
    rfl
  · unfold collectLiterals
    simp only [List.getLast?_singleton, Option.map_some', Option.getD_some]
    rw [if_neg h0, hb]
    show (if (List.replicate n (SExpr.Literal BaseType.int32 1)).length = n % 2 ^ 32 then _
      else _) = _
    rw [List.length_replicate, if_neg hn]
    rfl

/-- C38 (as stated, refuted): a block of `2 ^ 32 + 1` negations of a literal.  The
function `countBlockLiterals` succeeds on it with the count `2 ^ 32 + 1`, which
`countLiterals` stores in a `uint`, so the literal array is sized 1; the cursor advances
by `2 ^ 32 + 1` entries, does not end at the end of the array, and the assertion
fails. -/
theorem C38_count_wraps_at_uint :
    countBlockLiterals (manyLiterals (2 ^ 32 + 1)) = .ok (2 ^ 32 + 1) ∧
    countLiterals [manyLiterals (2 ^ 32 + 1)] = .ok [⟨0, 1⟩] ∧
    collectLiterals [manyLiterals (2 ^ 32 + 1)] [⟨0, 1⟩] =
      .error (Failure.assertion "p == this->literals.end() && \"We didn't find them all.\"") :=
  collectLiterals_manyLiterals (2 ^ 32 + 1) (by decide) (by decide)

/-- C38 (amended): for every basic block on which `countBlockLiterals` succeeds,
`buildBlockLiteralsArray` also succeeds, from every cursor, and advances the cursor by
exactly the count of the block.  So, when `countLiterals` succeeds and the counts sum to
less than `2 ^ 32`, the array is sized by that sum, and unless it is 0, in which case
nothing is collected, the cursor after all blocks is at the end of the array and the
assertion holds. -/
theorem C38_cursor_ends_at_array_end (blocks : List TilBlock) (ranges : List Range)
    (h : countLiterals blocks = .ok ranges) (hfit : totalLiterals blocks < 2 ^ 32) :
    (∀ (basicBlock : TilBlock) (c : Nat) (literal : List SExpr),
      countBlockLiterals basicBlock = .ok c →
      ∃ out, buildBlockLiteralsArray basicBlock literal = .ok (literal ++ out) ∧
        out.length = c) ∧
    ((ranges.getLast?).map (fun r => r.bound)).getD 0 = totalLiterals blocks ∧
    ∃ p, buildAll blocks [] = .ok p ∧ p.length = totalLiterals blocks ∧
      collectLiterals blocks ranges =
        .ok (if totalLiterals blocks = 0 then ([], 0) else (p, totalLiterals blocks)) := by
  obtain ⟨h1, h2⟩ := countLiterals_last blocks ranges h hfit
  obtain ⟨out, h3, h4⟩ := buildAll_of_count blocks [] h2
  refine ⟨fun b c l hb => buildBlockLiteralsArray_of_count b c l hb, h1, out, h3, h4, ?_⟩
  unfold collectLiterals
  simp only [h1]
  by_cases h0 : totalLiterals blocks = 0
  · rw [if_pos h0, if_pos h0]
    rfl
  · rw [if_neg h0, if_neg h0, h3]
    show (if out.length = totalLiterals blocks then _ else _) = _
    rw [if_pos h4]
    rfl

/-- C38 (witness): two blocks that return a literal; two literals are collected. -/
theorem C38_cursor_ends_at_array_end_witness :
    countLiterals [returnBlock, returnBlock] = .ok [⟨0, 1⟩, ⟨1, 2⟩] ∧
    totalLiterals [returnBlock, returnBlock] = 2 ∧
    ∃ p, buildAll [returnBlock, returnBlock] [] = .ok p ∧
      p.length = totalLiterals [returnBlock, returnBlock] ∧
      collectLiterals [returnBlock, returnBlock] [⟨0, 1⟩, ⟨1, 2⟩] =
        .ok (if totalLiterals [returnBlock, returnBlock] = 0 then ([], 0)
          else (p, totalLiterals [returnBlock, returnBlock])) :=
  ⟨rfl, by decide,
    (C38_cursor_ends_at_array_end [returnBlock, returnBlock] [⟨0, 1⟩, ⟨1, 2⟩] rfl
      (by decide)).2.2⟩


/-! ### C37: the layout of the constant data -/

/-- The conjunction with the complement of `2 ^ k - 1` on `uint` clears the `k` low
bits. -/
theorem land_mask (x k : Nat) (hx : x < 2 ^ 32) (hk : k ≤ 32) :
    Nat.land x (2 ^ 32 - 2 ^ k) = 2 ^ k * (x / 2 ^ k) := by
  show x &&& (2 ^ 32 - 2 ^ k) = 2 ^ k * (x / 2 ^ k)
  apply Nat.eq_of_testBit_eq
  intro i
  have hd : (x / 2 ^ k).testBit (i - k) = x.testBit (k + (i - k)) := by
    rw [← Nat.shiftRight_eq_div_pow, Nat.testBit_shiftRight]
  rw [Nat.testBit_and, Nat.testBit_mul_pow_two, hd]
  have hm : (2 ^ 32 - 2 ^ k).testBit i = (decide (i ≥ k) && decide (i < 32)) := by
    have e : 2 ^ 32 - 2 ^ k = 2 ^ k * (2 ^ (32 - k) - 1) := by
      rw [Nat.mul_sub, ← pow_add, Nat.add_sub_cancel' hk, Nat.mul_one]
    rw [e, Nat.testBit_mul_pow_two, Nat.testBit_two_pow_sub_one]
    by_cases h1 : k ≤ i
    · have : (i - k < 32 - k) ↔ (i < 32) := by omega
      simp [h1, this]
    · simp [h1]
  rw [hm]
  by_cases h1 : k ≤ i
  · by_cases h2 : i < 32
    · simp [h1, h2, Nat.add_sub_cancel' h1]
    · have : x.testBit i = false :=
        Nat.testBit_lt_two_pow (lt_of_lt_of_le hx (Nat.pow_le_pow_right (by decide) (by omega)))
      simp [h1, h2, this, Nat.add_sub_cancel' h1]
  · simp [h1]

/-- The expression of the source that aligns a bound is the rounding up to the next
multiple of the alignment, for the alignments 1, 2, 4 and 8, as long as the sum does not
wrap. -/
theorem alignUp_eq_roundUp (bound a : Nat) (ha : a = 1 ∨ a = 2 ∨ a = 4 ∨ a = 8)
    (h : bound + a ≤ 2 ^ 32) : alignUp bound a = roundUp bound a := by
  have key : ∀ k : Nat, k ≤ 3 → a = 2 ^ k → alignUp bound a = roundUp bound a := by
    intro k hk e
    have h1 : uint (a + (2 ^ 32 - 1)) = a - 1 := by
      unfold uint
      omega
    have hpos : 0 < 2 ^ k := Nat.two_pow_pos k
    have h2 : uint (bound + (a - 1)) = bound + (a - 1) := by
      unfold uint
      rw [Nat.mod_eq_of_lt (by omega)]
    have h3 : 2 ^ 32 - 1 - (a - 1) = 2 ^ 32 - 2 ^ k := by
      rw [e]
      omega
    unfold alignUp roundUp
    rw [h1, h2, h3, land_mask _ k (by omega) (by omega), e, Nat.mul_comm]
  rcases ha with e | e | e | e
  · exact key 0 (by omega) e
  · exact key 1 (by omega) e
  · exact key 2 (by omega) e
  · exact key 3 (by omega) e

/-- Rounding up to a multiple of 1, 2, 4 or 8: the result is such a multiple, it is not
below the offset, and no multiple in between is. -/
theorem roundUp_spec (offset a : Nat) (ha : a = 1 ∨ a = 2 ∨ a = 4 ∨ a = 8) :
    roundUp offset a % a = 0 ∧ offset ≤ roundUp offset a ∧ roundUp offset a < offset + a ∧
    ∀ m, offset ≤ m → m % a = 0 → roundUp offset a ≤ m := by
  unfold roundUp
  rcases ha with e | e | e | e <;> subst e <;>
  · refine ⟨by omega, by omega, by omega, fun m h1 h2 => by omega⟩

/-- The layout in natural numbers does not end before it starts. -/
theorem layoutEnd_ge (prev : Nat) (sizes : List Nat)
    (hs : ∀ s ∈ sizes, s = 1 ∨ s = 2 ∨ s = 4 ∨ s = 8) : prev ≤ layoutEnd prev sizes := by
  induction sizes generalizing prev with
  | nil => exact Nat.le_refl _
  | cons s rest ih =>
    have h1 := (roundUp_spec prev s (hs s (List.mem_cons_self _ _))).2.1
    have h2 := ih (roundUp prev s + s) (fun x hx => hs x (List.mem_cons_of_mem _ hx))
    show prev ≤ layoutEnd (roundUp prev s + s) rest
    omega

/-- The loop of the source computes the layout in natural numbers, as long as that
layout ends below `2 ^ 32`. -/
theorem layoutEntries_eq_layoutFrom (prev : Nat) (sizes : List Nat)
    (hs : ∀ s ∈ sizes, s = 1 ∨ s = 2 ∨ s = 4 ∨ s = 8)
    (hfit : layoutEnd prev sizes < 2 ^ 32) :
    layoutEntries prev (sizes.map (fun s => (⟨⟨0, s⟩, s⟩ : StaticData))) =
      layoutFrom prev sizes := by
  induction sizes generalizing prev with
  | nil => rfl
  | cons s rest ih =>
    have hs0 := hs s (List.mem_cons_self _ _)
    have hrest : ∀ x ∈ rest, x = 1 ∨ x = 2 ∨ x = 4 ∨ x = 8 :=
      fun x hx => hs x (List.mem_cons_of_mem _ hx)
    have hfit' : layoutEnd (roundUp prev s + s) rest < 2 ^ 32 := hfit
    have hge := layoutEnd_ge (roundUp prev s + s) rest hrest
    obtain ⟨-, r2, -, -⟩ := roundUp_spec prev s hs0
    have ha : alignUp prev s = roundUp prev s := alignUp_eq_roundUp prev s hs0 (by omega)
    have hu : uint (s + roundUp prev s) = roundUp prev s + s := by
      unfold uint
      rw [Nat.mod_eq_of_lt (by omega), Nat.add_comm]
    rw [List.map_cons, layoutEntries, layoutFrom]
    simp only [ha, hu]
    rw [ih (roundUp prev s + s) hrest hfit']

/-- The loop over the literals that sets size and alignment succeeds on literals of 8,
16, 32 and 64 bits. -/
theorem sizeEntries_ok (literals : List SExpr)
    (hsz : ∀ l ∈ literals, l.baseType.Size = .ST_8 ∨ l.baseType.Size = .ST_16 ∨
      l.baseType.Size = .ST_32 ∨ l.baseType.Size = .ST_64) :
    sizeEntries literals =
      .ok ((literals.map byteSize).map (fun s => (⟨⟨0, s⟩, s⟩ : StaticData))) := by
  induction literals with
  | nil => rfl
  | cons l rest ih =>
    have h1 : literalSize l.baseType = .ok (byteSize l) := by
      unfold literalSize byteSize
      rcases hsz l (List.mem_cons_self _ _) with e | e | e | e <;> rw [e] <;> rfl
    rw [sizeEntries, h1]
    show (sizeEntries rest >>= _) = _
    rw [ih (fun x hx => hsz x (List.mem_cons_of_mem _ hx))]
    rfl

/-- The sizes of literals of 8, 16, 32 and 64 bits. -/
theorem byteSize_mem (literals : List SExpr)
    (hsz : ∀ l ∈ literals, l.baseType.Size = .ST_8 ∨ l.baseType.Size = .ST_16 ∨
      l.baseType.Size = .ST_32 ∨ l.baseType.Size = .ST_64) :
    ∀ s ∈ literals.map byteSize, s = 1 ∨ s = 2 ∨ s = 4 ∨ s = 8 := by
  intro s hs
  obtain ⟨l, hl, rfl⟩ := List.mem_map.mp hs
  unfold byteSize
  rcases hsz l hl with e | e | e | e <;> rw [e] <;> simp

/-- The layout part of `buildLiteralsArray` refines the layout in natural numbers. -/
theorem buildConstDataEntries_eq (literals : List SExpr)
    (hsz : ∀ l ∈ literals, l.baseType.Size = .ST_8 ∨ l.baseType.Size = .ST_16 ∨
      l.baseType.Size = .ST_32 ∨ l.baseType.Size = .ST_64)
    (hfit : layoutEnd 0 (literals.map byteSize) < 2 ^ 32) :
    buildConstDataEntries literals =
      .ok (layoutFrom 0 (literals.map byteSize),
        (((layoutFrom 0 (literals.map byteSize)).getLast?).map
          (fun e => e.bytes.bound)).getD 0) := by
  have hs := byteSize_mem literals hsz
  rw [buildConstDataEntries, sizeEntries_ok literals hsz]
  cases hl : literals.map byteSize with
  | nil => rfl
  | cons s rest =>
    rw [hl] at hs hfit
    have hs0 := hs s (List.mem_cons_self _ _)
    have hr : roundUp 0 s = 0 := by
      unfold roundUp
      rcases hs0 with e | e | e | e <;> subst e <;> rfl
    have hfit' : layoutEnd (roundUp 0 s + s) rest < 2 ^ 32 := hfit
    rw [hr, Nat.zero_add] at hfit'
    have hle := layoutEntries_eq_layoutFrom s rest
      (fun x hx => hs x (List.mem_cons_of_mem _ hx)) hfit'
    show Except.ok ((⟨⟨0, s⟩, s⟩ : StaticData) ::
        layoutEntries s (rest.map (fun s => (⟨⟨0, s⟩, s⟩ : StaticData))), _) = _
    rw [hle, layoutFrom, hr, Nat.zero_add]

/-- The layout in natural numbers, entry by entry. -/
theorem layoutFrom_spec (prev : Nat) (sizes : List Nat)
    (hs : ∀ s ∈ sizes, s = 1 ∨ s = 2 ∨ s = 4 ∨ s = 8) :
    (layoutFrom prev sizes).length = sizes.length ∧
    (∀ (i : Nat) (s : Nat) (e : StaticData), sizes[i]? = some s →
      (layoutFrom prev sizes)[i]? = some e →
      e.alignment = s ∧ e.bytes.bound = e.bytes.first + s ∧ e.bytes.first % s = 0 ∧
        prev ≤ e.bytes.first) ∧
    (∀ (i : Nat) (e e' : StaticData), (layoutFrom prev sizes)[i]? = some e →
      (layoutFrom prev sizes)[i + 1]? = some e' →
      e'.bytes.first = roundUp e.bytes.bound e'.alignment) ∧
    (((layoutFrom prev sizes).getLast?).map (fun e => e.bytes.bound)).getD prev =
      layoutEnd prev sizes := by
  induction sizes generalizing prev with
  | nil =>
    refine ⟨rfl, fun i s e h => ?_, fun i e e' h => ?_, rfl⟩
    · simp at h
    · simp [layoutFrom] at h
  | cons s rest ih =>
    have hs0 := hs s (List.mem_cons_self _ _)
    obtain ⟨r1, r2, -, -⟩ := roundUp_spec prev s hs0
    obtain ⟨i1, i2, i3, i4⟩ := ih (roundUp prev s + s)
      (fun x hx => hs x (List.mem_cons_of_mem _ hx))
    rw [layoutFrom]
    refine ⟨by rw [List.length_cons, i1, List.length_cons], ?_, ?_, ?_⟩
    · intro i s' e h1 h2
      cases i with
      | zero =>
        simp only [List.getElem?_cons_zero, Option.some.injEq] at h1 h2
        subst h1
        subst h2
        exact ⟨rfl, rfl, r1, r2⟩
      | succ i =>
        simp only [List.getElem?_cons_succ] at h1 h2
        obtain ⟨a, b, c, d⟩ := i2 i s' e h1 h2
        exact ⟨a, b, c, by omega⟩
    · intro i e e' h1 h2
      cases i with
      | zero =>
        simp only [List.getElem?_cons_zero, Option.some.injEq, Nat.zero_add,
          List.getElem?_cons_succ] at h1 h2
        subst h1
        cases rest with
        | nil => simp [layoutFrom] at h2
        | cons s2 rest2 =>
          rw [layoutFrom] at h2
          simp only [List.getElem?_cons_zero, Option.some.injEq] at h2
          subst h2
          rfl
      | succ i =>
        simp only [List.getElem?_cons_succ] at h1 h2
        exact i3 i e e' h1 h2
    · rw [List.getLast?_cons]
      cases hl : (layoutFrom (roundUp prev s + s) rest).getLast? with
      | none =>
        rw [hl] at i4
        exact i4
      | some x =>
        rw [hl] at i4
        exact i4

/-- Every entry of the layout in natural numbers has one of the four alignments, starts
at or after the end of the data before the layout, and is as long as its alignment. -/
theorem layoutFrom_mem (prev : Nat) (sizes : List Nat)
    (hs : ∀ s ∈ sizes, s = 1 ∨ s = 2 ∨ s = 4 ∨ s = 8) :
    ∀ e ∈ layoutFrom prev sizes,
      (e.alignment = 1 ∨ e.alignment = 2 ∨ e.alignment = 4 ∨ e.alignment = 8) ∧
      prev ≤ e.bytes.first ∧ e.bytes.bound = e.bytes.first + e.alignment := by
  induction sizes generalizing prev with
  | nil => intro e he; cases he
  | cons s rest ih =>
    intro e he
    rw [layoutFrom] at he
    have hs0 := hs s (List.mem_cons_self _ _)
    obtain ⟨-, r2, -, -⟩ := roundUp_spec prev s hs0
    rcases List.mem_cons.mp he with h | h
    · subst h
      exact ⟨hs0, r2, rfl⟩
    · obtain ⟨a, b, c⟩ := ih (roundUp prev s + s)
        (fun x hx => hs x (List.mem_cons_of_mem _ hx)) e h
      exact ⟨a, by omega, c⟩

/-- The entries of the layout in natural numbers are in increasing order and disjoint:
an entry ends at or before the start of every later entry. -/
theorem layoutFrom_increasing (prev : Nat) (sizes : List Nat)
    (hs : ∀ s ∈ sizes, s = 1 ∨ s = 2 ∨ s = 4 ∨ s = 8) (i j : Nat) (e e' : StaticData)
    (hij : i < j) (h1 : (layoutFrom prev sizes)[i]? = some e)
    (h2 : (layoutFrom prev sizes)[j]? = some e') : e.bytes.bound ≤ e'.bytes.first := by
  induction sizes generalizing prev i j with
  | nil => simp [layoutFrom] at h1
  | cons s rest ih =>
    rw [layoutFrom] at h1 h2
    have hrest : ∀ x ∈ rest, x = 1 ∨ x = 2 ∨ x = 4 ∨ x = 8 :=
      fun x hx => hs x (List.mem_cons_of_mem _ hx)
    cases j with
    | zero => omega
    | succ j =>
      rw [List.getElem?_cons_succ] at h2
      cases i with
      | zero =>
        simp only [List.getElem?_cons_zero, Option.some.injEq] at h1
        subst h1
        exact (layoutFrom_mem _ rest hrest e' (List.getElem?_mem h2)).2.1
      | succ i =>
        rw [List.getElem?_cons_succ] at h1
        exact ih _ hrest i j (by omega) h1 h2

/-- C37 (amended): for every non-empty literal pool whose literals have sizes 8, 16, 32 or
64 bits and whose layout ends below `2 ^ 32`, the layout computed by `buildLiteralsArray`
satisfies: there is one entry for every literal; entry 0 starts at offset 0; every
entry's length, bound minus first, equals its literal's size in bytes and its alignment
equals that size; every entry's start offset is a multiple of its alignment; entry
`i + 1` starts at the smallest such multiple not below the bound of entry `i`, so
entries are disjoint and in increasing order; and the length of the constant-data buffer
equals the bound of the last entry. -/
theorem C37_constant_data_layout (literals : List SExpr) (hne : literals ≠ [])
    (hsz : ∀ l ∈ literals, l.baseType.Size = .ST_8 ∨ l.baseType.Size = .ST_16 ∨
      l.baseType.Size = .ST_32 ∨ l.baseType.Size = .ST_64)
    (hfit : layoutEnd 0 (literals.map byteSize) < 2 ^ 32) :
    ∃ (entries : List StaticData) (length : Nat),
      buildConstDataEntries literals = .ok (entries, length) ∧
      entries.length = literals.length ∧
      (∃ e0, entries[0]? = some e0 ∧ e0.bytes.first = 0) ∧
      (∀ (i : Nat) (l : SExpr) (e : StaticData), literals[i]? = some l →
        entries[i]? = some e →
        e.bytes.first < e.bytes.bound ∧ e.bytes.bound - e.bytes.first = byteSize l ∧
        e.alignment = byteSize l ∧ e.bytes.first % e.alignment = 0) ∧
      (∀ (i : Nat) (e e' : StaticData), entries[i]? = some e → entries[i + 1]? = some e' →
        e.bytes.bound ≤ e'.bytes.first ∧
        ∀ m, e.bytes.bound ≤ m → m % e'.alignment = 0 → e'.bytes.first ≤ m) ∧
      (∀ (i j : Nat) (e e' : StaticData), i < j → entries[i]? = some e →
        entries[j]? = some e' → e.bytes.bound ≤ e'.bytes.first) ∧
      ∃ last, entries.getLast? = some last ∧ length = last.bytes.bound := by
  have hs := byteSize_mem literals hsz
  obtain ⟨p1, p2, p3, -⟩ := layoutFrom_spec 0 (literals.map byteSize) hs
  refine ⟨_, _, buildConstDataEntries_eq literals hsz hfit, ?_, ?_, ?_, ?_, ?_, ?_⟩
  · rw [p1, List.length_map]
  · cases literals with
    | nil => exact absurd rfl hne
    | cons l rest =>
      have hs0 := hs (byteSize l) (List.mem_cons_self _ _)
      have hr : roundUp 0 (byteSize l) = 0 := by
        unfold roundUp
        rcases hs0 with e | e | e | e <;> rw [e]
      exact ⟨⟨⟨roundUp 0 (byteSize l), roundUp 0 (byteSize l) + byteSize l⟩, byteSize l⟩,
        (by rw [List.map_cons, layoutFrom, List.getElem?_cons_zero]), hr⟩
  · intro i l e h1 h2
    have h1' : (literals.map byteSize)[i]? = some (byteSize l) := by
      rw [List.getElem?_map, h1]
      rfl
    obtain ⟨a, b, c, -⟩ := p2 i _ e h1' h2
    have hpos : 0 < byteSize l := by
      rcases hs _ (List.getElem?_mem h1') with x | x | x | x <;> omega
    refine ⟨by omega, by omega, a, ?_⟩
    rw [a]
    exact c
  · intro i e e' h1 h2
    have h3 := p3 i e e' h1 h2
    obtain ⟨a, -, -⟩ := layoutFrom_mem 0 _ hs e' (List.getElem?_mem h2)
    obtain ⟨-, r2, -, r4⟩ := roundUp_spec e.bytes.bound e'.alignment a
    rw [h3]
    exact ⟨r2, r4⟩
  · intro i j e e' hij h1 h2
    exact layoutFrom_increasing 0 _ hs i j e e' hij h1 h2
  · cases hl : (layoutFrom 0 (literals.map byteSize)).getLast? with
    | none =>
      rw [List.getLast?_eq_none_iff] at hl
      have := p1
      rw [hl, List.length_map] at this
      exact absurd (List.length_eq_zero.mp this.symm) hne
    | some last => exact ⟨last, rfl, rfl⟩

/-- C37 (witness): a pool of four literals, of 8, 32, 8 and 64 bits; its layout is
0 .. 1, 4 .. 8, 8 .. 9 and 16 .. 24, in a buffer of 24 bytes. -/
theorem C37_constant_data_layout_witness :
    buildConstDataEntries [.Literal BaseType.int8 7, .Literal BaseType.int32 5,
        .Literal BaseType.int8 3, .Literal BaseType.int64 5] =
      .ok ([⟨⟨0, 1⟩, 1⟩, ⟨⟨4, 8⟩, 4⟩, ⟨⟨8, 9⟩, 1⟩, ⟨⟨16, 24⟩, 8⟩], 24) ∧
    ∃ (entries : List StaticData) (length : Nat),
      buildConstDataEntries [.Literal BaseType.int8 7, .Literal BaseType.int32 5,
        .Literal BaseType.int8 3, .Literal BaseType.int64 5] = .ok (entries, length) ∧
      entries.length = 4 :=
  ⟨rfl,
    (C37_constant_data_layout [.Literal BaseType.int8 7, .Literal BaseType.int32 5,
        .Literal BaseType.int8 3, .Literal BaseType.int64 5] (by simp)
      (by decide) (by decide)).imp fun _ h => h.imp fun _ h' => ⟨h'.1, h'.2.1⟩⟩

/-- The sizes and alignments of a pool of `n` literals of 64 bits. -/
theorem sizeEntries_replicate (n : Nat) :
    sizeEntries (List.replicate n (.Literal BaseType.int64 0)) =
      .ok (List.replicate n (⟨⟨0, 8⟩, 8⟩ : StaticData)) := by
  induction n with
  | zero => rfl
  | succ n ih =>
    rw [List.replicate_succ, sizeEntries]
    show (sizeEntries (List.replicate n (.Literal BaseType.int64 0)) >>= _) = _
    rw [ih]
    rfl

/-- The loop of the source keeps the number of entries. -/
theorem layoutEntries_length (prev : Nat) (entries : List StaticData) :
    (layoutEntries prev entries).length = entries.length := by
  induction entries generalizing prev with
  | nil => rfl
  | cons e rest ih => rw [layoutEntries, List.length_cons, List.length_cons, ih]

/-- The last entry that the loop of the source lays out for `n + 1` literals of 64 bits,
after data that ends at a multiple of 8: offsets are computed modulo `2 ^ 32`. -/
theorem layoutEntries_replicate_last (n prev : Nat) (h8 : prev % 8 = 0) (hp : prev < 2 ^ 32) :
    (layoutEntries prev (List.replicate (n + 1) (⟨⟨0, 8⟩, 8⟩ : StaticData))).getLast? =
      some ⟨⟨(prev + 8 * n) % 2 ^ 32, (prev + 8 * (n + 1)) % 2 ^ 32⟩, 8⟩ := by
  have ha : alignUp prev 8 = prev := by
    rw [alignUp_eq_roundUp prev 8 (by omega) (by omega)]
    unfold roundUp
    omega
  induction n generalizing prev with
  | zero =>
    rw [List.replicate_succ, layoutEntries, ha]
    show some (⟨⟨prev, uint (8 + prev)⟩, 8⟩ : StaticData) = _
    unfold uint
    rw [Nat.mul_zero, Nat.add_zero, Nat.mod_eq_of_lt hp, Nat.add_comm]
  | succ n ih =>
    rw [List.replicate_succ, layoutEntries, ha, List.getLast?_cons]
    have hu : uint (8 + prev) % 8 = 0 := by
      unfold uint
      omega
    have hlt : uint (8 + prev) < 2 ^ 32 := Nat.mod_lt _ (by decide)
    have ha' : alignUp (uint (8 + prev)) 8 = uint (8 + prev) := by
      rw [alignUp_eq_roundUp _ 8 (by omega) (by omega)]
      unfold roundUp
      omega
    show some (((layoutEntries (uint (8 + prev))
      (List.replicate (n + 1) (⟨⟨0, 8⟩, 8⟩ : StaticData))).getLast?).getD _) = _
    rw [ih (uint (8 + prev)) hu hlt ha']
    show some (⟨⟨(uint (8 + prev) + 8 * n) % 2 ^ 32,
      (uint (8 + prev) + 8 * (n + 1)) % 2 ^ 32⟩, 8⟩ : StaticData) = _
    unfold uint
    congr 3
    · omega
    · omega

/-- The layout of a pool of `n + 2` literals of 64 bits: the number of entries, the first
entry, the last entry and the length of the buffer. -/
theorem buildConstDataEntries_replicate (n : Nat) :
    (buildConstDataEntries (List.replicate (n + 2) (.Literal BaseType.int64 0))).map
        (fun r => (r.1.length, r.1[0]?, r.1.getLast?, r.2)) =
      .ok (n + 2, some ⟨⟨0, 8⟩, 8⟩,
        some ⟨⟨(8 + 8 * n) % 2 ^ 32, (8 + 8 * (n + 1)) % 2 ^ 32⟩, 8⟩,
        (8 + 8 * (n + 1)) % 2 ^ 32) := by
  rw [buildConstDataEntries, sizeEntries_replicate, List.replicate_succ]
  have hl := layoutEntries_replicate_last n 8 (by decide) (by decide)
  show Except.ok
    (((⟨⟨0, 8⟩, 8⟩ : StaticData) ::
        layoutEntries 8 (List.replicate (n + 1) (⟨⟨0, 8⟩, 8⟩ : StaticData))).length,
      ((⟨⟨0, 8⟩, 8⟩ : StaticData) ::
        layoutEntries 8 (List.replicate (n + 1) (⟨⟨0, 8⟩, 8⟩ : StaticData)))[0]?,
      ((⟨⟨0, 8⟩, 8⟩ : StaticData) ::
        layoutEntries 8 (List.replicate (n + 1) (⟨⟨0, 8⟩, 8⟩ : StaticData))).getLast?,
      ((((⟨⟨0, 8⟩, 8⟩ : StaticData) ::
        layoutEntries 8 (List.replicate (n + 1) (⟨⟨0, 8⟩, 8⟩ : StaticData))).getLast?).map
          (fun e => e.bytes.bound)).getD 0) = _
  rw [List.getLast?_cons, hl, List.length_cons, layoutEntries_length, List.length_replicate]
  rfl

/-- C37 (as stated, refuted): a pool of `2 ^ 29 + 1` literals of 64 bits.  The offsets
are computed in `uint`, and the bound of the entry before the last wraps to 0: the last
entry is the range 0 .. 8, which is the range of entry 0, so the entries are neither
disjoint nor in increasing order, and the buffer has 8 bytes. -/
theorem C37_layout_wraps_at_uint :
    (buildConstDataEntries (List.replicate (2 ^ 29 + 1) (.Literal BaseType.int64 0))).map
        (fun r => (r.1.length, r.1[0]?, r.1.getLast?, r.2)) =
      .ok (2 ^ 29 + 1, some ⟨⟨0, 8⟩, 8⟩, some ⟨⟨0, 8⟩, 8⟩, 8) := by
  have h := buildConstDataEntries_replicate (2 ^ 29 - 1)
  have e1 : 2 ^ 29 - 1 + 2 = 2 ^ 29 + 1 := by decide
  have e2 : (8 + 8 * (2 ^ 29 - 1)) % 2 ^ 32 = 0 := by decide
  have e3 : (8 + 8 * (2 ^ 29 - 1 + 1)) % 2 ^ 32 = 8 := by decide
  rw [e1, e2, e3] at h
  exact h

end ohmu
